import Mathlib

/-!
# Boolector model checker (`src/boolectormc.c`) and SAT manager (`src/btorsat.c`):
shallow embedding

The engine state `BtorMC` is passed explicitly.  Conventions of the embedding:

* a `BoolectorNode` is the handle of a node inside the circuit (`Btor`) that owns it;
  a null pointer in a node stack is `none`;
* `BTOR_ABORT`, and an `assert` on the arguments of an API call, is fatal: the result is
  `none`.  The internal consistency assertions of the frame builder and of the check are
  invariants of the engine and are not part of the control flow;
* stack counts and `int32_t` counters are integers: the tables and the frame stack
  hold far fewer than `2^31` elements, so the casts of counts to `int32_t` are the identity;
* the verdict of `boolector_sat` on the forward circuit is supplied by the caller as
  a function of the bound and of the index of the assumed bad property.  A frame is
  checked only right after it is built, so every pair is asked at most once and any
  sequence of verdicts is represented by such a function;
* the calls the engine makes to the outside (call backs, solver queries) are recorded in
  the ghost field `BtorMC.trace`;
* the reachable engines are the results of sequences of API calls on a new engine
  (`api_run`); the substitution of the node map is a parameter, and the properties of the
  forward circuit are proved for a substitution that only adds nodes (`substitute_ok`);
* the string returned by `boolector_mc_assignment` is computed from the solver assignment
  and from the witness walk of the node map, which are parameters (`WitnessCollab`);
* the SAT manager `BtorSATMgr` is passed explicitly as well.  `BTOR_ABORT_SAT` and a failed
  `assert` end the call with an error (`BtorSATAbort`); what the installed driver returns
  (`api.init`, `api.inc_max_var`, `api.sat`) is an argument of the call, and the calls made
  into the driver are recorded in the ghost field `BtorSATMgr.trace`.  The `int` fields are
  integers: ids and counters stay far below `2^31`.  The reachable managers are the results
  of sequences of calls on a new manager (`sat_run`);
* the driver of Lingeling is embedded down to the calls into the library, which are
  returned as a list of `LGLCall`; what the library answers (`lglhasopt`, `lglgetopt`,
  the results of `lglsat` and `lgljoin`) is a parameter.  The option string is a list of
  characters, the pointer `p` of `btor_passdown_lingeling_options` the rest of the string;
  the definitions named `spec_...` follow the specification and are compared with the
  code.
-/

namespace BoolectorMC

/-! ## Circuit collaborator -/

/-- Handle of a node inside its circuit. -/
abbrev BoolectorNode := Nat

/-- Association list of a node map, source node to target node, in insertion order. -/
abbrev BoolectorNodeMap := List (BoolectorNode × BoolectorNode)

/-- Stack of node pointers; `none` is the null pointer. -/
abbrev BoolectorNodePtrStack := List (Option BoolectorNode)

inductive BtorNodeKind where
  | bv_var
  | bv_const
  | and_node
  | other
deriving DecidableEq, Repr

/-- What the engine can observe of a circuit node. -/
structure BtorNode where
  kind : BtorNodeKind
  width : Nat
  symbol : Option String
  bits : Option String
  args : List BoolectorNode
deriving DecidableEq, Repr

/-- Modelled from the spec: the circuit collaborator of section 6.1 (`Btor`, declared in
`boolector.h` and `btorcore.h`, which are not part of the sources).  A circuit is its table
of nodes, a handle being the position in the table, the formulas asserted so far, and
the three options the engine sets on the forward circuit. -/
structure Btor where
  nodes : List BtorNode
  assertions : List BoolectorNode
  opt_incremental : Nat
  opt_model_gen : Nat
  opt_verbosity : Nat
deriving DecidableEq, Repr

/-- Modelled from the spec: `boolector_new`, an empty circuit. -/
def boolector_new : Btor :=
  { nodes := [], assertions := [], opt_incremental := 0, opt_model_gen := 0, opt_verbosity := 0 }

/-- Modelled from the spec: `boolector_var`, "bit-vector variable creation (with width and
optional symbol)"; every call creates a new node. -/
def boolector_var (btor : Btor) (width : Nat) (symbol : Option String) : BoolectorNode × Btor :=
  (btor.nodes.length,
   { btor with nodes := btor.nodes ++
      [{ kind := BtorNodeKind.bv_var, width := width, symbol := symbol, bits := none, args := [] }] })

/-- Modelled from the spec: `boolector_const`, "constant creation from a bit string". -/
def boolector_const (btor : Btor) (bits : String) : BoolectorNode × Btor :=
  (btor.nodes.length,
   { btor with nodes := btor.nodes ++
      [{ kind := BtorNodeKind.bv_const, width := bits.length, symbol := none, bits := some bits,
         args := [] }] })

/-- Modelled from the spec: `boolector_and`, "the ability to construct conjunctions". -/
def boolector_and (btor : Btor) (a b : BoolectorNode) : BoolectorNode × Btor :=
  (btor.nodes.length,
   { btor with nodes := btor.nodes ++
      [{ kind := BtorNodeKind.and_node, width := 1, symbol := none, bits := none, args := [a, b] }] })

/-- Modelled from the spec: `boolector_assert`. -/
def boolector_assert (btor : Btor) (node : BoolectorNode) : Btor :=
  { btor with assertions := btor.assertions ++ [node] }

/-- Modelled from the spec: `boolector_get_width`, the bit-width query. -/
def boolector_get_width (btor : Btor) (node : BoolectorNode) : Nat :=
  match btor.nodes.get? node with
  | some n => n.width
  | none => 0

/-- Modelled from the spec: `boolector_get_symbol`, the symbol query. -/
def boolector_get_symbol (btor : Btor) (node : BoolectorNode) : Option String :=
  match btor.nodes.get? node with
  | some n => n.symbol
  | none => none

/-- Modelled from the spec: `boolector_get_bits`, the bit string of a constant node. -/
def boolector_get_bits (btor : Btor) (node : BoolectorNode) : String :=
  match btor.nodes.get? node with
  | some n => n.bits.getD ""
  | none => ""

/-- Verdicts of `boolector_sat` that the engine distinguishes. -/
inductive BoolectorResult where
  | BOOLECTOR_SAT
  | BOOLECTOR_UNSAT
deriving DecidableEq, Repr

/-- The collaborators whose code is outside the engine, taken as parameters.

* `sat k i`: verdict of `boolector_sat (mc->forward)` for the query made at bound `k` with
  the image of bad property `i` assumed;
* `substitute model forward map src`: `boolector_nodemap_non_recursive_substitute_node`,
  returning the image of `src`, the forward circuit and the map after the walk;
* `getenv_value`: `btor_util_getenv_value`. -/
structure Collab where
  sat : Int → Nat → BoolectorResult
  substitute : Btor → Btor → BoolectorNodeMap → BoolectorNode →
    BoolectorNode × Btor × BoolectorNodeMap
  getenv_value : String → Option String

/-! ## Data model of the engine -/

structure BtorMCInput where
  id : Int
  node : BoolectorNode
deriving DecidableEq, Repr

structure BtorMCLatch where
  id : Int
  node : BoolectorNode
  next : Option BoolectorNode
  init : Option BoolectorNode
deriving DecidableEq, Repr

inductive BtorMCState where
  | BTOR_NO_MC_STATE
  | BTOR_SAT_MC_STATE
  | BTOR_UNSAT_MC_STATE
deriving DecidableEq, Repr

structure BtorMCFrame where
  time : Int
  model2const : Option BoolectorNodeMap
  inputs : BoolectorNodePtrStack
  init : BoolectorNodePtrStack
  latches : BoolectorNodePtrStack
  next : BoolectorNodePtrStack
  bad : BoolectorNodePtrStack
deriving DecidableEq, Repr

structure BtorMCOpt where
  isflag : Bool
  shrt : Option String
  lng : String
  desc : String
  val : Nat
  dflt : Nat
  min : Nat
  max : Nat
deriving DecidableEq, Repr

inductive BtorMCOption where
  | BTOR_MC_OPT_VERBOSITY
  | BTOR_MC_OPT_STOP_FIRST
  | BTOR_MC_OPT_TRACE_GEN
deriving DecidableEq, Repr

/-- The array `options[BTOR_MC_OPT_NUM_OPTS]`, one field per option. -/
structure BtorMCOptions where
  verbosity : BtorMCOpt
  stop_first : BtorMCOpt
  trace_gen : BtorMCOpt
deriving DecidableEq, Repr

/-- Whether a function is installed for each of the two call backs. -/
structure BtorMCCallBacks where
  reached_at_bound : Bool
  starting_bound : Bool
deriving DecidableEq, Repr

/-- Calls of the engine to the outside, in the order they are made. -/
inductive BtorMCEvent where
  | starting_bound (k : Int)
  | sat_call (k : Int) (i : Nat) (bad : BoolectorNode)
  | reached_at_bound (i : Nat) (k : Int)
deriving DecidableEq, Repr

/-- The engine `struct BtorMC`.  The hash tables `inputs` and `latches` are iterated in
insertion order and are lists of their data records; `trace` is ghost state. -/
structure BtorMC where
  options : BtorMCOptions
  state : BtorMCState
  initialized : Int
  nextstates : Int
  btor : Btor
  forward : Option Btor
  frames : List BtorMCFrame
  inputs : List BtorMCInput
  latches : List BtorMCLatch
  bad : List BoolectorNode
  constraints : List BoolectorNode
  forward2const : Option BoolectorNodeMap
  reached : List Int
  num_reached : Int
  call_backs : BtorMCCallBacks
  trace : List BtorMCEvent
deriving DecidableEq, Repr

/-! ## Options and creation -/

/-- C `isspace` in the "C" locale. -/
def isspace (ch : Char) : Bool :=
  ch = ' ' || ch = '\t' || ch = '\n' || ch = '\x0b' || ch = '\x0c' || ch = '\r'

/-- Value of the leading decimal digits of `cs`, continuing from `acc`. -/
def atoi_digits : List Char → Int → Int
  | [], acc => acc
  | ch :: cs, acc =>
    if ch.isDigit then atoi_digits cs (acc * 10 + ((ch.toNat - '0'.toNat : Nat) : Int)) else acc

/-- The value of type `int` to which the integer `n` is converted: `n` itself when it lies
in the range of `int`, from `-2^31` to `2^31 - 1`, and otherwise the value in that range
that is congruent to `n` modulo `2^32`. -/
def to_int32 (n : Int) : Int :=
  (n + 2147483648) % 4294967296 - 2147483648

/-- C `atoi` : optional white space, an optional sign, then decimal digits; the result is
an `int`.  For digits whose value is outside the range of `int` C leaves the result open;
it is taken as the conversion of the value to `int`, which is what the conversion of the
`long` of `strtol` gives. -/
def atoi (str : String) : Int :=
  to_int32
    (match str.toList.dropWhile isspace with
      | '-' :: cs => - atoi_digits cs 0
      | '+' :: cs => atoi_digits cs 0
      | cs => atoi_digits cs 0)

def init_opt (c : Collab) (isflag : Bool) (lng : String) (shrt : Option String)
    (val min max : Nat) (desc : String) : BtorMCOpt :=
  let o : BtorMCOpt :=
    { isflag := isflag, lng := lng, shrt := shrt, val := val, dflt := val,
      min := min, max := max, desc := desc }
  match c.getenv_value lng with
  | some valstr =>
    let v : Nat := (atoi valstr % 4294967296).toNat
    let v := if v < min then min else if v > max then max else v
    if v = val then o else { o with val := val }
  | none => o

def UINT32_MAX : Nat := 4294967295

def init_options (c : Collab) : BtorMCOptions :=
  { verbosity := init_opt c false "verbosity" (some "v") 0 0 UINT32_MAX "set verbosity"
    stop_first := init_opt c true "stop-first" none 1 0 1 "stop at first reached property"
    trace_gen := init_opt c true "trace-gen" none 0 0 1 "enable/disable trace generation" }

def boolector_mc_get_opt (mc : BtorMC) (opt : BtorMCOption) : Nat :=
  match opt with
  | BtorMCOption.BTOR_MC_OPT_VERBOSITY => mc.options.verbosity.val
  | BtorMCOption.BTOR_MC_OPT_STOP_FIRST => mc.options.stop_first.val
  | BtorMCOption.BTOR_MC_OPT_TRACE_GEN => mc.options.trace_gen.val

def boolector_mc_get_opt_min (mc : BtorMC) (opt : BtorMCOption) : Nat :=
  match opt with
  | BtorMCOption.BTOR_MC_OPT_VERBOSITY => mc.options.verbosity.min
  | BtorMCOption.BTOR_MC_OPT_STOP_FIRST => mc.options.stop_first.min
  | BtorMCOption.BTOR_MC_OPT_TRACE_GEN => mc.options.trace_gen.min

def boolector_mc_get_opt_max (mc : BtorMC) (opt : BtorMCOption) : Nat :=
  match opt with
  | BtorMCOption.BTOR_MC_OPT_VERBOSITY => mc.options.verbosity.max
  | BtorMCOption.BTOR_MC_OPT_STOP_FIRST => mc.options.stop_first.max
  | BtorMCOption.BTOR_MC_OPT_TRACE_GEN => mc.options.trace_gen.max

/-- `boolector_mc_set_opt`; every value of `BtorMCOption` is a valid option, and a `val` is
an `uint32_t`. -/
def boolector_mc_set_opt (mc : BtorMC) (opt : BtorMCOption) (val : Nat) : Option BtorMC :=
  if val < boolector_mc_get_opt_min mc opt ∨ val > boolector_mc_get_opt_max mc opt then none
  else if val ≠ 0 ∧ opt = BtorMCOption.BTOR_MC_OPT_TRACE_GEN
      ∧ (mc.state ≠ BtorMCState.BTOR_NO_MC_STATE ∨ mc.frames.length ≠ 0) then none
  else
    match opt with
    | BtorMCOption.BTOR_MC_OPT_VERBOSITY =>
      some { mc with
        options := { mc.options with verbosity := { mc.options.verbosity with val := val } }
        btor := { mc.btor with opt_verbosity := val } }
    | BtorMCOption.BTOR_MC_OPT_STOP_FIRST =>
      some { mc with
        options := { mc.options with stop_first := { mc.options.stop_first with val := val } } }
    | BtorMCOption.BTOR_MC_OPT_TRACE_GEN =>
      some { mc with
        options := { mc.options with trace_gen := { mc.options.trace_gen with val := val } } }

def boolector_mc_new (c : Collab) : BtorMC :=
  { options := init_options c
    state := BtorMCState.BTOR_NO_MC_STATE
    initialized := 0
    nextstates := 0
    btor := boolector_new
    forward := none
    frames := []
    inputs := []
    latches := []
    bad := []
    constraints := []
    forward2const := none
    reached := []
    num_reached := 0
    call_backs := { reached_at_bound := false, starting_bound := false }
    trace := [] }

/-! ## Registration -/

def boolector_input (mc : BtorMC) (width : Nat) (name : Option String) :
    Option (BoolectorNode × BtorMC) :=
  if mc.state ≠ BtorMCState.BTOR_NO_MC_STATE then none
  else if 1 > width then none
  else
    let (res, btor) := boolector_var mc.btor width name
    let input : BtorMCInput := { id := (mc.inputs.length : Int), node := res }
    some (res, { mc with btor := btor, inputs := mc.inputs ++ [input] })

def boolector_latch (mc : BtorMC) (width : Nat) (name : Option String) :
    Option (BoolectorNode × BtorMC) :=
  if mc.state ≠ BtorMCState.BTOR_NO_MC_STATE then none
  else if ¬ (1 ≤ width) then none
  else
    let (res, btor) := boolector_var mc.btor width name
    let latch : BtorMCLatch :=
      { id := (mc.latches.length : Int), node := res, next := none, init := none }
    some (res, { mc with btor := btor, latches := mc.latches ++ [latch] })

/-- `BTOR_MC_CHECK_OWNS_NODE_ARG` : the node is a node of the model circuit. -/
def owns_node (mc : BtorMC) (node : BoolectorNode) : Bool :=
  decide (node < mc.btor.nodes.length)

def find_mc_latch (mc : BtorMC) (node : BoolectorNode) : Option BtorMCLatch :=
  mc.latches.find? (fun l => l.node = node)

/-- Assignment through the pointer returned by `find_mc_latch` : the first record of the
table whose key is `node` is changed by `change`, the table is otherwise left alone. -/
def update_mc_latch (node : BoolectorNode) (change : BtorMCLatch → BtorMCLatch) :
    List BtorMCLatch → List BtorMCLatch
  | [] => []
  | l :: ls =>
    if l.node = node then change l :: ls else l :: update_mc_latch node change ls

def boolector_next (mc : BtorMC) (node next : BoolectorNode) : Option BtorMC :=
  if mc.state ≠ BtorMCState.BTOR_NO_MC_STATE then none
  else if ¬ owns_node mc node then none
  else if ¬ owns_node mc next then none
  else if boolector_get_width mc.btor node ≠ boolector_get_width mc.btor next then none
  else
    match find_mc_latch mc node with
    | none => none
    | some latch =>
      if latch.next.isSome then none
      else
        some { mc with
          latches := update_mc_latch node (fun l => { l with next := some next }) mc.latches
          nextstates := mc.nextstates + 1 }

def boolector_is_const (btor : Btor) (node : BoolectorNode) : Bool :=
  match btor.nodes.get? node with
  | some n => decide (n.kind = BtorNodeKind.bv_const)
  | none => false

def boolector_mc_init (mc : BtorMC) (node init : BoolectorNode) : Option BtorMC :=
  if mc.state ≠ BtorMCState.BTOR_NO_MC_STATE then none
  else if ¬ owns_node mc node then none
  else if ¬ owns_node mc init then none
  else if ¬ boolector_is_const mc.btor init then none
  else if boolector_get_width mc.btor node ≠ boolector_get_width mc.btor init then none
  else
    match find_mc_latch mc node with
    | none => none
    | some latch =>
      if latch.init.isSome then none
      else
        some { mc with
          latches := update_mc_latch node (fun l => { l with init := some init }) mc.latches
          initialized := mc.initialized + 1 }

def boolector_bad (mc : BtorMC) (bad : BoolectorNode) : Option (Int × BtorMC) :=
  if mc.state ≠ BtorMCState.BTOR_NO_MC_STATE then none
  else if ¬ owns_node mc bad then none
  else if boolector_get_width mc.btor bad ≠ 1 then none
  else
    let res : Int := mc.bad.length
    some (res, { mc with bad := mc.bad ++ [bad], reached := mc.reached ++ [-1] })

def boolector_constraint (mc : BtorMC) (constraint : BoolectorNode) : Option (Int × BtorMC) :=
  if mc.state ≠ BtorMCState.BTOR_NO_MC_STATE then none
  else if ¬ owns_node mc constraint then none
  else if boolector_get_width mc.btor constraint ≠ 1 then none
  else
    let res : Int := mc.constraints.length
    some (res, { mc with constraints := mc.constraints ++ [constraint] })

/-! ## Frame builder -/

def timed_symbol (mc : BtorMC) (node : BoolectorNode) (time : Int) : Option String :=
  match boolector_get_symbol mc.btor node with
  | none => none
  | some symbol => some (symbol ++ "@" ++ toString time)

/-- `BTOR_PEEK_STACK` on a node stack. -/
def peek_node (stack : BoolectorNodePtrStack) (i : Nat) : Option BoolectorNode :=
  stack.getD i none

/-- `BTOR_PEEK_STACK (mc->reached, i)`. -/
def peek_reached (mc : BtorMC) (i : Nat) : Int :=
  mc.reached.getD i 0

/-- Loop of `initialize_inputs_of_frame` over the inputs not yet visited. -/
def initialize_inputs_loop (mc : BtorMC) (time : Int) :
    List BtorMCInput → BoolectorNodePtrStack → Btor → BoolectorNodePtrStack × Btor
  | [], inputs, forward => (inputs, forward)
  | input :: rest, inputs, forward =>
    let src := input.node
    let sym := timed_symbol mc src time
    let w := boolector_get_width mc.btor src
    let (dst, forward) := boolector_var forward w sym
    initialize_inputs_loop mc time rest (inputs ++ [some dst]) forward

def initialize_inputs_of_frame (mc : BtorMC) (forward : Btor) (f : BtorMCFrame) :
    BtorMCFrame × Btor :=
  let (inputs, forward) := initialize_inputs_loop mc f.time mc.inputs [] forward
  ({ f with inputs := inputs }, forward)

/-- Loop of `initialize_latches_of_frame`; `p` is the frame before `f` in the stack. -/
def initialize_latches_loop (mc : BtorMC) (time : Int) (p : Option BtorMCFrame) :
    List BtorMCLatch → Nat → BoolectorNodePtrStack → Btor → BoolectorNodePtrStack × Btor
  | [], _, latches, forward => (latches, forward)
  | latch :: rest, i, latches, forward =>
    let src := latch.node
    match (if time = 0 then latch.init else none) with
    | some init =>
      let bits := boolector_get_bits mc.btor init
      let (dst, forward) := boolector_const forward bits
      initialize_latches_loop mc time p rest (i + 1) (latches ++ [some dst]) forward
    | none =>
      if time > 0 ∧ latch.next.isSome then
        let dst :=
          match p with
          | some p => peek_node p.next i
          | none => none
        initialize_latches_loop mc time p rest (i + 1) (latches ++ [dst]) forward
      else
        let sym := timed_symbol mc src time
        let w := boolector_get_width mc.btor src
        let (dst, forward) := boolector_var forward w sym
        initialize_latches_loop mc time p rest (i + 1) (latches ++ [some dst]) forward

def initialize_latches_of_frame (mc : BtorMC) (forward : Btor) (f : BtorMCFrame) :
    BtorMCFrame × Btor :=
  let p : Option BtorMCFrame := if f.time > 0 then mc.frames.get? (f.time - 1).toNat else none
  let (latches, forward) := initialize_latches_loop mc f.time p mc.latches 0 [] forward
  ({ f with latches := latches }, forward)

/-- `boolector_nodemap_map` of the sources `srcs` to the entries of `stack`, from index `i`. -/
def map_nodes_loop (stack : BoolectorNodePtrStack) :
    List BoolectorNode → Nat → BoolectorNodeMap → BoolectorNodeMap
  | [], _, res => res
  | src :: rest, i, res =>
    match peek_node stack i with
    | some dst => map_nodes_loop stack rest (i + 1) (res ++ [(src, dst)])
    | none => map_nodes_loop stack rest (i + 1) res

def map_inputs_and_latches_of_frame (mc : BtorMC) (f : BtorMCFrame) : BoolectorNodeMap :=
  let res := map_nodes_loop f.inputs (mc.inputs.map (fun input => input.node)) 0 []
  map_nodes_loop f.latches (mc.latches.map (fun latch => latch.node)) 0 res

def initialize_next_loop (c : Collab) (mc : BtorMC) :
    List BtorMCLatch → BoolectorNodePtrStack → Btor → BoolectorNodeMap →
      BoolectorNodePtrStack × Btor × BoolectorNodeMap
  | [], next, forward, map => (next, forward, map)
  | latch :: rest, next, forward, map =>
    match latch.next with
    | some src =>
      let (dst, forward, map) := c.substitute mc.btor forward map src
      initialize_next_loop c mc rest (next ++ [some dst]) forward map
    | none => initialize_next_loop c mc rest (next ++ [none]) forward map

def initialize_next_state_functions_of_frame (c : Collab) (mc : BtorMC) (forward : Btor)
    (map : BoolectorNodeMap) (f : BtorMCFrame) : BtorMCFrame × Btor × BoolectorNodeMap :=
  let (next, forward, map) := initialize_next_loop c mc mc.latches [] forward map
  ({ f with next := next }, forward, map)

def initialize_constraints_loop (c : Collab) (mc : BtorMC) :
    List BoolectorNode → Option BoolectorNode → Btor → BoolectorNodeMap →
      Option BoolectorNode × Btor × BoolectorNodeMap
  | [], constraint, forward, map => (constraint, forward, map)
  | src :: rest, constraint, forward, map =>
    let (dst, forward, map) := c.substitute mc.btor forward map src
    match constraint with
    | some constraint =>
      let (tmp, forward) := boolector_and forward constraint dst
      initialize_constraints_loop c mc rest (some tmp) forward map
    | none => initialize_constraints_loop c mc rest (some dst) forward map

def initialize_constraints_of_frame (c : Collab) (mc : BtorMC) (forward : Btor)
    (map : BoolectorNodeMap) : Btor × BoolectorNodeMap :=
  let (constraint, forward, map) :=
    initialize_constraints_loop c mc mc.constraints none forward map
  match constraint with
  | some constraint => (boolector_assert forward constraint, map)
  | none => (forward, map)

/-- Loop of `initialize_bad_state_properties_of_frame` from index `i`. -/
def initialize_bad_loop (c : Collab) (mc : BtorMC) :
    List BoolectorNode → Nat → BoolectorNodePtrStack → Btor → BoolectorNodeMap →
      BoolectorNodePtrStack × Btor × BoolectorNodeMap
  | [], _, bad, forward, map => (bad, forward, map)
  | src :: rest, i, bad, forward, map =>
    if peek_reached mc i < 0 then
      let (dst, forward, map) := c.substitute mc.btor forward map src
      initialize_bad_loop c mc rest (i + 1) (bad ++ [some dst]) forward map
    else
      initialize_bad_loop c mc rest (i + 1) (bad ++ [none]) forward map

def initialize_bad_state_properties_of_frame (c : Collab) (mc : BtorMC) (forward : Btor)
    (map : BoolectorNodeMap) (f : BtorMCFrame) : BtorMCFrame × Btor × BoolectorNodeMap :=
  let (bad, forward, map) := initialize_bad_loop c mc mc.bad 0 [] forward map
  ({ f with bad := bad }, forward, map)

/-- The forward circuit, created on the first frame. -/
def forward_manager (mc : BtorMC) : Btor :=
  match mc.forward with
  | some forward => forward
  | none =>
    let forward := { boolector_new with opt_incremental := 1 }
    let forward :=
      if boolector_mc_get_opt mc BtorMCOption.BTOR_MC_OPT_TRACE_GEN ≠ 0 then
        { forward with opt_model_gen := 1 }
      else forward
    let v := boolector_mc_get_opt mc BtorMCOption.BTOR_MC_OPT_VERBOSITY
    if v ≠ 0 then { forward with opt_verbosity := v } else forward

/-- `initialize_new_forward_frame`.  The new frame is filled as a local value and is pushed
on `mc->frames` when complete; the builders read no other frame than the previous one. -/
def initialize_new_forward_frame (c : Collab) (mc : BtorMC) : BtorMC :=
  let time : Int := mc.frames.length
  let f : BtorMCFrame :=
    { time := time, model2const := none, inputs := [], init := [], latches := [], next := [],
      bad := [] }
  let forward := forward_manager mc
  let (f, forward) := initialize_inputs_of_frame mc forward f
  let (f, forward) := initialize_latches_of_frame mc forward f
  let map := map_inputs_and_latches_of_frame mc f
  let (f, forward, map) := initialize_next_state_functions_of_frame c mc forward map f
  let (forward, map) := initialize_constraints_of_frame c mc forward map
  let (f, forward, _) := initialize_bad_state_properties_of_frame c mc forward map f
  { mc with forward := some forward, frames := mc.frames ++ [f] }

/-! ## Checking a bound -/

/-- Loop of `check_last_forward_frame` over the entries of `f->bad` from index `i`. -/
def check_bad_loop (c : Collab) (k : Int) :
    BoolectorNodePtrStack → Nat → Int → BtorMC → Int × BtorMC
  | [], _, satisfied, mc => (satisfied, mc)
  | none :: rest, i, satisfied, mc => check_bad_loop c k rest (i + 1) satisfied mc
  | some bad :: rest, i, satisfied, mc =>
    let mc := { mc with trace := mc.trace ++ [BtorMCEvent.sat_call k i bad] }
    let res := c.sat k i
    if res = BoolectorResult.BOOLECTOR_SAT then
      let mc := { mc with state := BtorMCState.BTOR_SAT_MC_STATE }
      let satisfied := satisfied + 1
      if peek_reached mc i < 0 then
        let mc := { mc with num_reached := mc.num_reached + 1 }
        let mc := { mc with reached := mc.reached.set i k }
        let mc :=
          if mc.call_backs.reached_at_bound then
            { mc with trace := mc.trace ++ [BtorMCEvent.reached_at_bound i k] }
          else mc
        check_bad_loop c k rest (i + 1) satisfied mc
      else check_bad_loop c k rest (i + 1) satisfied mc
    else
      let mc := { mc with state := BtorMCState.BTOR_UNSAT_MC_STATE }
      check_bad_loop c k rest (i + 1) satisfied mc

/-- `check_last_forward_frame`, called when a frame has just been pushed; on an empty frame
stack (excluded by `assert (k >= 0)`) nothing is checked. -/
def check_last_forward_frame (c : Collab) (mc : BtorMC) : Int × BtorMC :=
  let k : Int := (mc.frames.length : Int) - 1
  match mc.frames.getLast? with
  | none => (0, mc)
  | some f => check_bad_loop c k f.bad 0 0 mc

/-! ## Bounded model checking -/

def mc_release_assignment (mc : BtorMC) : BtorMC :=
  { mc with
    forward2const := none
    frames := mc.frames.map (fun f => { f with model2const := none }) }

/-- The call `mc->call_backs.starting_bound.fun (state, k)`, made when a function is
installed; `k` is the number of frames. -/
def starting_bound_call_back (mc : BtorMC) : BtorMC :=
  if mc.call_backs.starting_bound then
    { mc with trace := mc.trace ++ [BtorMCEvent.starting_bound (mc.frames.length : Int)] }
  else mc

/-- The `while` loop of `boolector_mc_bmc`; `none` when the fuel is used up before the loop
is left. -/
def bmc_loop (c : Collab) (mink maxk : Int) : Nat → BtorMC → Option (Int × BtorMC)
  | 0, _ => none
  | fuel + 1, mc =>
    let k : Int := mc.frames.length
    if k ≤ maxk then
      let mc := starting_bound_call_back mc
      let mc := initialize_new_forward_frame c mc
      if k < mink then bmc_loop c mink maxk fuel mc
      else
        let (satisfied, mc) := check_last_forward_frame c mc
        if satisfied ≠ 0 then
          if boolector_mc_get_opt mc BtorMCOption.BTOR_MC_OPT_STOP_FIRST ≠ 0
              ∨ mc.num_reached = mc.bad.length ∨ k = maxk then
            some (k, mc)
          else bmc_loop c mink maxk fuel mc
        else bmc_loop c mink maxk fuel mc
    else
      some (-1, { mc with state := BtorMCState.BTOR_UNSAT_MC_STATE })

/-- Iterations the loop of `boolector_mc_bmc` can still make, plus the final test. -/
def bmc_fuel (mc : BtorMC) (maxk : Int) : Nat :=
  (maxk + 1 - (mc.frames.length : Int)).toNat + 1

def boolector_mc_bmc (c : Collab) (mc : BtorMC) (mink maxk : Int) : Option (Int × BtorMC) :=
  let mc := mc_release_assignment mc
  let mc := { mc with state := BtorMCState.BTOR_NO_MC_STATE }
  bmc_loop c mink maxk (bmc_fuel mc maxk) mc

/-- Creation of the per-frame witness cache by `get_mc_model2const_map`, the first step of
`mc_model2const`, which `boolector_mc_assignment` runs for a node that is not an input. -/
def get_mc_model2const_map (mc : BtorMC) (time : Nat) : BtorMC :=
  { mc with
    frames := mc.frames.modify
      (fun frame =>
        match frame.model2const with
        | some _ => frame
        | none => { frame with model2const := some [] })
      time }

/-! ## Notions used to state the properties -/

/-- Bad property `i` is not reached in `reached` and the solver answers SAT for it at
bound `k`. -/
def reaches (c : Collab) (k : Int) (reached : List Int) (i : Nat) : Bool :=
  decide (reached.getD i 0 < 0) && decide (c.sat k i = BoolectorResult.BOOLECTOR_SAT)

/-- Indices of the bad properties of `mc` that are not reached and for which the solver
answers SAT at bound `k`. -/
def newly_reached (c : Collab) (k : Int) (mc : BtorMC) : List Nat :=
  (List.range mc.bad.length).filter (reaches c k mc.reached)

/-- A fresh engine: no frame is built and no bad property is reached. -/
def fresh (mc : BtorMC) : Bool :=
  decide (mc.frames = []) && decide (mc.num_reached = 0)
    && decide (mc.reached = List.replicate mc.bad.length (-1))

/-- Relation between the engine `mc` at the entry of a call `boolector_mc_bmc mink maxk` and
the engine `m` at a later point of the same call: the registered tables and the options
are the same, the frames at entry are still there with their witness cache released, an
entry of `reached` either is unchanged or was negative and now holds a bound checked by
this call, `num_reached` has not decreased, and the solver was queried only at bounds
checked by this call. -/
def bmc_progress (mink : Int) (mc m : BtorMC) : Prop :=
  m.bad = mc.bad ∧ m.options = mc.options ∧ m.call_backs = mc.call_backs
  ∧ m.inputs = mc.inputs ∧ m.latches = mc.latches ∧ m.constraints = mc.constraints
  ∧ m.reached.length = mc.reached.length
  ∧ (∃ fs, m.frames = mc.frames.map (fun f => { f with model2const := none }) ++ fs)
  ∧ (∀ j, peek_reached m j = peek_reached mc j
      ∨ (peek_reached mc j < 0 ∧ j < mc.bad.length ∧ mink ≤ peek_reached m j
          ∧ (mc.frames.length : Int) ≤ peek_reached m j
          ∧ peek_reached m j < (m.frames.length : Int)))
  ∧ mc.num_reached ≤ m.num_reached
  ∧ (∃ evs, m.trace = mc.trace ++ evs
      ∧ ∀ k i b, BtorMCEvent.sat_call k i b ∈ evs →
          mink ≤ k ∧ (mc.frames.length : Int) ≤ k ∧ k < (m.frames.length : Int)
            ∧ i < mc.bad.length)

/-- First bound that a call `bmc (mink, maxk)` on `mc` checks: bounds below `mink` are
built but not checked, and bounds whose frame exists at entry are not visited. -/
def first_checked (mc : BtorMC) (mink : Int) : Int :=
  max mink (mc.frames.length : Int)

/-- The solver answers SAT for property `i` at one of the `d` bounds `lo, ..., lo + d - 1`. -/
def sat_within (c : Collab) (lo : Int) : Nat → Nat → Bool
  | 0, _ => false
  | d + 1, i =>
    sat_within c lo d i || decide (c.sat (lo + (d : Int)) i = BoolectorResult.BOOLECTOR_SAT)

/-- Property `i` is not yet reached when the call comes to bound `k` : it was not reached
at entry and the solver did not answer SAT for it at a checked bound below `k`. -/
def not_yet_reached (c : Collab) (mc : BtorMC) (mink k : Int) (i : Nat) : Bool :=
  decide (peek_reached mc i < 0)
    && !sat_within c (first_checked mc mink) (k - first_checked mc mink).toNat i

/-- The not yet reached bad properties that are answered SAT at bound `k`. -/
def reached_at (c : Collab) (mc : BtorMC) (mink k : Int) : List Nat :=
  (List.range mc.bad.length).filter
    (fun i => not_yet_reached c mc mink k i
      && decide (c.sat k i = BoolectorResult.BOOLECTOR_SAT))

/-- Value of `num_reached` after the check of bound `k` : the value at entry plus the number
of properties, not reached at entry, answered SAT at a checked bound up to `k`. -/
def num_reached_after (c : Collab) (mc : BtorMC) (mink k : Int) : Int :=
  mc.num_reached
    + (((List.range mc.bad.length).filter
        (fun i => decide (peek_reached mc i < 0)
          && sat_within c (first_checked mc mink) (k + 1 - first_checked mc mink).toNat i)).length
        : Int)

/-- The condition under which a call with `STOP_FIRST` off returns at bound `k` : a not yet
reached property is answered SAT at `k` and, after that check, `num_reached = |bad|` or
`k = maxk`. -/
def returns_at (c : Collab) (mc : BtorMC) (mink maxk k : Int) : Bool :=
  !(reached_at c mc mink k).isEmpty
    && (decide (num_reached_after c mc mink k = (mc.bad.length : Int)) || decide (k = maxk))

/-! ## Sequences of calls -/

/-- A sequence of calls `boolector_mc_bmc (mc, mink, maxk)` on one engine, the results
being dropped. -/
def bmc_calls (c : Collab) : List (Int × Int) → BtorMC → Option BtorMC
  | [], mc => some mc
  | call :: rest, mc =>
    match boolector_mc_bmc c mc call.1 call.2 with
    | some r => bmc_calls c rest r.2
    | none => none

/-- A call that authors the model: the user adds a node to the model circuit through the
circuit interface, or calls one of the registration functions of the engine. -/
inductive BtorMCCall where
  | node (n : BtorNode)
  | input (width : Nat) (name : Option String)
  | latch (width : Nat) (name : Option String)
  | next (node next : BoolectorNode)
  | init (node init : BoolectorNode)
  | bad (bad : BoolectorNode)
  | constraint (constraint : BoolectorNode)
deriving DecidableEq, Repr

def register (mc : BtorMC) : BtorMCCall → Option BtorMC
  | BtorMCCall.node n => some { mc with btor := { mc.btor with nodes := mc.btor.nodes ++ [n] } }
  | BtorMCCall.input width name => (boolector_input mc width name).map (fun r => r.2)
  | BtorMCCall.latch width name => (boolector_latch mc width name).map (fun r => r.2)
  | BtorMCCall.next node next => boolector_next mc node next
  | BtorMCCall.init node init => boolector_mc_init mc node init
  | BtorMCCall.bad bad => (boolector_bad mc bad).map (fun r => r.2)
  | BtorMCCall.constraint constraint => (boolector_constraint mc constraint).map (fun r => r.2)

/-- The calls of `calls` in order; `none` when one of them aborts. -/
def register_all : List BtorMCCall → BtorMC → Option BtorMC
  | [], mc => some mc
  | call :: rest, mc =>
    match register mc call with
    | some mc => register_all rest mc
    | none => none

/-! ## Concrete engines used as examples -/

/-- A substitution for the examples: a mapped node is replaced by its image, any other
node by a new forward node of the same width, which is entered in the map. -/
def ex_substitute (model forward : Btor) (map : BoolectorNodeMap) (src : BoolectorNode) :
    BoolectorNode × Btor × BoolectorNodeMap :=
  match map.find? (fun e => e.1 = src) with
  | some e => (e.2, forward, map)
  | none =>
    (forward.nodes.length,
     { forward with nodes := forward.nodes ++
        [{ kind := BtorNodeKind.other, width := boolector_get_width model src, symbol := none,
           bits := none, args := [] }] },
     map ++ [(src, forward.nodes.length)])

/-- Collaborators of the examples with the verdict SAT exactly for the listed
(bound, property) pairs. -/
def ex_collab (sat_at : List (Int × Nat)) : Collab :=
  { sat := fun k i =>
      if (k, i) ∈ sat_at then BoolectorResult.BOOLECTOR_SAT else BoolectorResult.BOOLECTOR_UNSAT
    substitute := ex_substitute
    getenv_value := fun _ => none }

/-- Engine with one 1-bit latch `s`, `next (s) = s`, and `nbad` bad properties, each the
latch itself. -/
def ex_engine (nbad : Nat) : BtorMC :=
  let mc := boolector_mc_new (ex_collab [])
  match boolector_latch mc 1 (some "s") with
  | none => mc
  | some (s, mc) =>
    let mc := (boolector_next mc s s).getD mc
    (List.range nbad).foldl (fun mc _ => ((boolector_bad mc s).map (fun r => r.2)).getD mc) mc

/-- The engine `ex_engine nbad` with `STOP_FIRST` set to 0. -/
def ex_engine_all (nbad : Nat) : BtorMC :=
  (boolector_mc_set_opt (ex_engine nbad) BtorMCOption.BTOR_MC_OPT_STOP_FIRST 0).getD
    (ex_engine nbad)

/-- The engine `ex_engine 1` with trace generation on, after `bmc (0, 0)` has reached
its bad property at bound 0 and the witness cache of frame 0 has been created. -/
def ex_engine_cached : BtorMC :=
  let mc := (boolector_mc_set_opt (ex_engine 1) BtorMCOption.BTOR_MC_OPT_TRACE_GEN 1).getD
    (ex_engine 1)
  match boolector_mc_bmc (ex_collab [(0, 0)]) mc 0 0 with
  | some r => get_mc_model2const_map r.2 0
  | none => mc

/-- Two inputs and two latches are registered, with a next-state function and a bad
property. -/
def ex_calls : List BtorMCCall :=
  [BtorMCCall.input 2 none, BtorMCCall.latch 1 (some "a"), BtorMCCall.input 1 none,
    BtorMCCall.next 1 2, BtorMCCall.latch 3 none, BtorMCCall.bad 1]

/-- The engine after the calls `ex_calls`. -/
def ex_registered : BtorMC :=
  (register_all ex_calls (boolector_mc_new (ex_collab []))).getD (boolector_mc_new (ex_collab []))

/-! ## Call backs -/

/-- `boolector_mc_set_reached_at_bound_call_back`; `installed` tells whether the function
pointer that is stored is non-null. -/
def boolector_mc_set_reached_at_bound_call_back (mc : BtorMC) (installed : Bool) : BtorMC :=
  { mc with call_backs := { mc.call_backs with reached_at_bound := installed } }

/-- `boolector_mc_set_starting_bound_call_back`; `installed` tells whether the function
pointer that is stored is non-null. -/
def boolector_mc_set_starting_bound_call_back (mc : BtorMC) (installed : Bool) : BtorMC :=
  { mc with call_backs := { mc.call_backs with starting_bound := installed } }

/-! ## Reachable engines -/

/-- State changes of `boolector_mc_assignment (mc, node, time)` : after the checks of the
call, the walk over `node` may create and fill the witness caches of frame `time` and of
the engine (`get_mc_model2const_map`, `get_mc_forward2const`).  The walk is part of the
node map collaborator; the caches it leaves are given by the caller, and the constants it
creates in the model circuit are nodes added to it, as by `BtorMCCall.node`. -/
def boolector_mc_assignment_caches (mc : BtorMC) (time : Int)
    (model2const forward2const : Option BoolectorNodeMap) : Option BtorMC :=
  if mc.state = BtorMCState.BTOR_NO_MC_STATE then none
  else if mc.state = BtorMCState.BTOR_UNSAT_MC_STATE then none
  else if boolector_mc_get_opt mc BtorMCOption.BTOR_MC_OPT_TRACE_GEN = 0 then none
  else if 0 > time then none
  else if time ≥ (mc.frames.length : Int) then none
  else
    some { mc with
      forward2const := forward2const
      frames := mc.frames.modify (fun f => { f with model2const := model2const }) time.toNat }

/-- A call of the user on an engine. -/
inductive BtorMCStep where
  | author (call : BtorMCCall)
  | set_opt (opt : BtorMCOption) (val : Nat)
  | set_reached_at_bound_call_back (installed : Bool)
  | set_starting_bound_call_back (installed : Bool)
  | bmc (mink maxk : Int)
  | assignment (time : Int) (model2const forward2const : Option BoolectorNodeMap)
deriving DecidableEq, Repr

def api_step (c : Collab) (mc : BtorMC) : BtorMCStep → Option BtorMC
  | BtorMCStep.author call => register mc call
  | BtorMCStep.set_opt opt val => boolector_mc_set_opt mc opt val
  | BtorMCStep.set_reached_at_bound_call_back installed =>
    some (boolector_mc_set_reached_at_bound_call_back mc installed)
  | BtorMCStep.set_starting_bound_call_back installed =>
    some (boolector_mc_set_starting_bound_call_back mc installed)
  | BtorMCStep.bmc mink maxk => (boolector_mc_bmc c mc mink maxk).map (fun r => r.2)
  | BtorMCStep.assignment time model2const forward2const =>
    boolector_mc_assignment_caches mc time model2const forward2const

/-- The calls `steps` in order on `mc`; `none` when one of them aborts.  The engines
`api_run c steps (boolector_mc_new c)` are the reachable engines. -/
def api_run (c : Collab) : List BtorMCStep → BtorMC → Option BtorMC
  | [], mc => some mc
  | step :: rest, mc =>
    match api_step c mc step with
    | some mc => api_run c rest mc
    | none => none

/-- The frames `f` and `f'` differ at most in their witness cache. -/
def same_frame (f f' : BtorMCFrame) : Prop :=
  f' = { f with model2const := f'.model2const }

/-- The frame `f` without its witness cache: its time and its tables. -/
def frame_tables (f : BtorMCFrame) : BtorMCFrame :=
  { f with model2const := none }

/-- Invariant of the engine `mc` whose frames, without their witness caches, are `F`.  It
relates the frames, the tables of the model, the record of the reached properties and
the solver queries that were made. -/
structure engine_inv (mc : BtorMC) (F : List BtorMCFrame) : Prop where
  reached_length : mc.reached.length = mc.bad.length
  num_reached_eq :
    mc.num_reached = ((mc.reached.filter (fun r => decide (0 ≤ r))).length : Int)
  reached_lt : ∀ (i : Nat), i < mc.bad.length → peek_reached mc i < (F.length : Int)
  times : ∀ (t : Nat) (f : BtorMCFrame), F.get? t = some f → f.time = (t : Int)
  sizes : ∀ (f : BtorMCFrame), f ∈ F →
    f.inputs.length = mc.inputs.length ∧ f.latches.length = mc.latches.length
      ∧ f.next.length = mc.latches.length ∧ f.bad.length = mc.bad.length
  next_set : ∀ (t : Nat) (f : BtorMCFrame) (i : Nat) (latch : BtorMCLatch),
    F.get? t = some f → mc.latches.get? i = some latch →
    (peek_node f.next i).isSome = latch.next.isSome
  link : ∀ (t : Nat) (f f' : BtorMCFrame) (i : Nat) (latch : BtorMCLatch),
    F.get? t = some f → F.get? (t + 1) = some f' →
    mc.latches.get? i = some latch → latch.next.isSome = true →
    f'.latches.get? i = some (peek_node f.next i)
  bad_null : ∀ (t : Nat) (f : BtorMCFrame) (i : Nat), F.get? t = some f → i < mc.bad.length →
    (peek_node f.bad i = none ↔ 0 ≤ peek_reached mc i ∧ peek_reached mc i < (t : Int))
  queries : ∀ (k : Int) (i : Nat) (b : BoolectorNode), BtorMCEvent.sat_call k i b ∈ mc.trace →
    ∃ (t : Nat) (f : BtorMCFrame), k = (t : Int) ∧ F.get? t = some f
      ∧ peek_node f.bad i = some b

/-- The variable node that `boolector_var` creates. -/
def var_node (width : Nat) (symbol : Option String) : BtorNode :=
  { kind := BtorNodeKind.bv_var, width := width, symbol := symbol, bits := none, args := [] }

/-- The constant node that `boolector_const` creates. -/
def const_node (bits : String) : BtorNode :=
  { kind := BtorNodeKind.bv_const, width := bits.length, symbol := none, bits := some bits,
    args := [] }

/-- Entry `i` of the `next` stack of the previous frame `p`, null when there is none. -/
def previous_next (p : Option BtorMCFrame) (i : Nat) : Option BoolectorNode :=
  match p with
  | some p => peek_node p.next i
  | none => none

/-- What the loop of `initialize_latches_of_frame` over the latches `l`, entered at index `i`
with the stack `acc` and the forward circuit `fw`, has done when it ends with the result
`r` : one entry per latch is pushed, nodes are only added to the forward circuit, and the
entry of a latch is a new constant of the bits of `init` (frame 0, `init` set), the entry of
the previous frame's `next` stack (later frames, `next` set), or a new variable. -/
def latches_loop_post (mc : BtorMC) (time : Int) (p : Option BtorMCFrame)
    (l : List BtorMCLatch) (i : Nat) (acc : BoolectorNodePtrStack) (fw : Btor)
    (r : BoolectorNodePtrStack × Btor) : Prop :=
  r.1.length = acc.length + l.length
  ∧ (∀ j, j < acc.length → r.1.get? j = acc.get? j)
  ∧ (∃ new, r.2.nodes = fw.nodes ++ new)
  ∧ r.2.assertions = fw.assertions
  ∧ ∀ (j : Nat) (latch : BtorMCLatch), l.get? j = some latch →
      (time = 0 → ∀ init, latch.init = some init →
        ∃ n, r.1.get? (acc.length + j) = some (some n) ∧ fw.nodes.length ≤ n
          ∧ r.2.nodes.get? n = some (const_node (boolector_get_bits mc.btor init)))
      ∧ (time > 0 → latch.next.isSome = true →
          r.1.get? (acc.length + j) = some (previous_next p (i + j)))
      ∧ (¬ (time = 0 ∧ latch.init.isSome = true) → ¬ (time > 0 ∧ latch.next.isSome = true) →
          ∃ n, r.1.get? (acc.length + j) = some (some n) ∧ fw.nodes.length ≤ n
            ∧ r.2.nodes.get? n
              = some (var_node (boolector_get_width mc.btor latch.node)
                  (timed_symbol mc latch.node time)))


/-! ## Calls of the call back -/

/-- The calls of the `reached_at_bound` call back among the events `evs`, as pairs of the
property index and the bound, in the order they are made. -/
def reached_at_bound_calls (evs : List BtorMCEvent) : List (Nat × Int) :=
  evs.filterMap (fun e =>
    match e with
    | BtorMCEvent.reached_at_bound i k => some (i, k)
    | _ => none)

/-! ## The forward circuit -/

/-- Nodes of the forward circuit of the engine; there are none before the first frame. -/
def forward_nodes (mc : BtorMC) : List BtorNode :=
  match mc.forward with
  | some forward => forward.nodes
  | none => []

/-- Formulas asserted in the forward circuit of the engine, in the order of the calls of
`boolector_assert`. -/
def forward_assertions (mc : BtorMC) : List BoolectorNode :=
  match mc.forward with
  | some forward => forward.assertions
  | none => []

/-- Entries of the input, latch, next-state and bad tables of a frame. -/
def frame_nodes (f : BtorMCFrame) : BoolectorNodePtrStack :=
  f.inputs ++ f.latches ++ f.next ++ f.bad

/-- Assumption on `boolector_nodemap_non_recursive_substitute_node`, whose code is outside
the engine: a call only adds nodes to the forward circuit and asserts nothing; and when
the images held by the map are nodes of the forward circuit, the image that is returned
and the images held by the map after the call are nodes of the forward circuit after the
call. -/
def substitute_ok (c : Collab) : Prop :=
  ∀ (model forward : Btor) (map : BoolectorNodeMap) (src : BoolectorNode),
    (∃ new, (c.substitute model forward map src).2.1.nodes = forward.nodes ++ new)
    ∧ (c.substitute model forward map src).2.1.assertions = forward.assertions
    ∧ ((∀ e, e ∈ map → e.2 < forward.nodes.length) →
        (c.substitute model forward map src).1
            < (c.substitute model forward map src).2.1.nodes.length
        ∧ ∀ e, e ∈ (c.substitute model forward map src).2.2 →
            e.2 < (c.substitute model forward map src).2.1.nodes.length)

/-- The conjunction node that `boolector_and` creates. -/
def and_node (a b : BoolectorNode) : BtorNode :=
  { kind := BtorNodeKind.and_node, width := 1, symbol := none, bits := none, args := [a, b] }

/-- Node `a` of a circuit with the node table `nodes` is the conjunction of the nodes
`dn, ..., d1, d0`, listed from the last to the first, as `initialize_constraints_of_frame`
builds it: `d0` itself for one node, and `boolector_and` of the conjunction of
`d0, ..., d(n-1)` and of `dn` otherwise. -/
def is_conjunction_rev (nodes : List BtorNode) : List BoolectorNode → BoolectorNode → Prop
  | [], _ => False
  | [d], a => a = d
  | d :: d' :: rest, a =>
    ∃ a0, nodes.get? a = some (and_node a0 d) ∧ is_conjunction_rev nodes (d' :: rest) a0

/-- Node `a` is the conjunction `(... (d0 ∧ d1) ... ∧ dn)` of the nodes `ds = [d0, ..., dn]`,
in this order. -/
def is_conjunction (nodes : List BtorNode) (ds : List BoolectorNode) (a : BoolectorNode) : Prop :=
  is_conjunction_rev nodes ds.reverse a

/-- Invariant that relates the model of the engine `mc`, the node table `nodes` and the
assertions `assertions` of its forward circuit, and its frames `F` without their witness
caches: the registered nodes are nodes of the model; the entries of the frames are nodes of
the forward circuit; the inputs of frame `t` are consecutive variables, named for `t`, that
come after every entry of an earlier frame; a latch entry is a constant of the bits of
`init` (frame 0, `init` set), or else, when it is not taken from the previous frame, a
variable named for `t` that comes after every entry of an earlier frame; and one formula
per frame is asserted when a constraint is registered, none otherwise. -/
structure forward_inv (mc : BtorMC) (nodes : List BtorNode) (assertions : List BoolectorNode)
    (F : List BtorMCFrame) : Prop where
  inputs_valid : ∀ (input : BtorMCInput), input ∈ mc.inputs → input.node < mc.btor.nodes.length
  latches_valid : ∀ (latch : BtorMCLatch), latch ∈ mc.latches →
    latch.node < mc.btor.nodes.length
      ∧ ∀ init, latch.init = some init → init < mc.btor.nodes.length
  valid : ∀ (f : BtorMCFrame), f ∈ F → ∀ n, some n ∈ frame_nodes f → n < nodes.length
  inputs : ∀ (t : Nat) (f : BtorMCFrame), F.get? t = some f →
    ∃ base, f.inputs = (List.range' base mc.inputs.length).map some
      ∧ (∀ (t' : Nat) (f' : BtorMCFrame), t' < t → F.get? t' = some f' →
          ∀ n, some n ∈ frame_nodes f' → n < base)
      ∧ ∀ (i : Nat) (input : BtorMCInput), mc.inputs.get? i = some input →
          nodes.get? (base + i)
            = some (var_node (boolector_get_width mc.btor input.node)
                (timed_symbol mc input.node (t : Int)))
  latch_const : ∀ (f : BtorMCFrame) (i : Nat) (latch : BtorMCLatch) (init : BoolectorNode),
    F.get? 0 = some f → mc.latches.get? i = some latch → latch.init = some init →
    ∃ n, f.latches.get? i = some (some n)
      ∧ nodes.get? n = some (const_node (boolector_get_bits mc.btor init))
  latch_free : ∀ (t : Nat) (f : BtorMCFrame) (i : Nat) (latch : BtorMCLatch),
    F.get? t = some f → mc.latches.get? i = some latch →
    ¬ (t = 0 ∧ latch.init.isSome = true) → ¬ (0 < t ∧ latch.next.isSome = true) →
    ∃ n, f.latches.get? i = some (some n)
      ∧ nodes.get? n
        = some (var_node (boolector_get_width mc.btor latch.node)
            (timed_symbol mc latch.node (t : Int)))
      ∧ ∀ (t' : Nat) (f' : BtorMCFrame), t' < t → F.get? t' = some f' →
          ∀ m, some m ∈ frame_nodes f' → m < n
  asserted : assertions.length = if mc.constraints = [] then 0 else F.length

/-- Node `n`, an entry of frame `t`, is a newly created variable: it is a variable of the
forward circuit and, handles being given in the order of creation, it comes after every
entry of the frames before frame `t`, so it did not exist when those frames were built. -/
def newly_created_variable (mc : BtorMC) (t : Nat) (n : BoolectorNode) : Prop :=
  (∃ node, (forward_nodes mc).get? n = some node ∧ node.kind = BtorNodeKind.bv_var)
  ∧ ∀ (t' : Nat) (f' : BtorMCFrame), t' < t → mc.frames.get? t' = some f' →
      ∀ m, some m ∈ frame_nodes f' → m < n

/-- The engines on which the loop of `boolector_mc_bmc` calls `check_last_forward_frame`, in
the order of the calls: the loop of `bmc_loop` with the engine recorded at each check. -/
def bmc_checked (c : Collab) (mink maxk : Int) : Nat → BtorMC → List BtorMC
  | 0, _ => []
  | fuel + 1, mc =>
    let k : Int := mc.frames.length
    if k ≤ maxk then
      let mc := starting_bound_call_back mc
      let mc := initialize_new_forward_frame c mc
      if k < mink then bmc_checked c mink maxk fuel mc
      else
        let (satisfied, mc') := check_last_forward_frame c mc
        if satisfied ≠ 0 then
          if boolector_mc_get_opt mc' BtorMCOption.BTOR_MC_OPT_STOP_FIRST ≠ 0
              ∨ mc'.num_reached = mc'.bad.length ∨ k = maxk then
            [mc]
          else mc :: bmc_checked c mink maxk fuel mc'
        else mc :: bmc_checked c mink maxk fuel mc'
    else []

/-- The engines on which a call `boolector_mc_bmc (mc, mink, maxk)` calls
`check_last_forward_frame`, in the order of the calls. -/
def boolector_mc_bmc_checked (c : Collab) (mc : BtorMC) (mink maxk : Int) : List BtorMC :=
  let mc := mc_release_assignment mc
  let mc := { mc with state := BtorMCState.BTOR_NO_MC_STATE }
  bmc_checked c mink maxk (bmc_fuel mc maxk) mc

/-! ## A model with an input, two latches, two bad properties and a constraint -/

/-- Authoring calls of the example: input `x` (node 0), latch `s` (node 1), a latch
`u` without symbol (node 2), the constant `0` (node 3), `init (s) = 0`, `next (s) = x`, the bad properties `s`
and `u`, and the constraints `x` and `u`.  The latch `u` has neither `init` nor `next`. -/
def ex_model_steps : List BtorMCStep :=
  [BtorMCStep.author (BtorMCCall.input 1 (some "x")),
    BtorMCStep.author (BtorMCCall.latch 1 (some "s")),
    BtorMCStep.author (BtorMCCall.latch 1 none),
    BtorMCStep.author (BtorMCCall.node (const_node "0")),
    BtorMCStep.author (BtorMCCall.init 1 3),
    BtorMCStep.author (BtorMCCall.next 1 0),
    BtorMCStep.author (BtorMCCall.bad 1),
    BtorMCStep.author (BtorMCCall.bad 2),
    BtorMCStep.author (BtorMCCall.constraint 0),
    BtorMCStep.author (BtorMCCall.constraint 2)]

/-- Verdicts of the example: property 0 is reached at bound 1, property 1 at bound 2. -/
def ex_verdicts : Collab := ex_collab [(1, 0), (2, 1)]

/-- The model of the example before any frame is built. -/
def ex_model : BtorMC :=
  (api_run ex_verdicts ex_model_steps (boolector_mc_new ex_verdicts)).getD
    (boolector_mc_new ex_verdicts)

/-- The calls of the example up to the check: the model is authored, the call back for
reached properties is installed and `STOP_FIRST` is turned off. -/
def ex_ready_steps : List BtorMCStep :=
  ex_model_steps ++
    [BtorMCStep.set_reached_at_bound_call_back true,
      BtorMCStep.set_opt BtorMCOption.BTOR_MC_OPT_STOP_FIRST 0]

/-- The engine of the example before the bounds are checked. -/
def ex_ready : BtorMC :=
  (api_run ex_verdicts ex_ready_steps (boolector_mc_new ex_verdicts)).getD
    (boolector_mc_new ex_verdicts)

/-- The calls of the example: the calls `ex_ready_steps`, and then bounds 0 to 2 are
checked. -/
def ex_steps : List BtorMCStep :=
  ex_ready_steps ++ [BtorMCStep.bmc 0 2]

/-- The engine of the example after the calls `ex_steps`. -/
def ex_checked : BtorMC :=
  (api_run ex_verdicts ex_steps (boolector_mc_new ex_verdicts)).getD
    (boolector_mc_new ex_verdicts)

/-- Frame `t` of the engine `ex_checked`. -/
def ex_frame (t : Nat) : BtorMCFrame :=
  ex_checked.frames.getD t
    { time := 0, model2const := none, inputs := [], init := [], latches := [], next := [],
      bad := [] }

/-! ## Witness reconstruction -/

/-- `zero_normalize_assignment` : every `x` of the string is overwritten by `0`. -/
def zero_normalize_assignment (assignment : String) : String :=
  String.mk (assignment.toList.map (fun p => if p = 'x' then '0' else p))

/-- Modelled from the spec: the witness side of the circuit collaborator (section 4.6).

* `bv_assignment forward node`: `boolector_bv_assignment`, the bit string of `node` in the
  model of the forward circuit, over `0`, `1` and `x`;
* `model2const mc node time`: the walk `mc_model2const (mc, node, time)` of the node map
  over a node that is not an input.  The result is the constant node it returns and the
  model circuit with the constants it has created, and `none` when the walk aborts (on a
  variable that is neither a latch nor an input). -/
structure WitnessCollab where
  bv_assignment : Btor → BoolectorNode → String
  model2const : BtorMC → BoolectorNode → Int → Option (BoolectorNode × Btor)

/-- `boolector_mc_assignment (mc, node, time)` : the returned string, `none` when the call
aborts.  A handle is never null.  The witness caches that the call leaves in the engine
are described by `boolector_mc_assignment_caches`. -/
def boolector_mc_assignment (w : WitnessCollab) (mc : BtorMC) (node : BoolectorNode)
    (time : Int) : Option String :=
  if mc.state = BtorMCState.BTOR_NO_MC_STATE then none
  else if mc.state = BtorMCState.BTOR_UNSAT_MC_STATE then none
  else if boolector_mc_get_opt mc BtorMCOption.BTOR_MC_OPT_TRACE_GEN = 0 then none
  else if ¬ owns_node mc node then none
  else if 0 > time then none
  else if time ≥ (mc.frames.length : Int) then none
  else
    match mc.inputs.find? (fun input => input.node = node) with
    | some input =>
      match mc.frames.get? time.toNat, mc.forward with
      | some frame, some forward =>
        match peek_node frame.inputs input.id.toNat with
        | some node_at_time =>
          some (zero_normalize_assignment (w.bv_assignment forward node_at_time))
        | none => none
      | _, _ => none
    | none =>
      match w.model2const mc node time with
      | some (const_node, btor) => some (boolector_get_bits btor const_node)
      | none => none

/-- The calls of the example with trace generation: the calls `ex_ready_steps`, trace
generation is turned on, and then bounds 0 to 2 are checked. -/
def ex_traced_steps : List BtorMCStep :=
  ex_ready_steps ++
    [BtorMCStep.set_opt BtorMCOption.BTOR_MC_OPT_TRACE_GEN 1, BtorMCStep.bmc 0 2]

/-- The engine of the example after the calls `ex_traced_steps`. -/
def ex_traced : BtorMC :=
  (api_run ex_verdicts ex_traced_steps (boolector_mc_new ex_verdicts)).getD
    (boolector_mc_new ex_verdicts)

/-- A witness collaborator for the examples: the solver leaves every bit open, and the
walk over a node that is not an input aborts. -/
def ex_witness : WitnessCollab :=
  { bv_assignment := fun forward node =>
      String.mk (List.replicate (boolector_get_width forward node) 'x')
    model2const := fun _ _ _ => none }

/-- Collaborators of the examples in an environment where the variable `stop-first` is
set to `0`. -/
def ex_environment : Collab :=
  { sat := fun _ _ => BoolectorResult.BOOLECTOR_UNSAT
    substitute := ex_substitute
    getenv_value := fun name => if name = "stop-first" then some "0" else none }

/-! ## Notions used to state the properties of the calls -/

/-- Every registration call on `mc` aborts. -/
def registration_rejected (mc : BtorMC) : Prop :=
  (∀ width name, boolector_input mc width name = none)
  ∧ (∀ width name, boolector_latch mc width name = none)
  ∧ (∀ node next, boolector_next mc node next = none)
  ∧ (∀ node init, boolector_mc_init mc node init = none)
  ∧ (∀ bad, boolector_bad mc bad = none)
  ∧ (∀ constraint, boolector_constraint mc constraint = none)

/-- Every registration call on `mc` is accepted when the checks of its arguments pass:
the width of an input or latch is at least 1, a node is owned by the model circuit, the
widths agree, a bad property or constraint has width 1, the node of `next` and `init` is a
latch without a next-state function, respectively without an initial value, and the
initial value is a constant. -/
def registration_accepted (mc : BtorMC) : Prop :=
  (∀ width name, (boolector_input mc width name).isSome = true ↔ 1 ≤ width)
  ∧ (∀ width name, (boolector_latch mc width name).isSome = true ↔ 1 ≤ width)
  ∧ (∀ node next, (boolector_next mc node next).isSome = true ↔
      (owns_node mc node = true ∧ owns_node mc next = true
        ∧ boolector_get_width mc.btor node = boolector_get_width mc.btor next
        ∧ ∃ latch, find_mc_latch mc node = some latch ∧ latch.next = none))
  ∧ (∀ node init, (boolector_mc_init mc node init).isSome = true ↔
      (owns_node mc node = true ∧ owns_node mc init = true
        ∧ boolector_is_const mc.btor init = true
        ∧ boolector_get_width mc.btor node = boolector_get_width mc.btor init
        ∧ ∃ latch, find_mc_latch mc node = some latch ∧ latch.init = none))
  ∧ (∀ bad, (boolector_bad mc bad).isSome = true ↔
      (owns_node mc bad = true ∧ boolector_get_width mc.btor bad = 1))
  ∧ (∀ constraint, (boolector_constraint mc constraint).isSome = true ↔
      (owns_node mc constraint = true ∧ boolector_get_width mc.btor constraint = 1))

/-- The range of the option `TRACE_GEN` is 0 to 1. -/
def trace_gen_range (mc : BtorMC) : Prop :=
  mc.options.trace_gen.min = 0 ∧ mc.options.trace_gen.max = 1

/-- Invariant of the engine used by the witness reconstruction: the ids of the inputs and
of the latches are their positions, the registered nodes are nodes of the model circuit,
every frame has one non-null entry per input, and the forward circuit exists once a frame
is built. -/
def witness_inv (mc : BtorMC) : Prop :=
  mc.inputs.map (fun x => x.id) = (List.range mc.inputs.length).map (fun k : Nat => (k : Int))
  ∧ mc.latches.map (fun x => x.id)
      = (List.range mc.latches.length).map (fun k : Nat => (k : Int))
  ∧ (∀ (input : BtorMCInput), input ∈ mc.inputs → input.node < mc.btor.nodes.length)
  ∧ (∀ (latch : BtorMCLatch), latch ∈ mc.latches →
      latch.node < mc.btor.nodes.length
        ∧ ∀ init, latch.init = some init → init < mc.btor.nodes.length)
  ∧ (∀ (f : BtorMCFrame), f ∈ mc.frames →
      f.inputs.length = mc.inputs.length ∧ ∀ e ∈ f.inputs, e ≠ none)
  ∧ (mc.frames ≠ [] → mc.forward.isSome = true)

/-! ## SAT manager (`src/btorsat.c`) -/

/-- The drivers that `src/btorsat.c` can install in the manager. -/
inductive BtorSATSolver where
  | PicoSAT
  | Lingeling
  | MiniSAT
  | PrecoSAT
deriving DecidableEq, Repr

/-- The optional functions `inc.api` of the manager: for each one, whether the function
pointer is non-null. -/
structure BtorSATIncApi where
  assume : Bool
  melt : Bool
  failed : Bool
  inconsistent : Bool
  changed : Bool
deriving DecidableEq, Repr

/-- Calls of the manager into the installed driver (`api.init`, `api.inc_max_var`, `api.add`,
`api.sat`, `api.reset`, `inc.api.assume`, `inc.api.melt`), and the call `lglmelt` that the
Lingeling driver makes into its solver, in the order they are made. -/
inductive BtorSATCall where
  | init
  | inc_max_var
  | add (lit : Int)
  | sat (limit : Int)
  | reset
  | assume (lit : Int)
  | melt (lit : Int)
  | lglmelt (lit : Int)
deriving DecidableEq, Repr

/-- How a function of the manager ends the process: `BTOR_ABORT_SAT` prints
`[btorsat] <function>: <message>` and exits, an `assert` fails. -/
inductive BtorSATAbort where
  | abort_sat (function message : String)
  | assertion
deriving DecidableEq, Repr

/-- The line that `BTOR_ABORT_SAT` prints before it exits. -/
def btor_abort_sat_output : BtorSATAbort → String
  | BtorSATAbort.abort_sat function message => "[btorsat] " ++ function ++ ": " ++ message ++ "\n"
  | BtorSATAbort.assertion => ""

/-- Modelled from the spec: the manager record of section 3 (`struct BtorSATMgr`, declared
in `btorsat.h`, which is not part of the sources), with the fields that the functions of
`src/btorsat.c` read and write.  The flags are booleans, `solver` is the handle returned by
the driver (`none` is the null pointer), `api` names the driver whose functions are
installed, and `trace` is ghost state: the calls into the driver made so far.  The memory
manager and the output file are left out. -/
structure BtorSATMgr where
  verbosity : Int
  name : String
  optstr : Option String
  api : BtorSATSolver
  inc_need : Bool
  inc_provides : Bool
  inc_api : BtorSATIncApi
  satcalls : Int
  initialized : Bool
  clauses : Int
  maxvar : Int
  true_lit : Int
  solver : Option Nat
  trace : List BtorSATCall
deriving DecidableEq, Repr

def btor_enable_precosat_sat (smgr : BtorSATMgr) : Except BtorSATAbort BtorSATMgr :=
  if smgr.initialized then
    Except.error (BtorSATAbort.abort_sat "btor_enable_precosat_sat"
      "'btor_init_sat' called before 'btor_enable_precosat_sat'")
  else
    Except.ok { smgr with
      name := "PrecoSAT"
      optstr := none
      api := BtorSATSolver.PrecoSAT
      inc_need := false
      inc_provides := false
      inc_api := { assume := false, melt := false, failed := false, inconsistent := false,
                   changed := false } }

def btor_enable_picosat_sat (smgr : BtorSATMgr) : Except BtorSATAbort BtorSATMgr :=
  if smgr.initialized then
    Except.error (BtorSATAbort.abort_sat "btor_enable_picosat_sat"
      "'btor_init_sat' called before 'btor_enable_picosat_sat'")
  else
    Except.ok { smgr with
      name := "PicoSAT"
      optstr := none
      api := BtorSATSolver.PicoSAT
      inc_provides := true
      inc_api := { assume := true, melt := false, failed := true, inconsistent := true,
                   changed := true } }

/-- `btor_enable_lingeling_sat`; `passdown optstr` is the result of
`btor_passdown_lingeling_options (smgr, optstr, 0)`, the validation of the option string.
The result is the returned flag and the manager. -/
def btor_enable_lingeling_sat (passdown : String → Bool) (smgr : BtorSATMgr)
    (optstr : Option String) : Except BtorSATAbort (Int × BtorSATMgr) :=
  if smgr.initialized then
    Except.error (BtorSATAbort.abort_sat "btor_enable_lingeling_sat"
      "'btor_init_sat' called before 'btor_enable_lingeling_sat'")
  else
    let smgr := { smgr with optstr := optstr }
    let invalid : Bool :=
      match optstr with
      | some s => !passdown s
      | none => false
    if invalid then Except.ok (0, smgr)
    else
      Except.ok (1, { smgr with
        name := "Lingeling"
        api := BtorSATSolver.Lingeling
        inc_provides := true
        inc_api := { assume := true, melt := true, failed := true, inconsistent := true,
                     changed := true } })

def btor_enable_minisat_sat (smgr : BtorSATMgr) : Except BtorSATAbort BtorSATMgr :=
  if smgr.initialized then
    Except.error (BtorSATAbort.abort_sat "btor_enable_minisat_sat"
      "'btor_init_sat' called before 'btor_enable_minisat_sat'")
  else
    Except.ok { smgr with
      name := "MiniSAT"
      optstr := none
      api := BtorSATSolver.MiniSAT
      inc_provides := true
      inc_api := { assume := true, melt := false, failed := true, inconsistent := true,
                   changed := true } }

/-- `btor_new_sat_mgr`; `use_lingeling` tells whether `BTOR_USE_LINGELING` is defined, so
that `btor_enable_default_sat` is `btor_enable_lingeling_sat (smgr, 0)`, and
`btor_enable_picosat_sat` otherwise.  The fields `true_lit` and `solver` are not set by
the function and are not read before `btor_init_sat` sets them. -/
def btor_new_sat_mgr (use_lingeling : Bool) : BtorSATMgr :=
  let smgr : BtorSATMgr :=
    { verbosity := 0
      name := ""
      optstr := none
      api := BtorSATSolver.PicoSAT
      inc_need := true
      inc_provides := false
      inc_api := { assume := false, melt := false, failed := false, inconsistent := false,
                   changed := false }
      satcalls := 0
      initialized := false
      clauses := 0
      maxvar := 0
      true_lit := 0
      solver := none
      trace := [] }
  if use_lingeling then
    match btor_enable_lingeling_sat (fun _ => true) smgr none with
    | Except.ok r => r.2
    | Except.error _ => smgr
  else
    match btor_enable_picosat_sat smgr with
    | Except.ok r => r
    | Except.error _ => smgr

def btor_set_verbosity_sat_mgr (smgr : BtorSATMgr) (verbosity : Int) :
    Except BtorSATAbort BtorSATMgr :=
  if ¬ (verbosity ≥ -1 ∧ verbosity ≤ 3) then Except.error BtorSATAbort.assertion
  else Except.ok { smgr with verbosity := verbosity }

/-- `btor_next_cnf_id_sat_mgr`; `result` is the value that `api.inc_max_var` returns.  The
message printed at verbosity above 2 is not part of the state. -/
def btor_next_cnf_id_sat_mgr (smgr : BtorSATMgr) (result : Int) :
    Except BtorSATAbort (Int × BtorSATMgr) :=
  if ¬ smgr.initialized then Except.error BtorSATAbort.assertion
  else
    let smgr := { smgr with trace := smgr.trace ++ [BtorSATCall.inc_max_var] }
    let smgr := if |result| > smgr.maxvar then { smgr with maxvar := |result| } else smgr
    if result ≤ 0 then
      Except.error (BtorSATAbort.abort_sat "btor_next_cnf_id_sat_mgr" "CNF id overflow")
    else Except.ok (result, smgr)

/-- The driver function `btor_lingeling_melt`. -/
def btor_lingeling_melt (smgr : BtorSATMgr) (lit : Int) : BtorSATMgr :=
  if smgr.inc_need then { smgr with trace := smgr.trace ++ [BtorSATCall.lglmelt lit] } else smgr

/-- `btor_release_cnf_id_sat_mgr`.  Only the Lingeling driver installs a `melt` function,
which is `btor_lingeling_melt`. -/
def btor_release_cnf_id_sat_mgr (smgr : BtorSATMgr) (lit : Int) :
    Except BtorSATAbort BtorSATMgr :=
  if ¬ smgr.initialized then Except.ok smgr
  else if ¬ (|lit| ≤ smgr.maxvar) then Except.error BtorSATAbort.assertion
  else if |lit| = smgr.true_lit then Except.ok smgr
  else if smgr.inc_api.melt then
    Except.ok
      (btor_lingeling_melt { smgr with trace := smgr.trace ++ [BtorSATCall.melt lit] } lit)
  else Except.ok smgr

def btor_add_sat (smgr : BtorSATMgr) (lit : Int) : Except BtorSATAbort BtorSATMgr :=
  if ¬ smgr.initialized then Except.error BtorSATAbort.assertion
  else if ¬ ((smgr.inc_need ∧ smgr.inc_provides) ∨ smgr.satcalls = 0) then
    Except.error BtorSATAbort.assertion
  else if ¬ (|lit| ≤ smgr.maxvar) then Except.error BtorSATAbort.assertion
  else
    let smgr := if lit = 0 then { smgr with clauses := smgr.clauses + 1 } else smgr
    Except.ok { smgr with trace := smgr.trace ++ [BtorSATCall.add lit] }

/-- `btor_init_sat`; `solver` is the handle that `api.init` returns and `result` the value
that `api.inc_max_var` returns to the call of `btor_next_cnf_id_sat_mgr`. -/
def btor_init_sat (smgr : BtorSATMgr) (incremental : Bool) (solver : Option Nat)
    (result : Int) : Except BtorSATAbort BtorSATMgr :=
  if smgr.initialized then Except.error BtorSATAbort.assertion
  else
    let smgr := { smgr with
      solver := solver
      initialized := true
      trace := smgr.trace ++ [BtorSATCall.init] }
    if incremental ∧ ¬ smgr.inc_provides then Except.error BtorSATAbort.assertion
    else if incremental ∧ ¬ smgr.inc_need then Except.error BtorSATAbort.assertion
    else
      let smgr := if incremental then smgr else { smgr with inc_need := false }
      match btor_next_cnf_id_sat_mgr smgr result with
      | Except.error e => Except.error e
      | Except.ok (true_lit, smgr) =>
        let smgr := { smgr with true_lit := true_lit }
        match btor_add_sat smgr smgr.true_lit with
        | Except.error e => Except.error e
        | Except.ok smgr => btor_add_sat smgr 0

/-- `btor_sat_sat`; `result` is the value that `api.sat` returns. -/
def btor_sat_sat (smgr : BtorSATMgr) (limit : Int) (result : Int) :
    Except BtorSATAbort (Int × BtorSATMgr) :=
  if ¬ smgr.initialized then Except.error BtorSATAbort.assertion
  else
    Except.ok (result, { smgr with
      satcalls := smgr.satcalls + 1
      trace := smgr.trace ++ [BtorSATCall.sat limit] })

def btor_reset_sat (smgr : BtorSATMgr) : Except BtorSATAbort BtorSATMgr :=
  if ¬ smgr.initialized then Except.error BtorSATAbort.assertion
  else
    Except.ok { smgr with
      trace := smgr.trace ++ [BtorSATCall.reset]
      solver := none
      initialized := false }

def btor_assume_sat (smgr : BtorSATMgr) (lit : Int) : Except BtorSATAbort BtorSATMgr :=
  if ¬ smgr.initialized then Except.error BtorSATAbort.assertion
  else if ¬ (|lit| ≤ smgr.maxvar) then Except.error BtorSATAbort.assertion
  else if ¬ smgr.inc_need then Except.error BtorSATAbort.assertion
  else if ¬ smgr.inc_provides then Except.error BtorSATAbort.assertion
  else Except.ok { smgr with trace := smgr.trace ++ [BtorSATCall.assume lit] }

/-- A call of the user on a manager, with the answers of the driver to it. -/
inductive BtorSATOp where
  | enable_precosat
  | enable_picosat
  | enable_lingeling (optstr : Option String) (valid : Bool)
  | enable_minisat
  | set_verbosity (verbosity : Int)
  | init (incremental : Bool) (solver : Option Nat) (result : Int)
  | next_cnf_id (result : Int)
  | release_cnf_id (lit : Int)
  | add (lit : Int)
  | assume (lit : Int)
  | sat (limit : Int) (result : Int)
  | reset
deriving DecidableEq, Repr

def sat_step (smgr : BtorSATMgr) : BtorSATOp → Except BtorSATAbort BtorSATMgr
  | BtorSATOp.enable_precosat => btor_enable_precosat_sat smgr
  | BtorSATOp.enable_picosat => btor_enable_picosat_sat smgr
  | BtorSATOp.enable_lingeling optstr valid =>
    (btor_enable_lingeling_sat (fun _ => valid) smgr optstr).map (fun r => r.2)
  | BtorSATOp.enable_minisat => btor_enable_minisat_sat smgr
  | BtorSATOp.set_verbosity verbosity => btor_set_verbosity_sat_mgr smgr verbosity
  | BtorSATOp.init incremental solver result => btor_init_sat smgr incremental solver result
  | BtorSATOp.next_cnf_id result =>
    (btor_next_cnf_id_sat_mgr smgr result).map (fun r => r.2)
  | BtorSATOp.release_cnf_id lit => btor_release_cnf_id_sat_mgr smgr lit
  | BtorSATOp.add lit => btor_add_sat smgr lit
  | BtorSATOp.assume lit => btor_assume_sat smgr lit
  | BtorSATOp.sat limit result => (btor_sat_sat smgr limit result).map (fun r => r.2)
  | BtorSATOp.reset => btor_reset_sat smgr

/-- The calls `ops` in order on `smgr`; an error when one of them ends the process.  The
managers `sat_run ops (btor_new_sat_mgr use_lingeling)` are the reachable managers. -/
def sat_run : List BtorSATOp → BtorSATMgr → Except BtorSATAbort BtorSATMgr
  | [], smgr => Except.ok smgr
  | op :: rest, smgr =>
    match sat_step smgr op with
    | Except.ok smgr => sat_run rest smgr
    | Except.error e => Except.error e

/-- The ids that the calls of `btor_next_cnf_id_sat_mgr` return in `ops`, those made by
`btor_init_sat` included, in the order of the calls. -/
def returned_cnf_ids : List BtorSATOp → List Int
  | [] => []
  | BtorSATOp.init _ _ result :: rest => result :: returned_cnf_ids rest
  | BtorSATOp.next_cnf_id result :: rest => result :: returned_cnf_ids rest
  | _ :: rest => returned_cnf_ids rest

/-- The largest element of `ids`, 0 for the empty list. -/
def largest_id (ids : List Int) : Int :=
  ids.foldl max 0

/-- Calls on a manager: ids 1, 2 and 3 are allocated, the manager is reset and initialized
again, and the new solver returns the ids 1 and 2. -/
def ex_reset_ops : List BtorSATOp :=
  [BtorSATOp.init true (some 1) 1, BtorSATOp.next_cnf_id 2, BtorSATOp.next_cnf_id 3,
    BtorSATOp.reset, BtorSATOp.init true (some 1) 1, BtorSATOp.next_cnf_id 2]

/-- The manager after the calls `ex_reset_ops`. -/
def ex_reset_smgr : BtorSATMgr :=
  match sat_run ex_reset_ops (btor_new_sat_mgr true) with
  | Except.ok smgr => smgr
  | Except.error _ => btor_new_sat_mgr true

/-- The manager that a successful `btor_init_sat` leaves. -/
def init_sat_result (smgr : BtorSATMgr) (incremental : Bool) (solver : Option Nat)
    (result : Int) : BtorSATMgr :=
  { smgr with
    solver := solver
    initialized := true
    inc_need := smgr.inc_need && incremental
    maxvar := max smgr.maxvar result
    true_lit := result
    clauses := smgr.clauses + 1
    trace := smgr.trace ++ [BtorSATCall.init, BtorSATCall.inc_max_var, BtorSATCall.add result,
      BtorSATCall.add 0] }

/-! ## Examples and notions for the counters, the call back for the bounds and repeated calls -/

/-- The engine `ex_engine 1` after `bmc (0, 0)` has reached its bad property at bound 0. -/
def ex_reached : BtorMC :=
  ((boolector_mc_bmc (ex_collab [(0, 0)]) (ex_engine 1) 0 0).map (fun r => r.2)).getD
    (ex_engine 1)

/-- The engine `ex_engine nbad` with trace generation on. -/
def ex_engine_traced (nbad : Nat) : BtorMC :=
  (boolector_mc_set_opt (ex_engine nbad) BtorMCOption.BTOR_MC_OPT_TRACE_GEN 1).getD
    (ex_engine nbad)

/-- The local counter `nextstates` of `initialize_next_state_functions_of_frame` at the end
of the loop over the latches `l`, entered with the value `n` : it is increased at every
push of a substituted next-state function. -/
def next_loop_nextstates : List BtorMCLatch → Int → Int
  | [], n => n
  | latch :: rest, n =>
    match latch.next with
    | some _ => next_loop_nextstates rest (n + 1)
    | none => next_loop_nextstates rest n

/-- Invariant of the counters of the engine: `nextstates` and `initialized` count the
latches whose `next`, respectively `init`, is set, and the `next` stack of every frame has
a non-null entry exactly for the latches whose `next` is set. -/
def counters_inv (mc : BtorMC) : Prop :=
  mc.nextstates = ((mc.latches.filter (fun l => l.next.isSome)).length : Int)
  ∧ mc.initialized = ((mc.latches.filter (fun l => l.init.isSome)).length : Int)
  ∧ ∀ (f : BtorMCFrame), f ∈ mc.frames →
      f.next.map Option.isSome = mc.latches.map (fun l => l.next.isSome)

/-- The arguments `k` of the calls of the `starting_bound` call back among the events
`evs`, in the order the calls are made. -/
def starting_bound_calls (evs : List BtorMCEvent) : List Int :=
  evs.filterMap (fun e =>
    match e with
    | BtorMCEvent.starting_bound k => some k
    | _ => none)

/-- A function is installed for `starting_bound` at every call of `boolector_mc_bmc` among
the calls `steps` made on `mc`. -/
def starting_bound_installed (c : Collab) : List BtorMCStep → BtorMC → Bool
  | [], _ => true
  | step :: rest, mc =>
    (match step with
      | BtorMCStep.bmc _ _ => mc.call_backs.starting_bound
      | _ => true)
    && (match api_step c mc step with
      | some mc => starting_bound_installed c rest mc
      | none => true)

/-- The calls of the example with the call back for the bounds: the model is authored, the
call back is installed, and bounds 0 to 2 are checked from `mink = 1`. -/
def ex_bound_steps : List BtorMCStep :=
  ex_model_steps ++ [BtorMCStep.set_starting_bound_call_back true, BtorMCStep.bmc 1 2]

/-- The engine of the example after the calls `ex_bound_steps`. -/
def ex_bounded : BtorMC :=
  (api_run ex_verdicts ex_bound_steps (boolector_mc_new ex_verdicts)).getD
    (boolector_mc_new ex_verdicts)

/-! ## The Lingeling driver of the SAT manager -/

/-- C `isalpha` in the "C" locale. -/
def isalpha (ch : Char) : Bool := ch.isAlpha

/-- C `isalnum` in the "C" locale. -/
def isalnum (ch : Char) : Bool := ch.isAlphanum

/-- C `isdigit`. -/
def isdigit (ch : Char) : Bool := ch.isDigit

/-- The solvers of the Lingeling library that the driver talks to: the solver of the
manager (`blgl->lgl`), the two forks made by `btor_lingeling_sat`, and the throwaway solver
that the option check creates with `lglinit`. -/
inductive LGLSolver where
  | parent
  | forked
  | bforked
  | throwaway
deriving DecidableEq, Repr

/-- Modelled from the spec: the calls of the driver into the Lingeling library (`lglib.h`,
which is not part of the sources), in the order they are made. -/
inductive LGLCall where
  | lglinit
  | lglminit
  | lglrelease (solver : LGLSolver)
  | lglhasopt (solver : LGLSolver) (name : String)
  | lglsetopt (solver : LGLSolver) (name : String) (val : Int)
  | lglgetopt (solver : LGLSolver) (name : String)
  | lglfork (child : LGLSolver)
  | lglsetprefix (solver : LGLSolver) (name : String)
  | lglsetout (solver : LGLSolver)
  | lglsat (solver : LGLSolver)
  | lglstats (solver : LGLSolver)
  | lgljoin (child : LGLSolver)
deriving DecidableEq, Repr

/-- The step `if (*p == '-') p++` of `btor_passdown_lingeling_options`. -/
def skip_minus (p : List Char) : List Char :=
  match p with
  | '-' :: q => q
  | _ => p

/-- The check of the form of one option `opt`, the text up to the next comma, in
`btor_passdown_lingeling_options` : the flag `valid`, the name (the text before `eq`) and the
text `val` after `eq`, when there is one. -/
def check_option_form (opt : List Char) : Bool × List Char × Option (List Char) :=
  match opt with
  | [] => (false, [], none)
  | ch :: rest =>
    if ¬ isalpha ch then (false, opt, none)
    else
      let name := ch :: rest.takeWhile isalnum
      match rest.dropWhile isalnum with
      | '=' :: val =>
        let p := skip_minus val
        match p with
        | d :: _ =>
          if isdigit d then (decide (p.dropWhile isdigit = []), name, some val)
          else (false, name, some val)
        | [] => (false, name, some val)
      | _ => (false, opt, none)

/-- The `for` loop of `btor_passdown_lingeling_options` from the position `p` of the string;
`lglhasopt` is the table of the options that Lingeling knows, `external` tells whether
`external_lgl` is non-null, `lgl` whether the local `lgl` is non-null, `res` is the local
`res`, and `calls` are the calls into the library made so far.  The result is `none` when
the fuel is used up before the end of the string. -/
def passdown_loop (lglhasopt : String → Bool) (external : Bool) :
    Nat → List Char → Bool → Bool → List LGLCall → Option (Bool × Bool × List LGLCall)
  | 0, _, _, _, _ => none
  | _ + 1, [], lgl, res, calls => some (res, lgl, calls)
  | fuel + 1, ch :: rest, lgl, res, calls =>
    if ch = ',' then passdown_loop lglhasopt external fuel rest lgl res calls
    else
      let opt := (ch :: rest).takeWhile (fun x => x ≠ ',')
      let next := (match (ch :: rest).dropWhile (fun x => x ≠ ',') with
        | _ :: next => next
        | [] => [])
      let form := check_option_form opt
      if form.1 then
        let created := !lgl
        let calls := if created then calls ++ [LGLCall.lglinit] else calls
        let solver := if external then LGLSolver.parent else LGLSolver.throwaway
        let calls := calls ++ [LGLCall.lglhasopt solver (String.mk form.2.1)]
        if lglhasopt (String.mk form.2.1) then
          let calls :=
            match external, form.2.2 with
            | true, some val =>
              calls ++ [LGLCall.lglsetopt solver (String.mk form.2.1) (atoi (String.mk val))]
            | _, _ => calls
          passdown_loop lglhasopt external fuel next true res calls
        else passdown_loop lglhasopt external fuel next true false calls
      else passdown_loop lglhasopt external fuel next lgl false calls

/-- `btor_passdown_lingeling_options (smgr, optstr, external_lgl)` : the returned flag and the
calls into the library.  The messages are not part of the state; the value passed to
`lglsetopt` is the `int` that `atoi` returns. -/
def btor_passdown_lingeling_options (lglhasopt : String → Bool) (optstr : String)
    (external : Bool) : Option (Bool × List LGLCall) :=
  match passdown_loop lglhasopt external (optstr.toList.length + 1) optstr.toList external true
      [] with
  | some (res, lgl, calls) =>
    some (res,
      if lgl ∧ ¬ external then calls ++ [LGLCall.lglrelease LGLSolver.throwaway] else calls)
  | none => none

/-- The flag that `btor_passdown_lingeling_options (smgr, optstr, 0)` returns to
`btor_enable_lingeling_sat`. -/
def passdown_valid (lglhasopt : String → Bool) (optstr : String) : Bool :=
  match btor_passdown_lingeling_options lglhasopt optstr false with
  | some r => r.1
  | none => false

/-- `btor_lingeling_init` : the calls into the library; the banner printed at verbosity 1
is not part of the state. -/
def btor_lingeling_init (lglhasopt : String → Bool) (smgr : BtorSATMgr) :
    Option (List LGLCall) :=
  match smgr.optstr with
  | some optstr =>
    match btor_passdown_lingeling_options lglhasopt optstr true with
    | some r => some (LGLCall.lglminit :: r.2)
    | none => none
  | none => some [LGLCall.lglminit]

def BTOR_LINGELING_FORK_LIMIT : Int := 100000

def BTOR_LINGELING_BFORK_LIMIT : Int := 200000

/-- The record `struct BtorLGL` without the pointer to the solver. -/
structure BtorLGL where
  nforked : Int
  nbforked : Int
deriving DecidableEq, Repr

/-- Modelled from the spec: what the Lingeling library returns to `btor_lingeling_sat` : the
table of the known options, the value of the option `verbose` of the solver, and the
results of `lglsat` and `lgljoin` for the fork, for the brute fork and of `lglsat` for the
solver itself. -/
structure LGLAnswers where
  lglhasopt : String → Bool
  verbose : Int
  sat_forked : Int
  join_forked : Int
  sat_bforked : Int
  join_bforked : Int
  sat_parent : Int

/-- The driver function `btor_lingeling_set_opt`, on the solver of the manager. -/
def btor_lingeling_set_opt (a : LGLAnswers) (name : String) (val : Int) : List LGLCall :=
  LGLCall.lglhasopt LGLSolver.parent name ::
    (if a.lglhasopt name then [LGLCall.lglsetopt LGLSolver.parent name val] else [])

/-- The driver function `btor_lingeling_sat` : the result, the record of the forks and the
calls into the library; a failed `assert` ends the call. -/
def btor_lingeling_sat (a : LGLAnswers) (smgr : BtorSATMgr) (blgl : BtorLGL) (limit : Int) :
    Except BtorSATAbort (Int × BtorLGL × List LGLCall) :=
  if limit ≥ BTOR_LINGELING_FORK_LIMIT then
    let calls : List LGLCall :=
      [LGLCall.lglfork LGLSolver.forked,
        LGLCall.lglsetopt LGLSolver.forked "seed" blgl.nforked,
        LGLCall.lglsetprefix LGLSolver.forked ("[lglfork" ++ toString blgl.nforked ++ "] "),
        LGLCall.lglsetout LGLSolver.forked,
        LGLCall.lglgetopt LGLSolver.parent "verbose"]
    let calls :=
      if a.verbose ≠ 0 then calls ++ [LGLCall.lglsetopt LGLSolver.forked "verbose" 1] else calls
    let calls := calls ++
      [LGLCall.lglsetopt LGLSolver.forked "clim" BTOR_LINGELING_BFORK_LIMIT,
        LGLCall.lglsat LGLSolver.forked]
    let res := a.sat_forked
    let calls := if smgr.verbosity > 0 then calls ++ [LGLCall.lglstats LGLSolver.forked] else calls
    let calls := calls ++ [LGLCall.lgljoin LGLSolver.forked]
    let fres := a.join_forked
    if ¬ (res = 0 ∨ fres = res) then Except.error BtorSATAbort.assertion
    else
      let res := fres
      let blgl := { blgl with nforked := blgl.nforked + 1 }
      if res = 0 then
        let calls := calls ++
          [LGLCall.lglfork LGLSolver.bforked,
            LGLCall.lglsetopt LGLSolver.bforked "seed" blgl.nbforked,
            LGLCall.lglsetprefix LGLSolver.bforked
              ("[lglbrutefork" ++ toString blgl.nbforked ++ "] "),
            LGLCall.lglsetout LGLSolver.bforked,
            LGLCall.lglgetopt LGLSolver.parent "verbose"]
        let calls :=
          if a.verbose ≠ 0 then calls ++ [LGLCall.lglsetopt LGLSolver.bforked "verbose" 1]
          else calls
        let calls := calls ++ [LGLCall.lglsat LGLSolver.bforked]
        let res := a.sat_bforked
        if res = 0 then Except.error BtorSATAbort.assertion
        else
          let calls :=
            if smgr.verbosity > 0 then calls ++ [LGLCall.lglstats LGLSolver.bforked] else calls
          let calls := calls ++ [LGLCall.lgljoin LGLSolver.bforked]
          let bfres := a.join_bforked
          if ¬ (bfres = res) then Except.error BtorSATAbort.assertion
          else Except.ok (bfres, { blgl with nbforked := blgl.nbforked + 1 }, calls)
      else Except.ok (res, blgl, calls)
  else
    let calls := btor_lingeling_set_opt a "clim" limit
    Except.ok (a.sat_parent, blgl, calls ++ [LGLCall.lglsat LGLSolver.parent])

/-- A table of options for the examples: Lingeling knows `verbose`, `clim` and `seed`. -/
def ex_lglhasopt (name : String) : Bool :=
  name = "verbose" || name = "clim" || name = "seed"

/-- Modelled from the spec: the exit code of an abort, "a well-known non-zero exit code"
(`BTOR_ERR_EXIT`, declared in `btorexit.h`, which is not part of the sources). -/
def BTOR_ERR_EXIT : Int := 1

/-- The exit code with which `BTOR_ABORT_SAT` ends the process; a failed `assert` ends it
with a signal. -/
def btor_abort_sat_exit : BtorSATAbort → Option Int
  | BtorSATAbort.abort_sat _ _ => some BTOR_ERR_EXIT
  | BtorSATAbort.assertion => none

/-- The manager in memory when `btor_enable_precosat_sat` ends, by its return or by the exit
of `BTOR_ABORT_SAT`. -/
def btor_enable_precosat_sat_memory (smgr : BtorSATMgr) : BtorSATMgr :=
  if smgr.initialized then smgr
  else
    { smgr with
      name := "PrecoSAT"
      optstr := none
      api := BtorSATSolver.PrecoSAT
      inc_need := false
      inc_provides := false
      inc_api := { assume := false, melt := false, failed := false, inconsistent := false,
                   changed := false } }

/-- The manager in memory when `btor_enable_picosat_sat` ends, by its return or by the exit
of `BTOR_ABORT_SAT`. -/
def btor_enable_picosat_sat_memory (smgr : BtorSATMgr) : BtorSATMgr :=
  if smgr.initialized then smgr
  else
    { smgr with
      name := "PicoSAT"
      optstr := none
      api := BtorSATSolver.PicoSAT
      inc_provides := true
      inc_api := { assume := true, melt := false, failed := true, inconsistent := true,
                   changed := true } }

/-- The manager in memory when `btor_enable_lingeling_sat` ends, by its return or by the
exit of `BTOR_ABORT_SAT`. -/
def btor_enable_lingeling_sat_memory (passdown : String → Bool) (smgr : BtorSATMgr)
    (optstr : Option String) : BtorSATMgr :=
  if smgr.initialized then smgr
  else
    let smgr := { smgr with optstr := optstr }
    let invalid : Bool :=
      match optstr with
      | some s => !passdown s
      | none => false
    if invalid then smgr
    else
      { smgr with
        name := "Lingeling"
        api := BtorSATSolver.Lingeling
        inc_provides := true
        inc_api := { assume := true, melt := true, failed := true, inconsistent := true,
                     changed := true } }

/-- The manager in memory when `btor_enable_minisat_sat` ends, by its return or by the exit
of `BTOR_ABORT_SAT`. -/
def btor_enable_minisat_sat_memory (smgr : BtorSATMgr) : BtorSATMgr :=
  if smgr.initialized then smgr
  else
    { smgr with
      name := "MiniSAT"
      optstr := none
      api := BtorSATSolver.MiniSAT
      inc_provides := true
      inc_api := { assume := true, melt := false, failed := true, inconsistent := true,
                   changed := true } }

/-- Calls on a manager: the drivers of PrecoSAT and then of MiniSAT are installed, the
manager is initialized in non-incremental mode, a unit clause is added, the solver is
called and the manager is reset. -/
def ex_minisat_ops : List BtorSATOp :=
  [BtorSATOp.enable_precosat, BtorSATOp.enable_minisat, BtorSATOp.init false (some 1) 1,
    BtorSATOp.add 1, BtorSATOp.add 0, BtorSATOp.sat (-1) 10, BtorSATOp.reset]

/-- The manager after the calls `ex_minisat_ops`. -/
def ex_minisat_smgr : BtorSATMgr :=
  match sat_run ex_minisat_ops (btor_new_sat_mgr true) with
  | Except.ok smgr => smgr
  | Except.error _ => btor_new_sat_mgr true

/-- Answers of the library for the examples: the fork ends without a result within its
limit, the brute fork finds the formula unsatisfiable. -/
def ex_lglanswers : LGLAnswers :=
  { lglhasopt := ex_lglhasopt
    verbose := 0
    sat_forked := 0
    join_forked := 0
    sat_bforked := 20
    join_bforked := 20
    sat_parent := 10 }

/-- A record of the forks for the examples: no fork has been made. -/
def ex_blgl : BtorLGL :=
  { nforked := 0, nbforked := 0 }

/-! ## The option string of Lingeling as the specification describes it -/

/-- Specification side: the segments of an option string, the texts between its commas. -/
def spec_segments (optstr : String) : List (List Char) :=
  optstr.toList.splitOn ','

/-- Specification side: a key is a letter followed by letters and digits. -/
def spec_key (key : List Char) : Bool :=
  match key with
  | ch :: rest => ch.isAlpha && rest.all Char.isAlphanum
  | [] => false

/-- Specification side: a value is an optional `-` followed by one or more decimal digits
and nothing else. -/
def spec_value (value : List Char) : Bool :=
  match value with
  | '-' :: digits => !digits.isEmpty && digits.all Char.isDigit
  | digits => !digits.isEmpty && digits.all Char.isDigit

/-- Specification side: the key and the value of a segment of the form `key=value`, split
at its first `=`. -/
def spec_option (seg : List Char) : Option (List Char × List Char) :=
  match seg.dropWhile (fun x => x ≠ '=') with
  | _ :: value =>
    if spec_key (seg.takeWhile (fun x => x ≠ '=')) && spec_value value then
      some (seg.takeWhile (fun x => x ≠ '='), value)
    else none
  | [] => none

/-- Specification side: a segment is accepted when it is empty, or has the form `key=value`
with a key that the solver knows. -/
def spec_segment_accepted (lglhasopt : String → Bool) (seg : List Char) : Bool :=
  seg.isEmpty ||
    (match spec_option seg with
      | some kv => lglhasopt (String.mk kv.1)
      | none => false)

/-- Specification side: the value of a sequence of decimal digits. -/
def spec_digits_value (digits : List Char) : Int :=
  digits.foldl (fun n ch => n * 10 + ((ch.toNat - '0'.toNat : Nat) : Int)) 0

/-- Specification side: the decimal value of a value. -/
def spec_decimal (value : List Char) : Int :=
  match value with
  | '-' :: digits => - spec_digits_value digits
  | digits => spec_digits_value digits

/-- Specification side: the options that an option string sets, with their values, in the
order of the string: one for each segment of the form `key=value` whose key the solver
knows. -/
def spec_options_set (lglhasopt : String → Bool) (optstr : String) : List (String × Int) :=
  (spec_segments optstr).filterMap (fun seg =>
    match spec_option seg with
    | some kv => if lglhasopt (String.mk kv.1) then some (String.mk kv.1, spec_decimal kv.2) else none
    | none => none)

/-- The calls of `lglsetopt` on the solver of the manager among the calls `calls`, as pairs
of the option and the value, in the order they are made. -/
def lglsetopt_calls (calls : List LGLCall) : List (String × Int) :=
  calls.filterMap (fun e =>
    match e with
    | LGLCall.lglsetopt LGLSolver.parent name val => some (name, val)
    | _ => none)

/-- The calls that the loop of `btor_passdown_lingeling_options` makes on the solver of the
manager for the segments `segs` : the query of the key of every segment of the form
`key=value`, followed by the setting of the option, to the decimal value as an `int`, when
the solver knows the key. -/
def external_calls (lglhasopt : String → Bool) (segs : List (List Char)) : List LGLCall :=
  segs.flatMap (fun seg =>
    match spec_option seg with
    | some kv =>
      LGLCall.lglhasopt LGLSolver.parent (String.mk kv.1) ::
        (if lglhasopt (String.mk kv.1) then
          [LGLCall.lglsetopt LGLSolver.parent (String.mk kv.1) (to_int32 (spec_decimal kv.2))]
        else [])
    | none => [])

/-! ## The images of the constraints in a frame -/

/-- The images of the constraints `srcs` that the loop of `initialize_constraints_of_frame`
computes, in the order of the constraints: each is what
`boolector_nodemap_non_recursive_substitute_node` returns for the constraint in the forward
circuit and with the node map that the walks before it have left; `constraint` is the
conjunction built so far, which `boolector_and` adds to the forward circuit. -/
def constraint_images (c : Collab) (mc : BtorMC) :
    List BoolectorNode → Option BoolectorNode → Btor → BoolectorNodeMap → List BoolectorNode
  | [], _, _, _ => []
  | src :: rest, constraint, forward, map =>
    let (dst, forward, map) := c.substitute mc.btor forward map src
    match constraint with
    | some constraint =>
      let (tmp, forward) := boolector_and forward constraint dst
      dst :: constraint_images c mc rest (some tmp) forward map
    | none => dst :: constraint_images c mc rest (some dst) forward map

/-- The forward circuit and the node map with which `initialize_new_forward_frame`, building
the next frame of `mc`, calls `initialize_constraints_of_frame` : the node map of the new
frame, which maps the inputs and the latches of the model to the entries of the frame
(`map_inputs_and_latches_of_frame`), after the substitution of the next-state functions. -/
def constraints_entry (c : Collab) (mc : BtorMC) : Btor × BoolectorNodeMap :=
  let time : Int := mc.frames.length
  let f : BtorMCFrame :=
    { time := time, model2const := none, inputs := [], init := [], latches := [], next := [],
      bad := [] }
  let forward := forward_manager mc
  let (f, forward) := initialize_inputs_of_frame mc forward f
  let (f, forward) := initialize_latches_of_frame mc forward f
  let map := map_inputs_and_latches_of_frame mc f
  let (_, forward, map) := initialize_next_state_functions_of_frame c mc forward map f
  (forward, map)

/-- The images in the next frame of `mc` of the registered constraints, in the order of
registration. -/
def frame_constraint_images (c : Collab) (mc : BtorMC) : List BoolectorNode :=
  constraint_images c mc mc.constraints none (constraints_entry c mc).1 (constraints_entry c mc).2

/-! ## The frame builder and the check of one bound -/

theorem initialize_bad_loop_isSome (c : Collab) (mc : BtorMC) :
    ∀ (l : List BoolectorNode) (i : Nat) (acc : BoolectorNodePtrStack) (fw : Btor)
      (map : BoolectorNodeMap),
      (initialize_bad_loop c mc l i acc fw map).1.map Option.isSome
        = acc.map Option.isSome
          ++ (List.range' i l.length).map (fun j => decide (peek_reached mc j < 0)) := by
  intro l
  induction l with
  | nil => intro i acc fw map; simp [initialize_bad_loop]
  | cons src rest ih =>
    intro i acc fw map
    unfold initialize_bad_loop
    by_cases h : peek_reached mc i < 0
    · simp only [h, if_true]
      rw [ih]
      simp [List.range', h]
    · simp only [h, if_false]
      rw [ih]
      simp [List.range', h]

/-- The frame pushed by `initialize_new_forward_frame`. -/
theorem new_frame_spec (c : Collab) (mc : BtorMC) :
    ∃ f : BtorMCFrame, (initialize_new_forward_frame c mc).frames = mc.frames ++ [f]
      ∧ f.time = (mc.frames.length : Int) ∧ f.model2const = none
      ∧ f.bad.map Option.isSome
          = (List.range mc.bad.length).map (fun j => decide (peek_reached mc j < 0)) := by
  refine ⟨_, rfl, rfl, rfl, ?_⟩
  have := initialize_bad_loop_isSome c mc mc.bad 0 []
  simp only [List.map_nil, List.nil_append] at this
  rw [List.range_eq_range']
  exact this _ _

theorem check_bad_loop_frame (c : Collab) (k : Int) :
    ∀ (l : BoolectorNodePtrStack) (i : Nat) (s : Int) (m : BtorMC),
      (check_bad_loop c k l i s m).2
        = { m with
            state := (check_bad_loop c k l i s m).2.state
            reached := (check_bad_loop c k l i s m).2.reached
            num_reached := (check_bad_loop c k l i s m).2.num_reached
            trace := (check_bad_loop c k l i s m).2.trace } := by
  intro l
  induction l with
  | nil => intro i s m; rfl
  | cons b rest ih =>
    intro i s m
    cases b with
    | none => simp only [check_bad_loop]; exact ih _ _ _
    | some b =>
      simp only [check_bad_loop]
      split
      · split
        · split
          · rw [ih]
          · rw [ih]
        · rw [ih]
      · rw [ih]

theorem reaches_set_of_ne (c : Collab) (k v : Int) (reached : List Int) (i j : Nat) (h : i ≠ j) :
    reaches c k (reached.set i v) j = reaches c k reached j := by
  simp [reaches, List.getElem?_set_ne h]

theorem check_bad_loop_spec (c : Collab) (k : Int) :
    ∀ (l : BoolectorNodePtrStack) (i : Nat) (s : Int) (m : BtorMC),
      l.map Option.isSome
          = (List.range' i l.length).map (fun j => decide (peek_reached m j < 0)) →
      (check_bad_loop c k l i s m).1
          = s + (((List.range' i l.length).filter (reaches c k m.reached)).length : Int)
      ∧ (check_bad_loop c k l i s m).2.num_reached
          = m.num_reached + (((List.range' i l.length).filter (reaches c k m.reached)).length : Int)
      ∧ (check_bad_loop c k l i s m).2.reached.length = m.reached.length
      ∧ ∀ j, peek_reached (check_bad_loop c k l i s m).2 j
          = if i ≤ j ∧ j < i + l.length ∧ reaches c k m.reached j = true then k
            else peek_reached m j := by
  intro l
  induction l with
  | nil =>
    intro i s m _
    simp only [check_bad_loop, List.length_nil, List.range'_zero, List.filter_nil, Nat.cast_zero,
      add_zero, true_and]
    intro j
    rw [if_neg (fun h => by omega)]
  | cons b rest ih =>
    intro i s m hpat
    simp only [List.length_cons, List.range'_succ, List.map_cons, List.cons.injEq] at hpat
    obtain ⟨hb, hrest⟩ := hpat
    -- the entry `i` leaves `reached` and the counters as they are
    have key_same : ∀ (m3 : BtorMC), m3.reached = m.reached → m3.num_reached = m.num_reached →
        reaches c k m.reached i = false →
        (check_bad_loop c k rest (i + 1) s m3).1
          = s + (((List.range' i (rest.length + 1)).filter (reaches c k m.reached)).length : Int)
        ∧ (check_bad_loop c k rest (i + 1) s m3).2.num_reached
          = m.num_reached
            + (((List.range' i (rest.length + 1)).filter (reaches c k m.reached)).length : Int)
        ∧ (check_bad_loop c k rest (i + 1) s m3).2.reached.length = m.reached.length
        ∧ ∀ j, peek_reached (check_bad_loop c k rest (i + 1) s m3).2 j
          = if i ≤ j ∧ j < i + (rest.length + 1) ∧ reaches c k m.reached j = true then k
            else peek_reached m j := by
      intro m3 hr3 hn3 hri
      have hpat3 : rest.map Option.isSome
          = (List.range' (i + 1) rest.length).map (fun j => decide (peek_reached m3 j < 0)) := by
        rw [hrest]; simp only [peek_reached, hr3]
      obtain ⟨h1, h2, h3, h4⟩ := ih (i + 1) s m3 hpat3
      rw [hr3] at h1 h2 h3
      simp only [List.range'_succ, List.filter_cons, hri]
      refine ⟨by simpa using h1, by rw [h2, hn3]; simp, h3, ?_⟩
      intro j
      rw [h4 j]
      have e1 : peek_reached m3 j = peek_reached m j := by simp only [peek_reached, hr3]
      rw [e1, hr3]
      by_cases hj : j = i
      · subst hj
        rw [if_neg (fun h => by omega),
          if_neg (fun h => by have := h.2.2; rw [hri] at this; cases this)]
      · by_cases hr : reaches c k m.reached j = true
        · by_cases hin : i + 1 ≤ j ∧ j < i + 1 + rest.length
          · rw [if_pos ⟨hin.1, hin.2, hr⟩, if_pos ⟨by omega, by omega, hr⟩]
          · rw [if_neg (fun h => hin ⟨h.1, h.2.1⟩), if_neg (fun h => hin ⟨by omega, by omega⟩)]
        · rw [if_neg (fun h => hr h.2.2), if_neg (fun h => hr h.2.2)]
    -- the entry `i` is reached at this bound
    have key_set : ∀ (m3 : BtorMC), m3.reached = m.reached.set i k →
        m3.num_reached = m.num_reached + 1 → reaches c k m.reached i = true →
        i < m.reached.length →
        (check_bad_loop c k rest (i + 1) (s + 1) m3).1
          = s + (((List.range' i (rest.length + 1)).filter (reaches c k m.reached)).length : Int)
        ∧ (check_bad_loop c k rest (i + 1) (s + 1) m3).2.num_reached
          = m.num_reached
            + (((List.range' i (rest.length + 1)).filter (reaches c k m.reached)).length : Int)
        ∧ (check_bad_loop c k rest (i + 1) (s + 1) m3).2.reached.length = m.reached.length
        ∧ ∀ j, peek_reached (check_bad_loop c k rest (i + 1) (s + 1) m3).2 j
          = if i ≤ j ∧ j < i + (rest.length + 1) ∧ reaches c k m.reached j = true then k
            else peek_reached m j := by
      intro m3 hr3 hn3 hri hlt
      have hpat3 : rest.map Option.isSome
          = (List.range' (i + 1) rest.length).map (fun j => decide (peek_reached m3 j < 0)) := by
        rw [hrest]
        apply List.map_congr_left
        intro j hj
        have hj' : i + 1 ≤ j := (List.mem_range'_1.mp hj).1
        have hne : i ≠ j := by omega
        simp [peek_reached, hr3, List.getElem?_set_ne hne]
      have hfil : (List.range' (i + 1) rest.length).filter (reaches c k m3.reached)
          = (List.range' (i + 1) rest.length).filter (reaches c k m.reached) := by
        apply List.filter_congr
        intro j hj
        have hj' : i + 1 ≤ j := (List.mem_range'_1.mp hj).1
        have hne : i ≠ j := by omega
        rw [hr3, reaches_set_of_ne c k k m.reached i j hne]
      obtain ⟨h1, h2, h3, h4⟩ := ih (i + 1) (s + 1) m3 hpat3
      rw [hfil] at h1 h2
      simp only [List.range'_succ, List.filter_cons, hri, if_true, List.length_cons]
      refine ⟨by rw [h1]; push_cast; ring, by rw [h2, hn3]; push_cast; ring,
        by rw [h3, hr3, List.length_set], ?_⟩
      intro j
      rw [h4 j]
      by_cases hj : j = i
      · subst hj
        rw [if_neg (fun h => by omega), if_pos ⟨le_refl _, by omega, hri⟩]
        simp [peek_reached, hr3, List.getElem?_set_self hlt]
      · have hne : i ≠ j := fun h => hj h.symm
        have e1 : peek_reached m3 j = peek_reached m j := by
          simp [peek_reached, hr3, List.getElem?_set_ne hne]
        have e2 : reaches c k m3.reached j = reaches c k m.reached j := by
          rw [hr3, reaches_set_of_ne c k k m.reached i j hne]
        rw [e1, e2]
        by_cases hr : reaches c k m.reached j = true
        · by_cases hin : i + 1 ≤ j ∧ j < i + 1 + rest.length
          · rw [if_pos ⟨hin.1, hin.2, hr⟩, if_pos ⟨by omega, by omega, hr⟩]
          · rw [if_neg (fun h => hin ⟨h.1, h.2.1⟩), if_neg (fun h => hin ⟨by omega, by omega⟩)]
        · rw [if_neg (fun h => hr h.2.2), if_neg (fun h => hr h.2.2)]
    cases b with
    | none =>
      have hi : ¬ peek_reached m i < 0 := by simpa using hb
      have hri : reaches c k m.reached i = false := by
        have : ¬ m.reached.getD i 0 < 0 := hi
        simp only [reaches, this, decide_False, Bool.false_and]
      simp only [check_bad_loop, List.length_cons]
      exact key_same m rfl rfl hri
    | some b =>
      have hi0 : peek_reached m i < 0 := by simpa using hb
      have hi : m.reached.getD i 0 < 0 := hi0
      by_cases hsat : c.sat k i = BoolectorResult.BOOLECTOR_SAT
      · have hri : reaches c k m.reached i = true := by
          simp only [reaches, hi, hsat, decide_True, Bool.and_self]
        have hlt : i < m.reached.length := by
          by_contra hcon
          have : m.reached.getD i 0 = 0 := by
            simp [List.getElem?_eq_none (Nat.le_of_not_lt hcon)]
          omega
        have hi' : peek_reached { { m with trace := m.trace ++ [BtorMCEvent.sat_call k i b] } with
            state := BtorMCState.BTOR_SAT_MC_STATE } i < 0 := hi
        simp only [check_bad_loop, hsat, if_true, hi', List.length_cons]
        split
        · exact key_set _ rfl rfl hri hlt
        · exact key_set _ rfl rfl hri hlt
      · have hri : reaches c k m.reached i = false := by
          simp only [reaches, hsat, decide_False, Bool.and_false]
        simp only [check_bad_loop, hsat, if_false, List.length_cons]
        exact key_same _ rfl rfl hri

theorem starting_bound_call_back_eq (mc : BtorMC) :
    starting_bound_call_back mc = { mc with trace := (starting_bound_call_back mc).trace } := by
  unfold starting_bound_call_back
  split <;> rfl

theorem check_last_forward_frame_eq (c : Collab) (m : BtorMC) :
    (check_last_forward_frame c m).2
      = { m with
          state := (check_last_forward_frame c m).2.state
          reached := (check_last_forward_frame c m).2.reached
          num_reached := (check_last_forward_frame c m).2.num_reached
          trace := (check_last_forward_frame c m).2.trace } := by
  unfold check_last_forward_frame
  cases m.frames.getLast? with
  | none => rfl
  | some f => exact check_bad_loop_frame c _ _ _ _ _

/-- Checking the frame that was just built on `mc` at bound `k = |frames|`. -/
theorem check_new_frame_spec (c : Collab) (mc : BtorMC) :
    (check_last_forward_frame c (initialize_new_forward_frame c mc)).1
        = ((newly_reached c (mc.frames.length : Int) mc).length : Int)
    ∧ (check_last_forward_frame c (initialize_new_forward_frame c mc)).2.num_reached
        = mc.num_reached + ((newly_reached c (mc.frames.length : Int) mc).length : Int)
    ∧ (check_last_forward_frame c (initialize_new_forward_frame c mc)).2.reached.length
        = mc.reached.length
    ∧ ∀ j, peek_reached (check_last_forward_frame c (initialize_new_forward_frame c mc)).2 j
        = if j < mc.bad.length ∧ reaches c (mc.frames.length : Int) mc.reached j = true
          then (mc.frames.length : Int) else peek_reached mc j := by
  obtain ⟨f, hf, -, -, hbad⟩ := new_frame_spec c mc
  have hlen : f.bad.length = mc.bad.length := by
    have := congrArg List.length hbad
    simpa using this
  have hk : (((initialize_new_forward_frame c mc).frames.length : Int) - 1)
      = (mc.frames.length : Int) := by
    rw [hf]; simp
  have hpat : f.bad.map Option.isSome
      = (List.range' 0 f.bad.length).map
          (fun j => decide (peek_reached (initialize_new_forward_frame c mc) j < 0)) := by
    rw [hbad, hlen, List.range_eq_range']
    rfl
  have hspec := check_bad_loop_spec c (mc.frames.length : Int) f.bad 0 0
    (initialize_new_forward_frame c mc) hpat
  have hunf : check_last_forward_frame c (initialize_new_forward_frame c mc)
      = check_bad_loop c (mc.frames.length : Int) f.bad 0 0 (initialize_new_forward_frame c mc) := by
    unfold check_last_forward_frame
    rw [hk, hf, List.getLast?_append]
    rfl
  rw [hunf]
  obtain ⟨h1, h2, h3, h4⟩ := hspec
  rw [hlen, ← List.range_eq_range'] at h1 h2
  refine ⟨by simpa [newly_reached] using h1, ?_, h3, ?_⟩
  · rw [h2]; rfl
  · intro j
    rw [h4 j, hlen]
    simp only [Nat.zero_le, true_and, Nat.zero_add]
    rfl

theorem starting_bound_call_back_frames (mc : BtorMC) :
    (starting_bound_call_back mc).frames = mc.frames := by
  rw [starting_bound_call_back_eq]

theorem check_last_forward_frame_frames (c : Collab) (m : BtorMC) :
    (check_last_forward_frame c m).2.frames = m.frames := by
  rw [check_last_forward_frame_eq]

theorem new_frame_length (c : Collab) (mc : BtorMC) :
    (initialize_new_forward_frame c (starting_bound_call_back mc)).frames.length
      = mc.frames.length + 1 := by
  obtain ⟨f, hf, -⟩ := new_frame_spec c (starting_bound_call_back mc)
  rw [hf, starting_bound_call_back_frames]
  simp

/-- Proof rule for the loop of `boolector_mc_bmc` : an invariant of the loop head that is
kept by a skipped bound and by a checked bound that does not return, and a postcondition
established at a return and at the exit, give the postcondition for enough fuel. -/
theorem bmc_loop_rule (c : Collab) (mink maxk : Int) (Inv : BtorMC → Prop)
    (Post : Int → BtorMC → Prop)
    (hskip : ∀ mc, Inv mc → (mc.frames.length : Int) ≤ maxk → (mc.frames.length : Int) < mink →
      Inv (initialize_new_forward_frame c (starting_bound_call_back mc)))
    (hcheck : ∀ mc, Inv mc → (mc.frames.length : Int) ≤ maxk → mink ≤ (mc.frames.length : Int) →
      ∀ s mc2,
        check_last_forward_frame c (initialize_new_forward_frame c (starting_bound_call_back mc))
          = (s, mc2) →
        ((s ≠ 0 ∧ (boolector_mc_get_opt mc2 BtorMCOption.BTOR_MC_OPT_STOP_FIRST ≠ 0
            ∨ mc2.num_reached = mc2.bad.length ∨ (mc.frames.length : Int) = maxk)) →
          Post (mc.frames.length : Int) mc2)
        ∧ (¬ (s ≠ 0 ∧ (boolector_mc_get_opt mc2 BtorMCOption.BTOR_MC_OPT_STOP_FIRST ≠ 0
            ∨ mc2.num_reached = mc2.bad.length ∨ (mc.frames.length : Int) = maxk)) → Inv mc2))
    (hexit : ∀ mc, Inv mc → maxk < (mc.frames.length : Int) →
      Post (-1) { mc with state := BtorMCState.BTOR_UNSAT_MC_STATE }) :
    ∀ (fuel : Nat) (mc : BtorMC), Inv mc →
      (maxk + 1 - (mc.frames.length : Int)).toNat < fuel →
      ∃ r mc', bmc_loop c mink maxk fuel mc = some (r, mc') ∧ Post r mc' := by
  intro fuel
  induction fuel with
  | zero => intro mc _ h; omega
  | succ fuel ih =>
    intro mc hinv hfuel
    unfold bmc_loop
    by_cases hk : (mc.frames.length : Int) ≤ maxk
    · simp only [hk, if_true]
      have hlen := new_frame_length c mc
      by_cases hm : (mc.frames.length : Int) < mink
      · simp only [hm, if_true]
        apply ih _ (hskip mc hinv hk hm)
        rw [hlen]; push_cast; omega
      · simp only [hm, if_false]
        rcases hres : check_last_forward_frame c
          (initialize_new_forward_frame c (starting_bound_call_back mc)) with ⟨s, mc2⟩
        have hc := hcheck mc hinv hk (not_lt.mp hm) s mc2 hres
        have hfr : mc2.frames.length = mc.frames.length + 1 := by
          have := check_last_forward_frame_frames c
            (initialize_new_forward_frame c (starting_bound_call_back mc))
          rw [hres] at this
          rw [this, hlen]
        by_cases hs : s ≠ 0
        · rw [if_pos hs]
          by_cases hstop : boolector_mc_get_opt mc2 BtorMCOption.BTOR_MC_OPT_STOP_FIRST ≠ 0
              ∨ mc2.num_reached = mc2.bad.length ∨ (mc.frames.length : Int) = maxk
          · rw [if_pos hstop]
            exact ⟨_, _, rfl, hc.1 ⟨hs, hstop⟩⟩
          · rw [if_neg hstop]
            apply ih _ (hc.2 (fun h => hstop h.2))
            rw [hfr]; push_cast; omega
        · rw [if_neg hs]
          apply ih _ (hc.2 (fun h => hs h.1))
          rw [hfr]; push_cast; omega
    · simp only [hk, if_false]
      exact ⟨_, _, rfl, hexit mc hinv (not_le.mp hk)⟩

theorem check_bad_loop_trace (c : Collab) (k : Int) :
    ∀ (l : BoolectorNodePtrStack) (i : Nat) (s : Int) (m : BtorMC),
      ∃ evs, (check_bad_loop c k l i s m).2.trace = m.trace ++ evs
        ∧ ∀ k' i' b, BtorMCEvent.sat_call k' i' b ∈ evs → k' = k ∧ i ≤ i' ∧ i' < i + l.length := by
  intro l
  induction l with
  | nil => intro i s m; exact ⟨[], by simp [check_bad_loop], by simp⟩
  | cons b rest ih =>
    intro i s m
    have key : ∀ (m3 : BtorMC) (s3 : Int) (ev0 : List BtorMCEvent),
        m3.trace = m.trace ++ ev0 →
        (∀ k' i' b, BtorMCEvent.sat_call k' i' b ∈ ev0 → k' = k ∧ i' = i) →
        ∃ evs, (check_bad_loop c k rest (i + 1) s3 m3).2.trace = m.trace ++ evs
          ∧ ∀ k' i' b, BtorMCEvent.sat_call k' i' b ∈ evs →
              k' = k ∧ i ≤ i' ∧ i' < i + (rest.length + 1) := by
      intro m3 s3 ev0 htr hev0
      obtain ⟨evs, h1, h2⟩ := ih (i + 1) s3 m3
      refine ⟨ev0 ++ evs, by rw [h1, htr, List.append_assoc], ?_⟩
      intro k' i' b' hmem
      rcases List.mem_append.mp hmem with h | h
      · obtain ⟨hk, hi⟩ := hev0 k' i' b' h
        exact ⟨hk, by omega, by omega⟩
      · obtain ⟨hk, hi1, hi2⟩ := h2 k' i' b' h
        exact ⟨hk, by omega, by omega⟩
    cases b with
    | none =>
      simp only [check_bad_loop, List.length_cons]
      exact key m s [] (by simp) (by simp)
    | some b =>
      simp only [check_bad_loop, List.length_cons]
      split
      · split
        · split
          · refine key _ _ [BtorMCEvent.sat_call k i b, BtorMCEvent.reached_at_bound i k]
              (by simp) ?_
            intro k' i' b' hmem
            simp at hmem
            exact ⟨hmem.1, hmem.2.1⟩
          · refine key _ _ [BtorMCEvent.sat_call k i b] (by simp) ?_
            intro k' i' b' hmem
            simp at hmem
            exact ⟨hmem.1, hmem.2.1⟩
        · refine key _ _ [BtorMCEvent.sat_call k i b] (by simp) ?_
          intro k' i' b' hmem
          simp at hmem
          exact ⟨hmem.1, hmem.2.1⟩
      · refine key _ _ [BtorMCEvent.sat_call k i b] (by simp) ?_
        intro k' i' b' hmem
        simp at hmem
        exact ⟨hmem.1, hmem.2.1⟩

/-- Solver queries made when the frame just built on `mc` is checked. -/
theorem check_new_frame_trace (c : Collab) (mc : BtorMC) :
    ∃ evs, (check_last_forward_frame c (initialize_new_forward_frame c mc)).2.trace
        = mc.trace ++ evs
      ∧ ∀ k' i' b, BtorMCEvent.sat_call k' i' b ∈ evs →
          k' = (mc.frames.length : Int) ∧ i' < mc.bad.length := by
  obtain ⟨f, hf, -, -, hbad⟩ := new_frame_spec c mc
  have hlen : f.bad.length = mc.bad.length := by
    have := congrArg List.length hbad
    simpa using this
  have hk : (((initialize_new_forward_frame c mc).frames.length : Int) - 1)
      = (mc.frames.length : Int) := by
    rw [hf]; simp
  have hunf : check_last_forward_frame c (initialize_new_forward_frame c mc)
      = check_bad_loop c (mc.frames.length : Int) f.bad 0 0 (initialize_new_forward_frame c mc) := by
    unfold check_last_forward_frame
    rw [hk, hf, List.getLast?_append]
    rfl
  rw [hunf]
  obtain ⟨evs, h1, h2⟩ := check_bad_loop_trace c (mc.frames.length : Int) f.bad 0 0
    (initialize_new_forward_frame c mc)
  refine ⟨evs, h1, ?_⟩
  intro k' i' b hmem
  obtain ⟨hk', -, hi'⟩ := h2 k' i' b hmem
  exact ⟨hk', by omega⟩

/-- One iteration of the loop of `boolector_mc_bmc` that checks its bound, from the loop
head `m` : the frame is pushed, and the check reaches exactly the properties of
`newly_reached`. -/
theorem checked_iteration_spec (c : Collab) (m : BtorMC) :
    (check_last_forward_frame c
        (initialize_new_forward_frame c (starting_bound_call_back m))).1
      = ((newly_reached c (m.frames.length : Int) m).length : Int)
    ∧ (check_last_forward_frame c
        (initialize_new_forward_frame c (starting_bound_call_back m))).2.num_reached
      = m.num_reached + ((newly_reached c (m.frames.length : Int) m).length : Int)
    ∧ (check_last_forward_frame c
        (initialize_new_forward_frame c (starting_bound_call_back m))).2.reached.length
      = m.reached.length
    ∧ (∀ j, peek_reached (check_last_forward_frame c
          (initialize_new_forward_frame c (starting_bound_call_back m))).2 j
        = if j < m.bad.length ∧ reaches c (m.frames.length : Int) m.reached j = true
          then (m.frames.length : Int) else peek_reached m j)
    ∧ (∃ evs, (check_last_forward_frame c
          (initialize_new_forward_frame c (starting_bound_call_back m))).2.trace = m.trace ++ evs
        ∧ ∀ k' i' b, BtorMCEvent.sat_call k' i' b ∈ evs →
            k' = (m.frames.length : Int) ∧ i' < m.bad.length) := by
  have htr : ∃ ev0, (starting_bound_call_back m).trace = m.trace ++ ev0
      ∧ ∀ k' i' b, BtorMCEvent.sat_call k' i' b ∉ ev0 := by
    unfold starting_bound_call_back
    split
    · exact ⟨[BtorMCEvent.starting_bound (m.frames.length : Int)], rfl, by simp⟩
    · exact ⟨[], by simp, by simp⟩
  have hx := starting_bound_call_back_eq m
  generalize starting_bound_call_back m = x at hx htr
  have hb : x.bad = m.bad := by rw [hx]
  have hr : x.reached = m.reached := by rw [hx]
  have hn : x.num_reached = m.num_reached := by rw [hx]
  have hf : x.frames = m.frames := by rw [hx]
  have hnew : newly_reached c (m.frames.length : Int) x = newly_reached c (m.frames.length : Int) m := by
    simp only [newly_reached, hb, hr]
  obtain ⟨h1, h2, h3, h4⟩ := check_new_frame_spec c x
  obtain ⟨evs, h5, h6⟩ := check_new_frame_trace c x
  rw [hf, hnew] at h1 h2
  rw [hr] at h3
  refine ⟨h1, by rw [h2, hn], h3, ?_, ?_⟩
  · intro j
    rw [h4 j, hb, hr, hf]
    simp only [peek_reached, hr]
  · obtain ⟨ev0, ht0, hno⟩ := htr
    refine ⟨ev0 ++ evs, by rw [h5, ht0, List.append_assoc], ?_⟩
    intro k' i' b hmem
    rcases List.mem_append.mp hmem with h | h
    · exact absurd h (hno k' i' b)
    · rw [← hf, ← hb]
      exact h6 k' i' b h

/-- Fields left alone by one iteration of the loop of `boolector_mc_bmc`. -/
theorem checked_iteration_fields (c : Collab) (m : BtorMC) :
    (check_last_forward_frame c
        (initialize_new_forward_frame c (starting_bound_call_back m))).2.bad = m.bad
    ∧ (check_last_forward_frame c
        (initialize_new_forward_frame c (starting_bound_call_back m))).2.options = m.options
    ∧ (check_last_forward_frame c
        (initialize_new_forward_frame c (starting_bound_call_back m))).2.call_backs = m.call_backs
    ∧ (check_last_forward_frame c
        (initialize_new_forward_frame c (starting_bound_call_back m))).2.inputs = m.inputs
    ∧ (check_last_forward_frame c
        (initialize_new_forward_frame c (starting_bound_call_back m))).2.latches = m.latches
    ∧ (check_last_forward_frame c
        (initialize_new_forward_frame c (starting_bound_call_back m))).2.constraints
        = m.constraints
    ∧ ∃ f, (check_last_forward_frame c
        (initialize_new_forward_frame c (starting_bound_call_back m))).2.frames = m.frames ++ [f]
        ∧ f.time = (m.frames.length : Int) ∧ f.model2const = none := by
  have hx := starting_bound_call_back_eq m
  generalize starting_bound_call_back m = x at hx
  rw [check_last_forward_frame_eq]
  obtain ⟨f, hf, ht, hm, -⟩ := new_frame_spec c x
  have hfr : x.frames = m.frames := by rw [hx]
  refine ⟨?_, ?_, ?_, ?_, ?_, ?_, f, ?_, ?_, hm⟩
  · show x.bad = m.bad
    rw [hx]
  · show x.options = m.options
    rw [hx]
  · show x.call_backs = m.call_backs
    rw [hx]
  · show x.inputs = m.inputs
    rw [hx]
  · show x.latches = m.latches
    rw [hx]
  · show x.constraints = m.constraints
    rw [hx]
  · show (initialize_new_forward_frame c x).frames = m.frames ++ [f]
    rw [hf, hfr]
  · rw [ht, hfr]

/-- Fields left alone by an iteration that skips the check (`k < mink`). -/
theorem skipped_iteration_fields (c : Collab) (m : BtorMC) :
    (initialize_new_forward_frame c (starting_bound_call_back m)).bad = m.bad
    ∧ (initialize_new_forward_frame c (starting_bound_call_back m)).options = m.options
    ∧ (initialize_new_forward_frame c (starting_bound_call_back m)).call_backs = m.call_backs
    ∧ (initialize_new_forward_frame c (starting_bound_call_back m)).inputs = m.inputs
    ∧ (initialize_new_forward_frame c (starting_bound_call_back m)).latches = m.latches
    ∧ (initialize_new_forward_frame c (starting_bound_call_back m)).constraints = m.constraints
    ∧ (initialize_new_forward_frame c (starting_bound_call_back m)).reached = m.reached
    ∧ (initialize_new_forward_frame c (starting_bound_call_back m)).num_reached = m.num_reached
    ∧ (initialize_new_forward_frame c (starting_bound_call_back m)).state = m.state
    ∧ (∃ f, (initialize_new_forward_frame c (starting_bound_call_back m)).frames = m.frames ++ [f]
        ∧ f.time = (m.frames.length : Int) ∧ f.model2const = none)
    ∧ ∃ ev0, (initialize_new_forward_frame c (starting_bound_call_back m)).trace = m.trace ++ ev0
        ∧ ∀ k' i' b, BtorMCEvent.sat_call k' i' b ∉ ev0 := by
  have htr : ∃ ev0, (starting_bound_call_back m).trace = m.trace ++ ev0
      ∧ ∀ k' i' b, BtorMCEvent.sat_call k' i' b ∉ ev0 := by
    unfold starting_bound_call_back
    split
    · exact ⟨[BtorMCEvent.starting_bound (m.frames.length : Int)], rfl, by simp⟩
    · exact ⟨[], by simp, by simp⟩
  have hx := starting_bound_call_back_eq m
  generalize starting_bound_call_back m = x at hx htr
  obtain ⟨f, hf, ht, hm, -⟩ := new_frame_spec c x
  have hfr : x.frames = m.frames := by rw [hx]
  refine ⟨?_, ?_, ?_, ?_, ?_, ?_, ?_, ?_, ?_, ⟨f, ?_, ?_, hm⟩, htr⟩
  · show x.bad = m.bad
    rw [hx]
  · show x.options = m.options
    rw [hx]
  · show x.call_backs = m.call_backs
    rw [hx]
  · show x.inputs = m.inputs
    rw [hx]
  · show x.latches = m.latches
    rw [hx]
  · show x.constraints = m.constraints
    rw [hx]
  · show x.reached = m.reached
    rw [hx]
  · show x.num_reached = m.num_reached
    rw [hx]
  · show x.state = m.state
    rw [hx]
  · rw [hf, hfr]
  · rw [ht, hfr]

theorem bmc_progress_refl (mink : Int) (mc : BtorMC) :
    bmc_progress mink mc
      { mc_release_assignment mc with state := BtorMCState.BTOR_NO_MC_STATE } := by
  refine ⟨rfl, rfl, rfl, rfl, rfl, rfl, rfl, ⟨[], by simp [mc_release_assignment]⟩, ?_, le_refl _,
    ⟨[], by simp [mc_release_assignment], by simp⟩⟩
  intro j
  exact Or.inl rfl

theorem bmc_progress_frames_le {mink : Int} {mc m : BtorMC} (h : bmc_progress mink mc m) :
    mc.frames.length ≤ m.frames.length := by
  obtain ⟨-, -, -, -, -, -, -, ⟨fs, hfs⟩, -⟩ := h
  rw [hfs]
  simp

/-- A skipped bound keeps the progress relation. -/
theorem bmc_progress_skip (c : Collab) (mink : Int) (mc m : BtorMC)
    (h : bmc_progress mink mc m) :
    bmc_progress mink mc (initialize_new_forward_frame c (starting_bound_call_back m)) := by
  have hle := bmc_progress_frames_le h
  obtain ⟨hb, ho, hc, hi, hl, hcs, hrl, ⟨fs, hfs⟩, hpt, hnum, ⟨evs, hev, hsat⟩⟩ := h
  obtain ⟨sb, so, sc, si, sl, scs, sr, sn, -, ⟨f, sf, -, -⟩, ⟨ev0, st, sno⟩⟩ :=
    skipped_iteration_fields c m
  have hlen : (initialize_new_forward_frame c (starting_bound_call_back m)).frames.length
      = m.frames.length + 1 := by rw [sf]; simp
  refine ⟨by rw [sb, hb], by rw [so, ho], by rw [sc, hc], by rw [si, hi], by rw [sl, hl],
    by rw [scs, hcs], by rw [sr, hrl], ⟨fs ++ [f], by rw [sf, hfs, List.append_assoc]⟩, ?_,
    by rw [sn]; exact hnum, ⟨evs ++ ev0, by rw [st, hev, List.append_assoc], ?_⟩⟩
  · intro j
    have e : peek_reached (initialize_new_forward_frame c (starting_bound_call_back m)) j
        = peek_reached m j := by simp only [peek_reached, sr]
    rw [e, hlen]
    rcases hpt j with h1 | ⟨h1, h2, h3, h4, h5⟩
    · exact Or.inl h1
    · exact Or.inr ⟨h1, h2, h3, h4, by push_cast; omega⟩
  · intro k i b hmem
    rw [hlen]
    rcases List.mem_append.mp hmem with h1 | h1
    · obtain ⟨a1, a2, a3, a4⟩ := hsat k i b h1
      exact ⟨a1, a2, by push_cast; omega, a4⟩
    · exact absurd h1 (sno k i b)

/-- A checked bound keeps the progress relation, and a property reached at this bound was
not reached at the entry of the call. -/
theorem bmc_progress_check (c : Collab) (mink : Int) (mc m : BtorMC)
    (h : bmc_progress mink mc m) (hmink : mink ≤ (m.frames.length : Int)) :
    bmc_progress mink mc (check_last_forward_frame c
      (initialize_new_forward_frame c (starting_bound_call_back m))).2
    ∧ ∀ i ∈ newly_reached c (m.frames.length : Int) m,
        i < mc.bad.length ∧ peek_reached mc i < 0
          ∧ peek_reached (check_last_forward_frame c
              (initialize_new_forward_frame c (starting_bound_call_back m))).2 i
            = (m.frames.length : Int) := by
  have hle := bmc_progress_frames_le h
  obtain ⟨hb, ho, hc, hi, hl, hcs, hrl, ⟨fs, hfs⟩, hpt, hnum, ⟨evs, hev, hsat⟩⟩ := h
  obtain ⟨sb, so, sc, si, sl, scs, ⟨f, sf, -, -⟩⟩ := checked_iteration_fields c m
  obtain ⟨-, c2, c3, c4, ⟨ev1, c5, c6⟩⟩ := checked_iteration_spec c m
  have hlen : (check_last_forward_frame c
      (initialize_new_forward_frame c (starting_bound_call_back m))).2.frames.length
      = m.frames.length + 1 := by rw [sf]; simp
  -- a property that `reaches` at this bound was not reached at entry
  have hneg : ∀ j, reaches c (m.frames.length : Int) m.reached j = true →
      peek_reached m j < 0 ∧ peek_reached mc j < 0 := by
    intro j hj
    have h0 : peek_reached m j < 0 := by
      simp only [reaches, Bool.and_eq_true, decide_eq_true_eq] at hj
      exact hj.1
    rcases hpt j with h1 | ⟨-, -, -, h4, -⟩
    · exact ⟨h0, by rw [← h1]; exact h0⟩
    · omega
  refine ⟨⟨by rw [sb, hb], by rw [so, ho], by rw [sc, hc], by rw [si, hi], by rw [sl, hl],
    by rw [scs, hcs], by rw [c3, hrl], ⟨fs ++ [f], by rw [sf, hfs, List.append_assoc]⟩, ?_,
    by rw [c2]; omega, ⟨evs ++ ev1, by rw [c5, hev, List.append_assoc], ?_⟩⟩, ?_⟩
  · intro j
    rw [c4 j, hlen]
    by_cases hcond : j < m.bad.length ∧ reaches c (m.frames.length : Int) m.reached j = true
    · rw [if_pos hcond]
      obtain ⟨-, hn⟩ := hneg j hcond.2
      exact Or.inr ⟨hn, by rw [← hb]; exact hcond.1, hmink, by omega, by push_cast; omega⟩
    · rw [if_neg hcond]
      rcases hpt j with h1 | ⟨h1, h2, h3, h4, h5⟩
      · exact Or.inl h1
      · exact Or.inr ⟨h1, h2, h3, h4, by push_cast; omega⟩
  · intro k i b hmem
    rw [hlen]
    rcases List.mem_append.mp hmem with h1 | h1
    · obtain ⟨a1, a2, a3, a4⟩ := hsat k i b h1
      exact ⟨a1, a2, by push_cast; omega, a4⟩
    · obtain ⟨a1, a2⟩ := c6 k i b h1
      exact ⟨by rw [a1]; exact hmink, by rw [a1]; omega, by rw [a1]; push_cast; omega,
        by rw [← hb]; exact a2⟩
  · intro i hi
    simp only [newly_reached, List.mem_filter, List.mem_range] at hi
    obtain ⟨-, hn⟩ := hneg i hi.2
    refine ⟨by rw [← hb]; exact hi.1, hn, ?_⟩
    rw [c4 i, if_pos hi]

theorem newly_reached_ne_nil_of_satisfied (c : Collab) (m : BtorMC) (s : Int) (mc2 : BtorMC)
    (hres : check_last_forward_frame c
      (initialize_new_forward_frame c (starting_bound_call_back m)) = (s, mc2))
    (hs : s ≠ 0) : ∃ i, i ∈ newly_reached c (m.frames.length : Int) m := by
  have h1 := (checked_iteration_spec c m).1
  rw [hres] at h1
  simp only at h1
  cases hnr : newly_reached c (m.frames.length : Int) m with
  | nil => rw [hnr] at h1; simp at h1; exact absurd h1 hs
  | cons i rest => exact ⟨i, by simp⟩

/-- What every call of `boolector_mc_bmc` does: it returns, the engine on return is related
to the engine at entry by `bmc_progress`, and the result is either `-1`, with state UNSAT
and every bound up to `maxk` built, or a bound `r` in the checked range, whose frame is
the last one and at which a property not reached at entry is reached. -/
theorem bmc_spec (c : Collab) (mc : BtorMC) (mink maxk : Int) :
    ∃ r mc', boolector_mc_bmc c mc mink maxk = some (r, mc')
      ∧ bmc_progress mink mc mc'
      ∧ ((r = -1 ∧ mc'.state = BtorMCState.BTOR_UNSAT_MC_STATE
            ∧ maxk < (mc'.frames.length : Int)
            ∧ (mc'.frames.length = mc.frames.length ∨ (mc'.frames.length : Int) = maxk + 1))
          ∨ (mink ≤ r ∧ (mc.frames.length : Int) ≤ r ∧ r ≤ maxk
            ∧ (mc'.frames.length : Int) = r + 1
            ∧ ∃ i, i < mc.bad.length ∧ peek_reached mc i < 0 ∧ peek_reached mc' i = r)) := by
  unfold boolector_mc_bmc
  refine bmc_loop_rule c mink maxk
    (fun m => bmc_progress mink mc m
      ∧ (m.frames.length = mc.frames.length ∨ (m.frames.length : Int) ≤ maxk + 1))
    (fun r mc' => bmc_progress mink mc mc'
      ∧ ((r = -1 ∧ mc'.state = BtorMCState.BTOR_UNSAT_MC_STATE
            ∧ maxk < (mc'.frames.length : Int)
            ∧ (mc'.frames.length = mc.frames.length ∨ (mc'.frames.length : Int) = maxk + 1))
          ∨ (mink ≤ r ∧ (mc.frames.length : Int) ≤ r ∧ r ≤ maxk
            ∧ (mc'.frames.length : Int) = r + 1
            ∧ ∃ i, i < mc.bad.length ∧ peek_reached mc i < 0 ∧ peek_reached mc' i = r)))
    ?_ ?_ ?_ _ _ ⟨bmc_progress_refl mink mc, Or.inl (by simp [mc_release_assignment])⟩
    (by unfold bmc_fuel; omega)
  · intro m hinv hk _
    refine ⟨bmc_progress_skip c mink mc m hinv.1, Or.inr ?_⟩
    rw [new_frame_length]; push_cast; omega
  · intro m hinv hk hmink s mc2 hres
    obtain ⟨hprog, hnew⟩ := bmc_progress_check c mink mc m hinv.1 hmink
    have hfr := (checked_iteration_fields c m).2.2.2.2.2.2
    rw [hres] at hprog hnew hfr
    simp only at hprog hnew hfr
    obtain ⟨f, hf, -, -⟩ := hfr
    have hlen : mc2.frames.length = m.frames.length + 1 := by rw [hf]; simp
    have hle := bmc_progress_frames_le hinv.1
    constructor
    · intro hret
      obtain ⟨i, hi⟩ := newly_reached_ne_nil_of_satisfied c m s mc2 hres hret.1
      obtain ⟨a1, a2, a3⟩ := hnew i hi
      exact ⟨hprog, Or.inr ⟨hmink, by omega, hk, by rw [hlen]; push_cast; ring, i, a1, a2, a3⟩⟩
    · intro _
      exact ⟨hprog, Or.inr (by rw [hlen]; push_cast; omega)⟩
  · intro m hinv hk
    refine ⟨hinv.1, Or.inl ⟨rfl, rfl, hk, ?_⟩⟩
    rcases hinv.2 with h | h
    · exact Or.inl h
    · exact Or.inr (by
        show (m.frames.length : Int) = maxk + 1
        omega)

/-! ## Stopping at the first bound with a reached property (`STOP_FIRST` on) -/

theorem reached_ext (l1 l2 : List Int) (hlen : l1.length = l2.length)
    (h : ∀ j, l1.getD j 0 = l2.getD j 0) : l1 = l2 := by
  apply List.ext_getElem hlen
  intro n h1 h2
  have := h n
  simpa [List.getD_eq_getElem?_getD, List.getElem?_eq_getElem h1, List.getElem?_eq_getElem h2]
    using this

/-- A checked bound at which no property is newly reached leaves `reached` and
`num_reached` as they are. -/
theorem checked_iteration_none (c : Collab) (m : BtorMC)
    (h : newly_reached c (m.frames.length : Int) m = []) :
    (check_last_forward_frame c
        (initialize_new_forward_frame c (starting_bound_call_back m))).1 = 0
    ∧ (check_last_forward_frame c
        (initialize_new_forward_frame c (starting_bound_call_back m))).2.reached = m.reached
    ∧ (check_last_forward_frame c
        (initialize_new_forward_frame c (starting_bound_call_back m))).2.num_reached
        = m.num_reached := by
  obtain ⟨c1, c2, c3, c4, -⟩ := checked_iteration_spec c m
  rw [h] at c1 c2
  refine ⟨by simpa using c1, ?_, by simpa using c2⟩
  apply reached_ext _ _ c3
  intro j
  have := c4 j
  rw [if_neg] at this
  · exact this
  · intro hcond
    have hmem : j ∈ newly_reached c (m.frames.length : Int) m := by
      simp only [newly_reached, List.mem_filter, List.mem_range]
      exact hcond
    rw [h] at hmem
    simp at hmem

/-- With `STOP_FIRST` on, for every engine at entry: `boolector_mc_bmc` returns the first
bound of the checked range at which a property not reached at entry is answered SAT, and
`num_reached` grows by the number of such properties at that bound; it returns `-1`, with
`reached` and `num_reached` unchanged, when there is no such bound. -/
theorem bmc_stop_first_spec (c : Collab) (mc : BtorMC) (mink maxk : Int)
    (hstop : boolector_mc_get_opt mc BtorMCOption.BTOR_MC_OPT_STOP_FIRST ≠ 0) :
    ∃ r mc', boolector_mc_bmc c mc mink maxk = some (r, mc')
      ∧ ((r = -1 ∧ mc'.reached = mc.reached ∧ mc'.num_reached = mc.num_reached
            ∧ ∀ k : Int, mink ≤ k → (mc.frames.length : Int) ≤ k → k ≤ maxk →
                newly_reached c k mc = [])
          ∨ (mink ≤ r ∧ (mc.frames.length : Int) ≤ r ∧ r ≤ maxk
            ∧ newly_reached c r mc ≠ []
            ∧ (∀ k : Int, mink ≤ k → (mc.frames.length : Int) ≤ k → k < r →
                newly_reached c k mc = [])
            ∧ mc'.num_reached = mc.num_reached + ((newly_reached c r mc).length : Int))) := by
  unfold boolector_mc_bmc
  refine bmc_loop_rule c mink maxk
    (fun m => m.bad = mc.bad ∧ m.reached = mc.reached ∧ m.num_reached = mc.num_reached
      ∧ m.options = mc.options ∧ mc.frames.length ≤ m.frames.length
      ∧ ∀ k : Int, mink ≤ k → (mc.frames.length : Int) ≤ k → k < (m.frames.length : Int) →
          newly_reached c k mc = [])
    (fun r mc' => (r = -1 ∧ mc'.reached = mc.reached ∧ mc'.num_reached = mc.num_reached
            ∧ ∀ k : Int, mink ≤ k → (mc.frames.length : Int) ≤ k → k ≤ maxk →
                newly_reached c k mc = [])
          ∨ (mink ≤ r ∧ (mc.frames.length : Int) ≤ r ∧ r ≤ maxk
            ∧ newly_reached c r mc ≠ []
            ∧ (∀ k : Int, mink ≤ k → (mc.frames.length : Int) ≤ k → k < r →
                newly_reached c k mc = [])
            ∧ mc'.num_reached = mc.num_reached + ((newly_reached c r mc).length : Int)))
    ?_ ?_ ?_ _ _
    ⟨rfl, rfl, rfl, rfl, by simp [mc_release_assignment], ?_⟩
    (by unfold bmc_fuel; omega)
  · -- a skipped bound
    intro m ⟨hb, hr, hn, ho, hle, hnone⟩ hk hm
    obtain ⟨sb, so, -, -, -, -, sr, sn, -, ⟨f, sf, -, -⟩, -⟩ := skipped_iteration_fields c m
    refine ⟨by rw [sb, hb], by rw [sr, hr], by rw [sn, hn], by rw [so, ho],
      by rw [sf]; simp; omega, ?_⟩
    intro k h1 h2 h3
    rw [sf] at h3
    simp only [List.length_append, List.length_singleton, Nat.cast_add, Nat.cast_one] at h3
    by_cases hlt : k < (m.frames.length : Int)
    · exact hnone k h1 h2 hlt
    · omega
  · -- a checked bound
    intro m ⟨hb, hr, hn, ho, hle, hnone⟩ hk hmink s mc2 hres
    have hnew : newly_reached c (m.frames.length : Int) m
        = newly_reached c (m.frames.length : Int) mc := by
      simp only [newly_reached, hb, hr]
    obtain ⟨c1, c2, -⟩ := checked_iteration_spec c m
    obtain ⟨sb, so, -, -, -, -, ⟨f, sf, -, -⟩⟩ := checked_iteration_fields c m
    rw [hres] at c1 c2 sb so sf
    simp only at c1 c2 sb so sf
    rw [hnew] at c1 c2
    constructor
    · intro hret
      refine Or.inr ⟨hmink, by omega, hk, ?_, ?_, by rw [c2, hn]⟩
      · intro hnil
        rw [hnil] at c1
        exact hret.1 (by simpa using c1)
      · intro k h1 h2 h3
        exact hnone k h1 h2 h3
    · intro hcont
      have hstop2 : boolector_mc_get_opt mc2 BtorMCOption.BTOR_MC_OPT_STOP_FIRST ≠ 0 := by
        simp only [boolector_mc_get_opt, so, ho]
        exact hstop
      have hs : s = 0 := by
        by_contra hs
        exact hcont ⟨hs, Or.inl hstop2⟩
      have hnil : newly_reached c (m.frames.length : Int) mc = [] := by
        rw [hs] at c1
        have : (newly_reached c (m.frames.length : Int) mc).length = 0 := by
          have := c1.symm
          exact_mod_cast this
        exact List.length_eq_zero.mp this
      obtain ⟨-, n2, n3⟩ := checked_iteration_none c m (by rw [hnew]; exact hnil)
      rw [hres] at n2 n3
      simp only at n2 n3
      refine ⟨by rw [sb, hb], by rw [n2, hr], by rw [n3, hn], by rw [so, ho],
        by rw [sf]; simp; omega, ?_⟩
      intro k h1 h2 h3
      rw [sf] at h3
      simp only [List.length_append, List.length_singleton, Nat.cast_add, Nat.cast_one] at h3
      by_cases hlt : k < (m.frames.length : Int)
      · exact hnone k h1 h2 hlt
      · have : k = (m.frames.length : Int) := by omega
        rw [this]
        exact hnil
  · -- the exit of the loop
    intro m ⟨hb, hr, hn, ho, hle, hnone⟩ hk
    refine Or.inl ⟨rfl, hr, hn, ?_⟩
    intro k h1 h2 h3
    exact hnone k h1 h2 (by omega)
  · -- the loop head at entry
    intro k h1 h2 h3
    simp only [mc_release_assignment, List.length_map] at h3
    omega

theorem fresh_frames {mc : BtorMC} (h : fresh mc = true) : mc.frames = [] := by
  simp only [fresh, Bool.and_eq_true, decide_eq_true_eq] at h
  exact h.1.1

/-- On a fresh engine the properties newly reached at a bound are those answered SAT. -/
theorem newly_reached_fresh (c : Collab) (mc : BtorMC) (k : Int) (h : fresh mc = true) :
    newly_reached c k mc
      = (List.range mc.bad.length).filter
          (fun i => decide (c.sat k i = BoolectorResult.BOOLECTOR_SAT)) := by
  simp only [fresh, Bool.and_eq_true, decide_eq_true_eq] at h
  unfold newly_reached
  apply List.filter_congr
  intro i hi
  have hi' : i < mc.bad.length := List.mem_range.mp hi
  have : mc.reached.getD i 0 = -1 := by
    rw [h.2]
    simp [List.getElem?_replicate, hi']
  simp only [reaches, this]
  simp

theorem newly_reached_fresh_nil (c : Collab) (mc : BtorMC) (k : Int) (h : fresh mc = true) :
    newly_reached c k mc = []
      ↔ ∀ i, i < mc.bad.length → c.sat k i ≠ BoolectorResult.BOOLECTOR_SAT := by
  rw [newly_reached_fresh c mc k h, List.filter_eq_nil_iff]
  simp only [List.mem_range, decide_eq_true_eq]

/-- C1: on a fresh engine with `STOP_FIRST` on, the solver being an oracle `c.sat` for the
queries (bound, bad property), `bmc (mink, maxk)` returns the smallest `k` with
`max mink 0 ≤ k ≤ maxk` at which at least one bad property is answered SAT, and returns
`-1` when there is no such `k` (for `maxk < 0` the range is empty). -/
theorem bmc_stop_first_smallest_sat_bound (c : Collab) (mc : BtorMC) (mink maxk : Int)
    (hfresh : fresh mc = true)
    (hstop : boolector_mc_get_opt mc BtorMCOption.BTOR_MC_OPT_STOP_FIRST = 1) :
    ∃ r mc', boolector_mc_bmc c mc mink maxk = some (r, mc')
      ∧ ((r = -1
            ∧ ∀ k : Int, max mink 0 ≤ k → k ≤ maxk →
                ∀ i, i < mc.bad.length → c.sat k i ≠ BoolectorResult.BOOLECTOR_SAT)
          ∨ (max mink 0 ≤ r ∧ r ≤ maxk
            ∧ (∃ i, i < mc.bad.length ∧ c.sat r i = BoolectorResult.BOOLECTOR_SAT)
            ∧ ∀ k : Int, max mink 0 ≤ k → k < r →
                ∀ i, i < mc.bad.length → c.sat k i ≠ BoolectorResult.BOOLECTOR_SAT)) := by
  have hfr := fresh_frames hfresh
  obtain ⟨r, mc', hrun, hres⟩ := bmc_stop_first_spec c mc mink maxk (by rw [hstop]; decide)
  refine ⟨r, mc', hrun, ?_⟩
  rw [hfr] at hres
  simp only [List.length_nil, Nat.cast_zero] at hres
  rcases hres with ⟨hr, -, -, hnone⟩ | ⟨h1, h2, h3, hne, hnone, -⟩
  · refine Or.inl ⟨hr, ?_⟩
    intro k hk1 hk2
    exact (newly_reached_fresh_nil c mc k hfresh).mp
      (hnone k (le_trans (le_max_left _ _) hk1) (le_trans (le_max_right _ _) hk1) hk2)
  · refine Or.inr ⟨max_le h1 h2, h3, ?_, ?_⟩
    · by_contra hcon
      apply hne
      rw [newly_reached_fresh_nil c mc r hfresh]
      intro i hi hsat
      exact hcon ⟨i, hi, hsat⟩
    · intro k hk1 hk2
      exact (newly_reached_fresh_nil c mc k hfresh).mp
        (hnone k (le_trans (le_max_left _ _) hk1) (le_trans (le_max_right _ _) hk1) hk2)

/-- Two bad properties, the first SAT answer at bound 3: the hypotheses of C1 hold. -/
theorem bmc_stop_first_smallest_sat_bound_witness :
    fresh (ex_engine 2) = true
    ∧ boolector_mc_get_opt (ex_engine 2) BtorMCOption.BTOR_MC_OPT_STOP_FIRST = 1
    ∧ ∃ r mc', boolector_mc_bmc (ex_collab [(3, 1), (4, 0)]) (ex_engine 2) 0 5 = some (r, mc')
      ∧ ((r = -1
            ∧ ∀ k : Int, max 0 0 ≤ k → k ≤ 5 →
                ∀ i, i < (ex_engine 2).bad.length →
                  (ex_collab [(3, 1), (4, 0)]).sat k i ≠ BoolectorResult.BOOLECTOR_SAT)
          ∨ (max 0 0 ≤ r ∧ r ≤ 5
            ∧ (∃ i, i < (ex_engine 2).bad.length
                ∧ (ex_collab [(3, 1), (4, 0)]).sat r i = BoolectorResult.BOOLECTOR_SAT)
            ∧ ∀ k : Int, max 0 0 ≤ k → k < r →
                ∀ i, i < (ex_engine 2).bad.length →
                  (ex_collab [(3, 1), (4, 0)]).sat k i ≠ BoolectorResult.BOOLECTOR_SAT)) :=
  ⟨by decide, by decide,
    bmc_stop_first_smallest_sat_bound (ex_collab [(3, 1), (4, 0)]) (ex_engine 2) 0 5
      (by decide) (by decide)⟩

/-! ## Checking all properties (`STOP_FIRST` off) -/

theorem filter_length_split (L : List Nat) (a s t : Nat → Bool) :
    ((L.filter (fun i => a i && s i)).length : Int)
        + ((L.filter (fun i => (a i && !s i) && t i)).length : Int)
      = ((L.filter (fun i => a i && (s i || t i))).length : Int) := by
  induction L with
  | nil => simp
  | cons x xs ih =>
    simp only [List.filter_cons]
    cases a x <;> cases s x <;> cases t x <;> simp <;> omega

theorem num_reached_after_before (c : Collab) (mc : BtorMC) (mink k : Int)
    (hk : k < first_checked mc mink) : num_reached_after c mc mink k = mc.num_reached := by
  unfold num_reached_after
  have : (k + 1 - first_checked mc mink).toNat = 0 := by omega
  rw [this]
  simp [sat_within]

theorem not_yet_reached_before (c : Collab) (mc : BtorMC) (mink k : Int) (i : Nat)
    (hk : k ≤ first_checked mc mink) :
    not_yet_reached c mc mink k i = decide (peek_reached mc i < 0) := by
  unfold not_yet_reached
  have : (k - first_checked mc mink).toNat = 0 := by omega
  rw [this]
  simp [sat_within]

theorem not_yet_reached_succ (c : Collab) (mc : BtorMC) (mink k : Int) (i : Nat)
    (hk : first_checked mc mink ≤ k) :
    not_yet_reached c mc mink (k + 1) i
      = (not_yet_reached c mc mink k i
          && !decide (c.sat k i = BoolectorResult.BOOLECTOR_SAT)) := by
  unfold not_yet_reached
  have h1 : (k + 1 - first_checked mc mink).toNat = (k - first_checked mc mink).toNat + 1 := by
    omega
  have h2 : first_checked mc mink + (((k - first_checked mc mink).toNat : Nat) : Int) = k := by
    omega
  rw [h1]
  simp only [sat_within, h2, Bool.not_or, Bool.and_assoc]

theorem num_reached_after_succ (c : Collab) (mc : BtorMC) (mink k : Int)
    (hk : first_checked mc mink ≤ k) :
    num_reached_after c mc mink k
      = num_reached_after c mc mink (k - 1) + ((reached_at c mc mink k).length : Int) := by
  unfold num_reached_after reached_at not_yet_reached
  have h1 : (k + 1 - first_checked mc mink).toNat = (k - first_checked mc mink).toNat + 1 := by
    omega
  have h2 : first_checked mc mink + (((k - first_checked mc mink).toNat : Nat) : Int) = k := by
    omega
  have h3 : (k - 1 + 1 - first_checked mc mink).toNat = (k - first_checked mc mink).toNat := by
    congr 1; ring
  rw [h1, h3]
  simp only [sat_within, h2]
  rw [add_assoc]
  congr 1
  exact (filter_length_split _ _ _ _).symm

/-- C2: with `STOP_FIRST = 0`, for every engine at entry, `bmc (mink, maxk)` returns `k` if
and only if `k` is the first bound of the checked range (`k ≥ mink`, `k ≥` number of frames
at entry, `k ≤ maxk`) at which a not yet reached bad property is answered SAT and, after
that check, `num_reached = |bad|` or `k = maxk` (the condition `returns_at`); when no bound
of the range is such, it returns `-1`, also when a property was reached below `maxk`. -/
theorem bmc_check_all_result (c : Collab) (mc : BtorMC) (mink maxk : Int)
    (hstop : boolector_mc_get_opt mc BtorMCOption.BTOR_MC_OPT_STOP_FIRST = 0) :
    ∃ r mc', boolector_mc_bmc c mc mink maxk = some (r, mc')
      ∧ ((r = -1
            ∧ ∀ k : Int, first_checked mc mink ≤ k → k ≤ maxk →
                returns_at c mc mink maxk k = false)
          ∨ (first_checked mc mink ≤ r ∧ r ≤ maxk ∧ returns_at c mc mink maxk r = true
            ∧ ∀ k : Int, first_checked mc mink ≤ k → k < r →
                returns_at c mc mink maxk k = false)) := by
  unfold boolector_mc_bmc
  refine bmc_loop_rule c mink maxk
    (fun m => m.bad = mc.bad ∧ m.options = mc.options ∧ mc.frames.length ≤ m.frames.length
      ∧ (∀ j, j < mc.bad.length →
          (peek_reached m j < 0 ↔ not_yet_reached c mc mink (m.frames.length : Int) j = true))
      ∧ m.num_reached = num_reached_after c mc mink ((m.frames.length : Int) - 1)
      ∧ ∀ k : Int, first_checked mc mink ≤ k → k < (m.frames.length : Int) →
          returns_at c mc mink maxk k = false)
    (fun r _ => (r = -1
            ∧ ∀ k : Int, first_checked mc mink ≤ k → k ≤ maxk →
                returns_at c mc mink maxk k = false)
          ∨ (first_checked mc mink ≤ r ∧ r ≤ maxk ∧ returns_at c mc mink maxk r = true
            ∧ ∀ k : Int, first_checked mc mink ≤ k → k < r →
                returns_at c mc mink maxk k = false))
    ?_ ?_ ?_ _ _
    ⟨rfl, rfl, by simp [mc_release_assignment], ?_, ?_, ?_⟩
    (by unfold bmc_fuel; omega)
  · -- a skipped bound
    intro m ⟨hb, ho, hle, hpt, hn, hnone⟩ hk hm
    obtain ⟨sb, so, -, -, -, -, sr, sn, -, ⟨f, sf, -, -⟩, -⟩ := skipped_iteration_fields c m
    have hlen : ((initialize_new_forward_frame c (starting_bound_call_back m)).frames.length : Int)
        = (m.frames.length : Int) + 1 := by rw [sf]; simp
    have hfc : (m.frames.length : Int) + 1 ≤ first_checked mc mink := by
      unfold first_checked; omega
    refine ⟨by rw [sb, hb], by rw [so, ho], by rw [sf]; simp; omega, ?_, ?_, ?_⟩
    · intro j hj
      have e : peek_reached (initialize_new_forward_frame c (starting_bound_call_back m)) j
          = peek_reached m j := by simp only [peek_reached, sr]
      rw [e, hlen, hpt j hj, not_yet_reached_before c mc mink _ j hfc,
        not_yet_reached_before c mc mink _ j (by omega)]
    · rw [sn, hn, hlen, num_reached_after_before c mc mink _ (by omega),
        num_reached_after_before c mc mink _ (by omega)]
    · intro k h1 h2
      rw [hlen] at h2
      omega
  · -- a checked bound
    intro m ⟨hb, ho, hle, hpt, hn, hnone⟩ hk hmink s mc2 hres
    have hfc : first_checked mc mink ≤ (m.frames.length : Int) := by
      unfold first_checked; omega
    have hnew : newly_reached c (m.frames.length : Int) m
        = reached_at c mc mink (m.frames.length : Int) := by
      unfold newly_reached reached_at
      rw [hb]
      apply List.filter_congr
      intro j hj
      have hj' : j < mc.bad.length := List.mem_range.mp hj
      have hiff := hpt j hj'
      have e : decide (m.reached.getD j 0 < 0)
          = not_yet_reached c mc mink (m.frames.length : Int) j := by
        cases hny : not_yet_reached c mc mink (m.frames.length : Int) j with
        | true => exact decide_eq_true (hiff.mpr hny)
        | false =>
          apply decide_eq_false
          intro hlt
          have := hiff.mp hlt
          rw [hny] at this
          cases this
      simp only [reaches, e]
    obtain ⟨c1, c2, -, c4, -⟩ := checked_iteration_spec c m
    obtain ⟨sb, so, -, -, -, -, ⟨f, sf, -, -⟩⟩ := checked_iteration_fields c m
    rw [hres] at c1 c2 c4 sb so sf
    simp only at c1 c2 c4 sb so sf
    rw [hnew] at c1 c2
    have hlen : (mc2.frames.length : Int) = (m.frames.length : Int) + 1 := by rw [sf]; simp
    have hnum : mc2.num_reached = num_reached_after c mc mink (m.frames.length : Int) := by
      rw [c2, hn, ← num_reached_after_succ c mc mink _ hfc]
    have hstop2 : boolector_mc_get_opt mc2 BtorMCOption.BTOR_MC_OPT_STOP_FIRST = 0 := by
      simp only [boolector_mc_get_opt, so, ho]
      exact hstop
    -- the code returns exactly when `returns_at` holds
    have hiffret : (s ≠ 0 ∧ (boolector_mc_get_opt mc2 BtorMCOption.BTOR_MC_OPT_STOP_FIRST ≠ 0
          ∨ mc2.num_reached = (mc2.bad.length : Int) ∨ (m.frames.length : Int) = maxk))
        ↔ returns_at c mc mink maxk (m.frames.length : Int) = true := by
      unfold returns_at
      rw [hstop2, hnum, sb, hb, c1]
      simp only [ne_eq, not_true_eq_false, false_or, Bool.and_eq_true, Bool.not_eq_true',
        Bool.or_eq_true, decide_eq_true_eq, List.isEmpty_eq_false]
      constructor
      · rintro ⟨h1, h2⟩
        refine ⟨?_, h2⟩
        intro hnil
        rw [hnil] at h1
        simp at h1
      · rintro ⟨h1, h2⟩
        refine ⟨?_, h2⟩
        intro h0
        have : (reached_at c mc mink (m.frames.length : Int)).length = 0 := by exact_mod_cast h0
        exact h1 (List.length_eq_zero.mp this)
    constructor
    · intro hret
      exact Or.inr ⟨hfc, hk, hiffret.mp hret, hnone⟩
    · intro hcont
      have hfalse : returns_at c mc mink maxk (m.frames.length : Int) = false := by
        cases hra : returns_at c mc mink maxk (m.frames.length : Int) with
        | false => rfl
        | true => exact absurd (hiffret.mpr hra) hcont
      refine ⟨by rw [sb, hb], by rw [so, ho], by rw [sf]; simp; omega, ?_, ?_, ?_⟩
      · intro j hj
        rw [hlen, not_yet_reached_succ c mc mink _ j hfc, c4 j]
        have hiff := hpt j hj
        by_cases hcond : j < m.bad.length ∧ reaches c (m.frames.length : Int) m.reached j = true
        · rw [if_pos hcond]
          have hr := hcond.2
          simp only [reaches, Bool.and_eq_true, decide_eq_true_eq] at hr
          have hsat : decide (c.sat (m.frames.length : Int) j = BoolectorResult.BOOLECTOR_SAT)
              = true := decide_eq_true hr.2
          rw [hsat]
          simp only [Bool.not_true, Bool.and_false]
          constructor
          · intro h; omega
          · intro h; cases h
        · rw [if_neg hcond]
          rw [hiff]
          have hnr : ¬ (not_yet_reached c mc mink (m.frames.length : Int) j = true
              ∧ c.sat (m.frames.length : Int) j = BoolectorResult.BOOLECTOR_SAT) := by
            intro ⟨h1, h2⟩
            apply hcond
            refine ⟨by rw [hb]; exact hj, ?_⟩
            have : peek_reached m j < 0 := hiff.mpr h1
            simp only [reaches, Bool.and_eq_true, decide_eq_true_eq]
            exact ⟨this, h2⟩
          constructor
          · intro h
            have hns : ¬ c.sat (m.frames.length : Int) j = BoolectorResult.BOOLECTOR_SAT :=
              fun h2 => hnr ⟨h, h2⟩
            simp [h, hns]
          · intro h
            simp only [Bool.and_eq_true] at h
            exact h.1
      · rw [hnum, hlen]
        congr 1
        ring
      · intro k h1 h2
        rw [hlen] at h2
        by_cases hlt : k < (m.frames.length : Int)
        · exact hnone k h1 hlt
        · have : k = (m.frames.length : Int) := by omega
          rw [this]
          exact hfalse
  · -- the exit of the loop
    intro m ⟨hb, ho, hle, hpt, hn, hnone⟩ hk
    refine Or.inl ⟨rfl, ?_⟩
    intro k h1 h2
    exact hnone k h1 (by omega)
  · -- the loop head at entry
    intro j _
    have hlen : (mc_release_assignment mc).frames.length = mc.frames.length := by
      simp [mc_release_assignment]
    show peek_reached mc j < 0
      ↔ not_yet_reached c mc mink ((mc_release_assignment mc).frames.length : Int) j = true
    rw [hlen, not_yet_reached_before c mc mink _ j (by unfold first_checked; omega)]
    simp
  · have hlen : (mc_release_assignment mc).frames.length = mc.frames.length := by
      simp [mc_release_assignment]
    show mc.num_reached
      = num_reached_after c mc mink (((mc_release_assignment mc).frames.length : Int) - 1)
    rw [hlen, num_reached_after_before c mc mink _ (by unfold first_checked; omega)]
  · intro k h1 h2
    have hlen : (mc_release_assignment mc).frames.length = mc.frames.length := by
      simp [mc_release_assignment]
    have h3 : k < ((mc_release_assignment mc).frames.length : Int) := h2
    rw [hlen] at h3
    unfold first_checked at h1
    omega

/-- Two bad properties reached at bounds 2 and 4 with `STOP_FIRST = 0` and `bmc (0, 4)`. -/
theorem bmc_check_all_result_witness :
    boolector_mc_get_opt (ex_engine_all 2) BtorMCOption.BTOR_MC_OPT_STOP_FIRST = 0
    ∧ ∃ r mc', boolector_mc_bmc (ex_collab [(2, 0), (4, 1)]) (ex_engine_all 2) 0 4
          = some (r, mc')
      ∧ ((r = -1
            ∧ ∀ k : Int, first_checked (ex_engine_all 2) 0 ≤ k → k ≤ 4 →
                returns_at (ex_collab [(2, 0), (4, 1)]) (ex_engine_all 2) 0 4 k = false)
          ∨ (first_checked (ex_engine_all 2) 0 ≤ r ∧ r ≤ 4
            ∧ returns_at (ex_collab [(2, 0), (4, 1)]) (ex_engine_all 2) 0 4 r = true
            ∧ ∀ k : Int, first_checked (ex_engine_all 2) 0 ≤ k → k < r →
                returns_at (ex_collab [(2, 0), (4, 1)]) (ex_engine_all 2) 0 4 k = false)) :=
  ⟨by decide,
    bmc_check_all_result (ex_collab [(2, 0), (4, 1)]) (ex_engine_all 2) 0 4 (by decide)⟩

/-! ## Properties of `boolector_mc_bmc` that hold for every engine -/

/-- C3: for every engine at entry and all `mink`, `maxk`, the call `bmc (mink, maxk)`
returns, and if the result is a bound `k ≥ 0` there is a bad property `i` with
`mink ≤ reached[i] ≤ k` on return. -/
theorem bmc_returned_bound_has_reached_property (c : Collab) (mc : BtorMC) (mink maxk : Int) :
    ∃ r mc', boolector_mc_bmc c mc mink maxk = some (r, mc')
      ∧ (0 ≤ r → ∃ i, i < mc'.bad.length ∧ mink ≤ peek_reached mc' i ∧ peek_reached mc' i ≤ r) := by
  obtain ⟨r, mc', hrun, hprog, hres⟩ := bmc_spec c mc mink maxk
  refine ⟨r, mc', hrun, ?_⟩
  intro hr
  rcases hres with ⟨h, -⟩ | ⟨h1, -, -, -, i, hi, -, hpi⟩
  · omega
  · exact ⟨i, by rw [hprog.1]; exact hi, by rw [hpi]; exact h1, by rw [hpi]⟩

/-- C4, as amended: for every engine at entry, `bmc (mink, maxk)` returns, and every bad
property that was not reached at entry and is reached on return has
`mink ≤ reached[i] ≤ k` when the result is a bound `k ≥ 0`, and `mink ≤ reached[i] ≤ maxk`
when the result is `-1`; an entry that was reached at entry is unchanged. -/
theorem bmc_reached_in_checked_range (c : Collab) (mc : BtorMC) (mink maxk : Int) :
    ∃ r mc', boolector_mc_bmc c mc mink maxk = some (r, mc')
      ∧ (∀ i, peek_reached mc i < 0 → 0 ≤ peek_reached mc' i →
          mink ≤ peek_reached mc' i ∧ peek_reached mc' i ≤ (if 0 ≤ r then r else maxk))
      ∧ (∀ i, 0 ≤ peek_reached mc i → peek_reached mc' i = peek_reached mc i) := by
  obtain ⟨r, mc', hrun, hprog, hres⟩ := bmc_spec c mc mink maxk
  have hpt := hprog.2.2.2.2.2.2.2.2.1
  refine ⟨r, mc', hrun, ?_, ?_⟩
  · intro i hneg hpos
    rcases hpt i with h | ⟨-, -, h3, h4, h5⟩
    · omega
    · refine ⟨h3, ?_⟩
      rcases hres with ⟨hr, -, -, hl | hl⟩ | ⟨-, -, -, hl, -⟩
      · rw [hl] at h5; omega
      · rw [if_neg (by omega)]; omega
      · split <;> omega
  · intro i hpos
    rcases hpt i with h | ⟨h1, -⟩
    · exact h
    · omega

/-- C4, counterexample: (1) with `STOP_FIRST = 0` and two bad properties of which the first
is answered SAT at bound 0 and the second never, `bmc (0, 1)` on a fresh engine returns `-1`
although `reached[0] = 0`, so `reached[0] ≤ k` fails for the returned `k`; (2) with
`STOP_FIRST = 1`, after `bmc (0, 0)` has reached property 0 at bound 0, `bmc (1, 1)` returns
`1` while `reached[0] = 0` is still below `mink = 1`. -/
theorem bmc_reached_above_result :
    (∃ r mc', boolector_mc_bmc (ex_collab [(0, 0)]) (ex_engine_all 2) 0 1 = some (r, mc')
      ∧ 0 ≤ peek_reached mc' 0
      ∧ ¬ ((0 : Int) ≤ peek_reached mc' 0 ∧ peek_reached mc' 0 ≤ r))
    ∧ ∃ r1 mc1 r mc',
        boolector_mc_bmc (ex_collab [(0, 0), (1, 1)]) (ex_engine 2) 0 0 = some (r1, mc1)
        ∧ boolector_mc_bmc (ex_collab [(0, 0), (1, 1)]) mc1 1 1 = some (r, mc')
        ∧ 0 ≤ peek_reached mc' 0
        ∧ ¬ ((1 : Int) ≤ peek_reached mc' 0 ∧ peek_reached mc' 0 ≤ r) :=
  ⟨⟨-1, _, rfl, by decide, by decide⟩, ⟨0, _, 1, _, rfl, rfl, by decide, by decide⟩⟩

/-- C5, as amended: with `STOP_FIRST` on, whenever `bmc` returns a bound `k ≥ 0`,
`num_reached` on return equals `num_reached` at entry plus the number of bad properties,
not reached at entry, that are answered SAT at bound `k`; that number is at least 1. -/
theorem bmc_stop_first_num_reached (c : Collab) (mc : BtorMC) (mink maxk : Int)
    (hstop : boolector_mc_get_opt mc BtorMCOption.BTOR_MC_OPT_STOP_FIRST = 1) :
    ∃ r mc', boolector_mc_bmc c mc mink maxk = some (r, mc')
      ∧ (0 ≤ r →
          mc'.num_reached = mc.num_reached + ((newly_reached c r mc).length : Int)
          ∧ 1 ≤ (newly_reached c r mc).length) := by
  obtain ⟨r, mc', hrun, hres⟩ := bmc_stop_first_spec c mc mink maxk (by rw [hstop]; decide)
  refine ⟨r, mc', hrun, ?_⟩
  intro hr
  rcases hres with ⟨h, -⟩ | ⟨-, -, -, hne, -, hnum⟩
  · omega
  · refine ⟨hnum, ?_⟩
    cases hl : newly_reached c r mc with
    | nil => exact absurd hl hne
    | cons a as => simp

/-- Two bad properties answered SAT at bound 0 with `STOP_FIRST = 1`. -/
theorem bmc_stop_first_num_reached_witness :
    boolector_mc_get_opt (ex_engine 2) BtorMCOption.BTOR_MC_OPT_STOP_FIRST = 1
    ∧ ∃ r mc', boolector_mc_bmc (ex_collab [(0, 0), (0, 1)]) (ex_engine 2) 0 0 = some (r, mc')
      ∧ (0 ≤ r →
          mc'.num_reached = (ex_engine 2).num_reached
            + ((newly_reached (ex_collab [(0, 0), (0, 1)]) r (ex_engine 2)).length : Int)
          ∧ 1 ≤ (newly_reached (ex_collab [(0, 0), (0, 1)]) r (ex_engine 2)).length) :=
  ⟨by decide,
    bmc_stop_first_num_reached (ex_collab [(0, 0), (0, 1)]) (ex_engine 2) 0 0 (by decide)⟩

/-- C5, counterexample: with `STOP_FIRST = 1` and two bad properties that are both answered
SAT at bound 0, `bmc (0, 0)` on a fresh engine returns `0` with `num_reached = 2`, which is
not `num_reached` at entry plus 1. -/
theorem bmc_stop_first_reaches_two :
    ∃ r mc', boolector_mc_bmc (ex_collab [(0, 0), (0, 1)]) (ex_engine 2) 0 0 = some (r, mc')
      ∧ boolector_mc_get_opt (ex_engine 2) BtorMCOption.BTOR_MC_OPT_STOP_FIRST = 1
      ∧ 0 ≤ r
      ∧ mc'.num_reached ≠ (ex_engine 2).num_reached + 1 :=
  ⟨0, _, rfl, by decide, by decide, by decide⟩

/-- C6: whenever `bmc` returns a bound `k ≥ 0`, exactly `k + 1` frames exist on return and
every solver query made during the call is at a bound `≤ k`. -/
theorem bmc_no_work_beyond_result (c : Collab) (mc : BtorMC) (mink maxk : Int) :
    ∃ r mc', boolector_mc_bmc c mc mink maxk = some (r, mc')
      ∧ (0 ≤ r →
          (mc'.frames.length : Int) = r + 1
          ∧ ∃ evs, mc'.trace = mc.trace ++ evs
              ∧ ∀ k i b, BtorMCEvent.sat_call k i b ∈ evs → k ≤ r) := by
  obtain ⟨r, mc', hrun, hprog, hres⟩ := bmc_spec c mc mink maxk
  refine ⟨r, mc', hrun, ?_⟩
  intro hr
  rcases hres with ⟨h, -⟩ | ⟨-, -, -, hl, -⟩
  · omega
  · obtain ⟨evs, hev, hsat⟩ := hprog.2.2.2.2.2.2.2.2.2.2
    refine ⟨hl, evs, hev, ?_⟩
    intro k i b hmem
    have := (hsat k i b hmem).2.2.1
    omega

/-- C7, as amended: for all `mink > maxk`, `bmc (mink, maxk)` on a fresh engine returns `-1`
without any solver query and builds the frames of the bounds `0 .. maxk`, that is
`max (maxk + 1) 0` frames: zero frames only when `maxk < 0`. -/
theorem bmc_empty_range (c : Collab) (mc : BtorMC) (mink maxk : Int)
    (hfresh : fresh mc = true) (hrange : mink > maxk) :
    ∃ mc', boolector_mc_bmc c mc mink maxk = some (-1, mc')
      ∧ (mc'.frames.length : Int) = max (maxk + 1) 0
      ∧ ∃ evs, mc'.trace = mc.trace ++ evs ∧ ∀ k i b, BtorMCEvent.sat_call k i b ∉ evs := by
  have hfr : mc.frames = [] := by
    simp only [fresh, Bool.and_eq_true, decide_eq_true_eq] at hfresh
    exact hfresh.1.1
  obtain ⟨r, mc', hrun, hprog, hres⟩ := bmc_spec c mc mink maxk
  obtain ⟨evs, hev, hsat⟩ := hprog.2.2.2.2.2.2.2.2.2.2
  rcases hres with ⟨hr, -, hlt, hl | hl⟩ | ⟨h1, -, h3, -⟩
  · subst hr
    refine ⟨mc', hrun, ?_, evs, hev, ?_⟩
    · rw [hl, hfr] at hlt ⊢
      simp only [List.length_nil, Nat.cast_zero] at hlt ⊢
      rw [max_eq_right (by omega)]
    · intro k i b hmem
      obtain ⟨-, a2, a3, -⟩ := hsat k i b hmem
      rw [hl] at a3
      omega
  · subst hr
    refine ⟨mc', hrun, ?_, evs, hev, ?_⟩
    · rw [hl, max_eq_left (by omega)]
    · intro k i b hmem
      obtain ⟨a1, -, a3, -⟩ := hsat k i b hmem
      omega
  · omega

/-- The call `bmc (1, 0)` on a fresh engine with one bad property. -/
theorem bmc_empty_range_witness :
    fresh (ex_engine 1) = true ∧ (1 : Int) > 0
    ∧ ∃ mc', boolector_mc_bmc (ex_collab [(0, 0)]) (ex_engine 1) 1 0 = some (-1, mc')
      ∧ (mc'.frames.length : Int) = max (0 + 1) 0
      ∧ ∃ evs, mc'.trace = (ex_engine 1).trace ++ evs
          ∧ ∀ k i b, BtorMCEvent.sat_call k i b ∉ evs :=
  ⟨by decide, by decide, bmc_empty_range (ex_collab [(0, 0)]) (ex_engine 1) 1 0 (by decide)
    (by decide)⟩

/-- C7, counterexample: `bmc (1, 0)` on a fresh engine has `mink > maxk`, returns `-1` and
builds one frame, not zero. -/
theorem bmc_empty_range_builds_frame :
    fresh (ex_engine 1) = true ∧ (1 : Int) > 0
    ∧ (boolector_mc_bmc (ex_collab [(0, 0)]) (ex_engine 1) 1 0).map
        (fun r => (r.1, r.2.frames.length)) = some (-1, 1) := by
  decide

/-- C8: on a fresh engine with no bad property, for every `maxk ≥ 0`, `bmc (0, maxk)` makes
no solver query, builds exactly `maxk + 1` frames, leaves the state UNSAT and returns `-1`. -/
theorem bmc_without_bad_property (c : Collab) (mc : BtorMC) (maxk : Int)
    (hfresh : fresh mc = true) (hbad : mc.bad = []) (hmaxk : 0 ≤ maxk) :
    ∃ mc', boolector_mc_bmc c mc 0 maxk = some (-1, mc')
      ∧ (mc'.frames.length : Int) = maxk + 1
      ∧ mc'.state = BtorMCState.BTOR_UNSAT_MC_STATE
      ∧ ∃ evs, mc'.trace = mc.trace ++ evs ∧ ∀ k i b, BtorMCEvent.sat_call k i b ∉ evs := by
  have hfr : mc.frames = [] := by
    simp only [fresh, Bool.and_eq_true, decide_eq_true_eq] at hfresh
    exact hfresh.1.1
  obtain ⟨r, mc', hrun, hprog, hres⟩ := bmc_spec c mc 0 maxk
  obtain ⟨evs, hev, hsat⟩ := hprog.2.2.2.2.2.2.2.2.2.2
  have hno : ∀ k i b, BtorMCEvent.sat_call k i b ∉ evs := by
    intro k i b hmem
    have := (hsat k i b hmem).2.2.2
    rw [hbad] at this
    simp at this
  rcases hres with ⟨hr, hst, hlt, hl | hl⟩ | ⟨-, -, -, -, i, hi, -⟩
  · rw [hl, hfr] at hlt
    simp only [List.length_nil, Nat.cast_zero] at hlt
    omega
  · subst hr
    exact ⟨mc', hrun, hl, hst, evs, hev, hno⟩
  · rw [hbad] at hi
    simp at hi

/-- The call `bmc (0, 2)` on a fresh engine without bad property. -/
theorem bmc_without_bad_property_witness :
    fresh (ex_engine 0) = true ∧ (ex_engine 0).bad = [] ∧ (0 : Int) ≤ 2
    ∧ ∃ mc', boolector_mc_bmc (ex_collab []) (ex_engine 0) 0 2 = some (-1, mc')
      ∧ (mc'.frames.length : Int) = 2 + 1
      ∧ mc'.state = BtorMCState.BTOR_UNSAT_MC_STATE
      ∧ ∃ evs, mc'.trace = (ex_engine 0).trace ++ evs
          ∧ ∀ k i b, BtorMCEvent.sat_call k i b ∉ evs :=
  ⟨by decide, by decide, by decide,
    bmc_without_bad_property (ex_collab []) (ex_engine 0) 2 (by decide) (by decide) (by decide)⟩

/-! ## Sequences of `bmc` calls -/

/-- What one call of `boolector_mc_bmc` keeps: counters and reached entries are monotone and
the frames at entry stay in place, up to their witness cache. -/
theorem bmc_call_monotone (c : Collab) (mc : BtorMC) (mink maxk : Int) :
    ∃ r mc', boolector_mc_bmc c mc mink maxk = some (r, mc')
      ∧ mc.frames.length ≤ mc'.frames.length
      ∧ mc.num_reached ≤ mc'.num_reached
      ∧ (∀ i, 0 ≤ peek_reached mc i → peek_reached mc' i = peek_reached mc i)
      ∧ (mc'.frames.take mc.frames.length).map (fun f => { f with model2const := none })
          = mc.frames.map (fun f => { f with model2const := none }) := by
  obtain ⟨r, mc', hrun, hprog, -⟩ := bmc_spec c mc mink maxk
  have hle := bmc_progress_frames_le hprog
  obtain ⟨-, -, -, -, -, -, -, ⟨fs, hfs⟩, hpt, hnum, -⟩ := hprog
  refine ⟨r, mc', hrun, hle, hnum, ?_, ?_⟩
  · intro i hpos
    rcases hpt i with h | ⟨h1, -⟩
    · exact h
    · omega
  · rw [hfs, List.take_left' (by simp), List.map_map]
    apply List.map_congr_left
    intro f _
    rfl

/-- C9, as amended: across any sequence of `bmc` calls on one engine, from every engine
state, the calls return, the number of frames and `num_reached` do not decrease, an entry
`reached[i] ≥ 0` does not change, and a frame that exists at entry stays at its place with
its time and its input, latch, next-state and bad tables unchanged: only its witness cache
`model2const` is released. -/
theorem bmc_calls_monotone (c : Collab) (calls : List (Int × Int)) :
    ∀ mc : BtorMC, ∃ mc', bmc_calls c calls mc = some mc'
      ∧ mc.frames.length ≤ mc'.frames.length
      ∧ mc.num_reached ≤ mc'.num_reached
      ∧ (∀ i, 0 ≤ peek_reached mc i → peek_reached mc' i = peek_reached mc i)
      ∧ (mc'.frames.take mc.frames.length).map (fun f => { f with model2const := none })
          = mc.frames.map (fun f => { f with model2const := none }) := by
  induction calls with
  | nil =>
    intro mc
    exact ⟨mc, rfl, le_refl _, le_refl _, fun _ _ => rfl, by rw [List.take_length]⟩
  | cons call rest ih =>
    intro mc
    obtain ⟨r, mc1, hrun, h1, h2, h3, h4⟩ := bmc_call_monotone c mc call.1 call.2
    obtain ⟨mc2, hrun2, g1, g2, g3, g4⟩ := ih mc1
    refine ⟨mc2, ?_, le_trans h1 g1, le_trans h2 g2, ?_, ?_⟩
    · simp only [bmc_calls, hrun]
      exact hrun2
    · intro i hpos
      have e1 := h3 i hpos
      rw [g3 i (by rw [e1]; exact hpos), e1]
    · have e : mc2.frames.take mc.frames.length
          = (mc2.frames.take mc1.frames.length).take mc.frames.length := by
        rw [List.take_take, Nat.min_eq_left h1]
      rw [e, List.map_take, g4, ← List.map_take, h4]

/-- C9, counterexample: frame 0 of `ex_engine_cached` holds a witness cache; the call
`bmc (0, 0)` on that engine builds nothing and returns `-1`, and frame 0 is no longer the
frame that existed at entry. -/
theorem bmc_releases_frame_cache :
    ∃ r mc', boolector_mc_bmc (ex_collab [(0, 0)]) ex_engine_cached 0 0 = some (r, mc')
      ∧ ex_engine_cached.frames.length = 1
      ∧ mc'.frames.length = 1
      ∧ mc'.frames.get? 0 ≠ ex_engine_cached.frames.get? 0 :=
  ⟨-1, _, rfl, by decide, by decide, by decide⟩

/-! ## Registration -/

theorem update_mc_latch_ids (node : BoolectorNode) (change : BtorMCLatch → BtorMCLatch)
    (hid : ∀ l, (change l).id = l.id) :
    ∀ ls : List BtorMCLatch,
      (update_mc_latch node change ls).map (fun l => l.id) = ls.map (fun l => l.id)
      ∧ (update_mc_latch node change ls).length = ls.length := by
  intro ls
  induction ls with
  | nil => simp [update_mc_latch]
  | cons l ls ih =>
    unfold update_mc_latch
    split
    · simp [hid]
    · simp [ih.1, ih.2]

/-- The ids of a table are its positions. -/
theorem ids_append (ids : List Int) (n : Nat)
    (h : ids = (List.range n).map (fun k : Nat => (k : Int))) :
    ids ++ [(n : Int)] = (List.range (n + 1)).map (fun k : Nat => (k : Int)) := by
  rw [h, List.range_succ, List.map_append]
  rfl

/-- Every model-authoring call keeps the ids of both tables equal to the positions. -/
theorem register_ids (mc mc' : BtorMC) (call : BtorMCCall) (hreg : register mc call = some mc')
    (hin : mc.inputs.map (fun x => x.id) = (List.range mc.inputs.length).map (fun k : Nat => (k : Int)))
    (hla : mc.latches.map (fun x => x.id)
      = (List.range mc.latches.length).map (fun k : Nat => (k : Int))) :
    mc'.inputs.map (fun x => x.id) = (List.range mc'.inputs.length).map (fun k : Nat => (k : Int))
    ∧ mc'.latches.map (fun x => x.id)
      = (List.range mc'.latches.length).map (fun k : Nat => (k : Int)) := by
  cases call with
  | node n =>
    simp only [register, Option.some.injEq] at hreg
    subst hreg
    exact ⟨hin, hla⟩
  | input width name =>
    simp only [register, boolector_input, Option.map_eq_some'] at hreg
    obtain ⟨r, hr, hmc⟩ := hreg
    split at hr
    · cases hr
    · split at hr
      · cases hr
      · simp only [Option.some.injEq] at hr
        subst hr
        subst hmc
        refine ⟨?_, hla⟩
        simp only [List.map_append, List.map_cons, List.map_nil, List.length_append,
          List.length_singleton]
        exact ids_append _ _ hin
  | latch width name =>
    simp only [register, boolector_latch, Option.map_eq_some'] at hreg
    obtain ⟨r, hr, hmc⟩ := hreg
    split at hr
    · cases hr
    · split at hr
      · cases hr
      · simp only [Option.some.injEq] at hr
        subst hr
        subst hmc
        refine ⟨hin, ?_⟩
        simp only [List.map_append, List.map_cons, List.map_nil, List.length_append,
          List.length_singleton]
        exact ids_append _ _ hla
  | next node next =>
    simp only [register, boolector_next] at hreg
    split at hreg
    · cases hreg
    · split at hreg
      · cases hreg
      · split at hreg
        · cases hreg
        · split at hreg
          · cases hreg
          · split at hreg
            · cases hreg
            · split at hreg
              · cases hreg
              · simp only [Option.some.injEq] at hreg
                subst hreg
                obtain ⟨e1, e2⟩ := update_mc_latch_ids node
                  (fun l => { l with next := some next }) (fun _ => rfl) mc.latches
                exact ⟨hin, by simp only [e1, e2]; exact hla⟩
  | init node init =>
    simp only [register, boolector_mc_init] at hreg
    split at hreg
    · cases hreg
    · split at hreg
      · cases hreg
      · split at hreg
        · cases hreg
        · split at hreg
          · cases hreg
          · split at hreg
            · cases hreg
            · split at hreg
              · cases hreg
              · split at hreg
                · cases hreg
                · simp only [Option.some.injEq] at hreg
                  subst hreg
                  obtain ⟨e1, e2⟩ := update_mc_latch_ids node
                    (fun l => { l with init := some init }) (fun _ => rfl) mc.latches
                  exact ⟨hin, by simp only [e1, e2]; exact hla⟩
  | bad bad =>
    simp only [register, boolector_bad, Option.map_eq_some'] at hreg
    obtain ⟨r, hr, hmc⟩ := hreg
    split at hr
    · cases hr
    · split at hr
      · cases hr
      · split at hr
        · cases hr
        · simp only [Option.some.injEq] at hr
          subst hr
          subst hmc
          exact ⟨hin, hla⟩
  | constraint constraint =>
    simp only [register, boolector_constraint, Option.map_eq_some'] at hreg
    obtain ⟨r, hr, hmc⟩ := hreg
    split at hr
    · cases hr
    · split at hr
      · cases hr
      · split at hr
        · cases hr
        · simp only [Option.some.injEq] at hr
          subst hr
          subst hmc
          exact ⟨hin, hla⟩

theorem register_all_ids (calls : List BtorMCCall) :
    ∀ mc mc' : BtorMC, register_all calls mc = some mc' →
      mc.inputs.map (fun x => x.id) = (List.range mc.inputs.length).map (fun k : Nat => (k : Int)) →
      mc.latches.map (fun x => x.id) = (List.range mc.latches.length).map (fun k : Nat => (k : Int)) →
      mc'.inputs.map (fun x => x.id) = (List.range mc'.inputs.length).map (fun k : Nat => (k : Int))
      ∧ mc'.latches.map (fun x => x.id)
        = (List.range mc'.latches.length).map (fun k : Nat => (k : Int)) := by
  induction calls with
  | nil =>
    intro mc mc' h hin hla
    simp only [register_all, Option.some.injEq] at h
    subst h
    exact ⟨hin, hla⟩
  | cons call rest ih =>
    intro mc mc' h hin hla
    simp only [register_all] at h
    cases hreg : register mc call with
    | none => rw [hreg] at h; cases h
    | some mc1 =>
      rw [hreg] at h
      obtain ⟨h1, h2⟩ := register_ids mc mc1 call hreg hin hla
      exact ih mc1 mc' h h1 h2

/-- Consequences of a table of ids that lists the positions. -/
theorem ids_positions (ids : List Int) (n : Nat)
    (h : ids = (List.range n).map (fun k : Nat => (k : Int))) :
    (∀ k, k < n → ids.get? k = some (k : Int)) ∧ ids.Nodup
      ∧ ∀ x : Int, x ∈ ids ↔ 0 ≤ x ∧ x < (n : Int) := by
  subst h
  refine ⟨?_, ?_, ?_⟩
  · intro k hk
    simp [List.getElem?_range hk]
  · exact (List.nodup_range n).map (fun a b hab => by exact_mod_cast hab)
  · intro x
    simp only [List.mem_map, List.mem_range]
    constructor
    · rintro ⟨k, hk, rfl⟩
      omega
    · rintro ⟨h0, h1⟩
      exact ⟨x.toNat, by omega, by omega⟩

/-- C10: after any sequence of model-authoring calls on a new engine, in particular after any
sequence of input and latch registrations, the `k`-th registered input has id `k` and the
`k`-th registered latch has id `k`; within each table the ids are pairwise distinct and
range exactly over `0 .. count - 1`. -/
theorem registration_ids_are_positions (c : Collab) (calls : List BtorMCCall) (mc : BtorMC)
    (hreg : register_all calls (boolector_mc_new c) = some mc) :
    (∀ k, k < mc.inputs.length → (mc.inputs.map (fun x => x.id)).get? k = some (k : Int))
    ∧ (∀ k, k < mc.latches.length → (mc.latches.map (fun x => x.id)).get? k = some (k : Int))
    ∧ (mc.inputs.map (fun x => x.id)).Nodup
    ∧ (mc.latches.map (fun x => x.id)).Nodup
    ∧ (∀ x : Int, x ∈ mc.inputs.map (fun x => x.id) ↔ 0 ≤ x ∧ x < (mc.inputs.length : Int))
    ∧ (∀ x : Int, x ∈ mc.latches.map (fun x => x.id) ↔ 0 ≤ x ∧ x < (mc.latches.length : Int)) := by
  obtain ⟨h1, h2⟩ := register_all_ids calls (boolector_mc_new c) mc hreg rfl rfl
  obtain ⟨a1, a2, a3⟩ := ids_positions _ _ h1
  obtain ⟨b1, b2, b3⟩ := ids_positions _ _ h2
  exact ⟨a1, b1, a2, b2, a3, b3⟩

/-- The calls `ex_calls` succeed on a new engine and give `ex_registered`. -/
theorem registration_ids_are_positions_witness :
    register_all ex_calls (boolector_mc_new (ex_collab [])) = some ex_registered
    ∧ (∀ k, k < ex_registered.inputs.length →
        (ex_registered.inputs.map (fun x => x.id)).get? k = some (k : Int))
    ∧ (∀ k, k < ex_registered.latches.length →
        (ex_registered.latches.map (fun x => x.id)).get? k = some (k : Int))
    ∧ (ex_registered.inputs.map (fun x => x.id)).Nodup
    ∧ (ex_registered.latches.map (fun x => x.id)).Nodup
    ∧ (∀ x : Int, x ∈ ex_registered.inputs.map (fun x => x.id)
        ↔ 0 ≤ x ∧ x < (ex_registered.inputs.length : Int))
    ∧ (∀ x : Int, x ∈ ex_registered.latches.map (fun x => x.id)
        ↔ 0 ≤ x ∧ x < (ex_registered.latches.length : Int)) :=
  ⟨by decide,
    registration_ids_are_positions (ex_collab []) ex_calls ex_registered (by decide)⟩

/-! ## Invariants of the engine -/

theorem same_frame_get? (fs fs' : List BtorMCFrame) (h : List.Forall₂ same_frame fs fs') :
    fs'.length = fs.length
    ∧ ∀ t f', fs'.get? t = some f' → ∃ f, fs.get? t = some f ∧ same_frame f f' := by
  induction h with
  | nil => exact ⟨rfl, by intro t f' h; simp at h⟩
  | cons hab _ ih =>
    refine ⟨by simp [ih.1], ?_⟩
    intro t f' ht
    cases t with
    | zero =>
      simp only [List.get?_cons_zero, Option.some.injEq] at ht
      subst ht
      exact ⟨_, rfl, hab⟩
    | succ t =>
      simp only [List.get?_cons_succ] at ht
      exact ih.2 t f' ht

theorem same_frame_map (fs : List BtorMCFrame) (g : BtorMCFrame → BtorMCFrame)
    (hg : ∀ f, same_frame f (g f)) : List.Forall₂ same_frame fs (fs.map g) := by
  induction fs with
  | nil => exact List.Forall₂.nil
  | cons f fs ih => exact List.Forall₂.cons (hg f) ih

theorem same_frame_modify (g : BtorMCFrame → BtorMCFrame) (hg : ∀ f, same_frame f (g f)) :
    ∀ (fs : List BtorMCFrame) (t : Nat), List.Forall₂ same_frame fs (fs.modify g t) := by
  intro fs
  induction fs with
  | nil => intro t; cases t <;> exact List.Forall₂.nil
  | cons f fs ih =>
    intro t
    cases t with
    | zero =>
      exact List.Forall₂.cons (hg f) (by simpa using same_frame_map fs id (fun _ => by unfold same_frame; rfl))
    | succ t => exact List.Forall₂.cons (by unfold same_frame; rfl) (ih t)

theorem check_bad_loop_state (c : Collab) (k : Int) :
    ∀ (l : BoolectorNodePtrStack) (i : Nat) (s : Int) (m : BtorMC),
      (check_bad_loop c k l i s m).2.state = BtorMCState.BTOR_NO_MC_STATE →
      (check_bad_loop c k l i s m).1 = s ∧ m.state = BtorMCState.BTOR_NO_MC_STATE := by
  intro l
  induction l with
  | nil => intro i s m h; exact ⟨rfl, h⟩
  | cons b rest ih =>
    intro i s m
    cases b with
    | none => simp only [check_bad_loop]; exact ih _ _ _
    | some b =>
      simp only [check_bad_loop]
      split
      · split
        · split
          · intro h; exact absurd (ih _ _ _ h).2 (by simp)
          · intro h; exact absurd (ih _ _ _ h).2 (by simp)
        · intro h; exact absurd (ih _ _ _ h).2 (by simp)
      · intro h; exact absurd (ih _ _ _ h).2 (by simp)

theorem check_last_forward_frame_state (c : Collab) (m : BtorMC)
    (h : (check_last_forward_frame c m).1 ≠ 0) :
    (check_last_forward_frame c m).2.state ≠ BtorMCState.BTOR_NO_MC_STATE := by
  unfold check_last_forward_frame at h ⊢
  cases hl : m.frames.getLast? with
  | none => rw [hl] at h; exact absurd rfl h
  | some f =>
    rw [hl] at h
    intro hst
    exact h (check_bad_loop_state c _ _ _ _ _ hst).1

/-- After every call of `boolector_mc_bmc` the state of the engine is SAT or UNSAT. -/
theorem bmc_state (c : Collab) (mc : BtorMC) (mink maxk : Int) :
    ∃ r mc', boolector_mc_bmc c mc mink maxk = some (r, mc')
      ∧ mc'.state ≠ BtorMCState.BTOR_NO_MC_STATE := by
  unfold boolector_mc_bmc
  refine bmc_loop_rule c mink maxk (fun _ => True)
    (fun _ mc' => mc'.state ≠ BtorMCState.BTOR_NO_MC_STATE) ?_ ?_ ?_ _ _ trivial
    (by unfold bmc_fuel; omega)
  · intro _ _ _ _; trivial
  · intro m _ _ _ s mc2 hres
    refine ⟨?_, fun _ => trivial⟩
    intro hret
    have := check_last_forward_frame_state c
      (initialize_new_forward_frame c (starting_bound_call_back m))
    rw [hres] at this
    exact this hret.1
  · intro m _ _
    simp

/-- Rule for an invariant of the engine over a call of `boolector_mc_bmc` : a property kept
by the steps of the call is kept by the call. -/
theorem bmc_preserves (c : Collab) (Q : BtorMC → Prop)
    (hfields : ∀ (mc : BtorMC) (options : BtorMCOptions) (state : BtorMCState)
      (call_backs : BtorMCCallBacks) (forward2const : Option BoolectorNodeMap) (verb : Nat),
      Q mc → Q { mc with
        options := options, state := state, call_backs := call_backs,
        forward2const := forward2const, btor := { mc.btor with opt_verbosity := verb } })
    (htrace : ∀ (mc : BtorMC) (e : BtorMCEvent), (∀ k i b, e ≠ BtorMCEvent.sat_call k i b) →
      Q mc → Q { mc with trace := mc.trace ++ [e] })
    (hcaches : ∀ (mc : BtorMC) (fs' : List BtorMCFrame),
      List.Forall₂ same_frame mc.frames fs' → Q mc → Q { mc with frames := fs' })
    (hbuild : ∀ mc, Q mc → Q (initialize_new_forward_frame c mc))
    (hcheck : ∀ mc, Q mc →
      Q (check_last_forward_frame c (initialize_new_forward_frame c mc)).2)
    (mc : BtorMC) (mink maxk : Int) (hQ : Q mc) :
    ∃ r mc', boolector_mc_bmc c mc mink maxk = some (r, mc') ∧ Q mc' := by
  have hstart : ∀ m, Q m → Q (starting_bound_call_back m) := by
    intro m hm
    unfold starting_bound_call_back
    split
    · exact htrace m _ (by intro k i b h; cases h) hm
    · exact hm
  unfold boolector_mc_bmc
  refine bmc_loop_rule c mink maxk Q (fun _ mc' => Q mc') ?_ ?_ ?_ _ _ ?_
    (by unfold bmc_fuel; omega)
  · intro m hm _ _
    exact hbuild _ (hstart m hm)
  · intro m hm _ _ s mc2 hres
    have := hcheck _ (hstart m hm)
    rw [hres] at this
    exact ⟨fun _ => this, fun _ => this⟩
  · intro m hm _
    exact hfields m m.options BtorMCState.BTOR_UNSAT_MC_STATE m.call_backs m.forward2const
      m.btor.opt_verbosity hm
  · have h1 := hcaches mc (mc.frames.map (fun f => { f with model2const := none }))
      (same_frame_map _ _ (fun _ => by unfold same_frame; rfl)) hQ
    exact hfields { mc with frames := mc.frames.map (fun f => { f with model2const := none }) }
      mc.options BtorMCState.BTOR_NO_MC_STATE mc.call_backs none mc.btor.opt_verbosity h1

theorem register_frames_state (mc mc' : BtorMC) (call : BtorMCCall)
    (hreg : register mc call = some mc') :
    mc'.frames = mc.frames ∧ mc'.state = mc.state
      ∧ ((∃ n, call = BtorMCCall.node n) ∨ mc.state = BtorMCState.BTOR_NO_MC_STATE) := by
  cases call with
  | node n =>
    simp only [register, Option.some.injEq] at hreg
    subst hreg
    exact ⟨rfl, rfl, Or.inl ⟨n, rfl⟩⟩
  | input width name =>
    simp only [register, boolector_input, Option.map_eq_some'] at hreg
    obtain ⟨r, hr, hmc⟩ := hreg
    split at hr
    · cases hr
    · rename_i hst
      split at hr
      · cases hr
      · simp only [Option.some.injEq] at hr
        subst hr
        subst hmc
        exact ⟨rfl, rfl, Or.inr (not_not.mp hst)⟩
  | latch width name =>
    simp only [register, boolector_latch, Option.map_eq_some'] at hreg
    obtain ⟨r, hr, hmc⟩ := hreg
    split at hr
    · cases hr
    · rename_i hst
      split at hr
      · cases hr
      · simp only [Option.some.injEq] at hr
        subst hr
        subst hmc
        exact ⟨rfl, rfl, Or.inr (not_not.mp hst)⟩
  | next node next =>
    simp only [register, boolector_next] at hreg
    split at hreg
    · cases hreg
    · rename_i hst
      split at hreg
      · cases hreg
      · split at hreg
        · cases hreg
        · split at hreg
          · cases hreg
          · split at hreg
            · cases hreg
            · split at hreg
              · cases hreg
              · simp only [Option.some.injEq] at hreg
                subst hreg
                exact ⟨rfl, rfl, Or.inr (not_not.mp hst)⟩
  | init node init =>
    simp only [register, boolector_mc_init] at hreg
    split at hreg
    · cases hreg
    · rename_i hst
      split at hreg
      · cases hreg
      · split at hreg
        · cases hreg
        · split at hreg
          · cases hreg
          · split at hreg
            · cases hreg
            · split at hreg
              · cases hreg
              · split at hreg
                · cases hreg
                · simp only [Option.some.injEq] at hreg
                  subst hreg
                  exact ⟨rfl, rfl, Or.inr (not_not.mp hst)⟩
  | bad bad =>
    simp only [register, boolector_bad, Option.map_eq_some'] at hreg
    obtain ⟨r, hr, hmc⟩ := hreg
    split at hr
    · cases hr
    · rename_i hst
      split at hr
      · cases hr
      · split at hr
        · cases hr
        · simp only [Option.some.injEq] at hr
          subst hr
          subst hmc
          exact ⟨rfl, rfl, Or.inr (not_not.mp hst)⟩
  | constraint constraint =>
    simp only [register, boolector_constraint, Option.map_eq_some'] at hreg
    obtain ⟨r, hr, hmc⟩ := hreg
    split at hr
    · cases hr
    · rename_i hst
      split at hr
      · cases hr
      · split at hr
        · cases hr
        · simp only [Option.some.injEq] at hr
          subst hr
          subst hmc
          exact ⟨rfl, rfl, Or.inr (not_not.mp hst)⟩

theorem set_opt_shape (mc mc' : BtorMC) (opt : BtorMCOption) (val : Nat)
    (h : boolector_mc_set_opt mc opt val = some mc') :
    mc' = { mc with
      options := mc'.options
      btor := { mc.btor with opt_verbosity := mc'.btor.opt_verbosity } } := by
  unfold boolector_mc_set_opt at h
  split at h
  · cases h
  · split at h
    · cases h
    · cases opt <;> simp only [Option.some.injEq] at h <;> subst h <;> rfl

theorem assignment_caches_shape (mc mc' : BtorMC) (time : Int)
    (m2c f2c : Option BoolectorNodeMap)
    (h : boolector_mc_assignment_caches mc time m2c f2c = some mc') :
    mc.state ≠ BtorMCState.BTOR_NO_MC_STATE
    ∧ mc' = { mc with
        forward2const := f2c
        frames := mc.frames.modify (fun f => { f with model2const := m2c }) time.toNat } := by
  unfold boolector_mc_assignment_caches at h
  split at h
  · cases h
  · rename_i hst
    split at h
    · cases h
    · split at h
      · cases h
      · split at h
        · cases h
        · split at h
          · cases h
          · simp only [Option.some.injEq] at h
            exact ⟨hst, h.symm⟩

/-- Rule for an invariant of the reachable engines: a property of the new engine that is
kept by the registration of the model (possible only while no frame is built), by new
nodes of the model circuit and by the steps of `boolector_mc_bmc` holds in every
reachable engine. -/
theorem api_invariant (c : Collab) (Q : BtorMC → Prop)
    (hnew : Q (boolector_mc_new c))
    (hfields : ∀ (mc : BtorMC) (options : BtorMCOptions) (state : BtorMCState)
      (call_backs : BtorMCCallBacks) (forward2const : Option BoolectorNodeMap) (verb : Nat),
      Q mc → Q { mc with
        options := options, state := state, call_backs := call_backs,
        forward2const := forward2const, btor := { mc.btor with opt_verbosity := verb } })
    (htrace : ∀ (mc : BtorMC) (e : BtorMCEvent), (∀ k i b, e ≠ BtorMCEvent.sat_call k i b) →
      Q mc → Q { mc with trace := mc.trace ++ [e] })
    (hcaches : ∀ (mc : BtorMC) (fs' : List BtorMCFrame),
      List.Forall₂ same_frame mc.frames fs' → Q mc → Q { mc with frames := fs' })
    (hauthor : ∀ (mc mc' : BtorMC) (call : BtorMCCall), Q mc → mc.frames = [] →
      register mc call = some mc' → Q mc')
    (hnode : ∀ (mc : BtorMC) (n : BtorNode), Q mc →
      Q { mc with btor := { mc.btor with nodes := mc.btor.nodes ++ [n] } })
    (hbuild : ∀ mc, Q mc → Q (initialize_new_forward_frame c mc))
    (hcheck : ∀ mc, Q mc →
      Q (check_last_forward_frame c (initialize_new_forward_frame c mc)).2) :
    ∀ (steps : List BtorMCStep) (mc : BtorMC),
      api_run c steps (boolector_mc_new c) = some mc → Q mc := by
  have key : ∀ (steps : List BtorMCStep) (m mc : BtorMC), Q m →
      (m.frames ≠ [] → m.state ≠ BtorMCState.BTOR_NO_MC_STATE) →
      api_run c steps m = some mc → Q mc := by
    intro steps
    induction steps with
    | nil =>
      intro m mc hQ _ hrun
      simp only [api_run, Option.some.injEq] at hrun
      subst hrun
      exact hQ
    | cons step rest ih =>
      intro m mc hQ hJ hrun
      simp only [api_run] at hrun
      cases hstep : api_step c m step with
      | none => rw [hstep] at hrun; cases hrun
      | some m1 =>
        rw [hstep] at hrun
        refine ih m1 mc ?_ ?_ hrun
        · cases step with
          | author call =>
            simp only [api_step] at hstep
            obtain ⟨-, -, hcase⟩ := register_frames_state m m1 call hstep
            by_cases hfr : m.frames = []
            · exact hauthor m m1 call hQ hfr hstep
            · rcases hcase with ⟨n, rfl⟩ | hst
              · simp only [register, Option.some.injEq] at hstep
                subst hstep
                exact hnode m n hQ
              · exact absurd hst (hJ hfr)
          | set_opt opt val =>
            simp only [api_step] at hstep
            rw [set_opt_shape m m1 opt val hstep]
            exact hfields m m1.options m.state m.call_backs m.forward2const
              m1.btor.opt_verbosity hQ
          | set_reached_at_bound_call_back installed =>
            simp only [api_step, Option.some.injEq] at hstep
            subst hstep
            exact hfields m m.options m.state _ m.forward2const m.btor.opt_verbosity hQ
          | set_starting_bound_call_back installed =>
            simp only [api_step, Option.some.injEq] at hstep
            subst hstep
            exact hfields m m.options m.state _ m.forward2const m.btor.opt_verbosity hQ
          | bmc mink maxk =>
            simp only [api_step, Option.map_eq_some'] at hstep
            obtain ⟨r, hr, hm1⟩ := hstep
            obtain ⟨r', mc', hrun', hQ'⟩ :=
              bmc_preserves c Q hfields htrace hcaches hbuild hcheck m mink maxk hQ
            rw [hrun'] at hr
            simp only [Option.some.injEq] at hr
            subst hr
            subst hm1
            exact hQ'
          | assignment time m2c f2c =>
            simp only [api_step] at hstep
            obtain ⟨-, hshape⟩ := assignment_caches_shape m m1 time m2c f2c hstep
            rw [hshape]
            have h1 := hcaches m _
              (same_frame_modify (fun f => { f with model2const := m2c })
                (fun _ => by unfold same_frame; rfl) m.frames time.toNat) hQ
            exact hfields _ m.options m.state m.call_backs f2c m.btor.opt_verbosity h1
        · cases step with
          | author call =>
            simp only [api_step] at hstep
            obtain ⟨hf, hs, -⟩ := register_frames_state m m1 call hstep
            rw [hf, hs]
            exact hJ
          | set_opt opt val =>
            simp only [api_step] at hstep
            rw [set_opt_shape m m1 opt val hstep]
            exact hJ
          | set_reached_at_bound_call_back installed =>
            simp only [api_step, Option.some.injEq] at hstep
            subst hstep
            exact hJ
          | set_starting_bound_call_back installed =>
            simp only [api_step, Option.some.injEq] at hstep
            subst hstep
            exact hJ
          | bmc mink maxk =>
            simp only [api_step, Option.map_eq_some'] at hstep
            obtain ⟨r, hr, hm1⟩ := hstep
            obtain ⟨r', mc', hrun', hst⟩ := bmc_state c m mink maxk
            rw [hrun'] at hr
            simp only [Option.some.injEq] at hr
            subst hr
            subst hm1
            exact fun _ => hst
          | assignment time m2c f2c =>
            simp only [api_step] at hstep
            obtain ⟨hst, hshape⟩ := assignment_caches_shape m m1 time m2c f2c hstep
            rw [hshape]
            exact fun _ => hst
  intro steps mc hrun
  exact key steps (boolector_mc_new c) mc hnew (fun h => absurd rfl h) hrun

/-! ## The tables of a frame -/

theorem initialize_inputs_loop_spec (mc : BtorMC) (time : Int) :
    ∀ (l : List BtorMCInput) (acc : BoolectorNodePtrStack) (fw : Btor),
      (initialize_inputs_loop mc time l acc fw).1
          = acc ++ (List.range' fw.nodes.length l.length).map some
      ∧ (initialize_inputs_loop mc time l acc fw).2.nodes
          = fw.nodes ++ l.map (fun input =>
              var_node (boolector_get_width mc.btor input.node)
                (timed_symbol mc input.node time))
      ∧ (initialize_inputs_loop mc time l acc fw).2.assertions = fw.assertions := by
  intro l
  induction l with
  | nil => intro acc fw; simp [initialize_inputs_loop]
  | cons input rest ih =>
    intro acc fw
    simp only [initialize_inputs_loop, boolector_var]
    obtain ⟨h1, h2, h3⟩ := ih (acc ++ [some fw.nodes.length])
      { fw with nodes := fw.nodes ++
          [{ kind := BtorNodeKind.bv_var, width := boolector_get_width mc.btor input.node,
             symbol := timed_symbol mc input.node time, bits := none, args := [] }] }
    refine ⟨?_, ?_, ?_⟩
    · rw [h1]
      simp [List.range'_succ]
    · rw [h2]
      simp [var_node]
    · rw [h3]

theorem initialize_next_loop_spec (c : Collab) (mc : BtorMC) :
    ∀ (l : List BtorMCLatch) (acc : BoolectorNodePtrStack) (fw : Btor) (map : BoolectorNodeMap),
      (initialize_next_loop c mc l acc fw map).1.map Option.isSome
        = acc.map Option.isSome ++ l.map (fun latch => latch.next.isSome) := by
  intro l
  induction l with
  | nil => intro acc fw map; simp [initialize_next_loop]
  | cons latch rest ih =>
    intro acc fw map
    unfold initialize_next_loop
    cases hn : latch.next with
    | none => simp only []; rw [ih]; simp [hn]
    | some src => simp only []; rw [ih]; simp [hn]

theorem initialize_latches_loop_spec (mc : BtorMC) (time : Int) (p : Option BtorMCFrame) :
    ∀ (l : List BtorMCLatch) (i : Nat) (acc : BoolectorNodePtrStack) (fw : Btor),
      latches_loop_post mc time p l i acc fw (initialize_latches_loop mc time p l i acc fw) := by
  intro l
  induction l with
  | nil =>
    intro i acc fw
    simp [latches_loop_post, initialize_latches_loop]
  | cons latch rest ih =>
    intro i acc fw
    -- what the loop does after the entry of `latch` is pushed
    have step : ∀ (entry : Option BoolectorNode) (fw1 : Btor) (new1 : List BtorNode),
        fw1.nodes = fw.nodes ++ new1 → fw1.assertions = fw.assertions →
        (time = 0 → ∀ init, latch.init = some init →
            ∃ n, entry = some n ∧ fw.nodes.length ≤ n
              ∧ fw1.nodes.get? n = some (const_node (boolector_get_bits mc.btor init))) →
        (time > 0 → latch.next.isSome = true →
            entry = previous_next p i) →
        (¬ (time = 0 ∧ latch.init.isSome = true) → ¬ (time > 0 ∧ latch.next.isSome = true) →
            ∃ n, entry = some n ∧ fw.nodes.length ≤ n
              ∧ fw1.nodes.get? n = some (var_node (boolector_get_width mc.btor latch.node)
                  (timed_symbol mc latch.node time))) →
        latches_loop_post mc time p (latch :: rest) i acc fw
          (initialize_latches_loop mc time p rest (i + 1) (acc ++ [entry]) fw1) := by
      intro entry fw1 new1 hn1 ha1 hc hl hv
      obtain ⟨h1, h2, ⟨new, h3⟩, h4, h5⟩ := ih (i + 1) (acc ++ [entry]) fw1
      have hentry : (initialize_latches_loop mc time p rest (i + 1) (acc ++ [entry]) fw1).1.get?
          acc.length = some entry := by
        rw [h2 acc.length (by simp)]
        simp
      have hnode : ∀ n node, fw1.nodes.get? n = some node →
          (initialize_latches_loop mc time p rest (i + 1) (acc ++ [entry]) fw1).2.nodes.get? n
            = some node := by
        intro n node hnn
        rw [h3]
        have hlt : n < fw1.nodes.length := by
          by_contra hcon
          rw [List.get?_eq_none.mpr (Nat.le_of_not_lt hcon)] at hnn
          cases hnn
        rw [List.get?_eq_getElem?, List.getElem?_append_left hlt, ← List.get?_eq_getElem?]
        exact hnn
      refine ⟨by rw [h1]; simp; omega, ?_, ⟨new1 ++ new, by rw [h3, hn1, List.append_assoc]⟩,
        by rw [h4, ha1], ?_⟩
      · intro j hj
        rw [h2 j (by simp; omega)]
        simp [List.getElem?_append_left hj]
      · intro j latch' hj
        cases j with
        | zero =>
          simp only [List.get?_cons_zero, Option.some.injEq] at hj
          subst hj
          simp only [Nat.add_zero]
          refine ⟨?_, ?_, ?_⟩
          · intro ht init hi
            obtain ⟨n, hn, hle, hnd⟩ := hc ht init hi
            exact ⟨n, by rw [hentry, hn], hle, hnode n _ hnd⟩
          · intro ht hnx
            rw [hentry, hl ht hnx]
          · intro hnc hnl
            obtain ⟨n, hn, hle, hnd⟩ := hv hnc hnl
            exact ⟨n, by rw [hentry, hn], hle, hnode n _ hnd⟩
        | succ j =>
          simp only [List.get?_cons_succ] at hj
          obtain ⟨g1, g2, g3⟩ := h5 j latch' hj
          have hidx : (acc ++ [entry]).length + j = acc.length + (j + 1) := by simp; omega
          have hidx2 : i + 1 + j = i + (j + 1) := by omega
          have hfw : fw.nodes.length ≤ fw1.nodes.length := by rw [hn1]; simp
          rw [hidx] at g1 g2 g3
          rw [hidx2] at g2
          refine ⟨?_, g2, ?_⟩
          · intro ht init hi
            obtain ⟨n, hn, hle, hnd⟩ := g1 ht init hi
            exact ⟨n, hn, le_trans hfw hle, hnd⟩
          · intro hnc hnl
            obtain ⟨n, hn, hle, hnd⟩ := g3 hnc hnl
            exact ⟨n, hn, le_trans hfw hle, hnd⟩
    unfold initialize_latches_loop
    by_cases ht : time = 0
    · subst ht
      cases hi : latch.init with
      | some init =>
        simp only [eq_self_iff_true, if_true, hi, boolector_const]
        refine step (some fw.nodes.length)
          { fw with nodes := fw.nodes ++ [const_node (boolector_get_bits mc.btor init)] }
          [const_node (boolector_get_bits mc.btor init)] rfl rfl ?_ ?_ ?_
        · intro _ init' hi'
          rw [hi] at hi'
          cases hi'
          exact ⟨fw.nodes.length, rfl, le_refl _, by simp [const_node]⟩
        · intro h; omega
        · intro h; exact absurd ⟨rfl, by rw [hi]; rfl⟩ h
      | none =>
        have hnl : ¬ ((0 : Int) > 0 ∧ latch.next.isSome = true) := by omega
        simp only [eq_self_iff_true, if_true, hi, hnl, if_false, boolector_var]
        refine step (some fw.nodes.length)
          { fw with nodes := fw.nodes ++ [var_node (boolector_get_width mc.btor latch.node)
            (timed_symbol mc latch.node 0)] }
          [var_node (boolector_get_width mc.btor latch.node)
          (timed_symbol mc latch.node 0)] rfl rfl ?_ ?_ ?_
        · intro _ init' hi'
          rw [hi] at hi'
          cases hi'
        · intro h; omega
        · intro _ _
          exact ⟨fw.nodes.length, rfl, le_refl _, by simp [var_node]⟩
    · simp only [ht, if_false]
      by_cases hnx : time > 0 ∧ latch.next.isSome = true
      · simp only [hnx, and_self, if_true]
        refine step (previous_next p i) fw [] (by simp) rfl ?_ ?_ ?_
        · intro h; exact absurd h ht
        · intro _ _; rfl
        · intro _ h; exact absurd hnx h
      · simp only [hnx, if_false, boolector_var]
        refine step (some fw.nodes.length)
          { fw with nodes := fw.nodes ++ [var_node (boolector_get_width mc.btor latch.node)
            (timed_symbol mc latch.node time)] }
          [var_node (boolector_get_width mc.btor latch.node)
          (timed_symbol mc latch.node time)] rfl rfl ?_ ?_ ?_
        · intro h; exact absurd h ht
        · intro h1 h2; exact absurd ⟨h1, h2⟩ hnx
        · intro _ _
          exact ⟨fw.nodes.length, rfl, le_refl _, by simp [var_node]⟩

theorem initialize_latches_loop_length (mc : BtorMC) (time : Int) (p : Option BtorMCFrame)
    (l : List BtorMCLatch) (i : Nat) (acc : BoolectorNodePtrStack) (fw : Btor) :
    (initialize_latches_loop mc time p l i acc fw).1.length = acc.length + l.length :=
  (initialize_latches_loop_spec mc time p l i acc fw).1

theorem initialize_bad_loop_length (c : Collab) (mc : BtorMC) (l : List BoolectorNode)
    (fw : Btor) (map : BoolectorNodeMap) :
    (initialize_bad_loop c mc l 0 [] fw map).1.length = l.length := by
  have := congrArg List.length (initialize_bad_loop_isSome c mc l 0 [] fw map)
  simpa using this

theorem initialize_next_loop_length (c : Collab) (mc : BtorMC) (l : List BtorMCLatch)
    (fw : Btor) (map : BoolectorNodeMap) :
    (initialize_next_loop c mc l [] fw map).1.length = l.length := by
  have := congrArg List.length (initialize_next_loop_spec c mc l [] fw map)
  simpa using this

/-- The stages of `initialize_new_forward_frame` : the inputs, the latches, the node map,
the next-state functions, the constraints and the bad properties, each stage starting from
the forward circuit that the stage before it has left. -/
theorem build_stages (c : Collab) (mc : BtorMC) :
    ∃ (r1 r2 : BoolectorNodePtrStack × Btor) (map : BoolectorNodeMap)
      (r3 : BoolectorNodePtrStack × Btor × BoolectorNodeMap) (r4 : Btor × BoolectorNodeMap)
      (r5 : BoolectorNodePtrStack × Btor × BoolectorNodeMap),
      r1 = initialize_inputs_loop mc (mc.frames.length : Int) mc.inputs [] (forward_manager mc)
      ∧ r2 = initialize_latches_loop mc (mc.frames.length : Int)
          (if 0 < mc.frames.length then mc.frames.get? (mc.frames.length - 1) else none)
          mc.latches 0 [] r1.2
      ∧ map = map_nodes_loop r2.1 (mc.latches.map (fun latch => latch.node)) 0
          (map_nodes_loop r1.1 (mc.inputs.map (fun input => input.node)) 0 [])
      ∧ r3 = initialize_next_loop c mc mc.latches [] r2.2 map
      ∧ r4 = initialize_constraints_of_frame c mc r3.2.1 r3.2.2
      ∧ r5 = initialize_bad_loop c mc mc.bad 0 [] r4.1 r4.2
      ∧ initialize_new_forward_frame c mc
        = { mc with
            forward := some r5.2.1
            frames := mc.frames ++
              [{ time := (mc.frames.length : Int), model2const := none, inputs := r1.1, init := [],
                 latches := r2.1, next := r3.1, bad := r5.1 }] } := by
  have hp : (if (mc.frames.length : Int) > 0
      then mc.frames.get? ((mc.frames.length : Int) - 1).toNat else none)
      = (if 0 < mc.frames.length then mc.frames.get? (mc.frames.length - 1) else none) := by
    by_cases h : 0 < mc.frames.length
    · rw [if_pos (by omega), if_pos h]
      congr 1
      omega
    · rw [if_neg (by omega), if_neg h]
  rw [← hp]
  exact ⟨_, _, _, _, _, _, rfl, rfl, rfl, rfl, rfl, rfl, rfl⟩

/-- The frame pushed by `initialize_new_forward_frame` : its sizes, which entries of its
`next` and `bad` tables are null, and the latch entries taken from the previous frame. -/
theorem build_shape (c : Collab) (mc : BtorMC) :
    ∃ (f : BtorMCFrame) (fw' : Btor),
      initialize_new_forward_frame c mc
        = { mc with forward := some fw', frames := mc.frames ++ [f] }
      ∧ f.time = (mc.frames.length : Int) ∧ f.model2const = none
      ∧ f.inputs.length = mc.inputs.length ∧ f.latches.length = mc.latches.length
      ∧ f.next.length = mc.latches.length ∧ f.bad.length = mc.bad.length
      ∧ f.next.map Option.isSome = mc.latches.map (fun latch => latch.next.isSome)
      ∧ f.bad.map Option.isSome
          = (List.range mc.bad.length).map (fun j => decide (peek_reached mc j < 0))
      ∧ (∀ (i : Nat) (latch : BtorMCLatch), mc.latches.get? i = some latch →
          0 < mc.frames.length → latch.next.isSome = true →
          f.latches.get? i
            = some (previous_next (mc.frames.get? (mc.frames.length - 1)) i)) := by
  obtain ⟨r1, r2, map, r3, r4, r5, h1, h2, -, h3, -, h5, heq⟩ := build_stages c mc
  refine ⟨_, _, heq, rfl, rfl, ?_, ?_, ?_, ?_, ?_, ?_, ?_⟩
  · show r1.1.length = _
    rw [h1, (initialize_inputs_loop_spec mc _ mc.inputs [] _).1]
    simp
  · show r2.1.length = _
    rw [h2, initialize_latches_loop_length]
    simp
  · show r3.1.length = _
    rw [h3, initialize_next_loop_length]
  · show r5.1.length = _
    rw [h5, initialize_bad_loop_length]
  · show r3.1.map Option.isSome = _
    rw [h3, initialize_next_loop_spec]
    simp
  · show r5.1.map Option.isSome = _
    rw [h5, initialize_bad_loop_isSome, ← List.range_eq_range']
    simp
  · intro i latch hl hpos hnx
    show r2.1.get? i = _
    have h := ((initialize_latches_loop_spec mc (mc.frames.length : Int)
      (if 0 < mc.frames.length then mc.frames.get? (mc.frames.length - 1) else none)
      mc.latches 0 [] r1.2).2.2.2.2 i latch hl).2.1 (by omega) hnx
    simp only [List.length_nil, Nat.zero_add, if_pos hpos] at h
    rw [h2, if_pos hpos]
    exact h

/-! ## The invariant of the engine in the reachable engines -/

theorem frame_tables_same (fs fs' : List BtorMCFrame) (h : List.Forall₂ same_frame fs fs') :
    fs'.map frame_tables = fs.map frame_tables := by
  induction h with
  | nil => rfl
  | cons hab _ ih =>
    simp only [List.map_cons, ih, List.cons.injEq, and_true]
    unfold same_frame at hab
    rw [hab]
    rfl

theorem peek_node_of_get? (stack : BoolectorNodePtrStack) (i : Nat) (x : Option BoolectorNode)
    (h : stack.get? i = some x) : peek_node stack i = x := by
  simp only [peek_node, List.getD_eq_getElem?_getD, ← List.get?_eq_getElem?, h, Option.getD_some]

theorem peek_node_isSome (stack : BoolectorNodePtrStack) (i : Nat) :
    (peek_node stack i).isSome = ((stack.map Option.isSome).get? i).getD false := by
  simp only [peek_node, List.getD_eq_getElem?_getD, List.get?_eq_getElem?, List.getElem?_map]
  cases stack[i]? <;> rfl

/-- What a registration call changes of the fields that the invariant of the engine
reads. -/
theorem register_engine (mc mc' : BtorMC) (call : BtorMCCall)
    (hreg : register mc call = some mc') :
    mc'.frames = mc.frames ∧ mc'.trace = mc.trace ∧ mc'.num_reached = mc.num_reached
      ∧ mc'.forward = mc.forward
      ∧ ((mc'.bad = mc.bad ∧ mc'.reached = mc.reached)
          ∨ (∃ b, mc'.bad = mc.bad ++ [b] ∧ mc'.reached = mc.reached ++ [-1]))
      ∧ (mc'.constraints = mc.constraints ∨ ∃ x, mc'.constraints = mc.constraints ++ [x]) := by
  cases call with
  | node n =>
    simp only [register, Option.some.injEq] at hreg
    subst hreg
    exact ⟨rfl, rfl, rfl, rfl, Or.inl ⟨rfl, rfl⟩, Or.inl rfl⟩
  | input width name =>
    simp only [register, boolector_input, Option.map_eq_some'] at hreg
    obtain ⟨r, hr, hmc⟩ := hreg
    split at hr
    · cases hr
    · split at hr
      · cases hr
      · simp only [Option.some.injEq] at hr
        subst hr
        subst hmc
        exact ⟨rfl, rfl, rfl, rfl, Or.inl ⟨rfl, rfl⟩, Or.inl rfl⟩
  | latch width name =>
    simp only [register, boolector_latch, Option.map_eq_some'] at hreg
    obtain ⟨r, hr, hmc⟩ := hreg
    split at hr
    · cases hr
    · split at hr
      · cases hr
      · simp only [Option.some.injEq] at hr
        subst hr
        subst hmc
        exact ⟨rfl, rfl, rfl, rfl, Or.inl ⟨rfl, rfl⟩, Or.inl rfl⟩
  | next node next =>
    simp only [register, boolector_next] at hreg
    split at hreg
    · cases hreg
    · split at hreg
      · cases hreg
      · split at hreg
        · cases hreg
        · split at hreg
          · cases hreg
          · split at hreg
            · cases hreg
            · split at hreg
              · cases hreg
              · simp only [Option.some.injEq] at hreg
                subst hreg
                exact ⟨rfl, rfl, rfl, rfl, Or.inl ⟨rfl, rfl⟩, Or.inl rfl⟩
  | init node init =>
    simp only [register, boolector_mc_init] at hreg
    split at hreg
    · cases hreg
    · split at hreg
      · cases hreg
      · split at hreg
        · cases hreg
        · split at hreg
          · cases hreg
          · split at hreg
            · cases hreg
            · split at hreg
              · cases hreg
              · split at hreg
                · cases hreg
                · simp only [Option.some.injEq] at hreg
                  subst hreg
                  exact ⟨rfl, rfl, rfl, rfl, Or.inl ⟨rfl, rfl⟩, Or.inl rfl⟩
  | bad bad =>
    simp only [register, boolector_bad, Option.map_eq_some'] at hreg
    obtain ⟨r, hr, hmc⟩ := hreg
    split at hr
    · cases hr
    · split at hr
      · cases hr
      · split at hr
        · cases hr
        · simp only [Option.some.injEq] at hr
          subst hr
          subst hmc
          exact ⟨rfl, rfl, rfl, rfl, Or.inr ⟨bad, rfl, rfl⟩, Or.inl rfl⟩
  | constraint constraint =>
    simp only [register, boolector_constraint, Option.map_eq_some'] at hreg
    obtain ⟨r, hr, hmc⟩ := hreg
    split at hr
    · cases hr
    · split at hr
      · cases hr
      · split at hr
        · cases hr
        · simp only [Option.some.injEq] at hr
          subst hr
          subst hmc
          exact ⟨rfl, rfl, rfl, rfl, Or.inl ⟨rfl, rfl⟩, Or.inr ⟨constraint, rfl⟩⟩

theorem engine_inv_new (c : Collab) : engine_inv (boolector_mc_new c) [] := by
  refine ⟨rfl, rfl, ?_, ?_, ?_, ?_, ?_, ?_, ?_⟩
  · intro i hi; simp [boolector_mc_new] at hi
  · intro t f hf; simp at hf
  · intro f hf; simp at hf
  · intro t f i latch hf; simp at hf
  · intro t f f' i latch hf; simp at hf
  · intro t f i hf; simp at hf
  · intro k i b hmem; simp [boolector_mc_new] at hmem

theorem engine_inv_author (mc mc' : BtorMC) (call : BtorMCCall)
    (h : engine_inv mc []) (hreg : register mc call = some mc') : engine_inv mc' [] := by
  obtain ⟨-, htr, hnum, -, hbad, -⟩ := register_engine mc mc' call hreg
  refine ⟨?_, ?_, ?_, ?_, ?_, ?_, ?_, ?_, ?_⟩
  · rcases hbad with ⟨hb, hr⟩ | ⟨b, hb, hr⟩
    · rw [hb, hr]; exact h.reached_length
    · rw [hb, hr]; simp [h.reached_length]
  · rcases hbad with ⟨hb, hr⟩ | ⟨b, hb, hr⟩
    · rw [hnum, hr]; exact h.num_reached_eq
    · rw [hnum, hr, h.num_reached_eq]; simp
  · intro i hi
    rcases hbad with ⟨hb, hr⟩ | ⟨b, hb, hr⟩
    · have := h.reached_lt i (by rw [← hb]; exact hi)
      simpa [peek_reached, hr] using this
    · rw [hb] at hi
      simp only [List.length_append, List.length_singleton] at hi
      by_cases hlt : i < mc.bad.length
      · have := h.reached_lt i hlt
        have hlt' : i < mc.reached.length := by rw [h.reached_length]; exact hlt
        simpa [peek_reached, hr, List.getElem?_append_left hlt'] using this
      · have hie : i = mc.reached.length := by rw [h.reached_length]; omega
        simp [peek_reached, hr, hie]
  · intro t f hf; simp at hf
  · intro f hf; simp at hf
  · intro t f i latch hf; simp at hf
  · intro t f f' i latch hf; simp at hf
  · intro t f i hf; simp at hf
  · intro k i b hmem
    rw [htr] at hmem
    exact h.queries k i b hmem

theorem get?_append_singleton {α : Type} (F : List α) (f f0 : α) (t : Nat)
    (h : (F ++ [f]).get? t = some f0) :
    (t < F.length ∧ F.get? t = some f0) ∨ (t = F.length ∧ f0 = f) := by
  by_cases hlt : t < F.length
  · left
    rw [List.get?_eq_getElem?, List.getElem?_append_left hlt, ← List.get?_eq_getElem?] at h
    exact ⟨hlt, h⟩
  · right
    have hlen : t < (F ++ [f]).length := by
      by_contra hcon
      rw [List.get?_eq_none.mpr (Nat.le_of_not_lt hcon)] at h
      cases h
    simp only [List.length_append, List.length_singleton] at hlen
    have ht : t = F.length := by omega
    subst ht
    simp at h
    exact ⟨rfl, h.symm⟩

theorem get?_append_old {α : Type} (F : List α) (f f0 : α) (t : Nat)
    (h : F.get? t = some f0) : (F ++ [f]).get? t = some f0 := by
  have hlt : t < F.length := by
    by_contra hcon
    rw [List.get?_eq_none.mpr (Nat.le_of_not_lt hcon)] at h
    cases h
  rw [List.get?_eq_getElem?, List.getElem?_append_left hlt, ← List.get?_eq_getElem?]
  exact h

theorem get?_append_new {α : Type} (F : List α) (f : α) :
    (F ++ [f]).get? F.length = some f := by
  simp

/-- The invariant of the engine when a frame `f` is pushed. -/
theorem engine_inv_push (mc : BtorMC) (F : List BtorMCFrame) (f : BtorMCFrame)
    (h : engine_inv mc F)
    (hsz : f.inputs.length = mc.inputs.length ∧ f.latches.length = mc.latches.length
      ∧ f.next.length = mc.latches.length ∧ f.bad.length = mc.bad.length)
    (hnext : f.next.map Option.isSome = mc.latches.map (fun latch => latch.next.isSome))
    (hbad : f.bad.map Option.isSome
      = (List.range mc.bad.length).map (fun j => decide (peek_reached mc j < 0)))
    (hlink : ∀ (i : Nat) (latch : BtorMCLatch), mc.latches.get? i = some latch →
      0 < F.length → latch.next.isSome = true →
      f.latches.get? i = some (previous_next (F.get? (F.length - 1)) i))
    (htime : f.time = (F.length : Int)) :
    engine_inv mc (F ++ [f]) := by
  refine ⟨h.reached_length, h.num_reached_eq, ?_, ?_, ?_, ?_, ?_, ?_, ?_⟩
  · intro i hi
    have := h.reached_lt i hi
    simp only [List.length_append, List.length_singleton]
    push_cast
    omega
  · intro t f0 hf0
    rcases get?_append_singleton F f f0 t hf0 with ⟨-, h0⟩ | ⟨ht, h0⟩
    · exact h.times t f0 h0
    · rw [h0, ht]; exact htime
  · intro f0 hf0
    rcases List.mem_append.mp hf0 with h0 | h0
    · exact h.sizes f0 h0
    · simp only [List.mem_singleton] at h0
      rw [h0]
      exact hsz
  · intro t f0 i latch hf0 hl
    rcases get?_append_singleton F f f0 t hf0 with ⟨-, h0⟩ | ⟨-, h0⟩
    · exact h.next_set t f0 i latch h0 hl
    · rw [h0, peek_node_isSome, hnext]
      simp only [List.get?_eq_getElem?, List.getElem?_map]
      rw [← List.get?_eq_getElem?, hl]
      rfl
  · intro t f0 f1 i latch hf0 hf1 hl hnx
    rcases get?_append_singleton F f f1 (t + 1) hf1 with ⟨-, h1⟩ | ⟨ht1, h1⟩
    · rcases get?_append_singleton F f f0 t hf0 with ⟨-, h0⟩ | ⟨ht0, -⟩
      · exact h.link t f0 f1 i latch h0 h1 hl hnx
      · have : t + 1 < F.length := by
          by_contra hcon
          rw [List.get?_eq_none.mpr (Nat.le_of_not_lt hcon)] at h1
          cases h1
        omega
    · rcases get?_append_singleton F f f0 t hf0 with ⟨-, h0⟩ | ⟨ht0, -⟩
      · rw [h1, hlink i latch hl (by omega) hnx]
        have : F.length - 1 = t := by omega
        rw [this, h0]
        rfl
      · omega
  · intro t f0 i hf0 hi
    rcases get?_append_singleton F f f0 t hf0 with ⟨-, h0⟩ | ⟨ht, h0⟩
    · exact h.bad_null t f0 i h0 hi
    · have hlt := h.reached_lt i hi
      have hsome : (peek_node f.bad i).isSome = decide (peek_reached mc i < 0) := by
        rw [peek_node_isSome, hbad]
        simp [List.getElem?_range hi]
      rw [h0, ht]
      constructor
      · intro hnone
        rw [hnone] at hsome
        have : ¬ peek_reached mc i < 0 := by
          intro hneg
          simp [hneg] at hsome
        exact ⟨by omega, hlt⟩
      · intro hr
        have : ¬ peek_reached mc i < 0 := by omega
        cases hp : peek_node f.bad i with
        | none => rfl
        | some b =>
          rw [hp] at hsome
          simp [this] at hsome
  · intro k i b hmem
    obtain ⟨t, f0, hk, hf0, hb⟩ := h.queries k i b hmem
    exact ⟨t, f0, hk, get?_append_old F f f0 t hf0, hb⟩

/-- The invariant of the engine reads only the registered tables, the record of the
reached properties and the trace. -/
theorem engine_inv_congr (mc m : BtorMC) (F : List BtorMCFrame) (h : engine_inv mc F)
    (hb : m.bad = mc.bad) (hr : m.reached = mc.reached) (hn : m.num_reached = mc.num_reached)
    (hi : m.inputs = mc.inputs) (hl : m.latches = mc.latches) (ht : m.trace = mc.trace) :
    engine_inv m F := by
  refine ⟨?_, ?_, ?_, h.times, ?_, ?_, ?_, ?_, ?_⟩
  · rw [hr, hb]; exact h.reached_length
  · rw [hr, hn]; exact h.num_reached_eq
  · simp only [peek_reached, hr, hb]; exact h.reached_lt
  · rw [hi, hl, hb]; exact h.sizes
  · rw [hl]; exact h.next_set
  · rw [hl]; exact h.link
  · simp only [peek_reached, hr, hb]; exact h.bad_null
  · rw [ht]; exact h.queries

theorem previous_next_tables (p : Option BtorMCFrame) (i : Nat) :
    previous_next (p.map frame_tables) i = previous_next p i := by
  cases p <;> rfl

/-- The frame that is built on an engine with the invariant. -/
theorem build_pushed (c : Collab) (mc : BtorMC)
    (h : engine_inv mc (mc.frames.map frame_tables)) :
    ∃ (f : BtorMCFrame) (fw' : Btor),
      initialize_new_forward_frame c mc
        = { mc with forward := some fw', frames := mc.frames ++ [f] }
      ∧ (mc.frames ++ [f]).map frame_tables = mc.frames.map frame_tables ++ [f]
      ∧ engine_inv mc (mc.frames.map frame_tables ++ [f]) := by
  obtain ⟨f, fw', heq, htm, hm, h1, h2, h3, h4, hnext, hbad, hlink⟩ := build_shape c mc
  have hft : frame_tables f = f := by
    unfold frame_tables
    rw [← hm]
  refine ⟨f, fw', heq, by rw [List.map_append, List.map_singleton, hft], ?_⟩
  refine engine_inv_push mc _ f h ⟨h1, h2, h3, h4⟩ hnext hbad ?_ (by rw [htm]; simp)
  intro i latch hl hpos hnx
  simp only [List.length_map] at hpos ⊢
  rw [hlink i latch hl hpos hnx, ← previous_next_tables]
  congr 2
  simp [List.get?_eq_getElem?]

/-- The invariant of the engine is kept when a frame is built. -/
theorem engine_inv_build (c : Collab) (mc : BtorMC)
    (h : engine_inv mc (mc.frames.map frame_tables)) :
    engine_inv (initialize_new_forward_frame c mc)
      ((initialize_new_forward_frame c mc).frames.map frame_tables) := by
  obtain ⟨f, fw', heq, hmap, hP⟩ := build_pushed c mc h
  rw [heq]
  refine engine_inv_congr mc _ _ ?_ rfl rfl rfl rfl rfl rfl
  show engine_inv mc ((mc.frames ++ [f]).map frame_tables)
  rw [hmap]
  exact hP

theorem check_bad_loop_queries (c : Collab) (k : Int) :
    ∀ (l : BoolectorNodePtrStack) (i : Nat) (s : Int) (m : BtorMC),
      ∃ evs, (check_bad_loop c k l i s m).2.trace = m.trace ++ evs
        ∧ ∀ k' i' b, BtorMCEvent.sat_call k' i' b ∈ evs →
            k' = k ∧ i ≤ i' ∧ l.get? (i' - i) = some (some b) := by
  intro l
  induction l with
  | nil => intro i s m; exact ⟨[], by simp [check_bad_loop], by simp⟩
  | cons head rest ih =>
    intro i s m
    have key : ∀ (m3 : BtorMC) (s3 : Int) (ev0 : List BtorMCEvent),
        m3.trace = m.trace ++ ev0 →
        (∀ k' i' b, BtorMCEvent.sat_call k' i' b ∈ ev0 → k' = k ∧ i' = i ∧ head = some b) →
        ∃ evs, (check_bad_loop c k rest (i + 1) s3 m3).2.trace = m.trace ++ evs
          ∧ ∀ k' i' b, BtorMCEvent.sat_call k' i' b ∈ evs →
              k' = k ∧ i ≤ i' ∧ (head :: rest).get? (i' - i) = some (some b) := by
      intro m3 s3 ev0 htr hev0
      obtain ⟨evs, h1, h2⟩ := ih (i + 1) s3 m3
      refine ⟨ev0 ++ evs, by rw [h1, htr, List.append_assoc], ?_⟩
      intro k' i' b' hmem
      rcases List.mem_append.mp hmem with h | h
      · obtain ⟨hk, hi, hb⟩ := hev0 k' i' b' h
        refine ⟨hk, by omega, ?_⟩
        rw [hi, Nat.sub_self, hb]
        rfl
      · obtain ⟨hk, hi1, hi2⟩ := h2 k' i' b' h
        refine ⟨hk, by omega, ?_⟩
        have : i' - i = (i' - (i + 1)) + 1 := by omega
        rw [this, List.get?_cons_succ]
        exact hi2
    cases head with
    | none =>
      simp only [check_bad_loop]
      exact key m s [] (by simp) (by simp)
    | some b =>
      simp only [check_bad_loop]
      split
      · split
        · split
          · refine key _ _ [BtorMCEvent.sat_call k i b, BtorMCEvent.reached_at_bound i k]
              (by simp) ?_
            intro k' i' b' hmem
            simp at hmem
            exact ⟨hmem.1, hmem.2.1, by rw [hmem.2.2]⟩
          · refine key _ _ [BtorMCEvent.sat_call k i b] (by simp) ?_
            intro k' i' b' hmem
            simp at hmem
            exact ⟨hmem.1, hmem.2.1, by rw [hmem.2.2]⟩
        · refine key _ _ [BtorMCEvent.sat_call k i b] (by simp) ?_
          intro k' i' b' hmem
          simp at hmem
          exact ⟨hmem.1, hmem.2.1, by rw [hmem.2.2]⟩
      · refine key _ _ [BtorMCEvent.sat_call k i b] (by simp) ?_
        intro k' i' b' hmem
        simp at hmem
        exact ⟨hmem.1, hmem.2.1, by rw [hmem.2.2]⟩

/-- The check of the frame `f` just pushed on an engine `m`. -/
theorem check_pushed_frame (c : Collab) (m : BtorMC) (fs : List BtorMCFrame) (f : BtorMCFrame)
    (hf : m.frames = fs ++ [f]) :
    check_last_forward_frame c m = check_bad_loop c (fs.length : Int) f.bad 0 0 m := by
  unfold check_last_forward_frame
  rw [hf, List.getLast?_append]
  simp

theorem filter_length_range (r : List Int) (p : Int → Bool) :
    (r.filter p).length = ((List.range r.length).filter (fun j => p (r.getD j 0))).length := by
  induction r using List.reverseRecOn with
  | nil => rfl
  | append_singleton r x ih =>
    rw [List.filter_append, List.length_append, List.length_append, List.length_singleton,
      List.range_succ, List.filter_append, List.length_append, ih]
    congr 1
    · congr 1
      apply List.filter_congr
      intro j hj
      have hlt : j < r.length := List.mem_range.mp hj
      simp [List.getD_eq_getElem?_getD, List.getElem?_append_left hlt]
    · simp only [List.getD_eq_getElem?_getD, List.filter_cons, List.filter_nil,
        List.getElem?_concat_length, Option.getD_some]
      split <;> rfl

/-- Number of the reached entries after properties are newly reached: the entries that
pass from a negative value to the bound `k` are counted once more. -/
theorem reached_count (c : Collab) (k : Int) (hk : 0 ≤ k) (r r' : List Int) (n : Nat)
    (hn : r.length = n) (hlen : r'.length = r.length)
    (hpt : ∀ j, r'.getD j 0 = if j < n ∧ reaches c k r j = true then k else r.getD j 0) :
    ((r'.filter (fun x => decide (0 ≤ x))).length : Int)
      = ((r.filter (fun x => decide (0 ≤ x))).length : Int)
        + (((List.range n).filter (reaches c k r)).length : Int) := by
  rw [filter_length_range r', filter_length_range r, hlen, hn]
  have hsplit := filter_length_split (List.range n) (fun _ => true)
    (fun j => decide (0 ≤ r.getD j 0)) (reaches c k r)
  have e1 : (List.range n).filter (fun j => decide (0 ≤ r'.getD j 0))
      = (List.range n).filter (fun i => (fun _ => true) i
          && ((fun j => decide (0 ≤ r.getD j 0)) i || reaches c k r i)) := by
    apply List.filter_congr
    intro j hj
    have hlt : j < n := List.mem_range.mp hj
    rw [hpt j]
    by_cases hr : reaches c k r j = true
    · rw [if_pos ⟨hlt, hr⟩]
      simp [hr, hk]
    · rw [if_neg (fun h => hr h.2)]
      simp [hr]
  have e2 : (List.range n).filter (reaches c k r)
      = (List.range n).filter (fun i => ((fun _ => true) i
          && !(fun j => decide (0 ≤ r.getD j 0)) i) && reaches c k r i) := by
    apply List.filter_congr
    intro j _
    by_cases hr : reaches c k r j = true
    · have hneg : r.getD j 0 < 0 := by
        simp only [reaches, Bool.and_eq_true, decide_eq_true_eq] at hr
        exact hr.1
      have hneg2 : r[j]?.getD 0 < 0 := by
        simpa [List.getD_eq_getElem?_getD] using hneg
      simp [hr, hneg2]
    · simp [hr]
  have e3 : (List.range n).filter (fun j => decide (0 ≤ r.getD j 0))
      = (List.range n).filter (fun i => (fun _ => true) i
          && (fun j => decide (0 ≤ r.getD j 0)) i) := by
    apply List.filter_congr
    intro j _
    simp
  rw [e1, e2, e3]
  exact hsplit.symm

/-- The invariant of the engine is kept when the frame just built is checked. -/
theorem engine_inv_check (c : Collab) (mc : BtorMC)
    (h : engine_inv mc (mc.frames.map frame_tables)) :
    engine_inv (check_last_forward_frame c (initialize_new_forward_frame c mc)).2
      ((check_last_forward_frame c (initialize_new_forward_frame c mc)).2.frames.map
        frame_tables) := by
  obtain ⟨f, fw', heq, hmap, hP⟩ := build_pushed c mc h
  obtain ⟨-, hnum, hlen, hpt⟩ := check_new_frame_spec c mc
  have hfr : (initialize_new_forward_frame c mc).frames = mc.frames ++ [f] := by rw [heq]
  obtain ⟨evs, htr, hev⟩ := check_bad_loop_queries c (mc.frames.length : Int) f.bad 0 0
    (initialize_new_forward_frame c mc)
  rw [← check_pushed_frame c _ mc.frames f hfr] at htr
  have hshape := check_last_forward_frame_eq c (initialize_new_forward_frame c mc)
  generalize (check_last_forward_frame c (initialize_new_forward_frame c mc)).2 = m2
    at hnum hlen hpt htr hshape ⊢
  have hframes : m2.frames = mc.frames ++ [f] := by rw [hshape]; exact hfr
  have hbad : m2.bad = mc.bad := by rw [hshape, heq]
  have hinp : m2.inputs = mc.inputs := by rw [hshape, heq]
  have hlat : m2.latches = mc.latches := by rw [hshape, heq]
  have htr2 : m2.trace = mc.trace ++ evs := by rw [htr, heq]
  rw [hframes, hmap]
  have hFl : (mc.frames.map frame_tables ++ [f]).length = mc.frames.length + 1 := by simp
  have hk : (0 : Int) ≤ (mc.frames.length : Int) := by omega
  have hneg : ∀ j, reaches c (mc.frames.length : Int) mc.reached j = true →
      peek_reached mc j < 0 := by
    intro j hr
    simp only [reaches, Bool.and_eq_true, decide_eq_true_eq] at hr
    exact hr.1
  refine ⟨?_, ?_, ?_, hP.times, ?_, ?_, ?_, ?_, ?_⟩
  · rw [hlen, hbad]; exact hP.reached_length
  · rw [hnum, hP.num_reached_eq]
    have := reached_count c (mc.frames.length : Int) hk mc.reached m2.reached mc.bad.length
      hP.reached_length hlen hpt
    rw [this]
    rfl
  · intro i hi
    rw [hbad] at hi
    rw [hpt i, hFl]
    split
    · push_cast; omega
    · have := hP.reached_lt i hi
      rw [hFl] at this
      exact this
  · rw [hinp, hlat, hbad]; exact hP.sizes
  · rw [hlat]; exact hP.next_set
  · rw [hlat]; exact hP.link
  · intro t f0 i hf0 hi
    rw [hbad] at hi
    have hold := hP.bad_null t f0 i hf0 hi
    rw [hpt i]
    by_cases hr : reaches c (mc.frames.length : Int) mc.reached i = true
    · rw [if_pos ⟨hi, hr⟩]
      have hn := hneg i hr
      have ht : t < mc.frames.length + 1 := by
        by_contra hcon
        rw [List.get?_eq_none.mpr (by rw [hFl]; omega)] at hf0
        cases hf0
      rw [hold]
      constructor
      · intro hx; omega
      · intro hx; omega
    · rw [if_neg (fun hx => hr hx.2)]
      exact hold
  · intro k i b hmem
    rw [htr2] at hmem
    rcases List.mem_append.mp hmem with hm | hm
    · exact hP.queries k i b hm
    · obtain ⟨hk', -, hb⟩ := hev k i b hm
      refine ⟨mc.frames.length, f, hk', ?_, ?_⟩
      · simp
      · exact peek_node_of_get? _ _ _ (by simpa using hb)

/-- The invariant of the engine holds in every reachable engine. -/
theorem engine_inv_reachable (c : Collab) (steps : List BtorMCStep) (mc : BtorMC)
    (hrun : api_run c steps (boolector_mc_new c) = some mc) :
    engine_inv mc (mc.frames.map frame_tables) := by
  refine api_invariant c (fun m => engine_inv m (m.frames.map frame_tables))
    (engine_inv_new c) ?_ ?_ ?_ ?_ ?_ (engine_inv_build c) (engine_inv_check c) steps mc hrun
  · intro m options state call_backs forward2const verb h
    exact engine_inv_congr m _ _ h rfl rfl rfl rfl rfl rfl
  · intro m e hne h
    refine ⟨h.reached_length, h.num_reached_eq, h.reached_lt, h.times, h.sizes, h.next_set,
      h.link, h.bad_null, ?_⟩
    intro k i b hmem
    rcases List.mem_append.mp hmem with hm | hm
    · exact h.queries k i b hm
    · simp only [List.mem_singleton] at hm
      exact absurd hm.symm (hne k i b)
  · intro m fs' hsame h
    have := frame_tables_same m.frames fs' hsame
    show engine_inv { m with frames := fs' } (fs'.map frame_tables)
    rw [this]
    exact engine_inv_congr m _ _ h rfl rfl rfl rfl rfl rfl
  · intro m m' call h hfr hreg
    have hfr' : m'.frames = [] := by rw [(register_engine m m' call hreg).1, hfr]
    rw [hfr] at h
    rw [hfr']
    exact engine_inv_author m m' call h hreg
  · intro m n h
    exact engine_inv_congr m _ _ h rfl rfl rfl rfl rfl rfl

/-! ## Registration of bad properties and the tables of the frames -/

theorem tables_get? (fs : List BtorMCFrame) (t : Nat) (f : BtorMCFrame)
    (h : fs.get? t = some f) : (fs.map frame_tables).get? t = some (frame_tables f) := by
  simp only [List.get?_eq_getElem?, List.getElem?_map] at h ⊢
  rw [h]
  rfl

theorem get?_of_lt (stack : BoolectorNodePtrStack) (i : Nat) (h : i < stack.length) :
    stack.get? i = some (peek_node stack i) := by
  simp [peek_node, List.getD_eq_getElem?_getD, List.get?_eq_getElem?, List.getElem?_eq_getElem h]

theorem lt_of_get? {α : Type} (l : List α) (i : Nat) (x : α) (h : l.get? i = some x) :
    i < l.length := by
  by_contra hcon
  rw [List.get?_eq_none.mpr (Nat.le_of_not_lt hcon)] at h
  cases h

/-- C11: in a reachable engine that is still in the authoring state, `boolector_bad` on a
node of width 1 of the model returns the number of bad properties registered before the
call, appends the node to `bad` and `-1` to `reached`, so `|reached| = |bad|` holds before
and after the call and the returned index is the position of the property in `bad`, with
`reached[index] = -1`; `boolector_constraint` returns the number of constraints registered
before the call and appends the node to the constraints. -/
theorem bad_and_constraint_return_index (c : Collab) (steps : List BtorMCStep) (mc : BtorMC)
    (node : BoolectorNode)
    (hrun : api_run c steps (boolector_mc_new c) = some mc)
    (hstate : mc.state = BtorMCState.BTOR_NO_MC_STATE)
    (howns : owns_node mc node = true)
    (hwidth : boolector_get_width mc.btor node = 1) :
    mc.reached.length = mc.bad.length
    ∧ (∃ mc', boolector_bad mc node = some ((mc.bad.length : Int), mc')
        ∧ mc'.bad = mc.bad ++ [node] ∧ mc'.reached = mc.reached ++ [-1]
        ∧ mc'.reached.length = mc'.bad.length
        ∧ mc'.bad.get? mc.bad.length = some node
        ∧ mc'.reached.get? mc.bad.length = some (-1)
        ∧ mc'.constraints = mc.constraints)
    ∧ (∃ mc', boolector_constraint mc node = some ((mc.constraints.length : Int), mc')
        ∧ mc'.constraints = mc.constraints ++ [node]
        ∧ mc'.constraints.get? mc.constraints.length = some node
        ∧ mc'.bad = mc.bad ∧ mc'.reached = mc.reached) := by
  have hlen := (engine_inv_reachable c steps mc hrun).reached_length
  refine ⟨hlen, ?_, ?_⟩
  · refine ⟨{ mc with bad := mc.bad ++ [node], reached := mc.reached ++ [-1] }, ?_, rfl, rfl,
      by simp [hlen], by simp, by simp [← hlen], rfl⟩
    unfold boolector_bad
    rw [if_neg (by simp [hstate]), if_neg (by simp [howns]), if_neg (by simp [hwidth])]
  · refine ⟨{ mc with constraints := mc.constraints ++ [node] }, ?_, rfl, by simp, rfl, rfl⟩
    unfold boolector_constraint
    rw [if_neg (by simp [hstate]), if_neg (by simp [howns]), if_neg (by simp [hwidth])]

/-- The model `ex_model` is reachable and in the authoring state; its node 1 has width 1. -/
theorem bad_and_constraint_return_index_witness :
    api_run ex_verdicts ex_model_steps (boolector_mc_new ex_verdicts) = some ex_model
    ∧ ex_model.reached.length = ex_model.bad.length
    ∧ (∃ mc', boolector_bad ex_model 1 = some ((ex_model.bad.length : Int), mc')
        ∧ mc'.bad = ex_model.bad ++ [1] ∧ mc'.reached = ex_model.reached ++ [-1]
        ∧ mc'.reached.length = mc'.bad.length
        ∧ mc'.bad.get? ex_model.bad.length = some 1
        ∧ mc'.reached.get? ex_model.bad.length = some (-1)
        ∧ mc'.constraints = ex_model.constraints)
    ∧ (∃ mc', boolector_constraint ex_model 1
          = some ((ex_model.constraints.length : Int), mc')
        ∧ mc'.constraints = ex_model.constraints ++ [1]
        ∧ mc'.constraints.get? ex_model.constraints.length = some 1
        ∧ mc'.bad = ex_model.bad ∧ mc'.reached = ex_model.reached) :=
  ⟨by decide,
    bad_and_constraint_return_index ex_verdicts ex_model_steps ex_model 1 (by decide)
      (by decide) (by decide) (by decide)⟩

/-- C12: in every reachable engine, every frame `t` of the frame stack has the time `t`,
one input entry per registered input, one latch entry and one next-state entry per
registered latch, and one entry per registered bad property. -/
theorem frame_table_sizes (c : Collab) (steps : List BtorMCStep) (mc : BtorMC) (t : Nat)
    (f : BtorMCFrame)
    (hrun : api_run c steps (boolector_mc_new c) = some mc)
    (hf : mc.frames.get? t = some f) :
    f.time = (t : Int)
    ∧ f.inputs.length = mc.inputs.length ∧ f.latches.length = mc.latches.length
    ∧ f.next.length = mc.latches.length ∧ f.bad.length = mc.bad.length := by
  have hinv := engine_inv_reachable c steps mc hrun
  have hF := tables_get? mc.frames t f hf
  exact ⟨hinv.times t (frame_tables f) hF, hinv.sizes (frame_tables f) (List.get?_mem hF)⟩

/-- Frame 2 of the engine `ex_checked`. -/
theorem frame_table_sizes_witness :
    api_run ex_verdicts ex_steps (boolector_mc_new ex_verdicts) = some ex_checked
    ∧ ex_checked.frames.get? 2 = some (ex_frame 2)
    ∧ (ex_frame 2).time = ((2 : Nat) : Int)
    ∧ (ex_frame 2).inputs.length = ex_checked.inputs.length
    ∧ (ex_frame 2).latches.length = ex_checked.latches.length
    ∧ (ex_frame 2).next.length = ex_checked.latches.length
    ∧ (ex_frame 2).bad.length = ex_checked.bad.length :=
  ⟨by decide, by decide,
    frame_table_sizes ex_verdicts ex_steps ex_checked 2 _ (by decide) (by decide)⟩

/-- C13: in every reachable engine, for every frame `t + 1` and every latch `i` whose `next`
is set, the entry `i` of the latch table of frame `t + 1` and the entry `i` of the
next-state table of frame `t` are one and the same node of the forward circuit. -/
theorem latch_is_previous_next (c : Collab) (steps : List BtorMCStep) (mc : BtorMC)
    (t i : Nat) (f f' : BtorMCFrame) (latch : BtorMCLatch)
    (hrun : api_run c steps (boolector_mc_new c) = some mc)
    (hf : mc.frames.get? t = some f) (hf' : mc.frames.get? (t + 1) = some f')
    (hl : mc.latches.get? i = some latch) (hnx : latch.next.isSome = true) :
    ∃ n, f'.latches.get? i = some (some n) ∧ f.next.get? i = some (some n) := by
  have hinv := engine_inv_reachable c steps mc hrun
  have hF := tables_get? mc.frames t f hf
  have hF' := tables_get? mc.frames (t + 1) f' hf'
  have hlink : f'.latches.get? i = some (peek_node f.next i) :=
    hinv.link t (frame_tables f) (frame_tables f') i latch hF hF' hl hnx
  have hset : (peek_node f.next i).isSome = latch.next.isSome :=
    hinv.next_set t (frame_tables f) i latch hF hl
  have hsz : f.next.length = mc.latches.length :=
    (hinv.sizes (frame_tables f) (List.get?_mem hF)).2.2.1
  rw [hnx] at hset
  obtain ⟨n, hn⟩ := Option.isSome_iff_exists.mp hset
  refine ⟨n, by rw [hlink, hn], ?_⟩
  rw [get?_of_lt f.next i (by rw [hsz]; exact lt_of_get? _ _ _ hl), hn]

/-- Frames 1 and 2 of `ex_checked` and its latch `s`, whose `next` is the input. -/
theorem latch_is_previous_next_witness :
    api_run ex_verdicts ex_steps (boolector_mc_new ex_verdicts) = some ex_checked
    ∧ ex_checked.frames.get? 1 = some (ex_frame 1)
    ∧ ex_checked.frames.get? (1 + 1) = some (ex_frame 2)
    ∧ ex_checked.latches.get? 0 = some { id := 0, node := 1, next := some 0, init := some 3 }
    ∧ ∃ n, (ex_frame 2).latches.get? 0 = some (some n)
        ∧ (ex_frame 1).next.get? 0 = some (some n) :=
  ⟨by decide, by decide, by decide, by decide,
    latch_is_previous_next ex_verdicts ex_steps ex_checked 1 0 (ex_frame 1) (ex_frame 2)
      { id := 0, node := 1, next := some 0, init := some 3 } (by decide) (by decide)
      (by decide) (by decide) (by decide)⟩

/-- C17: in every reachable engine, for every frame `t` and every bad property `i`, the
entry `i` of the bad table of frame `t` is null if and only if `0 ≤ reached[i] < t`; and
every solver query that was made, at a bound `k` for a property `i`, has
`reached[i] < 0` or `k ≤ reached[i]` : no property is queried at a bound after the one at
which it was reached. -/
theorem bad_entry_null_iff_reached_earlier (c : Collab) (steps : List BtorMCStep)
    (mc : BtorMC) (hrun : api_run c steps (boolector_mc_new c) = some mc) :
    (∀ (t : Nat) (f : BtorMCFrame) (i : Nat), mc.frames.get? t = some f → i < mc.bad.length →
      (f.bad.get? i = some none ↔ 0 ≤ peek_reached mc i ∧ peek_reached mc i < (t : Int)))
    ∧ (∀ (k : Int) (i : Nat) (b : BoolectorNode), BtorMCEvent.sat_call k i b ∈ mc.trace →
        i < mc.bad.length ∧ ¬ (0 ≤ peek_reached mc i ∧ peek_reached mc i < k)) := by
  have hinv := engine_inv_reachable c steps mc hrun
  constructor
  · intro t f i hf hi
    have hF := tables_get? mc.frames t f hf
    have hsz : f.bad.length = mc.bad.length :=
      (hinv.sizes (frame_tables f) (List.get?_mem hF)).2.2.2
    have hnull : peek_node f.bad i = none ↔ _ := hinv.bad_null t (frame_tables f) i hF hi
    rw [← hnull, get?_of_lt f.bad i (by rw [hsz]; exact hi)]
    simp
  · intro k i b hmem
    obtain ⟨t, f, hk, hF, hb⟩ := hinv.queries k i b hmem
    have hsz : f.bad.length = mc.bad.length := (hinv.sizes f (List.get?_mem hF)).2.2.2
    have hi : i < mc.bad.length := by
      rw [← hsz]
      by_contra hcon
      have : peek_node f.bad i = none := by
        simp [peek_node, List.getD_eq_getElem?_getD,
          List.getElem?_eq_none (Nat.le_of_not_lt hcon)]
      rw [this] at hb
      cases hb
    refine ⟨hi, ?_⟩
    intro hr
    have hnull := (hinv.bad_null t f i hF hi).mpr (by rw [← hk]; exact hr)
    rw [hnull] at hb
    cases hb

/-- The engine `ex_checked`, in which property 0 is reached at bound 1 and property 1 at
bound 2. -/
theorem bad_entry_null_iff_reached_earlier_witness :
    api_run ex_verdicts ex_steps (boolector_mc_new ex_verdicts) = some ex_checked
    ∧ (∀ (t : Nat) (f : BtorMCFrame) (i : Nat), ex_checked.frames.get? t = some f →
        i < ex_checked.bad.length →
        (f.bad.get? i = some none
          ↔ 0 ≤ peek_reached ex_checked i ∧ peek_reached ex_checked i < (t : Int)))
    ∧ (∀ (k : Int) (i : Nat) (b : BoolectorNode),
        BtorMCEvent.sat_call k i b ∈ ex_checked.trace →
        i < ex_checked.bad.length
          ∧ ¬ (0 ≤ peek_reached ex_checked i ∧ peek_reached ex_checked i < k)) :=
  ⟨by decide, bad_entry_null_iff_reached_earlier ex_verdicts ex_steps ex_checked (by decide)⟩

/-- C18: in every reachable engine, `num_reached` is the number of indices `i` with
`reached[i] ≥ 0`, and it is at most the number of bad properties. -/
theorem num_reached_counts_reached (c : Collab) (steps : List BtorMCStep) (mc : BtorMC)
    (hrun : api_run c steps (boolector_mc_new c) = some mc) :
    mc.num_reached
        = (((List.range mc.bad.length).filter
            (fun i => decide (0 ≤ peek_reached mc i))).length : Int)
    ∧ mc.num_reached ≤ (mc.bad.length : Int) := by
  have hinv := engine_inv_reachable c steps mc hrun
  have h1 := hinv.num_reached_eq
  rw [filter_length_range, hinv.reached_length] at h1
  refine ⟨h1, ?_⟩
  rw [h1]
  have := List.length_filter_le (fun i => decide (0 ≤ peek_reached mc i))
    (List.range mc.bad.length)
  rw [List.length_range] at this
  exact_mod_cast this

/-- The engine `ex_checked` has reached its two bad properties. -/
theorem num_reached_counts_reached_witness :
    api_run ex_verdicts ex_steps (boolector_mc_new ex_verdicts) = some ex_checked
    ∧ ex_checked.num_reached = 2
    ∧ ex_checked.num_reached
        = (((List.range ex_checked.bad.length).filter
            (fun i => decide (0 ≤ peek_reached ex_checked i))).length : Int)
    ∧ ex_checked.num_reached ≤ (ex_checked.bad.length : Int) :=
  ⟨by decide, by decide,
    num_reached_counts_reached ex_verdicts ex_steps ex_checked (by decide)⟩

/-! ## The call back for reached properties -/

theorem reached_at_bound_calls_append (e1 e2 : List BtorMCEvent) :
    reached_at_bound_calls (e1 ++ e2) = reached_at_bound_calls e1 ++ reached_at_bound_calls e2 := by
  simp [reached_at_bound_calls, List.filterMap_append]

/-- Calls of the call back made by the loop of `check_last_forward_frame` when a function is
installed: one call for each property of the loop that is newly reached, in the order of
the indices. -/
theorem check_bad_loop_calls (c : Collab) (k : Int) :
    ∀ (l : BoolectorNodePtrStack) (i : Nat) (s : Int) (m : BtorMC),
      l.map Option.isSome
          = (List.range' i l.length).map (fun j => decide (peek_reached m j < 0)) →
      m.call_backs.reached_at_bound = true →
      ∃ evs, (check_bad_loop c k l i s m).2.trace = m.trace ++ evs
        ∧ reached_at_bound_calls evs
          = ((List.range' i l.length).filter (reaches c k m.reached)).map (fun j => (j, k)) := by
  intro l
  induction l with
  | nil =>
    intro i s m _ _
    exact ⟨[], by simp [check_bad_loop], by simp [reached_at_bound_calls]⟩
  | cons head rest ih =>
    intro i s m hpat hcb
    simp only [List.length_cons, List.range'_succ, List.map_cons, List.cons.injEq] at hpat
    obtain ⟨hb, hrest⟩ := hpat
    have key_same : ∀ (m3 : BtorMC) (s3 : Int) (ev0 : List BtorMCEvent),
        m3.reached = m.reached → m3.call_backs = m.call_backs → m3.trace = m.trace ++ ev0 →
        reached_at_bound_calls ev0 = [] → reaches c k m.reached i = false →
        ∃ evs, (check_bad_loop c k rest (i + 1) s3 m3).2.trace = m.trace ++ evs
          ∧ reached_at_bound_calls evs
            = ((List.range' i (rest.length + 1)).filter (reaches c k m.reached)).map
                (fun j => (j, k)) := by
      intro m3 s3 ev0 hr3 hc3 ht3 hev0 hri
      have hpat3 : rest.map Option.isSome
          = (List.range' (i + 1) rest.length).map (fun j => decide (peek_reached m3 j < 0)) := by
        rw [hrest]; simp only [peek_reached, hr3]
      obtain ⟨evs, h1, h2⟩ := ih (i + 1) s3 m3 hpat3 (by rw [hc3]; exact hcb)
      refine ⟨ev0 ++ evs, by rw [h1, ht3, List.append_assoc], ?_⟩
      rw [reached_at_bound_calls_append, hev0, h2, hr3]
      simp only [List.range'_succ, List.filter_cons, hri, List.nil_append]
      rfl
    have key_set : ∀ (m3 : BtorMC) (s3 : Int) (ev0 : List BtorMCEvent),
        m3.reached = m.reached.set i k → m3.call_backs = m.call_backs →
        m3.trace = m.trace ++ ev0 →
        reached_at_bound_calls ev0 = [(i, k)] → reaches c k m.reached i = true →
        ∃ evs, (check_bad_loop c k rest (i + 1) s3 m3).2.trace = m.trace ++ evs
          ∧ reached_at_bound_calls evs
            = ((List.range' i (rest.length + 1)).filter (reaches c k m.reached)).map
                (fun j => (j, k)) := by
      intro m3 s3 ev0 hr3 hc3 ht3 hev0 hri
      have hpat3 : rest.map Option.isSome
          = (List.range' (i + 1) rest.length).map (fun j => decide (peek_reached m3 j < 0)) := by
        rw [hrest]
        apply List.map_congr_left
        intro j hj
        have hj' : i + 1 ≤ j := (List.mem_range'_1.mp hj).1
        have hne : i ≠ j := by omega
        simp [peek_reached, hr3, List.getElem?_set_ne hne]
      have hfil : (List.range' (i + 1) rest.length).filter (reaches c k m3.reached)
          = (List.range' (i + 1) rest.length).filter (reaches c k m.reached) := by
        apply List.filter_congr
        intro j hj
        have hj' : i + 1 ≤ j := (List.mem_range'_1.mp hj).1
        have hne : i ≠ j := by omega
        rw [hr3, reaches_set_of_ne c k k m.reached i j hne]
      obtain ⟨evs, h1, h2⟩ := ih (i + 1) s3 m3 hpat3 (by rw [hc3]; exact hcb)
      refine ⟨ev0 ++ evs, by rw [h1, ht3, List.append_assoc], ?_⟩
      rw [reached_at_bound_calls_append, hev0, h2, hfil]
      simp only [List.range'_succ, List.filter_cons, hri, if_true, List.map_cons,
        List.singleton_append]
    cases head with
    | none =>
      have hi : ¬ peek_reached m i < 0 := by simpa using hb
      have hri : reaches c k m.reached i = false := by
        have : ¬ m.reached.getD i 0 < 0 := hi
        simp only [reaches, this, decide_False, Bool.false_and]
      simp only [check_bad_loop, List.length_cons]
      exact key_same m s [] rfl rfl (by simp) rfl hri
    | some b =>
      have hi0 : peek_reached m i < 0 := by simpa using hb
      have hi : m.reached.getD i 0 < 0 := hi0
      by_cases hsat : c.sat k i = BoolectorResult.BOOLECTOR_SAT
      · have hri : reaches c k m.reached i = true := by
          simp only [reaches, hi, hsat, decide_True, Bool.and_self]
        have hi' : peek_reached { { m with trace := m.trace ++ [BtorMCEvent.sat_call k i b] } with
            state := BtorMCState.BTOR_SAT_MC_STATE } i < 0 := hi
        simp only [check_bad_loop, hsat, if_true, hi', List.length_cons, hcb]
        exact key_set _ _ [BtorMCEvent.sat_call k i b, BtorMCEvent.reached_at_bound i k] rfl rfl
          (by simp) rfl hri
      · have hri : reaches c k m.reached i = false := by
          simp only [reaches, hsat, decide_False, Bool.and_false]
        simp only [check_bad_loop, hsat, if_false, List.length_cons]
        exact key_same _ _ [BtorMCEvent.sat_call k i b] rfl rfl rfl rfl hri

theorem starting_bound_call_back_calls (m : BtorMC) :
    ∃ ev0, (starting_bound_call_back m).trace = m.trace ++ ev0
      ∧ reached_at_bound_calls ev0 = [] := by
  unfold starting_bound_call_back
  split
  · exact ⟨[BtorMCEvent.starting_bound (m.frames.length : Int)], rfl, rfl⟩
  · exact ⟨[], by simp, rfl⟩

/-- Calls of the call back made by one iteration of the loop of `boolector_mc_bmc` that
checks its bound, from the loop head `m`. -/
theorem checked_iteration_calls (c : Collab) (m : BtorMC)
    (hcb : m.call_backs.reached_at_bound = true) :
    ∃ evs, (check_last_forward_frame c
          (initialize_new_forward_frame c (starting_bound_call_back m))).2.trace = m.trace ++ evs
      ∧ reached_at_bound_calls evs
        = (newly_reached c (m.frames.length : Int) m).map
            (fun j => (j, (m.frames.length : Int))) := by
  obtain ⟨ev0, ht0, hc0⟩ := starting_bound_call_back_calls m
  have hx := starting_bound_call_back_eq m
  generalize starting_bound_call_back m = x at hx ht0
  have hb : x.bad = m.bad := by rw [hx]
  have hr : x.reached = m.reached := by rw [hx]
  have hf : x.frames = m.frames := by rw [hx]
  have hc : x.call_backs = m.call_backs := by rw [hx]
  obtain ⟨f, fw', heq, -, -, -, -, -, h4, -, hbad, -⟩ := build_shape c x
  have hfr : (initialize_new_forward_frame c x).frames = x.frames ++ [f] := by rw [heq]
  rw [check_pushed_frame c _ x.frames f hfr]
  have hpat : f.bad.map Option.isSome
      = (List.range' 0 f.bad.length).map
          (fun j => decide (peek_reached (initialize_new_forward_frame c x) j < 0)) := by
    rw [hbad, h4, List.range_eq_range', heq]
    rfl
  obtain ⟨evs, h1, h2⟩ := check_bad_loop_calls c (x.frames.length : Int) f.bad 0 0
    (initialize_new_forward_frame c x) hpat (by rw [heq]; show x.call_backs.reached_at_bound = true; rw [hc]; exact hcb)
  refine ⟨ev0 ++ evs, ?_, ?_⟩
  · rw [h1, heq]
    show x.trace ++ evs = _
    rw [ht0, List.append_assoc]
  · rw [reached_at_bound_calls_append, hc0, h2, h4, heq, hf]
    show _ = (newly_reached c (m.frames.length : Int) m).map _
    simp only [newly_reached, List.nil_append, ← List.range_eq_range', hb, hr]

theorem skipped_iteration_calls (c : Collab) (m : BtorMC) :
    ∃ evs, (initialize_new_forward_frame c (starting_bound_call_back m)).trace = m.trace ++ evs
      ∧ reached_at_bound_calls evs = [] := by
  obtain ⟨ev0, ht0, hc0⟩ := starting_bound_call_back_calls m
  obtain ⟨f, fw', heq, -⟩ := build_shape c (starting_bound_call_back m)
  exact ⟨ev0, by rw [heq]; exact ht0, hc0⟩

/-- Loop invariant for the calls of the call back: `m` is the engine at the loop head of
a call entered with the engine `mc`. -/
theorem call_back_inv_step (mc m m2 : BtorMC) (K : Int) (hK : 0 ≤ K)
    (evs evs2 : List BtorMCEvent) (new : List Nat)
    (hmono : ∀ i, 0 ≤ peek_reached mc i → peek_reached m i = peek_reached mc i)
    (hiff : ∀ (i : Nat) (k : Int), (i, k) ∈ reached_at_bound_calls evs
      ↔ peek_reached mc i < 0 ∧ 0 ≤ peek_reached m i ∧ peek_reached m i = k)
    (hpw : (reached_at_bound_calls evs).Pairwise
      (fun a b => a.2 < b.2 ∨ (a.2 = b.2 ∧ a.1 < b.1)))
    (hbound : ∀ (i : Nat) (k : Int), (i, k) ∈ reached_at_bound_calls evs → k < K)
    (hnew : reached_at_bound_calls evs2 = new.map (fun j => (j, K)))
    (hsorted : new.Pairwise (fun a b => a < b))
    (hneg : ∀ j, j ∈ new → peek_reached m j < 0)
    (hpt : ∀ j, peek_reached m2 j = if j ∈ new then K else peek_reached m j) :
    (∀ i, 0 ≤ peek_reached mc i → peek_reached m2 i = peek_reached mc i)
    ∧ (∀ (i : Nat) (k : Int), (i, k) ∈ reached_at_bound_calls (evs ++ evs2)
        ↔ peek_reached mc i < 0 ∧ 0 ≤ peek_reached m2 i ∧ peek_reached m2 i = k)
    ∧ (reached_at_bound_calls (evs ++ evs2)).Pairwise
        (fun a b => a.2 < b.2 ∨ (a.2 = b.2 ∧ a.1 < b.1))
    ∧ ∀ (i : Nat) (k : Int), (i, k) ∈ reached_at_bound_calls (evs ++ evs2) → k < K + 1 := by
  have hmem : ∀ (i : Nat) (k : Int), (i, k) ∈ new.map (fun j => (j, K)) ↔ i ∈ new ∧ k = K := by
    intro i k
    simp only [List.mem_map, Prod.mk.injEq]
    constructor
    · rintro ⟨j, hj, rfl, rfl⟩
      exact ⟨hj, rfl⟩
    · rintro ⟨hj, rfl⟩
      exact ⟨i, hj, rfl, rfl⟩
  refine ⟨?_, ?_, ?_, ?_⟩
  · intro i hi
    have h1 := hmono i hi
    rw [hpt i, if_neg, h1]
    intro hin
    have := hneg i hin
    omega
  · intro i k
    rw [reached_at_bound_calls_append, List.mem_append, hnew, hmem, hiff, hpt i]
    by_cases hin : i ∈ new
    · have hn := hneg i hin
      rw [if_pos hin]
      constructor
      · rintro (h | h)
        · omega
        · refine ⟨?_, hK, h.2.symm⟩
          by_contra hcon
          have := hmono i (by omega)
          omega
      · intro h
        exact Or.inr ⟨hin, h.2.2.symm⟩
    · rw [if_neg hin]
      constructor
      · rintro (h | h)
        · exact h
        · exact absurd h.1 hin
      · intro h
        exact Or.inl h
  · rw [reached_at_bound_calls_append, List.pairwise_append]
    refine ⟨hpw, ?_, ?_⟩
    · rw [hnew, List.pairwise_map]
      exact hsorted.imp (fun h => Or.inr ⟨rfl, h⟩)
    · intro a ha b hb
      rw [hnew] at hb
      have h1 := hbound a.1 a.2 ha
      have h2 := (hmem b.1 b.2).mp hb
      left
      rw [h2.2]
      exact h1
  · intro i k hik
    rw [reached_at_bound_calls_append, List.mem_append, hnew, hmem] at hik
    rcases hik with h | h
    · have := hbound i k h
      omega
    · rw [h.2]
      omega

/-- C19: during a call of `boolector_mc_bmc` on an engine with a function installed for
`reached_at_bound`, the call back is called with `(i, k)` exactly for the bad properties `i`
whose entry of `reached` is negative at entry and is `k ≥ 0` on return; no pair is called
twice, so a property is reported once, with `k = reached[i]`, and never when its entry was
already non-negative; the calls are made in the order of increasing bound and, at one
bound, of increasing property index. -/
theorem reached_at_bound_fired_once_in_order (c : Collab) (mc : BtorMC) (mink maxk : Int)
    (hcb : mc.call_backs.reached_at_bound = true) :
    ∃ r mc' evs, boolector_mc_bmc c mc mink maxk = some (r, mc')
      ∧ mc'.trace = mc.trace ++ evs
      ∧ (∀ (i : Nat) (k : Int), (i, k) ∈ reached_at_bound_calls evs
          ↔ peek_reached mc i < 0 ∧ 0 ≤ peek_reached mc' i ∧ peek_reached mc' i = k)
      ∧ (reached_at_bound_calls evs).Nodup
      ∧ (reached_at_bound_calls evs).Pairwise
          (fun a b => a.2 < b.2 ∨ (a.2 = b.2 ∧ a.1 < b.1)) := by
  have hrule := bmc_loop_rule c mink maxk
    (fun m => m.call_backs = mc.call_backs
      ∧ (∀ i, 0 ≤ peek_reached mc i → peek_reached m i = peek_reached mc i)
      ∧ ∃ evs, m.trace = mc.trace ++ evs
        ∧ (∀ (i : Nat) (k : Int), (i, k) ∈ reached_at_bound_calls evs
            ↔ peek_reached mc i < 0 ∧ 0 ≤ peek_reached m i ∧ peek_reached m i = k)
        ∧ (reached_at_bound_calls evs).Pairwise
            (fun a b => a.2 < b.2 ∨ (a.2 = b.2 ∧ a.1 < b.1))
        ∧ ∀ (i : Nat) (k : Int), (i, k) ∈ reached_at_bound_calls evs →
            k < (m.frames.length : Int))
    (fun _ m => ∃ evs, m.trace = mc.trace ++ evs
        ∧ (∀ (i : Nat) (k : Int), (i, k) ∈ reached_at_bound_calls evs
            ↔ peek_reached mc i < 0 ∧ 0 ≤ peek_reached m i ∧ peek_reached m i = k)
        ∧ (reached_at_bound_calls evs).Pairwise
            (fun a b => a.2 < b.2 ∨ (a.2 = b.2 ∧ a.1 < b.1)))
    ?_ ?_ ?_ (bmc_fuel { mc_release_assignment mc with state := BtorMCState.BTOR_NO_MC_STATE } maxk)
    { mc_release_assignment mc with state := BtorMCState.BTOR_NO_MC_STATE } ?_
    (by unfold bmc_fuel; omega)
  · obtain ⟨r, mc', hrun, evs, h1, h2, h3⟩ := hrule
    refine ⟨r, mc', evs, hrun, h1, h2, ?_, h3⟩
    refine h3.imp ?_
    intro a b hab heq
    rw [heq] at hab
    omega
  · intro m hinv _ _
    obtain ⟨hc, hmono, evs, htr, hiff, hpw, hbound⟩ := hinv
    obtain ⟨-, -, hc2, -, -, -, hr2, -, -, ⟨f, hf2, -⟩, -⟩ := skipped_iteration_fields c m
    obtain ⟨evs2, htr2, hcalls⟩ := skipped_iteration_calls c m
    have hpk : ∀ j, peek_reached (initialize_new_forward_frame c (starting_bound_call_back m)) j
        = peek_reached m j := by
      intro j; simp only [peek_reached, hr2]
    refine ⟨by rw [hc2, hc], ?_, evs ++ evs2, by rw [htr2, htr, List.append_assoc], ?_, ?_, ?_⟩
    · intro i hi; rw [hpk]; exact hmono i hi
    · intro i k
      rw [reached_at_bound_calls_append, hcalls, List.append_nil, hpk]
      exact hiff i k
    · rw [reached_at_bound_calls_append, hcalls, List.append_nil]
      exact hpw
    · intro i k hik
      rw [reached_at_bound_calls_append, hcalls, List.append_nil] at hik
      have := hbound i k hik
      rw [hf2]
      simp only [List.length_append, List.length_singleton]
      push_cast
      omega
  · intro m hinv _ _ s mc2 hres
    obtain ⟨hc, hmono, evs, htr, hiff, hpw, hbound⟩ := hinv
    obtain ⟨-, -, -, hpt, -⟩ := checked_iteration_spec c m
    obtain ⟨-, -, hc2, -, -, -, f, hf2, -⟩ := checked_iteration_fields c m
    obtain ⟨evs2, htr2, hcalls⟩ := checked_iteration_calls c m (by rw [hc]; exact hcb)
    rw [hres] at hpt hc2 hf2 htr2
    simp only at hpt hc2 hf2 htr2
    have hpt' : ∀ j, peek_reached mc2 j
        = if j ∈ newly_reached c (m.frames.length : Int) m then (m.frames.length : Int)
          else peek_reached m j := by
      intro j
      rw [hpt j]
      simp only [newly_reached, List.mem_filter, List.mem_range]
    have hneg : ∀ j, j ∈ newly_reached c (m.frames.length : Int) m → peek_reached m j < 0 := by
      intro j hj
      simp only [newly_reached, List.mem_filter, List.mem_range, reaches, Bool.and_eq_true,
        decide_eq_true_eq] at hj
      exact hj.2.1
    have hsorted : (newly_reached c (m.frames.length : Int) m).Pairwise (fun a b => a < b) :=
      List.Pairwise.filter _ (List.pairwise_lt_range _)
    obtain ⟨g1, g2, g3, g4⟩ := call_back_inv_step mc m mc2 (m.frames.length : Int)
      (by omega) evs evs2 _ hmono hiff hpw hbound hcalls hsorted hneg hpt'
    have hall : mc2.call_backs = mc.call_backs
        ∧ (∀ i, 0 ≤ peek_reached mc i → peek_reached mc2 i = peek_reached mc i)
        ∧ ∃ evs, mc2.trace = mc.trace ++ evs
          ∧ (∀ (i : Nat) (k : Int), (i, k) ∈ reached_at_bound_calls evs
              ↔ peek_reached mc i < 0 ∧ 0 ≤ peek_reached mc2 i ∧ peek_reached mc2 i = k)
          ∧ (reached_at_bound_calls evs).Pairwise
              (fun a b => a.2 < b.2 ∨ (a.2 = b.2 ∧ a.1 < b.1))
          ∧ ∀ (i : Nat) (k : Int), (i, k) ∈ reached_at_bound_calls evs →
              k < (mc2.frames.length : Int) := by
      refine ⟨by rw [hc2, hc], g1, evs ++ evs2, by rw [htr2, htr, List.append_assoc], g2, g3, ?_⟩
      intro i k hik
      have := g4 i k hik
      rw [hf2]
      simp only [List.length_append, List.length_singleton]
      push_cast
      omega
    constructor
    · intro _
      obtain ⟨-, -, evs3, a1, a2, a3, -⟩ := hall
      exact ⟨evs3, a1, a2, a3⟩
    · intro _
      exact hall
  · intro m hinv _
    obtain ⟨-, -, evs, a1, a2, a3, -⟩ := hinv
    exact ⟨evs, a1, a2, a3⟩
  · refine ⟨rfl, fun _ _ => rfl, [], by simp [mc_release_assignment], ?_, by simp [reached_at_bound_calls], ?_⟩
    · intro i k
      simp only [reached_at_bound_calls, List.filterMap_nil, List.not_mem_nil, false_iff]
      rintro ⟨h1, h2, -⟩
      have : peek_reached { mc_release_assignment mc with
          state := BtorMCState.BTOR_NO_MC_STATE } i = peek_reached mc i := rfl
      rw [this] at h2
      omega
    · intro i k h
      simp [reached_at_bound_calls] at h

/-! ## The forward circuit when a frame is built -/

theorem ex_substitute_ok (sat_at : List (Int × Nat)) : substitute_ok (ex_collab sat_at) := by
  intro model forward map src
  show (∃ new, (ex_substitute model forward map src).2.1.nodes = forward.nodes ++ new)
    ∧ (ex_substitute model forward map src).2.1.assertions = forward.assertions
    ∧ ((∀ e, e ∈ map → e.2 < forward.nodes.length) →
        (ex_substitute model forward map src).1
            < (ex_substitute model forward map src).2.1.nodes.length
        ∧ ∀ e, e ∈ (ex_substitute model forward map src).2.2 →
            e.2 < (ex_substitute model forward map src).2.1.nodes.length)
  unfold ex_substitute
  cases hfind : map.find? (fun e => decide (e.1 = src)) with
  | some e =>
    refine ⟨⟨[], by simp⟩, rfl, ?_⟩
    intro hmap
    exact ⟨hmap e (List.mem_of_find?_eq_some hfind), hmap⟩
  | none =>
    refine ⟨⟨_, rfl⟩, rfl, ?_⟩
    intro hmap
    refine ⟨by simp, ?_⟩
    intro e he
    simp only [List.mem_append, List.mem_singleton] at he
    simp only [List.length_append, List.length_singleton]
    rcases he with h | h
    · exact Nat.lt_succ_of_lt (hmap e h)
    · rw [h]
      simp

theorem initialize_inputs_loop_valid (mc : BtorMC) (time : Int) (l : List BtorMCInput)
    (fw : Btor) :
    ∀ n, some n ∈ (initialize_inputs_loop mc time l [] fw).1 →
      n < (initialize_inputs_loop mc time l [] fw).2.nodes.length := by
  obtain ⟨h1, h2, -⟩ := initialize_inputs_loop_spec mc time l [] fw
  intro n hn
  rw [h1] at hn
  rw [h2]
  simp only [List.nil_append, List.mem_map, List.mem_range'_1, Option.some.injEq] at hn
  obtain ⟨m, hm, rfl⟩ := hn
  simp only [List.length_append, List.length_map]
  exact hm.2

theorem initialize_latches_loop_valid (mc : BtorMC) (time : Int) (p : Option BtorMCFrame) :
    ∀ (l : List BtorMCLatch) (i : Nat) (acc : BoolectorNodePtrStack) (fw : Btor),
      (∀ n, some n ∈ acc → n < fw.nodes.length) →
      (∀ j n, previous_next p j = some n → n < fw.nodes.length) →
      ∀ n, some n ∈ (initialize_latches_loop mc time p l i acc fw).1 →
        n < (initialize_latches_loop mc time p l i acc fw).2.nodes.length := by
  intro l
  induction l with
  | nil =>
    intro i acc fw hacc _ n hn
    exact hacc n hn
  | cons latch rest ih =>
    intro i acc fw hacc hprev
    have step : ∀ (entry : Option BoolectorNode) (fw1 : Btor),
        fw.nodes.length ≤ fw1.nodes.length →
        (∀ n, entry = some n → n < fw1.nodes.length) →
        ∀ n, some n ∈ (initialize_latches_loop mc time p rest (i + 1) (acc ++ [entry]) fw1).1 →
          n < (initialize_latches_loop mc time p rest (i + 1) (acc ++ [entry]) fw1).2.nodes.length := by
      intro entry fw1 hle hentry
      refine ih (i + 1) (acc ++ [entry]) fw1 ?_ ?_
      · intro n hn
        simp only [List.mem_append, List.mem_singleton] at hn
        rcases hn with h | h
        · exact Nat.lt_of_lt_of_le (hacc n h) hle
        · exact hentry n h.symm
      · intro j n hj
        exact Nat.lt_of_lt_of_le (hprev j n hj) hle
    unfold initialize_latches_loop
    split
    · simp only [boolector_const]
      refine step _ _ (by simp) ?_
      intro n hn
      simp only [Option.some.injEq] at hn
      rw [← hn]
      simp
    · split
      · refine step _ _ (le_refl _) ?_
        intro n hn
        exact hprev i n hn
      · simp only [boolector_var]
        refine step _ _ (by simp) ?_
        intro n hn
        simp only [Option.some.injEq] at hn
        rw [← hn]
        simp

theorem map_nodes_loop_valid (stack : BoolectorNodePtrStack) (N : Nat)
    (hstack : ∀ n, some n ∈ stack → n < N) :
    ∀ (srcs : List BoolectorNode) (i : Nat) (res : BoolectorNodeMap),
      (∀ e, e ∈ res → e.2 < N) → ∀ e, e ∈ map_nodes_loop stack srcs i res → e.2 < N := by
  intro srcs
  induction srcs with
  | nil => intro i res hres e he; exact hres e he
  | cons src rest ih =>
    intro i res hres
    unfold map_nodes_loop
    cases hp : peek_node stack i with
    | none => exact ih (i + 1) res hres
    | some dst =>
      refine ih (i + 1) _ ?_
      intro e he
      simp only [List.mem_append, List.mem_singleton] at he
      rcases he with h | h
      · exact hres e h
      · rw [h]
        apply hstack
        have : stack.getD i none = some dst := hp
        rw [List.getD_eq_getElem?_getD] at this
        cases hg : stack[i]? with
        | none => rw [hg] at this; cases this
        | some x =>
          rw [hg] at this
          simp only [Option.getD_some] at this
          rw [← this]
          exact List.get?_mem (by rw [List.get?_eq_getElem?]; exact hg)

theorem initialize_next_loop_forward (c : Collab) (hsub : substitute_ok c) (mc : BtorMC) :
    ∀ (l : List BtorMCLatch) (acc : BoolectorNodePtrStack) (fw : Btor) (map : BoolectorNodeMap),
      (∃ new, (initialize_next_loop c mc l acc fw map).2.1.nodes = fw.nodes ++ new)
      ∧ (initialize_next_loop c mc l acc fw map).2.1.assertions = fw.assertions
      ∧ ((∀ e, e ∈ map → e.2 < fw.nodes.length) → (∀ n, some n ∈ acc → n < fw.nodes.length) →
          (∀ e, e ∈ (initialize_next_loop c mc l acc fw map).2.2 →
            e.2 < (initialize_next_loop c mc l acc fw map).2.1.nodes.length)
          ∧ ∀ n, some n ∈ (initialize_next_loop c mc l acc fw map).1 →
            n < (initialize_next_loop c mc l acc fw map).2.1.nodes.length) := by
  intro l
  induction l with
  | nil =>
    intro acc fw map
    exact ⟨⟨[], by simp [initialize_next_loop]⟩, rfl, fun hm ha => ⟨hm, ha⟩⟩
  | cons latch rest ih =>
    intro acc fw map
    unfold initialize_next_loop
    cases hn : latch.next with
    | none =>
      simp only []
      obtain ⟨h1, h2, h3⟩ := ih (acc ++ [none]) fw map
      refine ⟨h1, h2, ?_⟩
      intro hm ha
      refine h3 hm ?_
      intro n hmem
      simp only [List.mem_append, List.mem_singleton] at hmem
      rcases hmem with h | h
      · exact ha n h
      · cases h
    | some src =>
      obtain ⟨⟨new1, g1⟩, g2, g3⟩ := hsub mc.btor fw map src
      rcases hs : c.substitute mc.btor fw map src with ⟨dst, fw1, map1⟩
      rw [hs] at g1 g2 g3
      simp only at g1 g2 g3
      simp only [hs]
      obtain ⟨⟨new, h1⟩, h2, h3⟩ := ih (acc ++ [some dst]) fw1 map1
      refine ⟨⟨new1 ++ new, by rw [h1, g1, List.append_assoc]⟩, by rw [h2, g2], ?_⟩
      intro hm ha
      obtain ⟨k1, k2⟩ := g3 hm
      refine h3 k2 ?_
      intro n hmem
      simp only [List.mem_append, List.mem_singleton, Option.some.injEq] at hmem
      rcases hmem with h | h
      · have := ha n h
        rw [g1, List.length_append]
        exact Nat.lt_of_lt_of_le this (Nat.le_add_right _ _)
      · rw [h]; exact k1

theorem initialize_bad_loop_forward (c : Collab) (hsub : substitute_ok c) (mc : BtorMC) :
    ∀ (l : List BoolectorNode) (i : Nat) (acc : BoolectorNodePtrStack) (fw : Btor)
      (map : BoolectorNodeMap),
      (∃ new, (initialize_bad_loop c mc l i acc fw map).2.1.nodes = fw.nodes ++ new)
      ∧ (initialize_bad_loop c mc l i acc fw map).2.1.assertions = fw.assertions
      ∧ ((∀ e, e ∈ map → e.2 < fw.nodes.length) → (∀ n, some n ∈ acc → n < fw.nodes.length) →
          ∀ n, some n ∈ (initialize_bad_loop c mc l i acc fw map).1 →
            n < (initialize_bad_loop c mc l i acc fw map).2.1.nodes.length) := by
  intro l
  induction l with
  | nil =>
    intro i acc fw map
    exact ⟨⟨[], by simp [initialize_bad_loop]⟩, rfl, fun _ ha => ha⟩
  | cons src rest ih =>
    intro i acc fw map
    unfold initialize_bad_loop
    by_cases hr : peek_reached mc i < 0
    · obtain ⟨⟨new1, g1⟩, g2, g3⟩ := hsub mc.btor fw map src
      rcases hs : c.substitute mc.btor fw map src with ⟨dst, fw1, map1⟩
      rw [hs] at g1 g2 g3
      simp only at g1 g2 g3
      rw [if_pos hr]
      simp only [hs]
      obtain ⟨⟨new, h1⟩, h2, h3⟩ := ih (i + 1) (acc ++ [some dst]) fw1 map1
      refine ⟨⟨new1 ++ new, by rw [h1, g1, List.append_assoc]⟩, by rw [h2, g2], ?_⟩
      intro hm ha
      obtain ⟨k1, k2⟩ := g3 hm
      refine h3 k2 ?_
      intro n hmem
      simp only [List.mem_append, List.mem_singleton, Option.some.injEq] at hmem
      rcases hmem with h | h
      · have := ha n h
        rw [g1, List.length_append]
        exact Nat.lt_of_lt_of_le this (Nat.le_add_right _ _)
      · rw [h]; exact k1
    · simp only [hr, if_false]
      obtain ⟨h1, h2, h3⟩ := ih (i + 1) (acc ++ [none]) fw map
      refine ⟨h1, h2, ?_⟩
      intro hm ha
      refine h3 hm ?_
      intro n hmem
      simp only [List.mem_append, List.mem_singleton] at hmem
      rcases hmem with h | h
      · exact ha n h
      · cases h

theorem is_conjunction_rev_append (nodes new : List BtorNode) :
    ∀ (rds : List BoolectorNode) (a : BoolectorNode),
      is_conjunction_rev nodes rds a → is_conjunction_rev (nodes ++ new) rds a := by
  intro rds
  induction rds with
  | nil => intro a h; exact h
  | cons d rest ih =>
    intro a h
    cases rest with
    | nil => exact h
    | cons d' rest' =>
      obtain ⟨a0, h1, h2⟩ := h
      refine ⟨a0, ?_, ih a0 h2⟩
      have hlt : a < nodes.length := lt_of_get? _ _ _ h1
      rw [List.get?_eq_getElem?, List.getElem?_append_left hlt, ← List.get?_eq_getElem?]
      exact h1

theorem is_conjunction_rev_ne_nil (nodes : List BtorNode) (rds : List BoolectorNode)
    (a : BoolectorNode) (h : is_conjunction_rev nodes rds a) : rds ≠ [] := by
  intro hnil
  rw [hnil] at h
  exact h

/-- The loop of `initialize_constraints_of_frame` : nodes are only added to the forward
circuit, nothing is asserted, and the result is the conjunction, in the order of the
loop, of the conjunction it was entered with and of the images of the constraints. -/
theorem initialize_constraints_loop_forward (c : Collab) (hsub : substitute_ok c) (mc : BtorMC) :
    ∀ (l : List BoolectorNode) (acc : Option BoolectorNode) (fw : Btor) (map : BoolectorNodeMap)
      (rds : List BoolectorNode),
      (acc = none → rds = []) →
      (∀ a0, acc = some a0 → is_conjunction_rev fw.nodes rds a0) →
      (∃ new, (initialize_constraints_loop c mc l acc fw map).2.1.nodes = fw.nodes ++ new)
      ∧ (initialize_constraints_loop c mc l acc fw map).2.1.assertions = fw.assertions
      ∧ (∃ imgs, List.Forall₂
            (fun src d => ∃ fwj mapj, d = (c.substitute mc.btor fwj mapj src).1) l imgs
          ∧ ((initialize_constraints_loop c mc l acc fw map).1 = none → l = [] ∧ acc = none)
          ∧ ∀ a, (initialize_constraints_loop c mc l acc fw map).1 = some a →
              is_conjunction_rev (initialize_constraints_loop c mc l acc fw map).2.1.nodes
                (imgs.reverse ++ rds) a)
      ∧ ((∀ e, e ∈ map → e.2 < fw.nodes.length) → (∀ n, acc = some n → n < fw.nodes.length) →
          (∀ e, e ∈ (initialize_constraints_loop c mc l acc fw map).2.2 →
            e.2 < (initialize_constraints_loop c mc l acc fw map).2.1.nodes.length)
          ∧ ∀ n, (initialize_constraints_loop c mc l acc fw map).1 = some n →
            n < (initialize_constraints_loop c mc l acc fw map).2.1.nodes.length) := by
  intro l
  induction l with
  | nil =>
    intro acc fw map rds hnone hsome
    refine ⟨⟨[], by simp [initialize_constraints_loop]⟩, rfl, ⟨[], List.Forall₂.nil, ?_, ?_⟩, ?_⟩
    · intro h; exact ⟨rfl, h⟩
    · intro a ha
      simpa using hsome a ha
    · intro hm ha
      exact ⟨hm, ha⟩
  | cons src rest ih =>
    intro acc fw map rds hnone hsome
    obtain ⟨⟨new1, g1⟩, g2, g3⟩ := hsub mc.btor fw map src
    rcases hs : c.substitute mc.btor fw map src with ⟨dst, fw1, map1⟩
    rw [hs] at g1 g2 g3
    simp only at g1 g2 g3
    have himg : ∃ fwj mapj, dst = (c.substitute mc.btor fwj mapj src).1 := ⟨fw, map, by rw [hs]⟩
    -- the rest of the loop, entered with the conjunction `acc1` in the circuit `fw2`
    have step : ∀ (acc1 : BoolectorNode) (fw2 : Btor) (new2 : List BtorNode),
        fw2.nodes = fw1.nodes ++ new2 → fw2.assertions = fw1.assertions →
        is_conjunction_rev fw2.nodes (dst :: rds) acc1 →
        ((∀ e, e ∈ map → e.2 < fw.nodes.length) → acc1 < fw2.nodes.length) →
        (∃ new, (initialize_constraints_loop c mc rest (some acc1) fw2 map1).2.1.nodes
            = fw.nodes ++ new)
        ∧ (initialize_constraints_loop c mc rest (some acc1) fw2 map1).2.1.assertions
            = fw.assertions
        ∧ (∃ imgs, List.Forall₂
              (fun src d => ∃ fwj mapj, d = (c.substitute mc.btor fwj mapj src).1)
              (src :: rest) imgs
            ∧ ((initialize_constraints_loop c mc rest (some acc1) fw2 map1).1 = none → False)
            ∧ ∀ a, (initialize_constraints_loop c mc rest (some acc1) fw2 map1).1 = some a →
                is_conjunction_rev
                  (initialize_constraints_loop c mc rest (some acc1) fw2 map1).2.1.nodes
                  (imgs.reverse ++ rds) a)
        ∧ ((∀ e, e ∈ map → e.2 < fw.nodes.length) →
            (∀ e, e ∈ (initialize_constraints_loop c mc rest (some acc1) fw2 map1).2.2 →
              e.2 < (initialize_constraints_loop c mc rest (some acc1) fw2 map1).2.1.nodes.length)
            ∧ ∀ n, (initialize_constraints_loop c mc rest (some acc1) fw2 map1).1 = some n →
              n < (initialize_constraints_loop c mc rest (some acc1) fw2 map1).2.1.nodes.length) := by
      intro acc1 fw2 new2 hn2 ha2 hconj hvalid
      obtain ⟨⟨new, h1⟩, h2, ⟨imgs, h3, h4, h5⟩, h6⟩ :=
        ih (some acc1) fw2 map1 (dst :: rds) (by intro h; cases h)
          (by intro a0 h; cases h; exact hconj)
      refine ⟨⟨new1 ++ (new2 ++ new), by rw [h1, hn2, g1]; simp⟩, by rw [h2, ha2, g2],
        ⟨dst :: imgs, List.Forall₂.cons himg h3, ?_, ?_⟩, ?_⟩
      · intro hnone'
        have := (h4 hnone').2
        cases this
      · intro a ha
        have := h5 a ha
        simpa using this
      · intro hm
        obtain ⟨k1, k2⟩ := g3 hm
        refine h6 ?_ ?_
        · intro e he
          rw [hn2, List.length_append]
          exact Nat.lt_of_lt_of_le (k2 e he) (Nat.le_add_right _ _)
        · intro n hn
          cases hn
          exact hvalid hm
    unfold initialize_constraints_loop
    simp only [hs]
    cases hacc : acc with
    | none =>
      simp only []
      have hrds : rds = [] := hnone hacc
      obtain ⟨s1, s2, ⟨imgs, s3, s4, s5⟩, s6⟩ := step dst fw1 [] (by simp) rfl
        (by rw [hrds]; rfl) (fun hm => (g3 hm).1)
      exact ⟨s1, s2, ⟨imgs, s3, fun h => absurd h s4, s5⟩, fun hm _ => s6 hm⟩
    | some a0 =>
      simp only [boolector_and]
      have hc0 := hsome a0 hacc
      have hconj : is_conjunction_rev (fw1.nodes ++ [and_node a0 dst]) (dst :: rds)
          fw1.nodes.length := by
        obtain ⟨d', rest', hrd⟩ :=
          List.exists_cons_of_ne_nil (is_conjunction_rev_ne_nil _ _ _ hc0)
        rw [hrd]
        refine ⟨a0, by simp, ?_⟩
        rw [← hrd, g1, List.append_assoc]
        exact is_conjunction_rev_append _ _ _ _ hc0
      obtain ⟨s1, s2, ⟨imgs, s3, s4, s5⟩, s6⟩ := step fw1.nodes.length
        { fw1 with nodes := fw1.nodes ++ [and_node a0 dst] } [and_node a0 dst] rfl rfl hconj
        (fun _ => by simp)
      exact ⟨s1, s2, ⟨imgs, s3, fun h => absurd h s4, s5⟩, fun hm _ => s6 hm⟩

theorem get?_append_stable {α : Type} (l new : List α) (n : Nat) (x : α)
    (h : l.get? n = some x) : (l ++ new).get? n = some x := by
  have hlt : n < l.length := lt_of_get? _ _ _ h
  rw [List.get?_eq_getElem?, List.getElem?_append_left hlt, ← List.get?_eq_getElem?]
  exact h

/-- What `initialize_constraints_of_frame` does to the forward circuit: it asserts nothing
when no constraint is registered and otherwise one formula, the conjunction of the images
of the constraints in the order of registration. -/
theorem initialize_constraints_of_frame_forward (c : Collab) (hsub : substitute_ok c)
    (mc : BtorMC) (fw : Btor) (map : BoolectorNodeMap) :
    (∃ new, (initialize_constraints_of_frame c mc fw map).1.nodes = fw.nodes ++ new)
    ∧ (mc.constraints = [] →
        (initialize_constraints_of_frame c mc fw map).1.assertions = fw.assertions)
    ∧ (mc.constraints ≠ [] → ∃ a imgs,
        (initialize_constraints_of_frame c mc fw map).1.assertions = fw.assertions ++ [a]
        ∧ List.Forall₂ (fun src d => ∃ fwj mapj, d = (c.substitute mc.btor fwj mapj src).1)
            mc.constraints imgs
        ∧ is_conjunction (initialize_constraints_of_frame c mc fw map).1.nodes imgs a)
    ∧ ((∀ e, e ∈ map → e.2 < fw.nodes.length) →
        ∀ e, e ∈ (initialize_constraints_of_frame c mc fw map).2 →
          e.2 < (initialize_constraints_of_frame c mc fw map).1.nodes.length) := by
  obtain ⟨⟨new, h1⟩, h2, ⟨imgs, h3, h4, h5⟩, h6⟩ :=
    initialize_constraints_loop_forward c hsub mc mc.constraints none fw map []
      (fun _ => rfl) (by intro a0 h; cases h)
  unfold initialize_constraints_of_frame
  rcases hr : initialize_constraints_loop c mc mc.constraints none fw map with ⟨res, fw1, map1⟩
  rw [hr] at h1 h2 h4 h5 h6
  simp only at h1 h2 h4 h5 h6
  cases res with
  | none =>
    simp only []
    have hnil := (h4 rfl).1
    exact ⟨⟨new, h1⟩, fun _ => h2, fun hne => absurd hnil hne,
      fun hm => (h6 hm (by intro n h; cases h)).1⟩
  | some a =>
    simp only [boolector_assert]
    refine ⟨⟨new, h1⟩, ?_, ?_, fun hm => (h6 hm (by intro n h; cases h)).1⟩
    · intro hnil
      rw [hnil] at hr
      simp [initialize_constraints_loop] at hr
    · intro _
      refine ⟨a, imgs, by rw [h2], h3, ?_⟩
      have := h5 a rfl
      simpa [is_conjunction] using this

/-- The forward circuit and the tables of the frame after `initialize_new_forward_frame`,
when the entries of the next-state table of the previous frame are nodes of the forward
circuit: nodes are only added, at most the conjunction of the constraint images is
asserted, the inputs are new variables, the latches new constants or new variables where
they are not taken from the previous frame, and all entries of the frame are nodes of the
forward circuit. -/
theorem build_forward (c : Collab) (hsub : substitute_ok c) (mc : BtorMC)
    (hprev : ∀ j n,
      previous_next (if 0 < mc.frames.length then mc.frames.get? (mc.frames.length - 1) else none) j
        = some n → n < (forward_manager mc).nodes.length) :
    ∃ (f : BtorMCFrame) (fw' : Btor) (new : List BtorNode),
      initialize_new_forward_frame c mc
        = { mc with forward := some fw', frames := mc.frames ++ [f] }
      ∧ f.model2const = none
      ∧ fw'.nodes = (forward_manager mc).nodes ++ new
      ∧ (mc.constraints = [] → fw'.assertions = (forward_manager mc).assertions)
      ∧ (mc.constraints ≠ [] → ∃ a imgs,
          fw'.assertions = (forward_manager mc).assertions ++ [a]
          ∧ List.Forall₂ (fun src d => ∃ fwj mapj, d = (c.substitute mc.btor fwj mapj src).1)
              mc.constraints imgs
          ∧ is_conjunction fw'.nodes imgs a)
      ∧ f.inputs = (List.range' (forward_manager mc).nodes.length mc.inputs.length).map some
      ∧ (∀ (i : Nat) (input : BtorMCInput), mc.inputs.get? i = some input →
          fw'.nodes.get? ((forward_manager mc).nodes.length + i)
            = some (var_node (boolector_get_width mc.btor input.node)
                (timed_symbol mc input.node (mc.frames.length : Int))))
      ∧ (∀ (i : Nat) (latch : BtorMCLatch) (init : BoolectorNode),
          mc.latches.get? i = some latch → mc.frames.length = 0 → latch.init = some init →
          ∃ n, f.latches.get? i = some (some n)
            ∧ fw'.nodes.get? n = some (const_node (boolector_get_bits mc.btor init)))
      ∧ (∀ (i : Nat) (latch : BtorMCLatch), mc.latches.get? i = some latch →
          ¬ (mc.frames.length = 0 ∧ latch.init.isSome = true) →
          ¬ (0 < mc.frames.length ∧ latch.next.isSome = true) →
          ∃ n, f.latches.get? i = some (some n)
            ∧ (forward_manager mc).nodes.length ≤ n
            ∧ fw'.nodes.get? n
              = some (var_node (boolector_get_width mc.btor latch.node)
                  (timed_symbol mc latch.node (mc.frames.length : Int))))
      ∧ (∀ n, some n ∈ frame_nodes f → n < fw'.nodes.length) := by
  obtain ⟨r1, r2, map, r3, r4, r5, e1, e2, emap, e3, e4, e5, heq⟩ := build_stages c mc
  -- the inputs
  obtain ⟨i1, i2, i3⟩ := initialize_inputs_loop_spec mc (mc.frames.length : Int) mc.inputs []
    (forward_manager mc)
  have v1 := initialize_inputs_loop_valid mc (mc.frames.length : Int) mc.inputs
    (forward_manager mc)
  rw [← e1] at i1 i2 i3 v1
  simp only [List.nil_append] at i1
  -- the latches
  obtain ⟨-, -, ⟨n2, l3⟩, l4, l5⟩ := initialize_latches_loop_spec mc (mc.frames.length : Int)
    (if 0 < mc.frames.length then mc.frames.get? (mc.frames.length - 1) else none)
    mc.latches 0 [] r1.2
  have hle1 : (forward_manager mc).nodes.length ≤ r1.2.nodes.length := by
    rw [i2]; simp
  have v2 := initialize_latches_loop_valid mc (mc.frames.length : Int)
    (if 0 < mc.frames.length then mc.frames.get? (mc.frames.length - 1) else none)
    mc.latches 0 [] r1.2 (by intro n hn; simp at hn)
    (fun j n hj => Nat.lt_of_lt_of_le (hprev j n hj) hle1)
  rw [← e2] at l3 l4 l5 v2
  have hle2 : r1.2.nodes.length ≤ r2.2.nodes.length := by rw [l3]; simp
  -- the node map
  have vmap : ∀ e, e ∈ map → e.2 < r2.2.nodes.length := by
    rw [emap]
    refine map_nodes_loop_valid r2.1 _ v2 _ 0 _ ?_
    refine map_nodes_loop_valid r1.1 _ ?_ _ 0 [] (by intro e he; simp at he)
    intro n hn
    exact Nat.lt_of_lt_of_le (v1 n hn) hle2
  -- the next-state functions
  obtain ⟨⟨n3, x1⟩, x2, x3⟩ := initialize_next_loop_forward c hsub mc mc.latches [] r2.2 map
  rw [← e3] at x1 x2 x3
  obtain ⟨vmap3, v3⟩ := x3 vmap (by intro n hn; simp at hn)
  have hle3 : r2.2.nodes.length ≤ r3.2.1.nodes.length := by rw [x1]; simp
  -- the constraints
  obtain ⟨⟨n4, c1⟩, c2, c3, c4⟩ :=
    initialize_constraints_of_frame_forward c hsub mc r3.2.1 r3.2.2
  rw [← e4] at c1 c2 c3 c4
  have vmap4 := c4 vmap3
  have hle4 : r3.2.1.nodes.length ≤ r4.1.nodes.length := by rw [c1]; simp
  -- the bad properties
  obtain ⟨⟨n5, b1⟩, b2, b3⟩ := initialize_bad_loop_forward c hsub mc mc.bad 0 [] r4.1 r4.2
  rw [← e5] at b1 b2 b3
  have v5 := b3 vmap4 (by intro n hn; simp at hn)
  have hle5 : r4.1.nodes.length ≤ r5.2.1.nodes.length := by rw [b1]; simp
  -- nodes of the circuit after a stage are nodes of the final circuit
  have keep2 : ∀ n x, r2.2.nodes.get? n = some x → r5.2.1.nodes.get? n = some x := by
    intro n x h
    rw [b1, c1, x1]
    exact get?_append_stable _ _ _ _ (get?_append_stable _ _ _ _ (get?_append_stable _ _ _ _ h))
  have keep1 : ∀ n x, r1.2.nodes.get? n = some x → r5.2.1.nodes.get? n = some x := by
    intro n x h
    apply keep2
    rw [l3]
    exact get?_append_stable _ _ _ _ h
  obtain ⟨n1, i2'⟩ : ∃ n1, r1.2.nodes = (forward_manager mc).nodes ++ n1 := ⟨_, i2⟩
  refine ⟨_, r5.2.1, n1 ++ n2 ++ n3 ++ n4 ++ n5, heq, rfl, ?_, ?_, ?_, i1, ?_, ?_, ?_, ?_⟩
  · rw [b1, c1, x1, l3, i2']
    simp only [List.append_assoc]
  · intro hnil
    rw [b2, c2 hnil, x2, l4, i3]
  · intro hne
    obtain ⟨a, imgs, a1, a2, a3⟩ := c3 hne
    refine ⟨a, imgs, by rw [b2, a1, x2, l4, i3], a2, ?_⟩
    rw [b1]
    exact is_conjunction_rev_append _ _ _ _ a3
  · intro i input hi
    apply keep1
    rw [i2, List.get?_eq_getElem?, List.getElem?_append_right (Nat.le_add_right _ _),
      Nat.add_sub_cancel_left, List.getElem?_map, ← List.get?_eq_getElem?, hi]
    rfl
  · intro i latch init hl h0 hinit
    obtain ⟨n, g1, -, g3⟩ := (l5 i latch hl).1 (by rw [h0]; rfl) init hinit
    simp only [List.length_nil, Nat.zero_add] at g1
    exact ⟨n, g1, keep2 n _ g3⟩
  · intro i latch hl hnc hnl
    obtain ⟨n, g1, g2, g3⟩ := (l5 i latch hl).2.2
      (by intro h; exact hnc ⟨by have := h.1; omega, h.2⟩)
      (by intro h; exact hnl ⟨by have := h.1; omega, h.2⟩)
    simp only [List.length_nil, Nat.zero_add] at g1
    exact ⟨n, g1, Nat.le_trans hle1 g2, keep2 n _ g3⟩
  · intro n hn
    simp only [frame_nodes, List.mem_append] at hn
    rcases hn with ((h | h) | h) | h
    · exact Nat.lt_of_lt_of_le (v1 n h)
        (Nat.le_trans hle2 (Nat.le_trans hle3 (Nat.le_trans hle4 hle5)))
    · exact Nat.lt_of_lt_of_le (v2 n h) (Nat.le_trans hle3 (Nat.le_trans hle4 hle5))
    · exact Nat.lt_of_lt_of_le (v3 n h) (Nat.le_trans hle4 hle5)
    · exact v5 n h

/-! ## The invariant of the forward circuit -/

theorem forward_manager_nodes (mc : BtorMC) :
    (forward_manager mc).nodes = forward_nodes mc
    ∧ (forward_manager mc).assertions = forward_assertions mc := by
  unfold forward_manager forward_nodes forward_assertions
  cases mc.forward with
  | some fw => exact ⟨rfl, rfl⟩
  | none =>
    simp only []
    split <;> split <;> exact ⟨rfl, rfl⟩

/-- The invariant of the forward circuit reads the model circuit, the registered tables
and the constraints of the engine. -/
theorem forward_inv_congr (mc m : BtorMC) (nodes : List BtorNode)
    (assertions : List BoolectorNode) (F : List BtorMCFrame)
    (h : forward_inv mc nodes assertions F)
    (hb : m.btor.nodes = mc.btor.nodes) (hi : m.inputs = mc.inputs)
    (hl : m.latches = mc.latches) (hc : m.constraints = mc.constraints) :
    forward_inv m nodes assertions F := by
  have hw : ∀ x, boolector_get_width m.btor x = boolector_get_width mc.btor x := by
    intro x; simp only [boolector_get_width, hb]
  have hs : ∀ x t, timed_symbol m x t = timed_symbol mc x t := by
    intro x t; simp only [timed_symbol, boolector_get_symbol, hb]
  have hbits : ∀ x, boolector_get_bits m.btor x = boolector_get_bits mc.btor x := by
    intro x; simp only [boolector_get_bits, hb]
  refine ⟨?_, ?_, h.valid, ?_, ?_, ?_, ?_⟩
  · rw [hi, hb]; exact h.inputs_valid
  · rw [hl, hb]; exact h.latches_valid
  · simp only [hi, hw, hs]; exact h.inputs
  · simp only [hl, hbits]; exact h.latch_const
  · simp only [hl, hw, hs]; exact h.latch_free
  · rw [hc]; exact h.asserted

theorem forward_inv_new (c : Collab) : forward_inv (boolector_mc_new c) [] [] [] := by
  refine ⟨?_, ?_, ?_, ?_, ?_, ?_, rfl⟩
  · intro input hin; simp [boolector_mc_new] at hin
  · intro latch hin; simp [boolector_mc_new] at hin
  · intro f hf; simp at hf
  · intro t f hf; simp at hf
  · intro f i latch init hf; simp at hf
  · intro t f i latch hf; simp at hf

/-- The invariant of the forward circuit when a frame `f` is pushed and the nodes `new` are
added to the forward circuit. -/
theorem forward_inv_push (mc : BtorMC) (nodes new : List BtorNode)
    (assertions assertions' : List BoolectorNode) (F : List BtorMCFrame) (f : BtorMCFrame)
    (h : forward_inv mc nodes assertions F)
    (ha0 : mc.constraints = [] → assertions' = assertions)
    (ha1 : mc.constraints ≠ [] → ∃ a, assertions' = assertions ++ [a])
    (hin : f.inputs = (List.range' nodes.length mc.inputs.length).map some)
    (hinn : ∀ (i : Nat) (input : BtorMCInput), mc.inputs.get? i = some input →
      (nodes ++ new).get? (nodes.length + i)
        = some (var_node (boolector_get_width mc.btor input.node)
            (timed_symbol mc input.node (F.length : Int))))
    (hconst : ∀ (i : Nat) (latch : BtorMCLatch) (init : BoolectorNode),
      mc.latches.get? i = some latch → F.length = 0 → latch.init = some init →
      ∃ n, f.latches.get? i = some (some n)
        ∧ (nodes ++ new).get? n = some (const_node (boolector_get_bits mc.btor init)))
    (hfree : ∀ (i : Nat) (latch : BtorMCLatch), mc.latches.get? i = some latch →
      ¬ (F.length = 0 ∧ latch.init.isSome = true) →
      ¬ (0 < F.length ∧ latch.next.isSome = true) →
      ∃ n, f.latches.get? i = some (some n) ∧ nodes.length ≤ n
        ∧ (nodes ++ new).get? n
          = some (var_node (boolector_get_width mc.btor latch.node)
              (timed_symbol mc latch.node (F.length : Int))))
    (hvalid : ∀ n, some n ∈ frame_nodes f → n < (nodes ++ new).length) :
    forward_inv mc (nodes ++ new) assertions' (F ++ [f]) := by
  have hle : nodes.length ≤ (nodes ++ new).length := by simp
  -- an earlier frame of the new stack is a frame of the old stack
  have hold : ∀ (t t' : Nat) (f' : BtorMCFrame), t' < t → t < F.length + 1 →
      (F ++ [f]).get? t' = some f' → F.get? t' = some f' := by
    intro t t' f' hlt ht hf'
    rcases get?_append_singleton F f f' t' hf' with ⟨-, h0⟩ | ⟨h0, -⟩
    · exact h0
    · omega
  refine ⟨h.inputs_valid, h.latches_valid, ?_, ?_, ?_, ?_, ?_⟩
  · intro f0 hf0 n hn
    rcases List.mem_append.mp hf0 with h0 | h0
    · exact Nat.lt_of_lt_of_le (h.valid f0 h0 n hn) hle
    · simp only [List.mem_singleton] at h0
      rw [h0] at hn
      exact hvalid n hn
  · intro t f0 hf0
    rcases get?_append_singleton F f f0 t hf0 with ⟨ht, h0⟩ | ⟨ht, h0⟩
    · obtain ⟨base, h1, h2, h3⟩ := h.inputs t f0 h0
      refine ⟨base, h1, ?_, ?_⟩
      · intro t' f' hlt hf'
        exact h2 t' f' hlt (hold t t' f' hlt (by omega) hf')
      · intro i input hi
        exact get?_append_stable _ _ _ _ (h3 i input hi)
    · rw [h0]
      refine ⟨nodes.length, hin, ?_, ?_⟩
      · intro t' f' hlt hf' n hn
        exact h.valid f' (List.get?_mem (hold t t' f' hlt (by omega) hf')) n hn
      · intro i input hi
        rw [ht]
        exact hinn i input hi
  · intro f0 i latch init hf0 hl hinit
    rcases get?_append_singleton F f f0 0 hf0 with ⟨-, h0⟩ | ⟨ht, h0⟩
    · obtain ⟨n, h1, h2⟩ := h.latch_const f0 i latch init h0 hl hinit
      exact ⟨n, h1, get?_append_stable _ _ _ _ h2⟩
    · rw [h0]
      exact hconst i latch init hl ht.symm hinit
  · intro t f0 i latch hf0 hl hnc hnl
    rcases get?_append_singleton F f f0 t hf0 with ⟨ht, h0⟩ | ⟨ht, h0⟩
    · obtain ⟨n, h1, h2, h3⟩ := h.latch_free t f0 i latch h0 hl hnc hnl
      refine ⟨n, h1, get?_append_stable _ _ _ _ h2, ?_⟩
      intro t' f' hlt hf'
      exact h3 t' f' hlt (hold t t' f' hlt (by omega) hf')
    · rw [h0]
      obtain ⟨n, h1, h2, h3⟩ := hfree i latch hl (by rw [← ht]; exact hnc)
        (by rw [← ht]; exact hnl)
      refine ⟨n, h1, by rw [ht]; exact h3, ?_⟩
      intro t' f' hlt hf' m hm
      exact Nat.lt_of_lt_of_le
        (h.valid f' (List.get?_mem (hold t t' f' hlt (by omega) hf')) m hm) h2
  · by_cases hc : mc.constraints = []
    · rw [ha0 hc, h.asserted, if_pos hc, if_pos hc]
    · obtain ⟨a, ha⟩ := ha1 hc
      rw [ha, List.length_append, h.asserted, if_neg hc, if_neg hc]
      simp

/-- The invariant of the forward circuit is kept when a frame is built. -/
theorem forward_inv_build (c : Collab) (hsub : substitute_ok c) (mc : BtorMC)
    (h : forward_inv mc (forward_nodes mc) (forward_assertions mc)
      (mc.frames.map frame_tables)) :
    forward_inv (initialize_new_forward_frame c mc)
      (forward_nodes (initialize_new_forward_frame c mc))
      (forward_assertions (initialize_new_forward_frame c mc))
      ((initialize_new_forward_frame c mc).frames.map frame_tables) := by
  obtain ⟨hfn, hfa⟩ := forward_manager_nodes mc
  have hprev : ∀ j n,
      previous_next (if 0 < mc.frames.length then mc.frames.get? (mc.frames.length - 1)
        else none) j = some n → n < (forward_manager mc).nodes.length := by
    intro j n hj
    rw [hfn]
    by_cases hpos : 0 < mc.frames.length
    · rw [if_pos hpos] at hj
      cases hp : mc.frames.get? (mc.frames.length - 1) with
      | none => rw [hp] at hj; cases hj
      | some p =>
        rw [hp] at hj
        have hF := tables_get? mc.frames _ p hp
        refine h.valid (frame_tables p) (List.get?_mem hF) n ?_
        have hj' : peek_node p.next j = some n := hj
        have hmem : some n ∈ p.next := by
          have hlt : j < p.next.length := by
            by_contra hcon
            simp [peek_node, List.getD_eq_getElem?_getD,
              List.getElem?_eq_none (Nat.le_of_not_lt hcon)] at hj'
          have := get?_of_lt p.next j hlt
          rw [hj'] at this
          exact List.get?_mem this
        show some n ∈ p.inputs ++ p.latches ++ p.next ++ p.bad
        simp only [List.mem_append]
        exact Or.inl (Or.inr hmem)
    · rw [if_neg hpos] at hj
      cases hj
  obtain ⟨f, fw', new, heq, hm, g1, g2, g3, g4, g5, g6, g7, g8⟩ := build_forward c hsub mc hprev
  have hft : frame_tables f = f := by
    unfold frame_tables
    rw [← hm]
  rw [heq]
  refine forward_inv_congr mc _ _ _ _ ?_ rfl rfl rfl rfl
  show forward_inv mc fw'.nodes fw'.assertions ((mc.frames ++ [f]).map frame_tables)
  rw [List.map_append, List.map_singleton, hft, g1, hfn]
  rw [hfn] at g4 g5 g7
  rw [g1, hfn] at g5 g6 g7 g8
  rw [hfa] at g2 g3
  refine forward_inv_push mc _ new _ _ _ f h g2 ?_ g4 ?_ ?_ ?_ g8
  · intro hne
    obtain ⟨a, imgs, a1, -⟩ := g3 hne
    exact ⟨a, a1⟩
  · simpa using g5
  · simpa using g6
  · simpa using g7

theorem update_mc_latch_mem (node : BoolectorNode) (change : BtorMCLatch → BtorMCLatch) :
    ∀ (ls : List BtorMCLatch) (l' : BtorMCLatch), l' ∈ update_mc_latch node change ls →
      l' ∈ ls ∨ ∃ l, l ∈ ls ∧ l' = change l := by
  intro ls
  induction ls with
  | nil => intro l' h; simp [update_mc_latch] at h
  | cons l rest ih =>
    intro l' h
    unfold update_mc_latch at h
    split at h
    · simp only [List.mem_cons] at h
      rcases h with h | h
      · exact Or.inr ⟨l, by simp, h⟩
      · exact Or.inl (by simp [h])
    · simp only [List.mem_cons] at h
      rcases h with h | h
      · exact Or.inl (by simp [h])
      · rcases ih l' h with h1 | ⟨l0, h1, h2⟩
        · exact Or.inl (by simp [h1])
        · exact Or.inr ⟨l0, by simp [h1], h2⟩

/-- A registration call keeps the registered nodes nodes of the model circuit. -/
theorem register_model_valid (mc mc' : BtorMC) (call : BtorMCCall)
    (hreg : register mc call = some mc')
    (hi : ∀ (input : BtorMCInput), input ∈ mc.inputs → input.node < mc.btor.nodes.length)
    (hl : ∀ (latch : BtorMCLatch), latch ∈ mc.latches →
      latch.node < mc.btor.nodes.length
        ∧ ∀ init, latch.init = some init → init < mc.btor.nodes.length) :
    (∀ (input : BtorMCInput), input ∈ mc'.inputs → input.node < mc'.btor.nodes.length)
    ∧ (∀ (latch : BtorMCLatch), latch ∈ mc'.latches →
        latch.node < mc'.btor.nodes.length
          ∧ ∀ init, latch.init = some init → init < mc'.btor.nodes.length) := by
  -- the tables are unchanged and the model circuit has one more node
  have grow : ∀ (n : BtorNode),
      (∀ (input : BtorMCInput), input ∈ mc.inputs →
        input.node < (mc.btor.nodes ++ [n]).length)
      ∧ (∀ (latch : BtorMCLatch), latch ∈ mc.latches →
        latch.node < (mc.btor.nodes ++ [n]).length
          ∧ ∀ init, latch.init = some init → init < (mc.btor.nodes ++ [n]).length) := by
    intro n
    simp only [List.length_append, List.length_singleton]
    refine ⟨fun input hin => Nat.lt_succ_of_lt (hi input hin), fun latch hin => ?_⟩
    exact ⟨Nat.lt_succ_of_lt (hl latch hin).1,
      fun init h => Nat.lt_succ_of_lt ((hl latch hin).2 init h)⟩
  cases call with
  | node n =>
    simp only [register, Option.some.injEq] at hreg
    subst hreg
    exact grow n
  | input width name =>
    simp only [register, boolector_input, Option.map_eq_some'] at hreg
    obtain ⟨r, hr, hmc⟩ := hreg
    split at hr
    · cases hr
    · split at hr
      · cases hr
      · simp only [Option.some.injEq] at hr
        subst hr
        subst hmc
        obtain ⟨g1, g2⟩ := grow
          { kind := BtorNodeKind.bv_var, width := width, symbol := name, bits := none, args := [] }
        refine ⟨?_, g2⟩
        intro input hin
        simp only [List.mem_append, List.mem_singleton] at hin
        rcases hin with h | h
        · exact g1 input h
        · rw [h]
          simp [boolector_var]
  | latch width name =>
    simp only [register, boolector_latch, Option.map_eq_some'] at hreg
    obtain ⟨r, hr, hmc⟩ := hreg
    split at hr
    · cases hr
    · split at hr
      · cases hr
      · simp only [Option.some.injEq] at hr
        subst hr
        subst hmc
        obtain ⟨g1, g2⟩ := grow
          { kind := BtorNodeKind.bv_var, width := width, symbol := name, bits := none, args := [] }
        refine ⟨g1, ?_⟩
        intro latch hin
        simp only [List.mem_append, List.mem_singleton] at hin
        rcases hin with h | h
        · exact g2 latch h
        · rw [h]
          refine ⟨by simp [boolector_var], ?_⟩
          intro init hinit
          cases hinit
  | next node next =>
    simp only [register, boolector_next] at hreg
    split at hreg
    · cases hreg
    · split at hreg
      · cases hreg
      · split at hreg
        · cases hreg
        · split at hreg
          · cases hreg
          · split at hreg
            · cases hreg
            · split at hreg
              · cases hreg
              · simp only [Option.some.injEq] at hreg
                subst hreg
                refine ⟨hi, ?_⟩
                intro latch hin
                rcases update_mc_latch_mem _ _ _ _ hin with h | ⟨l0, h1, h2⟩
                · exact hl latch h
                · rw [h2]
                  exact hl l0 h1
  | init node init =>
    simp only [register, boolector_mc_init] at hreg
    split at hreg
    · cases hreg
    · split at hreg
      · cases hreg
      · rename_i hown
        split at hreg
        · cases hreg
        · rename_i hown2
          split at hreg
          · cases hreg
          · split at hreg
            · cases hreg
            · split at hreg
              · cases hreg
              · split at hreg
                · cases hreg
                · simp only [Option.some.injEq] at hreg
                  subst hreg
                  refine ⟨hi, ?_⟩
                  intro latch hin
                  rcases update_mc_latch_mem _ _ _ _ hin with h | ⟨l0, h1, h2⟩
                  · exact hl latch h
                  · rw [h2]
                    refine ⟨(hl l0 h1).1, ?_⟩
                    intro init' hinit
                    simp only [Option.some.injEq] at hinit
                    rw [← hinit]
                    simpa [owns_node] using hown2
  | bad bad =>
    simp only [register, boolector_bad, Option.map_eq_some'] at hreg
    obtain ⟨r, hr, hmc⟩ := hreg
    split at hr
    · cases hr
    · split at hr
      · cases hr
      · split at hr
        · cases hr
        · simp only [Option.some.injEq] at hr
          subst hr
          subst hmc
          exact ⟨hi, hl⟩
  | constraint constraint =>
    simp only [register, boolector_constraint, Option.map_eq_some'] at hreg
    obtain ⟨r, hr, hmc⟩ := hreg
    split at hr
    · cases hr
    · split at hr
      · cases hr
      · split at hr
        · cases hr
        · simp only [Option.some.injEq] at hr
          subst hr
          subst hmc
          exact ⟨hi, hl⟩

theorem forward_inv_author (mc mc' : BtorMC) (call : BtorMCCall)
    (nodes : List BtorNode) (assertions : List BoolectorNode)
    (h : forward_inv mc nodes assertions []) (hreg : register mc call = some mc') :
    forward_inv mc' nodes assertions [] := by
  obtain ⟨g1, g2⟩ := register_model_valid mc mc' call hreg h.inputs_valid h.latches_valid
  refine ⟨g1, g2, ?_, ?_, ?_, ?_, ?_⟩
  · intro f hf; simp at hf
  · intro t f hf; simp at hf
  · intro f i latch init hf; simp at hf
  · intro t f i latch hf; simp at hf
  · have := h.asserted
    simp only [List.length_nil, ite_self] at this ⊢
    exact this

theorem model_node_stable (b : Btor) (n : BtorNode) (x : BoolectorNode)
    (hx : x < b.nodes.length) :
    boolector_get_width { b with nodes := b.nodes ++ [n] } x = boolector_get_width b x
    ∧ boolector_get_symbol { b with nodes := b.nodes ++ [n] } x = boolector_get_symbol b x
    ∧ boolector_get_bits { b with nodes := b.nodes ++ [n] } x = boolector_get_bits b x := by
  have : (b.nodes ++ [n]).get? x = b.nodes.get? x := by
    rw [List.get?_eq_getElem?, List.getElem?_append_left hx, ← List.get?_eq_getElem?]
  simp only [boolector_get_width, boolector_get_symbol, boolector_get_bits, this]
  exact ⟨trivial, trivial, trivial⟩

/-- The invariant of the forward circuit is kept when the user adds a node to the model
circuit. -/
theorem forward_inv_node (mc : BtorMC) (n : BtorNode) (nodes : List BtorNode)
    (assertions : List BoolectorNode) (F : List BtorMCFrame)
    (h : forward_inv mc nodes assertions F) :
    forward_inv { mc with btor := { mc.btor with nodes := mc.btor.nodes ++ [n] } } nodes
      assertions F := by
  have hw : ∀ x, x < mc.btor.nodes.length →
      boolector_get_width { mc.btor with nodes := mc.btor.nodes ++ [n] } x
        = boolector_get_width mc.btor x := fun x hx => (model_node_stable mc.btor n x hx).1
  have hs : ∀ x t, x < mc.btor.nodes.length →
      timed_symbol { mc with btor := { mc.btor with nodes := mc.btor.nodes ++ [n] } } x t
        = timed_symbol mc x t := by
    intro x t hx
    simp only [timed_symbol, (model_node_stable mc.btor n x hx).2.1]
  have hb : ∀ x, x < mc.btor.nodes.length →
      boolector_get_bits { mc.btor with nodes := mc.btor.nodes ++ [n] } x
        = boolector_get_bits mc.btor x := fun x hx => (model_node_stable mc.btor n x hx).2.2
  refine ⟨?_, ?_, h.valid, ?_, ?_, ?_, h.asserted⟩
  · intro input hin
    have := h.inputs_valid input hin
    simp only [List.length_append, List.length_singleton]
    exact Nat.lt_succ_of_lt this
  · intro latch hin
    obtain ⟨g1, g2⟩ := h.latches_valid latch hin
    simp only [List.length_append, List.length_singleton]
    exact ⟨Nat.lt_succ_of_lt g1, fun init hinit => Nat.lt_succ_of_lt (g2 init hinit)⟩
  · intro t f hf
    obtain ⟨base, h1, h2, h3⟩ := h.inputs t f hf
    refine ⟨base, h1, h2, ?_⟩
    intro i input hi
    have hv := h.inputs_valid input (List.get?_mem hi)
    rw [hw _ hv, hs _ _ hv]
    exact h3 i input hi
  · intro f i latch init hf hl hinit
    obtain ⟨m, h1, h2⟩ := h.latch_const f i latch init hf hl hinit
    have hv := (h.latches_valid latch (List.get?_mem hl)).2 init hinit
    refine ⟨m, h1, ?_⟩
    rw [hb _ hv]
    exact h2
  · intro t f i latch hf hl hnc hnl
    obtain ⟨m, h1, h2, h3⟩ := h.latch_free t f i latch hf hl hnc hnl
    have hv := (h.latches_valid latch (List.get?_mem hl)).1
    refine ⟨m, h1, ?_, h3⟩
    rw [hw _ hv, hs _ _ hv]
    exact h2

/-- The invariant of the forward circuit holds in every reachable engine, for a
substitution that satisfies `substitute_ok`. -/
theorem forward_inv_reachable (c : Collab) (hsub : substitute_ok c) (steps : List BtorMCStep)
    (mc : BtorMC) (hrun : api_run c steps (boolector_mc_new c) = some mc) :
    forward_inv mc (forward_nodes mc) (forward_assertions mc) (mc.frames.map frame_tables) := by
  refine api_invariant c
    (fun m => forward_inv m (forward_nodes m) (forward_assertions m) (m.frames.map frame_tables))
    (forward_inv_new c) ?_ ?_ ?_ ?_ ?_ (forward_inv_build c hsub) ?_ steps mc hrun
  · intro m options state call_backs forward2const verb h
    exact forward_inv_congr m _ _ _ _ h rfl rfl rfl rfl
  · intro m e _ h
    exact forward_inv_congr m _ _ _ _ h rfl rfl rfl rfl
  · intro m fs' hsame h
    have := frame_tables_same m.frames fs' hsame
    show forward_inv { m with frames := fs' } (forward_nodes m) (forward_assertions m)
      (fs'.map frame_tables)
    rw [this]
    exact forward_inv_congr m _ _ _ _ h rfl rfl rfl rfl
  · intro m m' call h hfr hreg
    obtain ⟨hfr', -, -, hfw, -⟩ := register_engine m m' call hreg
    have e1 : forward_nodes m' = forward_nodes m := by simp only [forward_nodes, hfw]
    have e2 : forward_assertions m' = forward_assertions m := by
      simp only [forward_assertions, hfw]
    rw [e1, e2, hfr', hfr]
    rw [hfr] at h
    exact forward_inv_author m m' call _ _ h hreg
  · intro m n h
    exact forward_inv_node m n _ _ _ h
  · intro m h
    have hb := forward_inv_build c hsub m h
    rw [check_last_forward_frame_eq]
    exact forward_inv_congr (initialize_new_forward_frame c m) _ _ _ _ hb rfl rfl rfl rfl

/-! ## The latches, the inputs and the constraints in the forward circuit -/

theorem frame_nodes_tables (f : BtorMCFrame) : frame_nodes (frame_tables f) = frame_nodes f :=
  rfl

theorem timed_symbol_eq (mc : BtorMC) (node : BoolectorNode) (t : Nat) :
    timed_symbol mc node (t : Int)
      = (boolector_get_symbol mc.btor node).map (fun symbol => symbol ++ "@" ++ Nat.repr t) := by
  unfold timed_symbol
  cases boolector_get_symbol mc.btor node <;> rfl

/-- C14: in every reachable engine, for a substitution that only adds nodes to the forward
circuit, and for every latch `i` whose `init` is set, whether or not its `next` is set,
the entry `i` of the latch table of frame 0 is a constant node of the forward circuit
whose bit string is the bit string of the `init` node of the latch. -/
theorem initial_latch_is_init_constant (c : Collab) (hsub : substitute_ok c)
    (steps : List BtorMCStep) (mc : BtorMC) (f : BtorMCFrame) (i : Nat) (latch : BtorMCLatch)
    (init : BoolectorNode)
    (hrun : api_run c steps (boolector_mc_new c) = some mc)
    (hf : mc.frames.get? 0 = some f) (hl : mc.latches.get? i = some latch)
    (hinit : latch.init = some init) :
    ∃ n node, f.latches.get? i = some (some n) ∧ (forward_nodes mc).get? n = some node
      ∧ node.kind = BtorNodeKind.bv_const
      ∧ node.bits = some (boolector_get_bits mc.btor init) := by
  have hinv := forward_inv_reachable c hsub steps mc hrun
  obtain ⟨n, h1, h2⟩ := hinv.latch_const (frame_tables f) i latch init
    (tables_get? mc.frames 0 f hf) hl hinit
  exact ⟨n, _, h1, h2, rfl, rfl⟩

/-- Frame 0 of `ex_checked` and its latch `s`, whose `init` is the constant `0`. -/
theorem initial_latch_is_init_constant_witness :
    api_run ex_verdicts ex_steps (boolector_mc_new ex_verdicts) = some ex_checked
    ∧ ex_checked.frames.get? 0 = some (ex_frame 0)
    ∧ ex_checked.latches.get? 0 = some { id := 0, node := 1, next := some 0, init := some 3 }
    ∧ boolector_get_bits ex_checked.btor 3 = "0"
    ∧ ∃ n node, (ex_frame 0).latches.get? 0 = some (some n)
        ∧ (forward_nodes ex_checked).get? n = some node
        ∧ node.kind = BtorNodeKind.bv_const
        ∧ node.bits = some (boolector_get_bits ex_checked.btor 3) :=
  ⟨by decide, by decide, by decide, by decide,
    initial_latch_is_init_constant ex_verdicts (ex_substitute_ok _) ex_steps ex_checked
      (ex_frame 0) 0 { id := 0, node := 1, next := some 0, init := some 3 } 3
      (by decide) (by decide) (by decide) rfl⟩

/-- C16: in every reachable engine, for a substitution that only adds nodes to the forward
circuit, the input table of every frame `t` holds consecutive nodes of the forward circuit,
one per registered input in the order of registration, that come after every entry of the
frames before `t`; the node of an input is a variable of the width of the input, without
symbol when the input has none and otherwise with the symbol of the input followed by
`@` and the decimal digits of `t`. -/
theorem frame_inputs_are_new_variables (c : Collab) (hsub : substitute_ok c)
    (steps : List BtorMCStep) (mc : BtorMC) (t : Nat) (f : BtorMCFrame)
    (hrun : api_run c steps (boolector_mc_new c) = some mc)
    (hf : mc.frames.get? t = some f) :
    ∃ base, f.inputs = (List.range' base mc.inputs.length).map some
      ∧ ∀ (i : Nat) (input : BtorMCInput), mc.inputs.get? i = some input →
          newly_created_variable mc t (base + i)
          ∧ ∃ node, (forward_nodes mc).get? (base + i) = some node
              ∧ node.kind = BtorNodeKind.bv_var
              ∧ node.width = boolector_get_width mc.btor input.node
              ∧ node.symbol = (boolector_get_symbol mc.btor input.node).map
                  (fun symbol => symbol ++ "@" ++ Nat.repr t) := by
  have hinv := forward_inv_reachable c hsub steps mc hrun
  obtain ⟨base, h1, h2, h3⟩ := hinv.inputs t (frame_tables f) (tables_get? mc.frames t f hf)
  refine ⟨base, h1, ?_⟩
  intro i input hi
  have hnode := h3 i input hi
  refine ⟨⟨⟨_, hnode, rfl⟩, ?_⟩, _, hnode, rfl, rfl, ?_⟩
  · intro t' f' hlt hf' m hm
    have := h2 t' (frame_tables f') hlt (tables_get? mc.frames t' f' hf') m hm
    exact Nat.lt_of_lt_of_le this (Nat.le_add_right _ _)
  · show timed_symbol mc input.node (t : Int) = _
    exact timed_symbol_eq mc input.node t

/-- Frame 2 of `ex_checked`, whose input table holds the variable `x@2`. -/
theorem frame_inputs_are_new_variables_witness :
    api_run ex_verdicts ex_steps (boolector_mc_new ex_verdicts) = some ex_checked
    ∧ ex_checked.frames.get? 2 = some (ex_frame 2)
    ∧ ∃ base, (ex_frame 2).inputs = (List.range' base ex_checked.inputs.length).map some
      ∧ ∀ (i : Nat) (input : BtorMCInput), ex_checked.inputs.get? i = some input →
          newly_created_variable ex_checked 2 (base + i)
          ∧ ∃ node, (forward_nodes ex_checked).get? (base + i) = some node
              ∧ node.kind = BtorNodeKind.bv_var
              ∧ node.width = boolector_get_width ex_checked.btor input.node
              ∧ node.symbol = (boolector_get_symbol ex_checked.btor input.node).map
                  (fun symbol => symbol ++ "@" ++ Nat.repr 2) :=
  ⟨by decide, by decide,
    frame_inputs_are_new_variables ex_verdicts (ex_substitute_ok _) ex_steps ex_checked 2
      (ex_frame 2) (by decide) (by decide)⟩

/-- C15: in every reachable engine, for a substitution that only adds nodes to the forward
circuit, the entry of a latch `i` in the latch table of a frame `t` is never null, and it is
a newly created variable exactly when `t = 0` and `init` is absent, or `t > 0` and `next`
is absent; it is then a variable of the width of the latch.  So a latch with neither
`init` nor `next` is a new variable of its width in every frame, and its entries in two
different frames are different nodes. -/
theorem free_latch_is_new_variable (c : Collab) (hsub : substitute_ok c)
    (steps : List BtorMCStep) (mc : BtorMC) (i : Nat) (latch : BtorMCLatch)
    (hrun : api_run c steps (boolector_mc_new c) = some mc)
    (hl : mc.latches.get? i = some latch) :
    (∀ (t : Nat) (f : BtorMCFrame), mc.frames.get? t = some f →
      ∃ n, f.latches.get? i = some (some n)
        ∧ (newly_created_variable mc t n
            ↔ (t = 0 ∧ latch.init = none) ∨ (0 < t ∧ latch.next = none))
        ∧ ((t = 0 ∧ latch.init = none) ∨ (0 < t ∧ latch.next = none) →
            ∃ node, (forward_nodes mc).get? n = some node
              ∧ node.kind = BtorNodeKind.bv_var
              ∧ node.width = boolector_get_width mc.btor latch.node))
    ∧ (latch.init = none → latch.next = none →
        ∀ (t t' : Nat) (f f' : BtorMCFrame) (n n' : BoolectorNode), t ≠ t' →
          mc.frames.get? t = some f → mc.frames.get? t' = some f' →
          f.latches.get? i = some (some n) → f'.latches.get? i = some (some n') → n ≠ n') := by
  have hfw := forward_inv_reachable c hsub steps mc hrun
  have hen := engine_inv_reachable c steps mc hrun
  -- the entry of a latch whose case is the one of a new variable
  have free : ∀ (t : Nat) (f : BtorMCFrame), mc.frames.get? t = some f →
      (t = 0 ∧ latch.init = none) ∨ (0 < t ∧ latch.next = none) →
      ∃ n, f.latches.get? i = some (some n)
        ∧ (forward_nodes mc).get? n
          = some (var_node (boolector_get_width mc.btor latch.node)
              (timed_symbol mc latch.node (t : Int)))
        ∧ ∀ (t' : Nat) (f' : BtorMCFrame), t' < t → mc.frames.get? t' = some f' →
            ∀ m, some m ∈ frame_nodes f' → m < n := by
    intro t f hf hcond
    have hnc : ¬ (t = 0 ∧ latch.init.isSome = true) := by
      rintro ⟨h0, hs⟩
      rcases hcond with ⟨-, hi⟩ | ⟨hp, -⟩
      · rw [hi] at hs; cases hs
      · omega
    have hnl : ¬ (0 < t ∧ latch.next.isSome = true) := by
      rintro ⟨h0, hs⟩
      rcases hcond with ⟨hz, -⟩ | ⟨-, hn⟩
      · omega
      · rw [hn] at hs; cases hs
    obtain ⟨n, h1, h2, h3⟩ := hfw.latch_free t (frame_tables f) i latch
      (tables_get? mc.frames t f hf) hl hnc hnl
    refine ⟨n, h1, h2, ?_⟩
    intro t' f' hlt hf' m hm
    exact h3 t' (frame_tables f') hlt (tables_get? mc.frames t' f' hf') m hm
  constructor
  · intro t f hf
    by_cases hcond : (t = 0 ∧ latch.init = none) ∨ (0 < t ∧ latch.next = none)
    · obtain ⟨n, h1, h2, h3⟩ := free t f hf hcond
      exact ⟨n, h1, ⟨fun _ => hcond, fun _ => ⟨⟨_, h2, rfl⟩, h3⟩⟩, fun _ => ⟨_, h2, rfl, rfl⟩⟩
    · by_cases ht : t = 0
      · -- frame 0 and `init` is set: the entry is a constant
        obtain ⟨init, hi⟩ : ∃ init, latch.init = some init := by
          cases h : latch.init with
          | none => exact absurd (Or.inl ⟨ht, h⟩) hcond
          | some init => exact ⟨init, rfl⟩
        · subst ht
          obtain ⟨n, h1, h2⟩ := hfw.latch_const (frame_tables f) i latch init
            (tables_get? mc.frames 0 f hf) hl hi
          refine ⟨n, h1, ⟨?_, fun h => absurd h hcond⟩, fun h => absurd h hcond⟩
          rintro ⟨⟨node, hn, hk⟩, -⟩
          rw [h2] at hn
          simp only [Option.some.injEq] at hn
          rw [← hn] at hk
          cases hk
      · -- a later frame and `next` is set: the entry is an entry of the previous frame
        have hpos : 0 < t := Nat.pos_of_ne_zero ht
        obtain ⟨next, hx⟩ : ∃ next, latch.next = some next := by
          cases h : latch.next with
          | none => exact absurd (Or.inr ⟨hpos, h⟩) hcond
          | some next => exact ⟨next, rfl⟩
        · have hlt : t - 1 < mc.frames.length := by
            have := lt_of_get? _ _ _ hf
            omega
          obtain ⟨p, hp⟩ : ∃ p, mc.frames.get? (t - 1) = some p :=
            ⟨_, List.get?_eq_get hlt⟩
          have hf1 : mc.frames.get? (t - 1 + 1) = some f := by
            rw [Nat.sub_add_cancel hpos]; exact hf
          have hnx : latch.next.isSome = true := by rw [hx]; rfl
          have hlink : f.latches.get? i = some (peek_node p.next i) :=
            hen.link (t - 1) (frame_tables p) (frame_tables f) i latch
              (tables_get? mc.frames _ p hp) (tables_get? mc.frames _ f hf1) hl hnx
          have hset : (peek_node p.next i).isSome = latch.next.isSome :=
            hen.next_set (t - 1) (frame_tables p) i latch (tables_get? mc.frames _ p hp) hl
          rw [hnx] at hset
          obtain ⟨n, hn⟩ := Option.isSome_iff_exists.mp hset
          have hsz : p.next.length = mc.latches.length :=
            (hen.sizes (frame_tables p) (List.get?_mem (tables_get? mc.frames _ p hp))).2.2.1
          have hmem : some n ∈ frame_nodes p := by
            have := get?_of_lt p.next i (by rw [hsz]; exact lt_of_get? _ _ _ hl)
            rw [hn] at this
            show some n ∈ p.inputs ++ p.latches ++ p.next ++ p.bad
            simp only [List.mem_append]
            exact Or.inl (Or.inr (List.get?_mem this))
          refine ⟨n, by rw [hlink, hn], ⟨?_, fun h => absurd h hcond⟩, fun h => absurd h hcond⟩
          rintro ⟨-, hord⟩
          exact absurd (hord (t - 1) p (by omega) hp n hmem) (Nat.lt_irrefl n)
  · intro hi hx t t' f f' n n' hne hf hf' hn hn'
    have hcase : ∀ s : Nat, (s = 0 ∧ latch.init = none) ∨ (0 < s ∧ latch.next = none) := by
      intro s
      rcases Nat.eq_zero_or_pos s with h | h
      · exact Or.inl ⟨h, hi⟩
      · exact Or.inr ⟨h, hx⟩
    rcases Nat.lt_or_gt_of_ne hne with hlt | hlt
    · obtain ⟨m, h1, -, h3⟩ := free t' f' hf' (hcase t')
      rw [hn'] at h1
      simp only [Option.some.injEq] at h1
      have hmem : some n ∈ frame_nodes f := by
        show some n ∈ f.inputs ++ f.latches ++ f.next ++ f.bad
        simp only [List.mem_append]
        exact Or.inl (Or.inl (Or.inr (List.get?_mem hn)))
      have := h3 t f hlt hf n hmem
      rw [← h1] at this
      exact Nat.ne_of_lt this
    · obtain ⟨m, h1, -, h3⟩ := free t f hf (hcase t)
      rw [hn] at h1
      simp only [Option.some.injEq] at h1
      have hmem : some n' ∈ frame_nodes f' := by
        show some n' ∈ f'.inputs ++ f'.latches ++ f'.next ++ f'.bad
        simp only [List.mem_append]
        exact Or.inl (Or.inl (Or.inr (List.get?_mem hn')))
      have := h3 t' f' hlt hf' n' hmem
      rw [← h1] at this
      exact (Nat.ne_of_lt this).symm

/-- Frames 0 to 2 of `ex_checked` and its latch without `init` and `next`. -/
theorem free_latch_is_new_variable_witness :
    api_run ex_verdicts ex_steps (boolector_mc_new ex_verdicts) = some ex_checked
    ∧ ex_checked.latches.get? 1 = some { id := 1, node := 2, next := none, init := none }
    ∧ ex_checked.frames.length = 3
    ∧ (∀ (t : Nat) (f : BtorMCFrame), ex_checked.frames.get? t = some f →
        ∃ n, f.latches.get? 1 = some (some n)
          ∧ (newly_created_variable ex_checked t n
              ↔ (t = 0 ∧ (none : Option BoolectorNode) = none)
                ∨ (0 < t ∧ (none : Option BoolectorNode) = none))
          ∧ ((t = 0 ∧ (none : Option BoolectorNode) = none)
                ∨ (0 < t ∧ (none : Option BoolectorNode) = none) →
              ∃ node, (forward_nodes ex_checked).get? n = some node
                ∧ node.kind = BtorNodeKind.bv_var
                ∧ node.width = boolector_get_width ex_checked.btor 2))
    ∧ ((none : Option BoolectorNode) = none → (none : Option BoolectorNode) = none →
        ∀ (t t' : Nat) (f f' : BtorMCFrame) (n n' : BoolectorNode), t ≠ t' →
          ex_checked.frames.get? t = some f → ex_checked.frames.get? t' = some f' →
          f.latches.get? 1 = some (some n) → f'.latches.get? 1 = some (some n') → n ≠ n') :=
  ⟨by decide, by decide, by decide,
    free_latch_is_new_variable ex_verdicts (ex_substitute_ok _) ex_steps ex_checked 1
      { id := 1, node := 2, next := none, init := none } (by decide) (by decide)⟩

/-- What `initialize_new_forward_frame` asserts in the forward circuit, on every engine:
nothing when no constraint is registered, and otherwise one formula, the conjunction of
the images of the constraints in the order of registration. -/
theorem build_asserts (c : Collab) (hsub : substitute_ok c) (m : BtorMC) :
    ∃ fw', (initialize_new_forward_frame c m).forward = some fw'
      ∧ (m.constraints = [] → fw'.assertions = forward_assertions m)
      ∧ (m.constraints ≠ [] → ∃ a imgs,
          fw'.assertions = forward_assertions m ++ [a]
          ∧ List.Forall₂ (fun src d => ∃ fwj mapj, d = (c.substitute m.btor fwj mapj src).1)
              m.constraints imgs
          ∧ is_conjunction fw'.nodes imgs a) := by
  obtain ⟨r1, r2, map, r3, r4, r5, e1, e2, -, e3, e4, e5, heq⟩ := build_stages c m
  obtain ⟨-, hfa⟩ := forward_manager_nodes m
  obtain ⟨-, -, i3⟩ := initialize_inputs_loop_spec m (m.frames.length : Int) m.inputs []
    (forward_manager m)
  rw [← e1] at i3
  obtain ⟨-, -, -, l4, -⟩ := initialize_latches_loop_spec m (m.frames.length : Int)
    (if 0 < m.frames.length then m.frames.get? (m.frames.length - 1) else none)
    m.latches 0 [] r1.2
  rw [← e2] at l4
  obtain ⟨-, x2, -⟩ := initialize_next_loop_forward c hsub m m.latches [] r2.2 map
  rw [← e3] at x2
  obtain ⟨-, c2, c3, -⟩ := initialize_constraints_of_frame_forward c hsub m r3.2.1 r3.2.2
  rw [← e4] at c2 c3
  obtain ⟨⟨n5, b1⟩, b2, -⟩ := initialize_bad_loop_forward c hsub m m.bad 0 [] r4.1 r4.2
  rw [← e5] at b1 b2
  refine ⟨r5.2.1, by rw [heq], ?_, ?_⟩
  · intro hnil
    rw [b2, c2 hnil, x2, l4, i3, hfa]
  · intro hne
    obtain ⟨a, imgs, a1, a2, a3⟩ := c3 hne
    refine ⟨a, imgs, by rw [b2, a1, x2, l4, i3, hfa], a2, ?_⟩
    rw [b1]
    exact is_conjunction_rev_append _ _ _ _ a3

/-- A property kept by the steps of the loop of `boolector_mc_bmc` holds of every engine on
which the loop checks a bound. -/
theorem bmc_checked_inv (c : Collab) (mink maxk : Int) (Q : BtorMC → Prop)
    (hstart : ∀ m, Q m → Q (starting_bound_call_back m))
    (hbuild : ∀ m, Q m → Q (initialize_new_forward_frame c m))
    (hcheck : ∀ m, Q m → Q (check_last_forward_frame c (initialize_new_forward_frame c m)).2) :
    ∀ (fuel : Nat) (m : BtorMC), Q m → ∀ x, x ∈ bmc_checked c mink maxk fuel m →
      Q x ∧ x.frames ≠ [] := by
  intro fuel
  induction fuel with
  | zero => intro m _ x hx; simp [bmc_checked] at hx
  | succ fuel ih =>
    intro m hm x hx
    have hb := hbuild _ (hstart m hm)
    have hc := hcheck _ (hstart m hm)
    have hne : (initialize_new_forward_frame c (starting_bound_call_back m)).frames ≠ [] := by
      have := new_frame_length c m
      intro h
      rw [h] at this
      simp at this
    unfold bmc_checked at hx
    by_cases hk : (m.frames.length : Int) ≤ maxk
    · simp only [hk, if_true] at hx
      by_cases hmk : (m.frames.length : Int) < mink
      · simp only [hmk, if_true] at hx
        exact ih _ hb x hx
      · simp only [hmk, if_false] at hx
        rcases hres : check_last_forward_frame c
          (initialize_new_forward_frame c (starting_bound_call_back m)) with ⟨s, m2⟩
        rw [hres] at hx hc
        simp only at hx hc
        by_cases hs : s ≠ 0
        · rw [if_pos hs] at hx
          by_cases hstop : boolector_mc_get_opt m2 BtorMCOption.BTOR_MC_OPT_STOP_FIRST ≠ 0
              ∨ m2.num_reached = m2.bad.length ∨ (m.frames.length : Int) = maxk
          · rw [if_pos hstop] at hx
            simp only [List.mem_singleton] at hx
            rw [hx]
            exact ⟨hb, hne⟩
          · rw [if_neg hstop] at hx
            simp only [List.mem_cons] at hx
            rcases hx with h | h
            · rw [h]; exact ⟨hb, hne⟩
            · exact ih _ hc x h
        · rw [if_neg hs] at hx
          simp only [List.mem_cons] at hx
          rcases hx with h | h
          · rw [h]; exact ⟨hb, hne⟩
          · exact ih _ hc x h
    · simp only [hk, if_false] at hx
      simp at hx

/-- The list `bmc_checked` follows the loop of `boolector_mc_bmc` : when the loop returns a
bound, the engine it returns is the one left by the check of the last engine of the list. -/
theorem bmc_checked_returns (c : Collab) (mink maxk : Int) :
    ∀ (fuel : Nat) (m : BtorMC) (r : Int) (mc' : BtorMC),
      bmc_loop c mink maxk fuel m = some (r, mc') → 0 ≤ r →
      ∃ x, (bmc_checked c mink maxk fuel m).getLast? = some x
        ∧ (check_last_forward_frame c x).2 = mc'
        ∧ (x.frames.length : Int) = r + 1 := by
  intro fuel
  induction fuel with
  | zero => intro m r mc' h; simp [bmc_loop] at h
  | succ fuel ih =>
    intro m r mc' hrun hr
    have hlen := new_frame_length c m
    have cont : ∀ (x0 m2 : BtorMC), bmc_loop c mink maxk fuel m2 = some (r, mc') →
        ∃ x, (x0 :: bmc_checked c mink maxk fuel m2).getLast? = some x
          ∧ (check_last_forward_frame c x).2 = mc'
          ∧ (x.frames.length : Int) = r + 1 := by
      intro x0 m2 h2
      obtain ⟨x, h1, h3⟩ := ih m2 r mc' h2 hr
      refine ⟨x, ?_, h3⟩
      cases hl : bmc_checked c mink maxk fuel m2 with
      | nil => rw [hl] at h1; cases h1
      | cons y ys => rw [hl] at h1; rw [List.getLast?_cons_cons]; exact h1
    unfold bmc_loop at hrun
    unfold bmc_checked
    by_cases hk : (m.frames.length : Int) ≤ maxk
    · simp only [hk, if_true] at hrun ⊢
      by_cases hmk : (m.frames.length : Int) < mink
      · simp only [hmk, if_true] at hrun ⊢
        exact ih _ r mc' hrun hr
      · simp only [hmk, if_false] at hrun ⊢
        rcases hres : check_last_forward_frame c
          (initialize_new_forward_frame c (starting_bound_call_back m)) with ⟨s, m2⟩
        rw [hres] at hrun
        simp only at hrun ⊢
        by_cases hs : s ≠ 0
        · rw [if_pos hs] at hrun
          rw [if_pos hs]
          by_cases hstop : boolector_mc_get_opt m2 BtorMCOption.BTOR_MC_OPT_STOP_FIRST ≠ 0
              ∨ m2.num_reached = m2.bad.length ∨ (m.frames.length : Int) = maxk
          · rw [if_pos hstop] at hrun
            rw [if_pos hstop]
            simp only [Option.some.injEq, Prod.mk.injEq] at hrun
            refine ⟨initialize_new_forward_frame c (starting_bound_call_back m), rfl,
              by rw [hres]; exact hrun.2, ?_⟩
            rw [hlen, ← hrun.1]
            push_cast
            ring
          · rw [if_neg hstop] at hrun
            rw [if_neg hstop]
            exact cont _ m2 hrun
        · rw [if_neg hs] at hrun
          rw [if_neg hs]
          exact cont _ m2 hrun
    · simp only [hk, if_false, Option.some.injEq, Prod.mk.injEq] at hrun
      omega

theorem constraint_images_length (c : Collab) (mc : BtorMC) :
    ∀ (l : List BoolectorNode) (acc : Option BoolectorNode) (fw : Btor) (map : BoolectorNodeMap),
      (constraint_images c mc l acc fw map).length = l.length := by
  intro l
  induction l with
  | nil => intro acc fw map; rfl
  | cons src rest ih =>
    intro acc fw map
    unfold constraint_images
    cases acc with
    | none => simp only [List.length_cons, ih]
    | some a0 => simp only [List.length_cons, ih]

/-- The loop of `initialize_constraints_of_frame` returns the conjunction of the images
`constraint_images` of the constraints. -/
theorem initialize_constraints_loop_images (c : Collab) (hsub : substitute_ok c) (mc : BtorMC) :
    ∀ (l : List BoolectorNode) (acc : Option BoolectorNode) (fw : Btor) (map : BoolectorNodeMap)
      (rds : List BoolectorNode),
      (acc = none → rds = []) →
      (∀ a0, acc = some a0 → is_conjunction_rev fw.nodes rds a0) →
      ∀ a, (initialize_constraints_loop c mc l acc fw map).1 = some a →
        is_conjunction_rev (initialize_constraints_loop c mc l acc fw map).2.1.nodes
          ((constraint_images c mc l acc fw map).reverse ++ rds) a := by
  intro l
  induction l with
  | nil =>
    intro acc fw map rds _ hsome a ha
    simpa [constraint_images] using hsome a ha
  | cons src rest ih =>
    intro acc fw map rds hnone hsome a
    obtain ⟨⟨new1, g1⟩, -, -⟩ := hsub mc.btor fw map src
    rcases hs : c.substitute mc.btor fw map src with ⟨dst, fw1, map1⟩
    rw [hs] at g1
    simp only at g1
    unfold initialize_constraints_loop constraint_images
    simp only [hs]
    cases hacc : acc with
    | none =>
      simp only []
      intro ha
      have hrds : rds = [] := hnone hacc
      have := ih (some dst) fw1 map1 [dst] (by intro h; cases h)
        (by intro a0 h; cases h; rfl) a ha
      rw [hrds]
      simpa using this
    | some a0 =>
      simp only [boolector_and]
      intro ha
      have hc0 := hsome a0 hacc
      have hconj : is_conjunction_rev (fw1.nodes ++ [and_node a0 dst]) (dst :: rds)
          fw1.nodes.length := by
        obtain ⟨d', rest', hrd⟩ :=
          List.exists_cons_of_ne_nil (is_conjunction_rev_ne_nil _ _ _ hc0)
        rw [hrd]
        refine ⟨a0, by simp, ?_⟩
        rw [← hrd, g1, List.append_assoc]
        exact is_conjunction_rev_append _ _ _ _ hc0
      have := ih (some fw1.nodes.length)
        { fw1 with nodes := fw1.nodes ++ [and_node a0 dst] } map1 (dst :: rds)
        (by intro h; cases h) (by intro a1 h; cases h; exact hconj) a ha
      simpa using this

/-- The formula that `initialize_constraints_of_frame` asserts is the conjunction of the
images `constraint_images` of the constraints. -/
theorem initialize_constraints_of_frame_images (c : Collab) (hsub : substitute_ok c)
    (mc : BtorMC) (fw : Btor) (map : BoolectorNodeMap) (hne : mc.constraints ≠ []) :
    ∃ a, (initialize_constraints_of_frame c mc fw map).1.assertions = fw.assertions ++ [a]
      ∧ is_conjunction (initialize_constraints_of_frame c mc fw map).1.nodes
          (constraint_images c mc mc.constraints none fw map) a := by
  obtain ⟨-, h2, ⟨imgs, -, h4, -⟩, -⟩ :=
    initialize_constraints_loop_forward c hsub mc mc.constraints none fw map []
      (fun _ => rfl) (by intro a0 h; cases h)
  have himg := initialize_constraints_loop_images c hsub mc mc.constraints none fw map []
    (fun _ => rfl) (by intro a0 h; cases h)
  unfold initialize_constraints_of_frame
  rcases hr : initialize_constraints_loop c mc mc.constraints none fw map with ⟨res, fw1, map1⟩
  rw [hr] at h2 h4 himg
  simp only at h2 h4 himg
  cases res with
  | none => exact absurd (h4 rfl).1 hne
  | some a =>
    simp only [boolector_assert]
    refine ⟨a, by rw [h2], ?_⟩
    have := himg a rfl
    simpa [is_conjunction] using this

theorem constraints_entry_eq (c : Collab) (mc : BtorMC) :
    constraints_entry c mc
      = (initialize_next_loop c mc mc.latches []
          (initialize_latches_loop mc (mc.frames.length : Int)
            (if 0 < mc.frames.length then mc.frames.get? (mc.frames.length - 1) else none)
            mc.latches 0 []
            (initialize_inputs_loop mc (mc.frames.length : Int) mc.inputs []
              (forward_manager mc)).2).2
          (map_nodes_loop
            (initialize_latches_loop mc (mc.frames.length : Int)
              (if 0 < mc.frames.length then mc.frames.get? (mc.frames.length - 1) else none)
              mc.latches 0 []
              (initialize_inputs_loop mc (mc.frames.length : Int) mc.inputs []
                (forward_manager mc)).2).1
            (mc.latches.map (fun latch => latch.node)) 0
            (map_nodes_loop
              (initialize_inputs_loop mc (mc.frames.length : Int) mc.inputs []
                (forward_manager mc)).1
              (mc.inputs.map (fun input => input.node)) 0 []))).2 := by
  have hp : (if (mc.frames.length : Int) > 0
      then mc.frames.get? ((mc.frames.length : Int) - 1).toNat else none)
      = (if 0 < mc.frames.length then mc.frames.get? (mc.frames.length - 1) else none) := by
    by_cases h : 0 < mc.frames.length
    · rw [if_pos (by omega), if_pos h]
      congr 1
      omega
    · rw [if_neg (by omega), if_neg h]
  rw [← hp]
  rfl

/-- What `initialize_new_forward_frame` asserts in the forward circuit, on every engine:
nothing when no constraint is registered, and otherwise one formula, the conjunction of
the images of the constraints in the new frame, in the order of registration. -/
theorem build_asserts_images (c : Collab) (hsub : substitute_ok c) (m : BtorMC) :
    ∃ f fw' fw2, initialize_new_forward_frame c m
        = { m with forward := some fw', frames := m.frames ++ [f] }
      ∧ f.time = (m.frames.length : Int)
      ∧ constraints_entry c m
          = (initialize_next_loop c m m.latches [] fw2
              (map_inputs_and_latches_of_frame m f)).2
      ∧ (frame_constraint_images c m).length = m.constraints.length
      ∧ (m.constraints = [] → fw'.assertions = forward_assertions m)
      ∧ (m.constraints ≠ [] → ∃ a,
          fw'.assertions = forward_assertions m ++ [a]
          ∧ is_conjunction fw'.nodes (frame_constraint_images c m) a) := by
  obtain ⟨r1, r2, map, r3, r4, r5, e1, e2, emap, e3, e4, e5, heq⟩ := build_stages c m
  obtain ⟨-, hfa⟩ := forward_manager_nodes m
  obtain ⟨-, -, i3⟩ := initialize_inputs_loop_spec m (m.frames.length : Int) m.inputs []
    (forward_manager m)
  rw [← e1] at i3
  obtain ⟨-, -, -, l4, -⟩ := initialize_latches_loop_spec m (m.frames.length : Int)
    (if 0 < m.frames.length then m.frames.get? (m.frames.length - 1) else none)
    m.latches 0 [] r1.2
  rw [← e2] at l4
  obtain ⟨-, x2, -⟩ := initialize_next_loop_forward c hsub m m.latches [] r2.2 map
  rw [← e3] at x2
  obtain ⟨-, c2, -, -⟩ := initialize_constraints_of_frame_forward c hsub m r3.2.1 r3.2.2
  rw [← e4] at c2
  obtain ⟨⟨n5, b1⟩, b2, -⟩ := initialize_bad_loop_forward c hsub m m.bad 0 [] r4.1 r4.2
  rw [← e5] at b1 b2
  have hentry : constraints_entry c m = r3.2 := by
    rw [constraints_entry_eq, e3, emap, e2, e1]
  refine ⟨_, r5.2.1, r2.2, heq, rfl, ?_, constraint_images_length c m _ _ _ _, ?_, ?_⟩
  · rw [hentry, e3, emap]
    rfl
  · intro hnil
    rw [b2, c2 hnil, x2, l4, i3, hfa]
  · intro hne
    obtain ⟨a, a1, a3⟩ := initialize_constraints_of_frame_images c hsub m r3.2.1 r3.2.2 hne
    rw [← e4] at a1 a3
    refine ⟨a, by rw [b2, a1, x2, l4, i3, hfa], ?_⟩
    unfold frame_constraint_images
    rw [hentry, b1]
    exact is_conjunction_rev_append _ _ _ _ a3

/-- C20: for a substitution that only adds nodes to the forward circuit and asserts
nothing, (1) building a frame on any engine asserts in the forward circuit nothing when no
constraint is registered and otherwise exactly one formula, the conjunction, in the order
of registration, of the images of the registered constraints in the new frame: the nodes
that the substitution returns for the constraints, one after the other, with the node map
of the new frame, which maps the inputs and the latches of the model to the entries of the
frame and has been extended by the substitution of the next-state functions; (2) in every
reachable engine the number of asserted formulas is the number of frames, checked or not,
when a constraint is registered, and zero otherwise; (3) and on every engine on which a
call of `boolector_mc_bmc` made from a reachable engine checks a bound `k`, which is the
last of its `k + 1` frames, exactly `k + 1` formulas are asserted, or none without
constraints. -/
theorem constraints_asserted_once_per_frame (c : Collab) (hsub : substitute_ok c)
    (steps : List BtorMCStep) (mc : BtorMC)
    (hrun : api_run c steps (boolector_mc_new c) = some mc) :
    (∀ m : BtorMC, ∃ f fw' fw2,
      initialize_new_forward_frame c m
        = { m with forward := some fw', frames := m.frames ++ [f] }
      ∧ f.time = (m.frames.length : Int)
      ∧ constraints_entry c m
          = (initialize_next_loop c m m.latches [] fw2
              (map_inputs_and_latches_of_frame m f)).2
      ∧ (frame_constraint_images c m).length = m.constraints.length
      ∧ (m.constraints = [] → fw'.assertions = forward_assertions m)
      ∧ (m.constraints ≠ [] → ∃ a,
          fw'.assertions = forward_assertions m ++ [a]
          ∧ is_conjunction fw'.nodes (frame_constraint_images c m) a))
    ∧ (forward_assertions mc).length = (if mc.constraints = [] then 0 else mc.frames.length)
    ∧ ∀ (mink maxk : Int) (x : BtorMC), x ∈ boolector_mc_bmc_checked c mc mink maxk →
        ∃ k : Nat, x.frames.length = k + 1
          ∧ (forward_assertions x).length = (if x.constraints = [] then 0 else k + 1) := by
  have hinv := forward_inv_reachable c hsub steps mc hrun
  refine ⟨build_asserts_images c hsub, by simpa using hinv.asserted, ?_⟩
  intro mink maxk x hx
  have hentry : forward_inv
      { mc_release_assignment mc with state := BtorMCState.BTOR_NO_MC_STATE }
      (forward_nodes { mc_release_assignment mc with state := BtorMCState.BTOR_NO_MC_STATE })
      (forward_assertions
        { mc_release_assignment mc with state := BtorMCState.BTOR_NO_MC_STATE })
      (({ mc_release_assignment mc with state := BtorMCState.BTOR_NO_MC_STATE } : BtorMC).frames.map
        frame_tables) := by
    have e : (mc.frames.map (fun f => { f with model2const := none })).map frame_tables
        = mc.frames.map frame_tables :=
      frame_tables_same mc.frames _ (same_frame_map _ _ (fun _ => by unfold same_frame; rfl))
    show forward_inv _ (forward_nodes mc) (forward_assertions mc)
      ((mc.frames.map (fun f => { f with model2const := none })).map frame_tables)
    rw [e]
    exact forward_inv_congr mc _ _ _ _ hinv rfl rfl rfl rfl
  have hstart : ∀ m : BtorMC,
      forward_inv m (forward_nodes m) (forward_assertions m) (m.frames.map frame_tables) →
      forward_inv (starting_bound_call_back m) (forward_nodes (starting_bound_call_back m))
        (forward_assertions (starting_bound_call_back m))
        ((starting_bound_call_back m).frames.map frame_tables) := by
    intro m h
    rw [starting_bound_call_back_eq]
    exact forward_inv_congr m _ _ _ _ h rfl rfl rfl rfl
  have hcheck : ∀ m : BtorMC,
      forward_inv m (forward_nodes m) (forward_assertions m) (m.frames.map frame_tables) →
      forward_inv (check_last_forward_frame c (initialize_new_forward_frame c m)).2
        (forward_nodes (check_last_forward_frame c (initialize_new_forward_frame c m)).2)
        (forward_assertions (check_last_forward_frame c (initialize_new_forward_frame c m)).2)
        ((check_last_forward_frame c (initialize_new_forward_frame c m)).2.frames.map
          frame_tables) := by
    intro m h
    have hb := forward_inv_build c hsub m h
    rw [check_last_forward_frame_eq]
    exact forward_inv_congr (initialize_new_forward_frame c m) _ _ _ _ hb rfl rfl rfl rfl
  obtain ⟨hq, hne⟩ := bmc_checked_inv c mink maxk
    (fun m => forward_inv m (forward_nodes m) (forward_assertions m) (m.frames.map frame_tables))
    hstart (forward_inv_build c hsub) hcheck _ _ hentry x hx
  obtain ⟨k, hk⟩ := Nat.exists_eq_succ_of_ne_zero (fun h => hne (List.length_eq_zero.mp h))
  refine ⟨k, hk, ?_⟩
  have := hq.asserted
  simpa [hk] using this

/-- The engine `ex_ready`, on which `bmc (0, 2)` reaches property 0 at bound 1 and property 1
at bound 2: the call back is called with `(0, 1)` and then with `(1, 2)`. -/
theorem reached_at_bound_fired_once_in_order_witness :
    ex_ready.call_backs.reached_at_bound = true
    ∧ reached_at_bound_calls ex_checked.trace = [(0, 1), (1, 2)]
    ∧ ∃ r mc' evs, boolector_mc_bmc ex_verdicts ex_ready 0 2 = some (r, mc')
      ∧ mc'.trace = ex_ready.trace ++ evs
      ∧ (∀ (i : Nat) (k : Int), (i, k) ∈ reached_at_bound_calls evs
          ↔ peek_reached ex_ready i < 0 ∧ 0 ≤ peek_reached mc' i ∧ peek_reached mc' i = k)
      ∧ (reached_at_bound_calls evs).Nodup
      ∧ (reached_at_bound_calls evs).Pairwise
          (fun a b => a.2 < b.2 ∨ (a.2 = b.2 ∧ a.1 < b.1)) :=
  ⟨by decide, by decide,
    reached_at_bound_fired_once_in_order ex_verdicts ex_ready 0 2 (by decide)⟩

/-- The engine `ex_checked` has two constraints and three frames, and three formulas are
asserted in its forward circuit; a call `bmc (0, 4)` on it checks the bounds 3 and 4. -/
theorem constraints_asserted_once_per_frame_witness :
    substitute_ok ex_verdicts
    ∧ api_run ex_verdicts ex_steps (boolector_mc_new ex_verdicts) = some ex_checked
    ∧ (forward_assertions ex_checked).length = 3
    ∧ (boolector_mc_bmc_checked ex_verdicts ex_checked 0 4).map (fun x => x.frames.length)
        = [4, 5]
    ∧ (∀ m : BtorMC, ∃ f fw' fw2,
      initialize_new_forward_frame ex_verdicts m
        = { m with forward := some fw', frames := m.frames ++ [f] }
      ∧ f.time = (m.frames.length : Int)
      ∧ constraints_entry ex_verdicts m
          = (initialize_next_loop ex_verdicts m m.latches [] fw2
              (map_inputs_and_latches_of_frame m f)).2
      ∧ (frame_constraint_images ex_verdicts m).length = m.constraints.length
      ∧ (m.constraints = [] → fw'.assertions = forward_assertions m)
      ∧ (m.constraints ≠ [] → ∃ a,
          fw'.assertions = forward_assertions m ++ [a]
          ∧ is_conjunction fw'.nodes (frame_constraint_images ex_verdicts m) a))
    ∧ (forward_assertions ex_checked).length
        = (if ex_checked.constraints = [] then 0 else ex_checked.frames.length)
    ∧ ∀ (mink maxk : Int) (x : BtorMC),
        x ∈ boolector_mc_bmc_checked ex_verdicts ex_checked mink maxk →
        ∃ k : Nat, x.frames.length = k + 1
          ∧ (forward_assertions x).length = (if x.constraints = [] then 0 else k + 1) :=
  ⟨ex_substitute_ok _, by decide, by decide, by decide,
    constraints_asserted_once_per_frame ex_verdicts (ex_substitute_ok _) ex_steps ex_checked
      (by decide)⟩

/-! ## The state of the engine, the registration calls and the options -/

theorem api_run_append (c : Collab) (a b : List BtorMCStep) :
    ∀ m : BtorMC, api_run c (a ++ b) m = (api_run c a m).bind (api_run c b) := by
  induction a with
  | nil => intro m; rfl
  | cons step rest ih =>
    intro m
    simp only [List.cons_append, api_run]
    cases api_step c m step with
    | none => rfl
    | some m1 => exact ih m1

/-- A property that every call keeps holds after a sequence of calls. -/
theorem api_run_rule (c : Collab) (Q : BtorMC → Prop)
    (hstep : ∀ (m m' : BtorMC) (step : BtorMCStep), Q m → api_step c m step = some m' → Q m') :
    ∀ (steps : List BtorMCStep) (m mc : BtorMC), Q m → api_run c steps m = some mc → Q mc := by
  intro steps
  induction steps with
  | nil =>
    intro m mc hQ h
    simp only [api_run, Option.some.injEq] at h
    subst h
    exact hQ
  | cons step rest ih =>
    intro m mc hQ h
    simp only [api_run] at h
    cases hs : api_step c m step with
    | none => rw [hs] at h; cases h
    | some m1 =>
      rw [hs] at h
      exact ih m1 mc (hstep m m1 step hQ hs) h

theorem register_options (mc mc' : BtorMC) (call : BtorMCCall)
    (hreg : register mc call = some mc') : mc'.options = mc.options := by
  cases call with
  | node n =>
    simp only [register, Option.some.injEq] at hreg
    subst hreg
    rfl
  | input width name =>
    simp only [register, boolector_input, Option.map_eq_some'] at hreg
    obtain ⟨r, hr, hmc⟩ := hreg
    split at hr
    · cases hr
    · split at hr
      · cases hr
      · simp only [Option.some.injEq] at hr
        subst hr
        subst hmc
        rfl
  | latch width name =>
    simp only [register, boolector_latch, Option.map_eq_some'] at hreg
    obtain ⟨r, hr, hmc⟩ := hreg
    split at hr
    · cases hr
    · split at hr
      · cases hr
      · simp only [Option.some.injEq] at hr
        subst hr
        subst hmc
        rfl
  | next node next =>
    simp only [register, boolector_next] at hreg
    split at hreg
    · cases hreg
    · split at hreg
      · cases hreg
      · split at hreg
        · cases hreg
        · split at hreg
          · cases hreg
          · split at hreg
            · cases hreg
            · split at hreg
              · cases hreg
              · simp only [Option.some.injEq] at hreg
                subst hreg
                rfl
  | init node init =>
    simp only [register, boolector_mc_init] at hreg
    split at hreg
    · cases hreg
    · split at hreg
      · cases hreg
      · split at hreg
        · cases hreg
        · split at hreg
          · cases hreg
          · split at hreg
            · cases hreg
            · split at hreg
              · cases hreg
              · split at hreg
                · cases hreg
                · simp only [Option.some.injEq] at hreg
                  subst hreg
                  rfl
  | bad bad =>
    simp only [register, boolector_bad, Option.map_eq_some'] at hreg
    obtain ⟨r, hr, hmc⟩ := hreg
    split at hr
    · cases hr
    · split at hr
      · cases hr
      · split at hr
        · cases hr
        · simp only [Option.some.injEq] at hr
          subst hr
          subst hmc
          rfl
  | constraint constraint =>
    simp only [register, boolector_constraint, Option.map_eq_some'] at hreg
    obtain ⟨r, hr, hmc⟩ := hreg
    split at hr
    · cases hr
    · split at hr
      · cases hr
      · split at hr
        · cases hr
        · simp only [Option.some.injEq] at hr
          subst hr
          subst hmc
          rfl

theorem set_opt_range (mc mc' : BtorMC) (opt : BtorMCOption) (val : Nat)
    (h : boolector_mc_set_opt mc opt val = some mc') (hr : trace_gen_range mc) :
    trace_gen_range mc' := by
  unfold boolector_mc_set_opt at h
  split at h
  · cases h
  · split at h
    · cases h
    · cases opt <;> simp only [Option.some.injEq] at h <;> subst h <;> exact hr

/-- The option record that `init_opt` leaves does not depend on the environment: the value
is `val` in both branches. -/
theorem init_opt_eq (c : Collab) (isflag : Bool) (lng : String) (shrt : Option String)
    (val min max : Nat) (desc : String) :
    init_opt c isflag lng shrt val min max desc
      = { isflag := isflag, lng := lng, shrt := shrt, val := val, dflt := val, min := min,
          max := max, desc := desc } := by
  unfold init_opt
  cases c.getenv_value lng with
  | none => rfl
  | some valstr =>
    simp only []
    split <;> exact ite_self _

theorem new_range (c : Collab) : trace_gen_range (boolector_mc_new c) := by
  unfold trace_gen_range boolector_mc_new init_options
  simp only [init_opt_eq, and_self]

/-- What one call of the user keeps: an engine that has left the state NONE does not come
back to it, frames exist only outside the state NONE, a call of `boolector_mc_bmc` leaves the
state NONE, any other call keeps an engine without frames in the state NONE, and the
range of `TRACE_GEN` is kept. -/
theorem api_step_state (c : Collab) (m m' : BtorMC) (step : BtorMCStep)
    (h : api_step c m step = some m') :
    (m.state ≠ BtorMCState.BTOR_NO_MC_STATE → m'.state ≠ BtorMCState.BTOR_NO_MC_STATE)
    ∧ ((m.frames ≠ [] → m.state ≠ BtorMCState.BTOR_NO_MC_STATE) →
        (m'.frames ≠ [] → m'.state ≠ BtorMCState.BTOR_NO_MC_STATE))
    ∧ ((∃ mink maxk, step = BtorMCStep.bmc mink maxk) →
        m'.state ≠ BtorMCState.BTOR_NO_MC_STATE)
    ∧ ((∀ mink maxk, step ≠ BtorMCStep.bmc mink maxk) →
        m.state = BtorMCState.BTOR_NO_MC_STATE ∧ m.frames = [] →
        m'.state = BtorMCState.BTOR_NO_MC_STATE ∧ m'.frames = [])
    ∧ (trace_gen_range m → trace_gen_range m') := by
  cases step with
  | author call =>
    simp only [api_step] at h
    obtain ⟨hf, hs, -⟩ := register_frames_state m m' call h
    have ho := register_options m m' call h
    refine ⟨by rw [hs]; exact id, by rw [hs, hf]; exact id, ?_, ?_, ?_⟩
    · rintro ⟨mink, maxk, hc⟩; cases hc
    · intro _; rw [hs, hf]; exact id
    · unfold trace_gen_range; rw [ho]; exact id
  | set_opt opt val =>
    simp only [api_step] at h
    have hsh := set_opt_shape m m' opt val h
    have hs : m'.state = m.state := by rw [hsh]
    have hf : m'.frames = m.frames := by rw [hsh]
    refine ⟨by rw [hs]; exact id, by rw [hs, hf]; exact id, ?_, ?_, set_opt_range m m' opt val h⟩
    · rintro ⟨mink, maxk, hc⟩; cases hc
    · intro _; rw [hs, hf]; exact id
  | set_reached_at_bound_call_back installed =>
    simp only [api_step, Option.some.injEq] at h
    subst h
    refine ⟨id, id, ?_, fun _ => id, id⟩
    rintro ⟨mink, maxk, hc⟩; cases hc
  | set_starting_bound_call_back installed =>
    simp only [api_step, Option.some.injEq] at h
    subst h
    refine ⟨id, id, ?_, fun _ => id, id⟩
    rintro ⟨mink, maxk, hc⟩; cases hc
  | bmc mink maxk =>
    simp only [api_step, Option.map_eq_some'] at h
    obtain ⟨r, hr, hm⟩ := h
    obtain ⟨r1, mc1, h1, hst⟩ := bmc_state c m mink maxk
    obtain ⟨r2, mc2, h2, hpr, -⟩ := bmc_spec c m mink maxk
    rw [hr] at h1 h2
    simp only [Option.some.injEq] at h1 h2
    subst h1
    have hst' : m'.state ≠ BtorMCState.BTOR_NO_MC_STATE := by rw [← hm]; exact hst
    refine ⟨fun _ => hst', fun _ _ => hst', fun _ => hst', ?_, ?_⟩
    · intro hne
      exact absurd rfl (hne mink maxk)
    · have ho : m'.options = m.options := by rw [← hm, h2]; exact hpr.2.1
      unfold trace_gen_range; rw [ho]; exact id
  | assignment time m2c f2c =>
    simp only [api_step] at h
    obtain ⟨hne, hsh⟩ := assignment_caches_shape m m' time m2c f2c h
    have hs : m'.state = m.state := by rw [hsh]
    have ho : m'.options = m.options := by rw [hsh]
    refine ⟨by rw [hs]; exact id, fun _ _ => by rw [hs]; exact hne, ?_, ?_, ?_⟩
    · rintro ⟨mink, maxk, hc⟩; cases hc
    · intro _ hn; exact absurd hn.1 hne
    · unfold trace_gen_range; rw [ho]; exact id

theorem state_not_none (s : BtorMCState) (h : s ≠ BtorMCState.BTOR_NO_MC_STATE) :
    s = BtorMCState.BTOR_SAT_MC_STATE ∨ s = BtorMCState.BTOR_UNSAT_MC_STATE := by
  cases s
  · exact absurd rfl h
  · exact Or.inl rfl
  · exact Or.inr rfl

theorem registration_rejected_of_state (mc : BtorMC)
    (h : mc.state ≠ BtorMCState.BTOR_NO_MC_STATE) : registration_rejected mc := by
  refine ⟨?_, ?_, ?_, ?_, ?_, ?_⟩
  · intro width name; simp [boolector_input, h]
  · intro width name; simp [boolector_latch, h]
  · intro node next; simp [boolector_next, h]
  · intro node init; simp [boolector_mc_init, h]
  · intro bad; simp [boolector_bad, h]
  · intro constraint; simp [boolector_constraint, h]

theorem registration_accepted_of_state (mc : BtorMC)
    (h : mc.state = BtorMCState.BTOR_NO_MC_STATE) : registration_accepted mc := by
  refine ⟨?_, ?_, ?_, ?_, ?_, ?_⟩
  · intro width name
    by_cases hw : 1 ≤ width
    · simp [boolector_input, h, hw]
      omega
    · simp [boolector_input, h, hw]
      omega
  · intro width name
    by_cases hw : 1 ≤ width
    · simp [boolector_latch, h, hw]
    · simp [boolector_latch, h, hw]
  · intro node next
    simp only [boolector_next, h, ne_eq, not_true_eq_false, if_false]
    by_cases h1 : owns_node mc node = true
    · by_cases h2 : owns_node mc next = true
      · by_cases h3 : boolector_get_width mc.btor node = boolector_get_width mc.btor next
        · cases h4 : find_mc_latch mc node with
          | none => simp [h1, h2, h3]
          | some latch =>
            cases h5 : latch.next with
            | none => simp [h1, h2, h3, h5]
            | some x => simp [h1, h2, h3, h5]
        · simp [h1, h2, h3]
      · simp [h1, h2]
    · simp [h1]
  · intro node init
    simp only [boolector_mc_init, h, ne_eq, not_true_eq_false, if_false]
    by_cases h1 : owns_node mc node = true
    · by_cases h2 : owns_node mc init = true
      · by_cases h0 : boolector_is_const mc.btor init = true
        · by_cases h3 : boolector_get_width mc.btor node = boolector_get_width mc.btor init
          · cases h4 : find_mc_latch mc node with
            | none => simp [h1, h2, h3, h0]
            | some latch =>
              cases h5 : latch.init with
              | none => simp [h1, h2, h3, h5, h0]
              | some x => simp [h1, h2, h3, h5, h0]
          · simp [h1, h2, h3, h0]
        · simp [h1, h2, h0]
      · simp [h1, h2]
    · simp [h1]
  · intro bad
    simp only [boolector_bad, h, ne_eq, not_true_eq_false, if_false]
    by_cases h1 : owns_node mc bad = true
    · by_cases h2 : boolector_get_width mc.btor bad = 1
      · simp [h1, h2]
      · simp [h1, h2]
    · simp [h1]
  · intro constraint
    simp only [boolector_constraint, h, ne_eq, not_true_eq_false, if_false]
    by_cases h1 : owns_node mc constraint = true
    · by_cases h2 : boolector_get_width mc.btor constraint = 1
      · simp [h1, h2]
      · simp [h1, h2]
    · simp [h1]

theorem reach_state_after_bmc (c : Collab) :
    ∀ (steps : List BtorMCStep) (m mc : BtorMC), api_run c steps m = some mc →
      ((∃ mink maxk, BtorMCStep.bmc mink maxk ∈ steps)
        ∨ m.state ≠ BtorMCState.BTOR_NO_MC_STATE) →
      mc.state ≠ BtorMCState.BTOR_NO_MC_STATE := by
  intro steps
  induction steps with
  | nil =>
    intro m mc h hor
    simp only [api_run, Option.some.injEq] at h
    subst h
    rcases hor with ⟨mink, maxk, hmem⟩ | hst
    · cases hmem
    · exact hst
  | cons step rest ih =>
    intro m mc h hor
    simp only [api_run] at h
    cases hs : api_step c m step with
    | none => rw [hs] at h; cases h
    | some m1 =>
      rw [hs] at h
      obtain ⟨h1, -, h3, -, -⟩ := api_step_state c m m1 step hs
      rcases hor with ⟨mink, maxk, hmem⟩ | hst
      · rcases List.mem_cons.1 hmem with heq | hmem
        · exact ih m1 mc h (Or.inr (h3 ⟨mink, maxk, heq.symm⟩))
        · exact ih m1 mc h (Or.inl ⟨mink, maxk, hmem⟩)
      · exact ih m1 mc h (Or.inr (h1 hst))

theorem reach_before_bmc (c : Collab) :
    ∀ (steps : List BtorMCStep) (m mc : BtorMC), api_run c steps m = some mc →
      (∀ mink maxk, BtorMCStep.bmc mink maxk ∉ steps) →
      m.state = BtorMCState.BTOR_NO_MC_STATE ∧ m.frames = [] →
      mc.state = BtorMCState.BTOR_NO_MC_STATE ∧ mc.frames = [] := by
  intro steps
  induction steps with
  | nil =>
    intro m mc h _ hm
    simp only [api_run, Option.some.injEq] at h
    subst h
    exact hm
  | cons step rest ih =>
    intro m mc h hno hm
    simp only [api_run] at h
    cases hs : api_step c m step with
    | none => rw [hs] at h; cases h
    | some m1 =>
      rw [hs] at h
      obtain ⟨-, -, -, h4, -⟩ := api_step_state c m m1 step hs
      refine ih m1 mc h (fun mink maxk hmem => hno mink maxk (List.mem_cons_of_mem _ hmem))
        (h4 ?_ hm)
      intro mink maxk heq
      exact hno mink maxk (by rw [heq]; exact List.mem_cons_self _ _)

/-- In a reachable engine, frames exist only outside the state NONE. -/
theorem reach_frames_state (c : Collab) (steps : List BtorMCStep) (mc : BtorMC)
    (hrun : api_run c steps (boolector_mc_new c) = some mc) :
    mc.frames ≠ [] → mc.state ≠ BtorMCState.BTOR_NO_MC_STATE :=
  api_run_rule c (fun m => m.frames ≠ [] → m.state ≠ BtorMCState.BTOR_NO_MC_STATE)
    (fun m m' step hQ hs => (api_step_state c m m' step hs).2.1 hQ) steps _ mc
    (fun h => absurd rfl h) hrun

theorem reach_range (c : Collab) (steps : List BtorMCStep) (mc : BtorMC)
    (hrun : api_run c steps (boolector_mc_new c) = some mc) : trace_gen_range mc :=
  api_run_rule c trace_gen_range
    (fun m m' step hQ hs => (api_step_state c m m' step hs).2.2.2.2 hQ) steps _ mc
    (new_range c) hrun

/-- C23: a call of `boolector_mc_bmc` returns and leaves the engine in the state SAT or
UNSAT, never NONE, and every registration call then aborts.  In a reachable engine, once
`boolector_mc_bmc` has been called the state is SAT or UNSAT and every call of
`boolector_input`, `boolector_latch`, `boolector_next`, `boolector_mc_init`, `boolector_bad`
and `boolector_constraint` aborts; the same holds once a frame is built; before the first
call of `boolector_mc_bmc` the state is NONE, no frame is built, and each registration
call is accepted when the checks of its arguments pass. -/
theorem registration_only_before_bmc (c : Collab) (steps : List BtorMCStep) (mc : BtorMC)
    (hrun : api_run c steps (boolector_mc_new c) = some mc) :
    (∀ mink maxk, ∃ r mc', boolector_mc_bmc c mc mink maxk = some (r, mc')
        ∧ (mc'.state = BtorMCState.BTOR_SAT_MC_STATE
            ∨ mc'.state = BtorMCState.BTOR_UNSAT_MC_STATE)
        ∧ registration_rejected mc')
    ∧ ((∃ mink maxk, BtorMCStep.bmc mink maxk ∈ steps) →
        (mc.state = BtorMCState.BTOR_SAT_MC_STATE ∨ mc.state = BtorMCState.BTOR_UNSAT_MC_STATE)
        ∧ registration_rejected mc)
    ∧ (mc.frames ≠ [] → registration_rejected mc)
    ∧ ((∀ mink maxk, BtorMCStep.bmc mink maxk ∉ steps) →
        mc.state = BtorMCState.BTOR_NO_MC_STATE ∧ mc.frames = [] ∧ registration_accepted mc) := by
  refine ⟨?_, ?_, ?_, ?_⟩
  · intro mink maxk
    obtain ⟨r, mc', h, hst⟩ := bmc_state c mc mink maxk
    exact ⟨r, mc', h, state_not_none _ hst, registration_rejected_of_state mc' hst⟩
  · intro hb
    have hst := reach_state_after_bmc c steps _ mc hrun (Or.inl hb)
    exact ⟨state_not_none _ hst, registration_rejected_of_state mc hst⟩
  · intro hf
    exact registration_rejected_of_state mc (reach_frames_state c steps mc hrun hf)
  · intro hno
    obtain ⟨hs, hf⟩ := reach_before_bmc c steps _ mc hrun hno ⟨rfl, rfl⟩
    exact ⟨hs, hf, registration_accepted_of_state mc hs⟩

theorem registration_only_before_bmc_witness :
    api_run ex_verdicts ex_steps (boolector_mc_new ex_verdicts) = some ex_checked
    ∧ (∀ mink maxk, ∃ r mc', boolector_mc_bmc ex_verdicts ex_checked mink maxk = some (r, mc')
        ∧ (mc'.state = BtorMCState.BTOR_SAT_MC_STATE
            ∨ mc'.state = BtorMCState.BTOR_UNSAT_MC_STATE)
        ∧ registration_rejected mc')
    ∧ ((∃ mink maxk, BtorMCStep.bmc mink maxk ∈ ex_steps) →
        (ex_checked.state = BtorMCState.BTOR_SAT_MC_STATE
          ∨ ex_checked.state = BtorMCState.BTOR_UNSAT_MC_STATE)
        ∧ registration_rejected ex_checked)
    ∧ (ex_checked.frames ≠ [] → registration_rejected ex_checked)
    ∧ ((∀ mink maxk, BtorMCStep.bmc mink maxk ∉ ex_steps) →
        ex_checked.state = BtorMCState.BTOR_NO_MC_STATE ∧ ex_checked.frames = []
          ∧ registration_accepted ex_checked) :=
  ⟨by decide, registration_only_before_bmc ex_verdicts ex_steps ex_checked (by decide)⟩

/-- C24, counterexample: the engine `ex_checked` is reached by calls that end with
`bmc (0, 2)` and holds three frames; `boolector_mc_set_opt (mc, TRACE_GEN, 0)` on it is
accepted and returns. -/
theorem set_opt_trace_gen_off_accepted :
    api_run ex_verdicts ex_steps (boolector_mc_new ex_verdicts) = some ex_checked
    ∧ BtorMCStep.bmc 0 2 ∈ ex_steps
    ∧ ex_checked.frames.length = 3
    ∧ boolector_mc_set_opt ex_checked BtorMCOption.BTOR_MC_OPT_TRACE_GEN 0 = some ex_checked := by
  decide

/-- C24, as amended: in a reachable engine, once a frame is built or `boolector_mc_bmc` has
been called, `boolector_mc_set_opt (mc, TRACE_GEN, v)` aborts for every `v ≠ 0`, and for
`v = 0` it is accepted and `boolector_mc_get_opt` then returns 0; before any call of
`boolector_mc_bmc` it is accepted for `v = 0` and for `v = 1`, and `boolector_mc_get_opt` then
returns `v`. -/
theorem set_opt_trace_gen (c : Collab) (steps : List BtorMCStep) (mc : BtorMC)
    (hrun : api_run c steps (boolector_mc_new c) = some mc) :
    ((mc.frames ≠ [] ∨ ∃ mink maxk, BtorMCStep.bmc mink maxk ∈ steps) →
      (∀ v, v ≠ 0 → boolector_mc_set_opt mc BtorMCOption.BTOR_MC_OPT_TRACE_GEN v = none)
      ∧ ∃ mc', boolector_mc_set_opt mc BtorMCOption.BTOR_MC_OPT_TRACE_GEN 0 = some mc'
          ∧ boolector_mc_get_opt mc' BtorMCOption.BTOR_MC_OPT_TRACE_GEN = 0)
    ∧ ((∀ mink maxk, BtorMCStep.bmc mink maxk ∉ steps) →
        ∀ v, v = 0 ∨ v = 1 →
          ∃ mc', boolector_mc_set_opt mc BtorMCOption.BTOR_MC_OPT_TRACE_GEN v = some mc'
            ∧ boolector_mc_get_opt mc' BtorMCOption.BTOR_MC_OPT_TRACE_GEN = v) := by
  obtain ⟨hmin, hmax⟩ := reach_range c steps mc hrun
  constructor
  · intro hor
    have hst : mc.state ≠ BtorMCState.BTOR_NO_MC_STATE := by
      rcases hor with hf | hb
      · exact reach_frames_state c steps mc hrun hf
      · exact reach_state_after_bmc c steps _ mc hrun (Or.inl hb)
    constructor
    · intro v hv
      unfold boolector_mc_set_opt
      simp [boolector_mc_get_opt_min, boolector_mc_get_opt_max, hmin, hmax, hv, hst]
    · refine ⟨{ mc with
        options := { mc.options with trace_gen := { mc.options.trace_gen with val := 0 } } },
        ?_, rfl⟩
      unfold boolector_mc_set_opt
      simp [boolector_mc_get_opt_min, boolector_mc_get_opt_max, hmin, hmax]
  · intro hno v hv
    obtain ⟨hs, hf⟩ := reach_before_bmc c steps _ mc hrun hno ⟨rfl, rfl⟩
    refine ⟨{ mc with
      options := { mc.options with trace_gen := { mc.options.trace_gen with val := v } } },
      ?_, rfl⟩
    unfold boolector_mc_set_opt
    rcases hv with hv | hv <;> subst hv <;>
      simp [boolector_mc_get_opt_min, boolector_mc_get_opt_max, hmin, hmax, hs, hf]

theorem set_opt_trace_gen_witness :
    api_run ex_verdicts ex_steps (boolector_mc_new ex_verdicts) = some ex_checked
    ∧ ((ex_checked.frames ≠ [] ∨ ∃ mink maxk, BtorMCStep.bmc mink maxk ∈ ex_steps) →
      (∀ v, v ≠ 0 → boolector_mc_set_opt ex_checked BtorMCOption.BTOR_MC_OPT_TRACE_GEN v = none)
      ∧ ∃ mc', boolector_mc_set_opt ex_checked BtorMCOption.BTOR_MC_OPT_TRACE_GEN 0 = some mc'
          ∧ boolector_mc_get_opt mc' BtorMCOption.BTOR_MC_OPT_TRACE_GEN = 0)
    ∧ ((∀ mink maxk, BtorMCStep.bmc mink maxk ∉ ex_steps) →
        ∀ v, v = 0 ∨ v = 1 →
          ∃ mc', boolector_mc_set_opt ex_checked BtorMCOption.BTOR_MC_OPT_TRACE_GEN v = some mc'
            ∧ boolector_mc_get_opt mc' BtorMCOption.BTOR_MC_OPT_TRACE_GEN = v) :=
  ⟨by decide, set_opt_trace_gen ex_verdicts ex_steps ex_checked (by decide)⟩

/-- C25: the initial value of every option is its default (`VERBOSITY` 0, `STOP_FIRST` 1,
`TRACE_GEN` 0) in every environment, because `init_opt` stores `val` and not the clamped
value of the environment variable; with the variable `stop-first` set to `0`, which is
inside the range 0 to 1 of the option, the initial value of `STOP_FIRST` is 1 and not 0. -/
theorem init_opt_keeps_default :
    (∀ c : Collab,
      boolector_mc_get_opt (boolector_mc_new c) BtorMCOption.BTOR_MC_OPT_VERBOSITY = 0
      ∧ boolector_mc_get_opt (boolector_mc_new c) BtorMCOption.BTOR_MC_OPT_STOP_FIRST = 1
      ∧ boolector_mc_get_opt (boolector_mc_new c) BtorMCOption.BTOR_MC_OPT_TRACE_GEN = 0)
    ∧ ex_environment.getenv_value "stop-first" = some "0"
    ∧ atoi "0" = 0
    ∧ boolector_mc_get_opt_min (boolector_mc_new ex_environment)
        BtorMCOption.BTOR_MC_OPT_STOP_FIRST = 0
    ∧ boolector_mc_get_opt_max (boolector_mc_new ex_environment)
        BtorMCOption.BTOR_MC_OPT_STOP_FIRST = 1
    ∧ boolector_mc_get_opt (boolector_mc_new ex_environment)
        BtorMCOption.BTOR_MC_OPT_STOP_FIRST = 1 := by
  refine ⟨?_, by decide, by decide, by decide, by decide, by decide⟩
  intro c
  simp only [boolector_mc_get_opt, boolector_mc_new, init_options, init_opt_eq, and_self]

/-! ## Witness reconstruction -/

theorem witness_inv_build (c : Collab) (mc : BtorMC) (h : witness_inv mc) :
    witness_inv (initialize_new_forward_frame c mc) := by
  obtain ⟨r1, r2, map, r3, r4, r5, h1, -, -, -, -, -, heq⟩ := build_stages c mc
  obtain ⟨a1, a2, a3, a4, a5, -⟩ := h
  rw [heq]
  refine ⟨a1, a2, a3, a4, ?_, fun _ => rfl⟩
  intro f hf
  simp only [List.mem_append, List.mem_singleton] at hf
  rcases hf with hf | hf
  · exact a5 f hf
  · subst hf
    simp only []
    have hs := (initialize_inputs_loop_spec mc (mc.frames.length : Int) mc.inputs []
      (forward_manager mc)).1
    rw [← h1] at hs
    rw [hs]
    refine ⟨by simp, ?_⟩
    intro e he
    simp only [List.nil_append, List.mem_map] at he
    obtain ⟨n, -, rfl⟩ := he
    exact Option.some_ne_none n

theorem witness_inv_reachable (c : Collab) (steps : List BtorMCStep) (mc : BtorMC)
    (hrun : api_run c steps (boolector_mc_new c) = some mc) : witness_inv mc := by
  refine api_invariant c witness_inv ?_ ?_ ?_ ?_ ?_ ?_ (witness_inv_build c) ?_ steps mc hrun
  · refine ⟨rfl, rfl, ?_, ?_, ?_, fun h => absurd rfl h⟩
    · intro input hin; cases hin
    · intro latch hin; cases hin
    · intro f hf; cases hf
  · intro m options state call_backs forward2const verb h
    exact h
  · intro m e _ h
    exact h
  · intro m fs' hsame h
    obtain ⟨a1, a2, a3, a4, a5, a6⟩ := h
    obtain ⟨hlen, hget⟩ := same_frame_get? m.frames fs' hsame
    refine ⟨a1, a2, a3, a4, ?_, ?_⟩
    · intro f' hf'
      obtain ⟨t, ht⟩ := List.get?_of_mem hf'
      obtain ⟨f, hf, hsf⟩ := hget t f' ht
      have := a5 f (List.get?_mem hf)
      unfold same_frame at hsf
      rw [hsf]
      exact this
    · intro hne
      apply a6
      intro h0
      apply hne
      have : fs'.length = 0 := by rw [hlen, h0]; rfl
      exact List.length_eq_zero.1 this
  · intro m m' call h hfr hreg
    obtain ⟨a1, a2, a3, a4, a5, a6⟩ := h
    obtain ⟨hf, -, -⟩ := register_frames_state m m' call hreg
    obtain ⟨b1, b2⟩ := register_ids m m' call hreg a1 a2
    obtain ⟨b3, b4⟩ := register_model_valid m m' call hreg a3 a4
    refine ⟨b1, b2, b3, b4, ?_, ?_⟩
    · intro f hfm
      rw [hf, hfr] at hfm
      cases hfm
    · intro hne
      rw [hf, hfr] at hne
      exact absurd rfl hne
  · intro m n h
    obtain ⟨a1, a2, a3, a4, a5, a6⟩ := h
    refine ⟨a1, a2, ?_, ?_, a5, a6⟩
    · intro input hin
      simp only [List.length_append, List.length_singleton]
      exact Nat.lt_succ_of_lt (a3 input hin)
    · intro latch hin
      simp only [List.length_append, List.length_singleton]
      exact ⟨Nat.lt_succ_of_lt (a4 latch hin).1,
        fun init hi => Nat.lt_succ_of_lt ((a4 latch hin).2 init hi)⟩
  · intro m h
    have hb := witness_inv_build c m h
    rw [check_last_forward_frame_eq]
    exact hb

theorem zero_normalize_toList (s : String) :
    (zero_normalize_assignment s).toList
      = s.toList.map (fun p => if p = 'x' then '0' else p) := rfl

theorem zero_normalize_length (s : String) :
    (zero_normalize_assignment s).length = s.length := by
  show (zero_normalize_assignment s).toList.length = s.toList.length
  rw [zero_normalize_toList, List.length_map]

theorem zero_normalize_get? (s : String) (i : Nat) :
    (zero_normalize_assignment s).toList.get? i
      = (s.toList.get? i).map (fun p => if p = 'x' then '0' else p) := by
  rw [zero_normalize_toList, List.get?_eq_getElem?, List.get?_eq_getElem?, List.getElem?_map]

theorem zero_normalize_no_x (s : String) : 'x' ∉ (zero_normalize_assignment s).toList := by
  rw [zero_normalize_toList]
  intro hmem
  obtain ⟨p, _, h⟩ := List.mem_map.1 hmem
  by_cases hp : p = 'x'
  · rw [if_pos hp] at h
    exact absurd h (by decide)
  · rw [if_neg hp] at h
    exact hp h

theorem zero_normalize_bits (s : String)
    (h : ∀ ch ∈ s.toList, ch = '0' ∨ ch = '1' ∨ ch = 'x') :
    ∀ ch ∈ (zero_normalize_assignment s).toList, ch = '0' ∨ ch = '1' := by
  intro ch hch
  rw [zero_normalize_toList] at hch
  obtain ⟨p, hp, rfl⟩ := List.mem_map.1 hch
  by_cases hx : p = 'x'
  · rw [if_pos hx]
    exact Or.inl rfl
  · rw [if_neg hx]
    rcases h p hp with h0 | h1 | h2
    · exact Or.inl h0
    · exact Or.inr h1
    · exact absurd h2 hx

/-- In a reachable engine in the state SAT with trace generation on, the assignment of a
node of the inputs table at the time of a frame is the normalized solver assignment of the
entry of the frame. -/
theorem assignment_of_input (c : Collab) (w : WitnessCollab) (steps : List BtorMCStep)
    (mc : BtorMC) (node : BoolectorNode) (time : Int) (input : BtorMCInput)
    (hrun : api_run c steps (boolector_mc_new c) = some mc)
    (hstate : mc.state = BtorMCState.BTOR_SAT_MC_STATE)
    (htrace : boolector_mc_get_opt mc BtorMCOption.BTOR_MC_OPT_TRACE_GEN ≠ 0)
    (hinput : mc.inputs.find? (fun i => i.node = node) = some input)
    (h0 : 0 ≤ time) (hlt : time < (mc.frames.length : Int)) :
    ∃ (frame : BtorMCFrame) (forward : Btor) (node_at_time : BoolectorNode),
      mc.frames.get? time.toNat = some frame ∧ mc.forward = some forward
      ∧ frame.inputs.get? input.id.toNat = some (some node_at_time)
      ∧ boolector_mc_assignment w mc node time
          = some (zero_normalize_assignment (w.bv_assignment forward node_at_time)) := by
  obtain ⟨a1, -, a3, -, a5, a6⟩ := witness_inv_reachable c steps mc hrun
  have hmem : input ∈ mc.inputs := List.mem_of_find?_eq_some hinput
  have hnode : input.node = node := by
    have := List.find?_some hinput
    simpa using this
  have hown : owns_node mc node = true := by
    rw [← hnode]
    simp only [owns_node, decide_eq_true_eq]
    exact a3 input hmem
  have htl : time.toNat < mc.frames.length := by omega
  obtain ⟨frame, hframe⟩ : ∃ frame, mc.frames.get? time.toNat = some frame :=
    ⟨mc.frames.get ⟨time.toNat, htl⟩, List.get?_eq_get htl⟩
  have hne : mc.frames ≠ [] := by
    intro h
    rw [h] at htl
    cases htl
  obtain ⟨forward, hfw⟩ : ∃ forward, mc.forward = some forward :=
    Option.isSome_iff_exists.1 (a6 hne)
  obtain ⟨hlen, hnn⟩ := a5 frame (List.get?_mem hframe)
  obtain ⟨k, hk⟩ := List.get?_of_mem hmem
  have hkl : k < mc.inputs.length := by
    rw [List.get?_eq_getElem?] at hk
    exact (List.getElem?_eq_some_iff.1 hk).1
  have hid : input.id = (k : Int) := by
    have h1 : (mc.inputs.map (fun x => x.id)).get? k = some input.id := by
      rw [List.get?_eq_getElem?, List.getElem?_map, ← List.get?_eq_getElem?, hk]
      rfl
    rw [a1] at h1
    have h2 := (ids_positions _ mc.inputs.length rfl).1 k hkl
    rw [h2] at h1
    simp only [Option.some.injEq] at h1
    exact h1.symm
  have hidn : input.id.toNat = k := by rw [hid]; rfl
  have hkf : k < frame.inputs.length := by rw [hlen]; exact hkl
  obtain ⟨e, he⟩ : ∃ e, frame.inputs.get? k = some e :=
    ⟨frame.inputs.get ⟨k, hkf⟩, List.get?_eq_get hkf⟩
  obtain ⟨n, hn⟩ : ∃ n, e = some n := by
    cases e with
    | none => exact absurd rfl (hnn none (List.get?_mem he))
    | some n => exact ⟨n, rfl⟩
  subst hn
  refine ⟨frame, forward, n, hframe, hfw, by rw [hidn]; exact he, ?_⟩
  have hpeek : peek_node frame.inputs input.id.toNat = some n := by
    rw [hidn]
    exact peek_node_of_get? _ _ _ he
  unfold boolector_mc_assignment
  have hge : ¬ time ≥ (mc.frames.length : Int) := by omega
  have hneg : ¬ 0 > time := by omega
  simp only [hstate, reduceCtorEq, if_false, htrace, hown, not_true_eq_false, hneg, hge, hinput,
    hframe, hfw, hpeek]

/-- C21: in a reachable engine in the state SAT with trace generation on, for a node
`node` with an entry `input` in the inputs table and a time `0 ≤ time < |frames|`,
`boolector_mc_assignment (mc, node, time)` returns the bit assignment that the solver of the
forward circuit gives to entry `input->id` of the inputs of frame `time`, with every `x`
replaced by `0`, every other character and the length unchanged; so for a solver string of
length `width (node)` over `0`, `1` and `x` the result has length `width (node)`, is over
`0` and `1` and does not contain `x`. -/
theorem input_assignment_normalized (c : Collab) (w : WitnessCollab) (steps : List BtorMCStep)
    (mc : BtorMC) (node : BoolectorNode) (time : Int) (input : BtorMCInput)
    (hrun : api_run c steps (boolector_mc_new c) = some mc)
    (hstate : mc.state = BtorMCState.BTOR_SAT_MC_STATE)
    (htrace : boolector_mc_get_opt mc BtorMCOption.BTOR_MC_OPT_TRACE_GEN ≠ 0)
    (hinput : mc.inputs.find? (fun i => i.node = node) = some input)
    (h0 : 0 ≤ time) (hlt : time < (mc.frames.length : Int)) :
    ∃ (frame : BtorMCFrame) (forward : Btor) (node_at_time : BoolectorNode) (res : String),
      mc.frames.get? time.toNat = some frame ∧ mc.forward = some forward
      ∧ frame.inputs.get? input.id.toNat = some (some node_at_time)
      ∧ boolector_mc_assignment w mc node time = some res
      ∧ res.length = (w.bv_assignment forward node_at_time).length
      ∧ (∀ i, res.toList.get? i
          = ((w.bv_assignment forward node_at_time).toList.get? i).map
              (fun p => if p = 'x' then '0' else p))
      ∧ 'x' ∉ res.toList
      ∧ ((w.bv_assignment forward node_at_time).length = boolector_get_width mc.btor node
          ∧ (∀ ch ∈ (w.bv_assignment forward node_at_time).toList,
              ch = '0' ∨ ch = '1' ∨ ch = 'x') →
          res.length = boolector_get_width mc.btor node
          ∧ ∀ ch ∈ res.toList, ch = '0' ∨ ch = '1') := by
  obtain ⟨frame, forward, n, h1, h2, h3, h4⟩ :=
    assignment_of_input c w steps mc node time input hrun hstate htrace hinput h0 hlt
  refine ⟨frame, forward, n, _, h1, h2, h3, h4, zero_normalize_length _,
    zero_normalize_get? _, zero_normalize_no_x _, ?_⟩
  rintro ⟨hl, hb⟩
  exact ⟨by rw [zero_normalize_length, hl], zero_normalize_bits _ hb⟩

theorem input_assignment_normalized_witness :
    api_run ex_verdicts ex_traced_steps (boolector_mc_new ex_verdicts) = some ex_traced
    ∧ ex_traced.state = BtorMCState.BTOR_SAT_MC_STATE
    ∧ boolector_mc_get_opt ex_traced BtorMCOption.BTOR_MC_OPT_TRACE_GEN ≠ 0
    ∧ ex_traced.inputs.find? (fun i => i.node = 0) = some { id := 0, node := 0 }
    ∧ (0 : Int) ≤ 1 ∧ (1 : Int) < (ex_traced.frames.length : Int)
    ∧ ∃ (frame : BtorMCFrame) (forward : Btor) (node_at_time : BoolectorNode) (res : String),
      ex_traced.frames.get? (1 : Int).toNat = some frame ∧ ex_traced.forward = some forward
      ∧ frame.inputs.get? ({ id := 0, node := 0 } : BtorMCInput).id.toNat
          = some (some node_at_time)
      ∧ boolector_mc_assignment ex_witness ex_traced 0 1 = some res
      ∧ res.length = (ex_witness.bv_assignment forward node_at_time).length
      ∧ (∀ i, res.toList.get? i
          = ((ex_witness.bv_assignment forward node_at_time).toList.get? i).map
              (fun p => if p = 'x' then '0' else p))
      ∧ 'x' ∉ res.toList
      ∧ ((ex_witness.bv_assignment forward node_at_time).length
            = boolector_get_width ex_traced.btor 0
          ∧ (∀ ch ∈ (ex_witness.bv_assignment forward node_at_time).toList,
              ch = '0' ∨ ch = '1' ∨ ch = 'x') →
          res.length = boolector_get_width ex_traced.btor 0
          ∧ ∀ ch ∈ res.toList, ch = '0' ∨ ch = '1') :=
  ⟨by decide, by decide, by decide, by decide, by decide, by decide,
    input_assignment_normalized ex_verdicts ex_witness ex_traced_steps ex_traced 0 1
      { id := 0, node := 0 } (by decide) (by decide) (by decide) (by decide) (by decide)
      (by decide)⟩

theorem abs_max_id (m r : Int) (hr : 0 < r) :
    (if |r| > m then |r| else m) = max m r := by
  rw [abs_of_pos hr]
  split
  · rw [max_eq_right (by omega)]
  · rw [max_eq_left (by omega)]

/-- A call of `btor_next_cnf_id_sat_mgr` on an initialized manager returns the positive id
of the driver. -/
theorem next_cnf_id_ok (smgr : BtorSATMgr) (result : Int) (hi : smgr.initialized = true)
    (hr : 0 < result) :
    btor_next_cnf_id_sat_mgr smgr result
      = Except.ok (result, { smgr with
          trace := smgr.trace ++ [BtorSATCall.inc_max_var]
          maxvar := max smgr.maxvar result }) := by
  rcases smgr with ⟨v, n, o, a, need, prov, api, sc, ini, cl, mv, tl, so, tr⟩
  simp only at hi
  subst hi
  have hr' : ¬ result ≤ 0 := by omega
  have := abs_max_id mv result hr
  unfold btor_next_cnf_id_sat_mgr
  by_cases hm : |result| > mv
  · simp only [hm, if_true] at this
    simp [hr', hm, this]
  · simp only [hm, if_false] at this
    simp [hr', hm, ← this]

/-- What a successful call of `btor_next_cnf_id_sat_mgr` has done. -/
theorem next_cnf_id_spec (smgr smgr' : BtorSATMgr) (result id : Int)
    (h : btor_next_cnf_id_sat_mgr smgr result = Except.ok (id, smgr')) :
    smgr.initialized = true ∧ 0 < result ∧ id = result
      ∧ smgr' = { smgr with
          trace := smgr.trace ++ [BtorSATCall.inc_max_var]
          maxvar := max smgr.maxvar result } := by
  by_cases hi : smgr.initialized = true
  · by_cases hr : result ≤ 0
    · simp [btor_next_cnf_id_sat_mgr, hi, hr] at h
    · have hr' : 0 < result := by omega
      rw [next_cnf_id_ok smgr result hi hr'] at h
      simp only [Except.ok.injEq, Prod.mk.injEq] at h
      exact ⟨hi, hr', h.1.symm, h.2.symm⟩
  · simp [btor_next_cnf_id_sat_mgr, hi] at h

theorem next_cnf_id_overflow (smgr : BtorSATMgr) (result : Int) (hi : smgr.initialized = true)
    (hr : result ≤ 0) :
    btor_next_cnf_id_sat_mgr smgr result
      = Except.error (BtorSATAbort.abort_sat "btor_next_cnf_id_sat_mgr" "CNF id overflow") := by
  simp [btor_next_cnf_id_sat_mgr, hi, hr]

theorem add_sat_ok (smgr : BtorSATMgr) (lit : Int) (hi : smgr.initialized = true)
    (hc : (smgr.inc_need = true ∧ smgr.inc_provides = true) ∨ smgr.satcalls = 0)
    (hl : |lit| ≤ smgr.maxvar) :
    btor_add_sat smgr lit
      = Except.ok { smgr with
          clauses := if lit = 0 then smgr.clauses + 1 else smgr.clauses
          trace := smgr.trace ++ [BtorSATCall.add lit] } := by
  rcases smgr with ⟨v, n, o, a, need, prov, api, sc, ini, cl, mv, tl, so, tr⟩
  simp only at hi hc hl
  subst hi
  unfold btor_add_sat
  by_cases h0 : lit = 0
  · subst h0
    simp only [abs_zero] at hl
    simp [hc, hl]
  · simp [hc, hl, h0]

/-- What a successful call of `btor_add_sat` has done. -/
theorem add_sat_spec (smgr smgr' : BtorSATMgr) (lit : Int)
    (h : btor_add_sat smgr lit = Except.ok smgr') :
    smgr.initialized = true
      ∧ ((smgr.inc_need = true ∧ smgr.inc_provides = true) ∨ smgr.satcalls = 0)
      ∧ |lit| ≤ smgr.maxvar
      ∧ smgr' = { smgr with
          clauses := if lit = 0 then smgr.clauses + 1 else smgr.clauses
          trace := smgr.trace ++ [BtorSATCall.add lit] } := by
  by_cases hi : smgr.initialized = true
  · by_cases hc : (smgr.inc_need = true ∧ smgr.inc_provides = true) ∨ smgr.satcalls = 0
    · by_cases hl : |lit| ≤ smgr.maxvar
      · rw [add_sat_ok smgr lit hi hc hl] at h
        simp only [Except.ok.injEq] at h
        exact ⟨hi, hc, hl, h.symm⟩
      · simp [btor_add_sat, hi, hc, hl] at h
    · simp [btor_add_sat, hi, hc] at h
  · simp [btor_add_sat, hi] at h

theorem init_sat_ok (smgr : BtorSATMgr) (incremental : Bool) (solver : Option Nat)
    (result : Int) (hi : smgr.initialized = false)
    (hinc : incremental = true → smgr.inc_provides = true ∧ smgr.inc_need = true)
    (hr : 0 < result) (hnon : incremental = false → smgr.satcalls = 0) :
    btor_init_sat smgr incremental solver result
      = Except.ok (init_sat_result smgr incremental solver result) := by
  rcases smgr with ⟨v, n, o, a, need, prov, api, sc, ini, cl, mv, tl, so, tr⟩
  simp only at hi hinc hnon
  subst hi
  unfold btor_init_sat init_sat_result
  have hr0 : (0 : Int) ≤ max mv result := le_max_of_le_right (le_of_lt hr)
  have hr1 : |result| ≤ max mv result := by rw [abs_of_pos hr]; exact le_max_right _ _
  have hne : result ≠ 0 := by omega
  cases incremental with
  | true =>
    obtain ⟨hp, hn⟩ := hinc rfl
    subst hp
    subst hn
    simp only [Bool.false_eq_true, if_false, true_and, not_true_eq_false, if_true, Bool.and_true]
    rw [next_cnf_id_ok _ result rfl hr]
    simp only []
    rw [add_sat_ok _ result rfl (Or.inl ⟨rfl, rfl⟩) hr1]
    simp only [hne, if_false]
    rw [add_sat_ok _ 0 rfl (Or.inl ⟨rfl, rfl⟩) (by simpa using hr0)]
    simp
  | false =>
    have hs := hnon rfl
    subst hs
    simp only [Bool.false_eq_true, if_false, false_and, Bool.and_false]
    rw [next_cnf_id_ok _ result rfl hr]
    simp only []
    rw [add_sat_ok _ result rfl (Or.inr rfl) hr1]
    simp only [hne, if_false]
    rw [add_sat_ok _ 0 rfl (Or.inr rfl) (by simpa using hr0)]
    simp

/-- What a successful call of `btor_init_sat` has done. -/
theorem init_sat_spec (smgr smgr' : BtorSATMgr) (incremental : Bool) (solver : Option Nat)
    (result : Int) (h : btor_init_sat smgr incremental solver result = Except.ok smgr') :
    smgr.initialized = false
      ∧ (incremental = true → smgr.inc_provides = true ∧ smgr.inc_need = true)
      ∧ 0 < result
      ∧ (incremental = false → smgr.satcalls = 0)
      ∧ smgr' = init_sat_result smgr incremental solver result := by
  by_cases hi : smgr.initialized = false
  · by_cases hinc : incremental = true → smgr.inc_provides = true ∧ smgr.inc_need = true
    · by_cases hr : 0 < result
      · by_cases hnon : incremental = false → smgr.satcalls = 0
        · rw [init_sat_ok smgr incremental solver result hi hinc hr hnon] at h
          simp only [Except.ok.injEq] at h
          exact ⟨hi, hinc, hr, hnon, h.symm⟩
        · exfalso
          simp only [Classical.not_imp] at hnon
          obtain ⟨hf, hs⟩ := hnon
          subst hf
          rcases smgr with ⟨v, n, o, a, need, prov, api, sc, ini, cl, mv, tl, so, tr⟩
          simp only at hi hs
          subst hi
          unfold btor_init_sat at h
          simp only [Bool.false_eq_true, if_false, false_and] at h
          rw [next_cnf_id_ok _ result rfl hr] at h
          simp [btor_add_sat, hs] at h
      · exfalso
        rcases smgr with ⟨v, n, o, a, need, prov, api, sc, ini, cl, mv, tl, so, tr⟩
        simp only at hi
        subst hi
        unfold btor_init_sat at h
        have hr' : result ≤ 0 := by omega
        cases incremental with
        | true =>
          obtain ⟨hp, hn⟩ := hinc rfl
          simp only at hp hn
          subst hp
          subst hn
          simp only [Bool.false_eq_true, if_false, true_and, not_true_eq_false, if_true] at h
          rw [next_cnf_id_overflow _ result rfl hr'] at h
          cases h
        | false =>
          simp only [Bool.false_eq_true, if_false, false_and] at h
          rw [next_cnf_id_overflow _ result rfl hr'] at h
          cases h
    · exfalso
      simp only [Classical.not_imp] at hinc
      obtain ⟨ht, hpn⟩ := hinc
      subst ht
      rcases smgr with ⟨v, n, o, a, need, prov, api, sc, ini, cl, mv, tl, so, tr⟩
      simp only at hi hpn
      subst hi
      unfold btor_init_sat at h
      cases prov <;> cases need <;> simp at hpn <;> simp at h
  · exfalso
    simp [btor_init_sat, hi] at h

theorem except_map_ok {ε α β : Type} (x : Except ε α) (g : α → β) (b : β)
    (h : x.map g = Except.ok b) : ∃ a, x = Except.ok a ∧ g a = b := by
  cases x with
  | error e => simp [Except.map] at h
  | ok a =>
    simp only [Except.map, Except.ok.injEq] at h
    exact ⟨a, rfl, h⟩

/-- What a successful call of `btor_release_cnf_id_sat_mgr` has done. -/
theorem release_cnf_id_spec (smgr smgr' : BtorSATMgr) (lit : Int)
    (h : btor_release_cnf_id_sat_mgr smgr lit = Except.ok smgr') :
    smgr' = { smgr with trace := smgr'.trace } := by
  unfold btor_release_cnf_id_sat_mgr at h
  split at h
  · simp only [Except.ok.injEq] at h
    subst h
    rfl
  · split at h
    · cases h
    · split at h
      · simp only [Except.ok.injEq] at h
        subst h
        rfl
      · split at h
        · simp only [Except.ok.injEq] at h
          subst h
          unfold btor_lingeling_melt
          split <;> rfl
        · simp only [Except.ok.injEq] at h
          subst h
          rfl

/-- The fields of the manager that a successful call keeps, for each call. -/
theorem sat_step_fields (smgr smgr' : BtorSATMgr) (op : BtorSATOp)
    (h : sat_step smgr op = Except.ok smgr') :
    smgr'.maxvar = (returned_cnf_ids [op]).foldl max smgr.maxvar
      ∧ ((smgr.inc_api.melt = true ↔ smgr.api = BtorSATSolver.Lingeling) →
          (smgr'.inc_api.melt = true ↔ smgr'.api = BtorSATSolver.Lingeling))
      ∧ ((smgr.initialized = true → 0 < smgr.true_lit) →
          (smgr'.initialized = true → 0 < smgr'.true_lit)) := by
  cases op with
  | enable_precosat =>
    simp only [sat_step, btor_enable_precosat_sat] at h
    split at h
    · cases h
    · simp only [Except.ok.injEq] at h
      subst h
      simp [returned_cnf_ids]
  | enable_picosat =>
    simp only [sat_step, btor_enable_picosat_sat] at h
    split at h
    · cases h
    · simp only [Except.ok.injEq] at h
      subst h
      simp [returned_cnf_ids]
  | enable_lingeling optstr valid =>
    simp only [sat_step] at h
    obtain ⟨r, hr, hr2⟩ := except_map_ok _ _ _ h
    subst hr2
    simp only [btor_enable_lingeling_sat] at hr
    split at hr
    · cases hr
    · split at hr
      · simp only [Except.ok.injEq] at hr
        subst hr
        simp [returned_cnf_ids]
      · simp only [Except.ok.injEq] at hr
        subst hr
        simp [returned_cnf_ids]
  | enable_minisat =>
    simp only [sat_step, btor_enable_minisat_sat] at h
    split at h
    · cases h
    · simp only [Except.ok.injEq] at h
      subst h
      simp [returned_cnf_ids]
  | set_verbosity verbosity =>
    simp only [sat_step, btor_set_verbosity_sat_mgr] at h
    split at h
    · cases h
    · simp only [Except.ok.injEq] at h
      subst h
      simp [returned_cnf_ids]
  | init incremental solver result =>
    simp only [sat_step] at h
    obtain ⟨-, -, hr, -, rfl⟩ := init_sat_spec _ _ _ _ _ h
    simp [returned_cnf_ids, init_sat_result, hr]
  | next_cnf_id result =>
    simp only [sat_step] at h
    obtain ⟨r, hr, hr2⟩ := except_map_ok _ _ _ h
    subst hr2
    obtain ⟨-, -, -, hs⟩ := next_cnf_id_spec smgr r.2 result r.1 hr
    rw [hs]
    simp [returned_cnf_ids]
  | release_cnf_id lit =>
    simp only [sat_step] at h
    rw [release_cnf_id_spec _ _ _ h]
    simp [returned_cnf_ids]
  | add lit =>
    simp only [sat_step] at h
    obtain ⟨-, -, -, rfl⟩ := add_sat_spec _ _ _ h
    simp [returned_cnf_ids]
  | assume lit =>
    simp only [sat_step, btor_assume_sat] at h
    split at h
    · cases h
    · split at h
      · cases h
      · split at h
        · cases h
        · split at h
          · cases h
          · simp only [Except.ok.injEq] at h
            subst h
            simp [returned_cnf_ids]
  | sat limit result =>
    simp only [sat_step] at h
    obtain ⟨r, hr, hr2⟩ := except_map_ok _ _ _ h
    subst hr2
    simp only [btor_sat_sat] at hr
    split at hr
    · cases hr
    · simp only [Except.ok.injEq] at hr
      subst hr
      simp [returned_cnf_ids]
  | reset =>
    simp only [sat_step, btor_reset_sat] at h
    split at h
    · cases h
    · simp only [Except.ok.injEq] at h
      subst h
      simp [returned_cnf_ids]

theorem returned_cnf_ids_cons (op : BtorSATOp) (rest : List BtorSATOp) :
    returned_cnf_ids (op :: rest) = returned_cnf_ids [op] ++ returned_cnf_ids rest := by
  cases op <;> simp [returned_cnf_ids]

/-- Along a sequence of calls, `maxvar` is the largest of its value at the start and of the
ids that `btor_next_cnf_id_sat_mgr` has returned. -/
theorem sat_run_maxvar (ops : List BtorSATOp) :
    ∀ (smgr smgr' : BtorSATMgr), sat_run ops smgr = Except.ok smgr' →
      smgr'.maxvar = (returned_cnf_ids ops).foldl max smgr.maxvar := by
  induction ops with
  | nil =>
    intro smgr smgr' h
    simp only [sat_run, Except.ok.injEq] at h
    subst h
    rfl
  | cons op rest ih =>
    intro smgr smgr' h
    simp only [sat_run] at h
    cases hs : sat_step smgr op with
    | error e => rw [hs] at h; cases h
    | ok s1 =>
      rw [hs] at h
      simp only [] at h
      rw [returned_cnf_ids_cons op rest, List.foldl_append, ih s1 smgr' h,
        (sat_step_fields smgr s1 op hs).1]

/-- In a reachable manager a `melt` function is installed exactly when the driver is the
one of Lingeling. -/
theorem sat_run_melt (ops : List BtorSATOp) :
    ∀ (smgr smgr' : BtorSATMgr), sat_run ops smgr = Except.ok smgr' →
      (smgr.inc_api.melt = true ↔ smgr.api = BtorSATSolver.Lingeling) →
      (smgr'.inc_api.melt = true ↔ smgr'.api = BtorSATSolver.Lingeling) := by
  induction ops with
  | nil =>
    intro smgr smgr' h
    simp only [sat_run, Except.ok.injEq] at h
    subst h
    exact id
  | cons op rest ih =>
    intro smgr smgr' h hm
    simp only [sat_run] at h
    cases hs : sat_step smgr op with
    | error e => rw [hs] at h; cases h
    | ok s1 =>
      rw [hs] at h
      exact ih s1 smgr' h ((sat_step_fields smgr s1 op hs).2.1 hm)

theorem new_sat_mgr_melt (use_lingeling : Bool) :
    ((btor_new_sat_mgr use_lingeling).inc_api.melt = true
      ↔ (btor_new_sat_mgr use_lingeling).api = BtorSATSolver.Lingeling) := by
  cases use_lingeling <;> decide

theorem foldl_max_ge (ids : List Int) : ∀ m : Int, m ≤ ids.foldl max m := by
  induction ids with
  | nil => intro m; exact le_refl m
  | cons a rest ih =>
    intro m
    simp only [List.foldl_cons]
    exact le_trans (le_max_left m a) (ih (max m a))

theorem foldl_max_mem (ids : List Int) :
    ∀ m : Int, ∀ id ∈ ids, id ≤ ids.foldl max m := by
  induction ids with
  | nil => intro m id h; cases h
  | cons a rest ih =>
    intro m id h
    simp only [List.foldl_cons]
    rcases List.mem_cons.1 h with rfl | h
    · exact le_trans (le_max_right m id) (foldl_max_ge rest _)
    · exact ih _ id h

theorem foldl_max_le (ids : List Int) :
    ∀ m b : Int, m ≤ b → (∀ id ∈ ids, id ≤ b) → ids.foldl max m ≤ b := by
  induction ids with
  | nil => intro m b hm _; exact hm
  | cons a rest ih =>
    intro m b hm h
    simp only [List.foldl_cons]
    exact ih _ b (max_le hm (h a (List.mem_cons_self _ _)))
      (fun id hid => h id (List.mem_cons_of_mem _ hid))

/-- In a reachable manager that is initialized, `true_lit` is a positive id. -/
theorem sat_run_true_lit (ops : List BtorSATOp) :
    ∀ (smgr smgr' : BtorSATMgr), sat_run ops smgr = Except.ok smgr' →
      (smgr.initialized = true → 0 < smgr.true_lit) →
      (smgr'.initialized = true → 0 < smgr'.true_lit) := by
  induction ops with
  | nil =>
    intro smgr smgr' h
    simp only [sat_run, Except.ok.injEq] at h
    subst h
    exact id
  | cons op rest ih =>
    intro smgr smgr' h hm
    simp only [sat_run] at h
    cases hs : sat_step smgr op with
    | error e => rw [hs] at h; cases h
    | ok s1 =>
      rw [hs] at h
      exact ih s1 smgr' h ((sat_step_fields smgr s1 op hs).2.2 hm)

theorem sat_step_ids_pos (smgr smgr' : BtorSATMgr) (op : BtorSATOp)
    (h : sat_step smgr op = Except.ok smgr') : ∀ id ∈ returned_cnf_ids [op], 0 < id := by
  cases op with
  | init incremental solver result =>
    simp only [sat_step] at h
    obtain ⟨-, -, hr, -, -⟩ := init_sat_spec _ _ _ _ _ h
    simpa [returned_cnf_ids] using hr
  | next_cnf_id result =>
    simp only [sat_step] at h
    obtain ⟨r, hr, -⟩ := except_map_ok _ _ _ h
    obtain ⟨-, hpos, -, -⟩ := next_cnf_id_spec smgr r.2 result r.1 hr
    simpa [returned_cnf_ids] using hpos
  | _ => simp [returned_cnf_ids]

theorem sat_run_ids_pos (ops : List BtorSATOp) :
    ∀ (smgr smgr' : BtorSATMgr), sat_run ops smgr = Except.ok smgr' →
      ∀ id ∈ returned_cnf_ids ops, 0 < id := by
  induction ops with
  | nil =>
    intro smgr smgr' _ id hid
    simp [returned_cnf_ids] at hid
  | cons op rest ih =>
    intro smgr smgr' h id hid
    simp only [sat_run] at h
    cases hs : sat_step smgr op with
    | error e => rw [hs] at h; cases h
    | ok s1 =>
      rw [hs] at h
      rw [returned_cnf_ids_cons, List.mem_append] at hid
      rcases hid with hid | hid
      · exact sat_step_ids_pos smgr s1 op hs id hid
      · exact ih s1 smgr' h id hid

theorem foldl_max_mem_or (ids : List Int) :
    ∀ m : Int, ids.foldl max m = m ∨ ids.foldl max m ∈ ids := by
  induction ids with
  | nil => intro m; exact Or.inl rfl
  | cons a rest ih =>
    intro m
    simp only [List.foldl_cons]
    rcases ih (max m a) with h | h
    · rw [h]
      rcases max_choice m a with h' | h'
      · exact Or.inl h'
      · rw [h']
        exact Or.inr (List.mem_cons_self _ _)
    · exact Or.inr (List.mem_cons_of_mem _ h)

/-- C26: on an initialized manager, when the driver's `inc_max_var` returns `result > 0`
the call `btor_next_cnf_id_sat_mgr` returns `result` and sets `maxvar` to the larger of
its old value and `result`; when `result ≤ 0` the call aborts with "CNF id overflow".
No call of the manager decreases `maxvar`, and in every reachable manager `maxvar` is the
largest id that `btor_next_cnf_id_sat_mgr` has returned so far (0 when there is none). -/
theorem next_cnf_id_returns_driver_id (smgr : BtorSATMgr) (result : Int)
    (hi : smgr.initialized = true) :
    (0 < result →
      ∃ smgr', btor_next_cnf_id_sat_mgr smgr result = Except.ok (result, smgr')
        ∧ smgr'.maxvar = max smgr.maxvar result)
    ∧ (result ≤ 0 →
        btor_next_cnf_id_sat_mgr smgr result
          = Except.error (BtorSATAbort.abort_sat "btor_next_cnf_id_sat_mgr" "CNF id overflow"))
    ∧ (∀ (s s' : BtorSATMgr) (op : BtorSATOp), sat_step s op = Except.ok s' →
        s.maxvar ≤ s'.maxvar)
    ∧ (∀ (use_lingeling : Bool) (ops : List BtorSATOp) (s : BtorSATMgr),
        sat_run ops (btor_new_sat_mgr use_lingeling) = Except.ok s →
          s.maxvar = largest_id (returned_cnf_ids ops)
          ∧ (∀ id ∈ returned_cnf_ids ops, id ≤ s.maxvar)
          ∧ (returned_cnf_ids ops ≠ [] → s.maxvar ∈ returned_cnf_ids ops)) := by
  refine ⟨fun hr => ⟨_, next_cnf_id_ok smgr result hi hr, rfl⟩,
    fun hr => next_cnf_id_overflow smgr result hi hr, ?_, ?_⟩
  · intro s s' op h
    rw [(sat_step_fields s s' op h).1]
    exact foldl_max_ge _ _
  · intro use_lingeling ops s h
    have h0 : (btor_new_sat_mgr use_lingeling).maxvar = 0 := by
      cases use_lingeling <;> rfl
    have hm := sat_run_maxvar ops _ s h
    rw [h0] at hm
    refine ⟨hm, ?_, ?_⟩
    · intro id hid
      rw [hm]
      exact foldl_max_mem _ 0 id hid
    · intro hne
      rcases foldl_max_mem_or (returned_cnf_ids ops) 0 with h' | h'
      · exfalso
        obtain ⟨id, hid⟩ := List.exists_mem_of_ne_nil _ hne
        have h1 := foldl_max_mem _ 0 id hid
        have h2 := sat_run_ids_pos ops _ s h id hid
        omega
      · rw [hm]
        exact h'

theorem next_cnf_id_returns_driver_id_witness :
    (init_sat_result (btor_new_sat_mgr false) true none 1).initialized = true
    ∧ ((0 : Int) < 2 →
      ∃ smgr', btor_next_cnf_id_sat_mgr (init_sat_result (btor_new_sat_mgr false) true none 1) 2
          = Except.ok (2, smgr')
        ∧ smgr'.maxvar = max (init_sat_result (btor_new_sat_mgr false) true none 1).maxvar 2)
    ∧ ((2 : Int) ≤ 0 →
        btor_next_cnf_id_sat_mgr (init_sat_result (btor_new_sat_mgr false) true none 1) 2
          = Except.error (BtorSATAbort.abort_sat "btor_next_cnf_id_sat_mgr" "CNF id overflow"))
    ∧ (∀ (s s' : BtorSATMgr) (op : BtorSATOp), sat_step s op = Except.ok s' →
        s.maxvar ≤ s'.maxvar)
    ∧ (∀ (use_lingeling : Bool) (ops : List BtorSATOp) (s : BtorSATMgr),
        sat_run ops (btor_new_sat_mgr use_lingeling) = Except.ok s →
          s.maxvar = largest_id (returned_cnf_ids ops)
          ∧ (∀ id ∈ returned_cnf_ids ops, id ≤ s.maxvar)
          ∧ (returned_cnf_ids ops ≠ [] → s.maxvar ∈ returned_cnf_ids ops)) :=
  ⟨rfl, next_cnf_id_returns_driver_id (init_sat_result (btor_new_sat_mgr false) true none 1) 2
    rfl⟩

/-- C27, counterexample: ids 1, 2, 3 are returned, the manager is reset and initialized
again, and the new solver returns the ids 1 and 2; the most recent id is 2 and `maxvar`
is 3. -/
theorem maxvar_above_most_recent_id :
    ∃ smgr, sat_run ex_reset_ops (btor_new_sat_mgr true) = Except.ok smgr
      ∧ (returned_cnf_ids ex_reset_ops).getLast? = some 2
      ∧ smgr.maxvar = 3 :=
  ⟨_, rfl, by decide, by decide⟩

/-- C27, as amended: after at least one successful call of `btor_next_cnf_id_sat_mgr`, in
every reachable manager `maxvar` is the largest id returned so far, so it is at least the
most recent id, and it is the most recent id when no earlier call has returned a larger
one. -/
theorem maxvar_is_largest_returned_id (use_lingeling : Bool) (ops : List BtorSATOp)
    (smgr : BtorSATMgr) (last : Int)
    (hrun : sat_run ops (btor_new_sat_mgr use_lingeling) = Except.ok smgr)
    (hlast : (returned_cnf_ids ops).getLast? = some last) :
    smgr.maxvar = largest_id (returned_cnf_ids ops)
      ∧ last ≤ smgr.maxvar
      ∧ ((∀ id ∈ returned_cnf_ids ops, id ≤ last) → smgr.maxvar = last) := by
  have h0 : (btor_new_sat_mgr use_lingeling).maxvar = 0 := by
    cases use_lingeling <;> rfl
  have hm := sat_run_maxvar ops _ smgr hrun
  rw [h0] at hm
  have hmem : last ∈ returned_cnf_ids ops := List.mem_of_getLast?_eq_some hlast
  have hle : last ≤ smgr.maxvar := by
    rw [hm]
    exact foldl_max_mem _ 0 last hmem
  refine ⟨hm, hle, fun hall => le_antisymm ?_ hle⟩
  rw [hm]
  exact foldl_max_le _ 0 last (le_of_lt (sat_run_ids_pos ops _ smgr hrun last hmem)) hall

theorem maxvar_is_largest_returned_id_witness :
    sat_run ex_reset_ops (btor_new_sat_mgr true) = Except.ok ex_reset_smgr
    ∧ (returned_cnf_ids ex_reset_ops).getLast? = some 2
    ∧ ex_reset_smgr.maxvar = largest_id (returned_cnf_ids ex_reset_ops)
    ∧ 2 ≤ ex_reset_smgr.maxvar
    ∧ ((∀ id ∈ returned_cnf_ids ex_reset_ops, id ≤ 2) → ex_reset_smgr.maxvar = 2) :=
  ⟨rfl, by decide,
    maxvar_is_largest_returned_id true ex_reset_ops ex_reset_smgr 2 rfl (by decide)⟩

/-! ## The SAT manager: initialization, release and reset -/

/-- C28: `btor_init_sat (smgr, incremental)` on an uninitialized manager, under the
assertions of the call (an incremental call needs `inc.provides` and `inc.need`, a
non-incremental one that no `sat` call was made) and with a driver that returns a positive
id, returns; it marks the manager initialized, sets `true_lit` to the id of its one call
of `btor_next_cnf_id_sat_mgr`, passes exactly `true_lit` and then `0` to the driver's `add`,
increases `clauses` by 1, clears `inc.need` when `incremental` is false and keeps it when
`incremental` is true. -/
theorem init_sat_adds_true_lit (smgr : BtorSATMgr) (incremental : Bool) (solver : Option Nat)
    (result : Int) (hi : smgr.initialized = false)
    (hinc : incremental = true → smgr.inc_provides = true ∧ smgr.inc_need = true)
    (hr : 0 < result) (hnon : incremental = false → smgr.satcalls = 0) :
    ∃ smgr', btor_init_sat smgr incremental solver result = Except.ok smgr'
      ∧ smgr'.initialized = true
      ∧ smgr'.solver = solver
      ∧ smgr'.true_lit = result
      ∧ smgr'.trace = smgr.trace ++ [BtorSATCall.init, BtorSATCall.inc_max_var,
          BtorSATCall.add smgr'.true_lit, BtorSATCall.add 0]
      ∧ smgr'.clauses = smgr.clauses + 1
      ∧ (incremental = false → smgr'.inc_need = false)
      ∧ (incremental = true → smgr'.inc_need = smgr.inc_need) := by
  refine ⟨_, init_sat_ok smgr incremental solver result hi hinc hr hnon, rfl, rfl, rfl, rfl,
    rfl, ?_, ?_⟩
  · intro h
    subst h
    simp [init_sat_result]
  · intro h
    subst h
    simp [init_sat_result]

theorem init_sat_adds_true_lit_witness :
    (btor_new_sat_mgr false).initialized = false
    ∧ (false = true → (btor_new_sat_mgr false).inc_provides = true
        ∧ (btor_new_sat_mgr false).inc_need = true)
    ∧ (0 : Int) < 1
    ∧ (false = false → (btor_new_sat_mgr false).satcalls = 0)
    ∧ ∃ smgr', btor_init_sat (btor_new_sat_mgr false) false none 1 = Except.ok smgr'
      ∧ smgr'.initialized = true
      ∧ smgr'.solver = none
      ∧ smgr'.true_lit = 1
      ∧ smgr'.trace = (btor_new_sat_mgr false).trace ++ [BtorSATCall.init,
          BtorSATCall.inc_max_var, BtorSATCall.add smgr'.true_lit, BtorSATCall.add 0]
      ∧ smgr'.clauses = (btor_new_sat_mgr false).clauses + 1
      ∧ (false = false → smgr'.inc_need = false)
      ∧ (false = true → smgr'.inc_need = (btor_new_sat_mgr false).inc_need) :=
  ⟨rfl, by decide, by decide, by decide,
    init_sat_adds_true_lit (btor_new_sat_mgr false) false none 1 rfl (by decide) (by decide)
      (by decide)⟩

theorem abs_ne_id (l t : Int) (ht : 0 < t) (hl : |l| ≠ t) : l ≠ t ∧ l ≠ - t := by
  constructor
  · intro h
    apply hl
    rw [h]
    exact abs_of_pos ht
  · intro h
    apply hl
    rw [h, abs_neg]
    exact abs_of_pos ht

/-- C29: in every reachable manager, for `|lit| ≤ maxvar`,
`btor_release_cnf_id_sat_mgr (smgr, lit)` returns and changes at most the record of the calls
made into the driver; it calls the driver's `melt`, with `lit`, exactly when the manager is
initialized, the driver provides `melt` and `|lit|` is not `true_lit`, so neither `true_lit`
nor `-true_lit` is passed to `melt`; the Lingeling driver passes the literal on to `lglmelt`
when `inc.need` is set.  With a driver without `melt`, as the ones of PicoSAT and MiniSAT,
the call leaves the manager unchanged. -/
theorem release_cnf_id_melts (use_lingeling : Bool) (ops : List BtorSATOp) (smgr : BtorSATMgr)
    (lit : Int) (hrun : sat_run ops (btor_new_sat_mgr use_lingeling) = Except.ok smgr)
    (hlit : |lit| ≤ smgr.maxvar) :
    ∃ (smgr' : BtorSATMgr) (calls : List BtorSATCall),
      btor_release_cnf_id_sat_mgr smgr lit = Except.ok smgr'
      ∧ smgr' = { smgr with trace := smgr.trace ++ calls }
      ∧ (BtorSATCall.melt lit ∈ calls
          ↔ (smgr.initialized = true ∧ smgr.inc_api.melt = true ∧ |lit| ≠ smgr.true_lit))
      ∧ (∀ l, BtorSATCall.melt l ∈ calls ∨ BtorSATCall.lglmelt l ∈ calls →
          l = lit ∧ l ≠ smgr.true_lit ∧ l ≠ - smgr.true_lit)
      ∧ (BtorSATCall.lglmelt lit ∈ calls
          ↔ (BtorSATCall.melt lit ∈ calls ∧ smgr.inc_need = true))
      ∧ (smgr.inc_api.melt = false → smgr' = smgr)
      ∧ (smgr.api = BtorSATSolver.PicoSAT ∨ smgr.api = BtorSATSolver.MiniSAT → smgr' = smgr) := by
  have hreach : smgr.api = BtorSATSolver.PicoSAT ∨ smgr.api = BtorSATSolver.MiniSAT →
      smgr.inc_api.melt = false := by
    intro hapi
    have hiff := sat_run_melt ops _ smgr hrun (new_sat_mgr_melt use_lingeling)
    cases hm : smgr.inc_api.melt with
    | false => rfl
    | true =>
      have := hiff.1 hm
      rcases hapi with h | h <;> rw [h] at this <;> cases this
  have htl : smgr.initialized = true → 0 < smgr.true_lit :=
    sat_run_true_lit ops _ smgr hrun (fun h => by cases use_lingeling <;> cases h)
  have hsame : ({ smgr with trace := smgr.trace ++ [] } : BtorSATMgr) = smgr := by
    simp
  have hnone : ¬ (smgr.initialized = true ∧ smgr.inc_api.melt = true
        ∧ |lit| ≠ smgr.true_lit) →
      btor_release_cnf_id_sat_mgr smgr lit = Except.ok smgr →
      ∃ (smgr' : BtorSATMgr) (calls : List BtorSATCall),
        btor_release_cnf_id_sat_mgr smgr lit = Except.ok smgr'
        ∧ smgr' = { smgr with trace := smgr.trace ++ calls }
        ∧ (BtorSATCall.melt lit ∈ calls
            ↔ (smgr.initialized = true ∧ smgr.inc_api.melt = true ∧ |lit| ≠ smgr.true_lit))
        ∧ (∀ l, BtorSATCall.melt l ∈ calls ∨ BtorSATCall.lglmelt l ∈ calls →
            l = lit ∧ l ≠ smgr.true_lit ∧ l ≠ - smgr.true_lit)
        ∧ (BtorSATCall.lglmelt lit ∈ calls
            ↔ (BtorSATCall.melt lit ∈ calls ∧ smgr.inc_need = true))
        ∧ (smgr.inc_api.melt = false → smgr' = smgr)
        ∧ (smgr.api = BtorSATSolver.PicoSAT ∨ smgr.api = BtorSATSolver.MiniSAT →
            smgr' = smgr) := by
    intro hc hres
    refine ⟨smgr, [], hres, hsame.symm, ?_, ?_, ?_, fun _ => rfl, fun _ => rfl⟩
    · constructor
      · intro h; cases h
      · intro h; exact absurd h hc
    · intro l h
      rcases h with h | h <;> cases h
    · constructor
      · intro h; cases h
      · intro h; cases h.1
  by_cases hi : smgr.initialized = true
  · by_cases ht : |lit| = smgr.true_lit
    · have hlit' : smgr.true_lit ≤ smgr.maxvar := ht ▸ hlit
      exact hnone (fun h => h.2.2 ht) (by simp [btor_release_cnf_id_sat_mgr, hi, hlit', ht])
    · by_cases hm : smgr.inc_api.melt = true
      case neg =>
        exact hnone (fun h => hm h.2.1)
          (by simp [btor_release_cnf_id_sat_mgr, hi, hlit, ht, hm])
      case pos =>
        have hne := abs_ne_id lit smgr.true_lit (htl hi) ht
        have hnp : ¬ (smgr.api = BtorSATSolver.PicoSAT ∨ smgr.api = BtorSATSolver.MiniSAT) := by
          intro h
          rw [hreach h] at hm
          cases hm
        have hmf : smgr.inc_api.melt = false → False := fun h => by rw [hm] at h; cases h
        by_cases hn : smgr.inc_need = true
        case neg =>
          refine ⟨{ smgr with trace := smgr.trace ++ [BtorSATCall.melt lit] },
            [BtorSATCall.melt lit], ?_, rfl, ?_, ?_, ?_, ?_, ?_⟩
          · simp [btor_release_cnf_id_sat_mgr, btor_lingeling_melt, hi, hlit, ht, hm, hn]
          · simp [hi, ht, hm]
          · intro l h
            simp only [List.mem_singleton, BtorSATCall.melt.injEq, reduceCtorEq, or_false] at h
            subst h
            exact ⟨rfl, hne⟩
          · simp [hn]
          · intro h; exact absurd h hmf
          · intro h; exact absurd h hnp
        case pos =>
          refine ⟨{ smgr with
              trace := smgr.trace ++ [BtorSATCall.melt lit, BtorSATCall.lglmelt lit] },
            [BtorSATCall.melt lit, BtorSATCall.lglmelt lit], ?_, rfl, ?_, ?_, ?_, ?_, ?_⟩
          · simp [btor_release_cnf_id_sat_mgr, btor_lingeling_melt, hi, hlit, ht, hm, hn]
          · simp [hi, ht, hm]
          · intro l h
            simp only [List.mem_cons, BtorSATCall.melt.injEq, reduceCtorEq, false_or,
              or_false, List.mem_singleton, BtorSATCall.lglmelt.injEq, List.mem_nil_iff,
              or_self] at h
            subst h
            exact ⟨rfl, hne⟩
          · simp [hn]
          · intro h; exact absurd h hmf
          · intro h; exact absurd h hnp
  · exact hnone (fun h => hi h.1) (by simp [btor_release_cnf_id_sat_mgr, hi])

theorem release_cnf_id_melts_witness :
    sat_run ex_reset_ops (btor_new_sat_mgr true) = Except.ok ex_reset_smgr
    ∧ |(2 : Int)| ≤ ex_reset_smgr.maxvar
    ∧ ∃ (smgr' : BtorSATMgr) (calls : List BtorSATCall),
      btor_release_cnf_id_sat_mgr ex_reset_smgr 2 = Except.ok smgr'
      ∧ smgr' = { ex_reset_smgr with trace := ex_reset_smgr.trace ++ calls }
      ∧ (BtorSATCall.melt 2 ∈ calls
          ↔ (ex_reset_smgr.initialized = true ∧ ex_reset_smgr.inc_api.melt = true
              ∧ |(2 : Int)| ≠ ex_reset_smgr.true_lit))
      ∧ (∀ l, BtorSATCall.melt l ∈ calls ∨ BtorSATCall.lglmelt l ∈ calls →
          l = 2 ∧ l ≠ ex_reset_smgr.true_lit ∧ l ≠ - ex_reset_smgr.true_lit)
      ∧ (BtorSATCall.lglmelt 2 ∈ calls
          ↔ (BtorSATCall.melt 2 ∈ calls ∧ ex_reset_smgr.inc_need = true))
      ∧ (ex_reset_smgr.inc_api.melt = false → smgr' = ex_reset_smgr)
      ∧ (ex_reset_smgr.api = BtorSATSolver.PicoSAT ∨ ex_reset_smgr.api = BtorSATSolver.MiniSAT →
          smgr' = ex_reset_smgr) :=
  ⟨rfl, by decide, release_cnf_id_melts true ex_reset_ops ex_reset_smgr 2 rfl (by decide)⟩

/-- C30, counterexample: (1) a manager is initialized in non-incremental mode and reset; it
is uninitialized with a null solver handle, and the following `btor_init_sat (smgr, 1)`
fails an assertion, because `inc.need` is still cleared; (2) a manager is initialized in
incremental mode, `btor_sat_sat` is called and the manager is reset; the following
`btor_init_sat (smgr, 0)` fails an assertion, because `satcalls` is still 1. -/
theorem init_after_reset_fails :
    (∃ smgr, sat_run [BtorSATOp.init false (some 1) 1, BtorSATOp.reset] (btor_new_sat_mgr true)
        = Except.ok smgr
      ∧ smgr.initialized = false ∧ smgr.solver = none
      ∧ btor_init_sat smgr true (some 1) 1 = Except.error BtorSATAbort.assertion)
    ∧ ∃ smgr, sat_run [BtorSATOp.init true (some 1) 1, BtorSATOp.sat (-1) 10, BtorSATOp.reset]
          (btor_new_sat_mgr true) = Except.ok smgr
        ∧ smgr.initialized = false ∧ smgr.solver = none
        ∧ btor_init_sat smgr false (some 1) 1 = Except.error BtorSATAbort.assertion :=
  ⟨⟨_, rfl, rfl, rfl, rfl⟩, ⟨_, rfl, rfl, rfl, rfl⟩⟩

/-- C30, as amended: from every initialized manager `btor_reset_sat` returns and leaves the
manager uninitialized with a null solver handle, every other field being kept.  With a
driver that returns a positive id, a following `btor_init_sat (smgr, incremental)` returns
exactly when its assertions hold: for an incremental call `inc.provides` and `inc.need`
are set (so not after a non-incremental initialization), for a non-incremental call
`satcalls` is 0 (so not after a call of `btor_sat_sat`). -/
theorem reset_then_init (smgr : BtorSATMgr) (incremental : Bool) (solver : Option Nat)
    (result : Int) (hi : smgr.initialized = true) (hr : 0 < result) :
    ∃ smgr', btor_reset_sat smgr = Except.ok smgr'
      ∧ smgr'.initialized = false
      ∧ smgr'.solver = none
      ∧ smgr' = { smgr with
          trace := smgr.trace ++ [BtorSATCall.reset], solver := none, initialized := false }
      ∧ ((∃ smgr2, btor_init_sat smgr' incremental solver result = Except.ok smgr2)
          ↔ ((incremental = true → smgr.inc_provides = true ∧ smgr.inc_need = true)
            ∧ (incremental = false → smgr.satcalls = 0))) := by
  refine ⟨_, by simp [btor_reset_sat, hi], rfl, rfl, rfl, ?_⟩
  constructor
  · rintro ⟨s, hs⟩
    obtain ⟨-, h1, -, h2, -⟩ := init_sat_spec _ _ _ _ _ hs
    exact ⟨h1, h2⟩
  · rintro ⟨h1, h2⟩
    exact ⟨_, init_sat_ok _ incremental solver result rfl h1 hr h2⟩

theorem reset_then_init_witness :
    ex_reset_smgr.initialized = true ∧ (0 : Int) < 1
    ∧ ∃ smgr', btor_reset_sat ex_reset_smgr = Except.ok smgr'
      ∧ smgr'.initialized = false
      ∧ smgr'.solver = none
      ∧ smgr' = { ex_reset_smgr with
          trace := ex_reset_smgr.trace ++ [BtorSATCall.reset], solver := none,
          initialized := false }
      ∧ ((∃ smgr2, btor_init_sat smgr' true (some 1) 1 = Except.ok smgr2)
          ↔ ((true = true → ex_reset_smgr.inc_provides = true ∧ ex_reset_smgr.inc_need = true)
            ∧ (true = false → ex_reset_smgr.satcalls = 0))) :=
  ⟨by decide, by decide, reset_then_init ex_reset_smgr true (some 1) 1 (by decide) (by decide)⟩

/-! ## Repeated calls of `boolector_mc_bmc` and the state on return -/

/-- A call of `boolector_mc_bmc` whose `maxk` is below the number of frames leaves the loop
at once. -/
theorem bmc_beyond_maxk (c : Collab) (mc : BtorMC) (mink maxk : Int)
    (h : maxk < (mc.frames.length : Int)) :
    boolector_mc_bmc c mc mink maxk
      = some (-1, { mc_release_assignment mc with state := BtorMCState.BTOR_UNSAT_MC_STATE }) := by
  unfold boolector_mc_bmc bmc_fuel
  simp only []
  unfold bmc_loop
  have hlen : (mc_release_assignment mc).frames.length = mc.frames.length := by
    simp [mc_release_assignment]
  have hk : ¬ (((mc_release_assignment mc).frames.length : Int) ≤ maxk) := by
    rw [hlen]; omega
  simp only [hk, if_false]

/-- C39: when a call `bmc (mink, maxk)` returns `maxk`, the same call made again at once
returns `-1`; it builds no frame (the frames keep their tables), makes no solver query and
no call of a call back, sets the state to UNSAT and leaves `reached` and `num_reached`
unchanged; for `maxk ≥ 0` the two results differ. -/
theorem bmc_repeated_returns_minus_one (c : Collab) (mc mc1 : BtorMC) (mink maxk : Int)
    (h1 : boolector_mc_bmc c mc mink maxk = some (maxk, mc1)) :
    ∃ mc2, boolector_mc_bmc c mc1 mink maxk = some (-1, mc2)
      ∧ mc2.frames.length = mc1.frames.length
      ∧ mc2.frames.map frame_tables = mc1.frames.map frame_tables
      ∧ mc2.trace = mc1.trace
      ∧ mc2.state = BtorMCState.BTOR_UNSAT_MC_STATE
      ∧ mc2.reached = mc1.reached
      ∧ mc2.num_reached = mc1.num_reached
      ∧ (0 ≤ maxk → (-1 : Int) ≠ maxk) := by
  have hlt : maxk < (mc1.frames.length : Int) := by
    obtain ⟨r, m, hr, -, hcase⟩ := bmc_spec c mc mink maxk
    rw [h1] at hr
    simp only [Option.some.injEq, Prod.mk.injEq] at hr
    obtain ⟨rfl, rfl⟩ := hr
    rcases hcase with ⟨-, -, hl, -⟩ | ⟨-, -, -, hl, -⟩
    · exact hl
    · omega
  refine ⟨_, bmc_beyond_maxk c mc1 mink maxk hlt, ?_, ?_, rfl, rfl, rfl, rfl, fun h => by omega⟩
  · simp [mc_release_assignment]
  · simp only [mc_release_assignment, List.map_map]
    rfl

theorem bmc_repeated_returns_minus_one_witness :
    boolector_mc_bmc (ex_collab [(0, 0)]) (ex_engine 1) 0 0 = some (0, ex_reached)
    ∧ ∃ mc2, boolector_mc_bmc (ex_collab [(0, 0)]) ex_reached 0 0 = some (-1, mc2)
      ∧ mc2.frames.length = ex_reached.frames.length
      ∧ mc2.frames.map frame_tables = ex_reached.frames.map frame_tables
      ∧ mc2.trace = ex_reached.trace
      ∧ mc2.state = BtorMCState.BTOR_UNSAT_MC_STATE
      ∧ mc2.reached = ex_reached.reached
      ∧ mc2.num_reached = ex_reached.num_reached
      ∧ ((0 : Int) ≤ 0 → (-1 : Int) ≠ 0) :=
  ⟨by decide,
    bmc_repeated_returns_minus_one (ex_collab [(0, 0)]) (ex_engine 1) ex_reached 0 0 (by decide)⟩

/-- C38: with two bad properties of which the first is answered SAT and the second UNSAT
at bound 0, `bmc (0, 0)` with `STOP_FIRST` on returns the bound 0 and leaves the state
UNSAT, the verdict of the last query; with trace generation on, `boolector_mc_assignment`
on the returned engine aborts. -/
theorem bmc_returns_bound_in_state_unsat :
    boolector_mc_get_opt (ex_engine_traced 2) BtorMCOption.BTOR_MC_OPT_STOP_FIRST = 1
    ∧ boolector_mc_get_opt (ex_engine_traced 2) BtorMCOption.BTOR_MC_OPT_TRACE_GEN = 1
    ∧ (ex_engine_traced 2).bad.length = 2
    ∧ ∃ mc', boolector_mc_bmc (ex_collab [(0, 0)]) (ex_engine_traced 2) 0 0 = some (0, mc')
      ∧ mc'.state = BtorMCState.BTOR_UNSAT_MC_STATE
      ∧ mc'.reached = [0, -1]
      ∧ owns_node mc' 0 = true
      ∧ boolector_mc_assignment ex_witness mc' 0 0 = none :=
  ⟨by decide, by decide, by decide, _, rfl, by decide, by decide, by decide, by decide⟩

/-! ## The counters of the next-state functions and of the initial values -/

theorem update_mc_latch_next_count (node x : BoolectorNode) :
    ∀ (ls : List BtorMCLatch) (latch : BtorMCLatch),
      ls.find? (fun l => l.node = node) = some latch → latch.next = none →
      ((update_mc_latch node (fun l => { l with next := some x }) ls).filter
          (fun l => l.next.isSome)).length
        = (ls.filter (fun l => l.next.isSome)).length + 1
      ∧ ((update_mc_latch node (fun l => { l with next := some x }) ls).filter
          (fun l => l.init.isSome)).length
        = (ls.filter (fun l => l.init.isSome)).length := by
  intro ls
  induction ls with
  | nil => intro latch h; simp at h
  | cons l rest ih =>
    intro latch hfind hnone
    by_cases hl : l.node = node
    · have : l = latch := by
        simp only [List.find?_cons, hl, decide_True] at hfind
        exact Option.some.inj hfind
      subst this
      simp only [update_mc_latch, hl, if_true]
      constructor
      · simp [List.filter_cons, hnone]
      · simp only [List.filter_cons]
        split <;> rfl
    · simp only [List.find?_cons, hl, decide_False] at hfind
      obtain ⟨h1, h2⟩ := ih latch hfind hnone
      simp only [update_mc_latch, hl, if_false, List.filter_cons]
      constructor
      · split
        · simp [h1]
        · exact h1
      · split
        · simp [h2]
        · exact h2

theorem update_mc_latch_init_count (node x : BoolectorNode) :
    ∀ (ls : List BtorMCLatch) (latch : BtorMCLatch),
      ls.find? (fun l => l.node = node) = some latch → latch.init = none →
      ((update_mc_latch node (fun l => { l with init := some x }) ls).filter
          (fun l => l.init.isSome)).length
        = (ls.filter (fun l => l.init.isSome)).length + 1
      ∧ ((update_mc_latch node (fun l => { l with init := some x }) ls).filter
          (fun l => l.next.isSome)).length
        = (ls.filter (fun l => l.next.isSome)).length := by
  intro ls
  induction ls with
  | nil => intro latch h; simp at h
  | cons l rest ih =>
    intro latch hfind hnone
    by_cases hl : l.node = node
    · have : l = latch := by
        simp only [List.find?_cons, hl, decide_True] at hfind
        exact Option.some.inj hfind
      subst this
      simp only [update_mc_latch, hl, if_true]
      constructor
      · simp [List.filter_cons, hnone]
      · simp only [List.filter_cons]
        split <;> rfl
    · simp only [List.find?_cons, hl, decide_False] at hfind
      obtain ⟨h1, h2⟩ := ih latch hfind hnone
      simp only [update_mc_latch, hl, if_false, List.filter_cons]
      constructor
      · split
        · simp [h1]
        · exact h1
      · split
        · simp [h2]
        · exact h2

/-- A registration call on an engine without frames keeps the counters equal to the numbers
of latches whose `next` and `init` are set. -/
theorem register_counters (mc mc' : BtorMC) (call : BtorMCCall)
    (hreg : register mc call = some mc')
    (hn : mc.nextstates = ((mc.latches.filter (fun l => l.next.isSome)).length : Int))
    (hi : mc.initialized = ((mc.latches.filter (fun l => l.init.isSome)).length : Int)) :
    mc'.nextstates = ((mc'.latches.filter (fun l => l.next.isSome)).length : Int)
    ∧ mc'.initialized = ((mc'.latches.filter (fun l => l.init.isSome)).length : Int) := by
  cases call with
  | node n =>
    simp only [register, Option.some.injEq] at hreg
    subst hreg
    exact ⟨hn, hi⟩
  | input width name =>
    simp only [register, boolector_input, Option.map_eq_some'] at hreg
    obtain ⟨r, hr, hmc⟩ := hreg
    split at hr
    · cases hr
    · split at hr
      · cases hr
      · simp only [Option.some.injEq] at hr
        subst hr
        subst hmc
        exact ⟨hn, hi⟩
  | latch width name =>
    simp only [register, boolector_latch, Option.map_eq_some'] at hreg
    obtain ⟨r, hr, hmc⟩ := hreg
    split at hr
    · cases hr
    · split at hr
      · cases hr
      · simp only [Option.some.injEq] at hr
        subst hr
        subst hmc
        simp only [List.filter_append, List.length_append]
        exact ⟨by simpa using hn, by simpa using hi⟩
  | next node next =>
    simp only [register, boolector_next] at hreg
    split at hreg
    · cases hreg
    · split at hreg
      · cases hreg
      · split at hreg
        · cases hreg
        · split at hreg
          · cases hreg
          · split at hreg
            · cases hreg
            · rename_i latch hfind
              split at hreg
              · cases hreg
              · rename_i hnext
                simp only [Option.some.injEq] at hreg
                subst hreg
                have hnone : latch.next = none := by
                  cases h : latch.next with
                  | none => rfl
                  | some x => rw [h] at hnext; exact absurd rfl hnext
                obtain ⟨h1, h2⟩ := update_mc_latch_next_count node next mc.latches latch hfind hnone
                simp only []
                rw [h1, h2]
                exact ⟨by rw [hn]; push_cast; rfl, hi⟩
  | init node init =>
    simp only [register, boolector_mc_init] at hreg
    split at hreg
    · cases hreg
    · split at hreg
      · cases hreg
      · split at hreg
        · cases hreg
        · split at hreg
          · cases hreg
          · split at hreg
            · cases hreg
            · split at hreg
              · cases hreg
              · rename_i latch hfind
                split at hreg
                · cases hreg
                · rename_i hinit
                  simp only [Option.some.injEq] at hreg
                  subst hreg
                  have hnone : latch.init = none := by
                    cases h : latch.init with
                    | none => rfl
                    | some x => rw [h] at hinit; exact absurd rfl hinit
                  obtain ⟨h1, h2⟩ :=
                    update_mc_latch_init_count node init mc.latches latch hfind hnone
                  simp only []
                  rw [h1, h2]
                  exact ⟨hn, by rw [hi]; push_cast; rfl⟩
  | bad bad =>
    simp only [register, boolector_bad, Option.map_eq_some'] at hreg
    obtain ⟨r, hr, hmc⟩ := hreg
    split at hr
    · cases hr
    · split at hr
      · cases hr
      · split at hr
        · cases hr
        · simp only [Option.some.injEq] at hr
          subst hr
          subst hmc
          exact ⟨hn, hi⟩
  | constraint constraint =>
    simp only [register, boolector_constraint, Option.map_eq_some'] at hreg
    obtain ⟨r, hr, hmc⟩ := hreg
    split at hr
    · cases hr
    · split at hr
      · cases hr
      · split at hr
        · cases hr
        · simp only [Option.some.injEq] at hr
          subst hr
          subst hmc
          exact ⟨hn, hi⟩

theorem counters_inv_build (c : Collab) (mc : BtorMC) (h : counters_inv mc) :
    counters_inv (initialize_new_forward_frame c mc) := by
  obtain ⟨f, fw', heq, -, -, -, -, -, -, hnext, -⟩ := build_shape c mc
  obtain ⟨a1, a2, a3⟩ := h
  rw [heq]
  refine ⟨a1, a2, ?_⟩
  intro f' hf'
  simp only [List.mem_append, List.mem_singleton] at hf'
  rcases hf' with hf' | hf'
  · exact a3 f' hf'
  · subst hf'
    exact hnext

theorem counters_inv_reachable (c : Collab) (steps : List BtorMCStep) (mc : BtorMC)
    (hrun : api_run c steps (boolector_mc_new c) = some mc) : counters_inv mc := by
  refine api_invariant c counters_inv ?_ ?_ ?_ ?_ ?_ ?_ (counters_inv_build c) ?_ steps mc hrun
  · exact ⟨rfl, rfl, fun f hf => by cases hf⟩
  · intro m options state call_backs forward2const verb h
    exact h
  · intro m e _ h
    exact h
  · intro m fs' hsame h
    obtain ⟨a1, a2, a3⟩ := h
    obtain ⟨-, hget⟩ := same_frame_get? m.frames fs' hsame
    refine ⟨a1, a2, ?_⟩
    intro f' hf'
    obtain ⟨t, ht⟩ := List.get?_of_mem hf'
    obtain ⟨f, hf, hsf⟩ := hget t f' ht
    have := a3 f (List.get?_mem hf)
    unfold same_frame at hsf
    rw [hsf]
    exact this
  · intro m m' call h hfr hreg
    obtain ⟨a1, a2, -⟩ := h
    obtain ⟨hf, -, -⟩ := register_frames_state m m' call hreg
    obtain ⟨b1, b2⟩ := register_counters m m' call hreg a1 a2
    refine ⟨b1, b2, ?_⟩
    intro f hfm
    rw [hf, hfr] at hfm
    cases hfm
  · intro m n h
    exact h
  · intro m h
    have hb := counters_inv_build c m h
    rw [check_last_forward_frame_eq]
    exact hb

theorem next_loop_nextstates_eq :
    ∀ (l : List BtorMCLatch) (n : Int),
      next_loop_nextstates l n = n + ((l.filter (fun l => l.next.isSome)).length : Int) := by
  intro l
  induction l with
  | nil => intro n; simp [next_loop_nextstates]
  | cons latch rest ih =>
    intro n
    unfold next_loop_nextstates
    cases h : latch.next with
    | none =>
      simp only [List.filter_cons, h, Option.isSome_none, Bool.false_eq_true, if_false]
      exact ih n
    | some x =>
      simp only [List.filter_cons, h, Option.isSome_some, if_true, List.length_cons]
      rw [ih]
      push_cast
      omega

theorem filter_isSome_length (s : BoolectorNodePtrStack) (l : List BtorMCLatch)
    (h : s.map Option.isSome = l.map (fun l => l.next.isSome)) :
    (s.filter Option.isSome).length = (l.filter (fun l => l.next.isSome)).length := by
  have h1 : (s.filter Option.isSome).length = ((s.map Option.isSome).filter id).length := by
    rw [List.filter_map, List.length_map]
    rfl
  have h2 : (l.filter (fun l => l.next.isSome)).length
      = ((l.map (fun l => l.next.isSome)).filter id).length := by
    rw [List.filter_map, List.length_map]
    rfl
  rw [h1, h2, h]

/-- C40: in every reachable engine `nextstates` is the number of latches whose `next` is
set and `initialized` the number of latches whose `init` is set; `boolector_next` aborts on
a latch whose `next` is set and `boolector_mc_init` on a latch whose `init` is set, so each
is set at most once per latch; the local counter of the substituted next-state functions
that the frame builder compares with `nextstates` is equal to it for the frame built on the
engine, and every frame of the engine has exactly `nextstates` non-null `next` entries. -/
theorem counters_count_set_latches (c : Collab) (steps : List BtorMCStep) (mc : BtorMC)
    (hrun : api_run c steps (boolector_mc_new c) = some mc) :
    mc.nextstates = ((mc.latches.filter (fun l => l.next.isSome)).length : Int)
    ∧ mc.initialized = ((mc.latches.filter (fun l => l.init.isSome)).length : Int)
    ∧ (∀ node next latch, find_mc_latch mc node = some latch → latch.next.isSome = true →
        boolector_next mc node next = none)
    ∧ (∀ node init latch, find_mc_latch mc node = some latch → latch.init.isSome = true →
        boolector_mc_init mc node init = none)
    ∧ next_loop_nextstates mc.latches 0 = mc.nextstates
    ∧ (∀ f, (initialize_new_forward_frame c mc).frames.getLast? = some f →
        ((f.next.filter Option.isSome).length : Int) = mc.nextstates)
    ∧ (∀ f, f ∈ mc.frames → ((f.next.filter Option.isSome).length : Int) = mc.nextstates) := by
  obtain ⟨a1, a2, a3⟩ := counters_inv_reachable c steps mc hrun
  refine ⟨a1, a2, ?_, ?_, ?_, ?_, ?_⟩
  · intro node next latch hfind hset
    unfold boolector_next
    simp only [hfind, hset, if_true, ite_self]
  · intro node init latch hfind hset
    unfold boolector_mc_init
    simp only [hfind, hset, if_true, ite_self]
  · rw [next_loop_nextstates_eq, a1]
    omega
  · intro f hf
    obtain ⟨-, -, b3⟩ := counters_inv_build c mc ⟨a1, a2, a3⟩
    have hmem : f ∈ (initialize_new_forward_frame c mc).frames := List.mem_of_getLast?_eq_some hf
    have hl : (initialize_new_forward_frame c mc).latches = mc.latches := by
      obtain ⟨f0, fw', heq, -⟩ := build_shape c mc
      rw [heq]
    have := b3 f hmem
    rw [hl] at this
    rw [filter_isSome_length _ _ this, a1]
  · intro f hf
    rw [filter_isSome_length _ _ (a3 f hf), a1]

theorem counters_count_set_latches_witness :
    api_run ex_verdicts ex_steps (boolector_mc_new ex_verdicts) = some ex_checked
    ∧ ex_checked.nextstates
        = ((ex_checked.latches.filter (fun l => l.next.isSome)).length : Int)
    ∧ ex_checked.initialized
        = ((ex_checked.latches.filter (fun l => l.init.isSome)).length : Int)
    ∧ (∀ node next latch, find_mc_latch ex_checked node = some latch →
        latch.next.isSome = true → boolector_next ex_checked node next = none)
    ∧ (∀ node init latch, find_mc_latch ex_checked node = some latch →
        latch.init.isSome = true → boolector_mc_init ex_checked node init = none)
    ∧ next_loop_nextstates ex_checked.latches 0 = ex_checked.nextstates
    ∧ (∀ f, (initialize_new_forward_frame ex_verdicts ex_checked).frames.getLast? = some f →
        ((f.next.filter Option.isSome).length : Int) = ex_checked.nextstates)
    ∧ (∀ f, f ∈ ex_checked.frames →
        ((f.next.filter Option.isSome).length : Int) = ex_checked.nextstates) :=
  ⟨by decide, counters_count_set_latches ex_verdicts ex_steps ex_checked (by decide)⟩

/-! ## The call back for the bounds -/

theorem starting_bound_calls_append (a b : List BtorMCEvent) :
    starting_bound_calls (a ++ b) = starting_bound_calls a ++ starting_bound_calls b := by
  simp [starting_bound_calls, List.filterMap_append]

theorem check_bad_loop_bounds (c : Collab) (k : Int) :
    ∀ (l : BoolectorNodePtrStack) (i : Nat) (s : Int) (m : BtorMC),
      ∃ evs, (check_bad_loop c k l i s m).2.trace = m.trace ++ evs
        ∧ starting_bound_calls evs = [] := by
  intro l
  induction l with
  | nil => intro i s m; exact ⟨[], by simp [check_bad_loop], rfl⟩
  | cons b rest ih =>
    intro i s m
    have key : ∀ (m3 : BtorMC) (s3 : Int) (ev0 : List BtorMCEvent),
        m3.trace = m.trace ++ ev0 → starting_bound_calls ev0 = [] →
        ∃ evs, (check_bad_loop c k rest (i + 1) s3 m3).2.trace = m.trace ++ evs
          ∧ starting_bound_calls evs = [] := by
      intro m3 s3 ev0 h3 h0
      obtain ⟨evs, h1, h2⟩ := ih (i + 1) s3 m3
      exact ⟨ev0 ++ evs, by rw [h1, h3, List.append_assoc],
        by rw [starting_bound_calls_append, h0, h2]; rfl⟩
    cases b with
    | none =>
      simp only [check_bad_loop]
      exact key m s [] (by simp) rfl
    | some b =>
      simp only [check_bad_loop]
      split
      · split
        · split
          · exact key _ _ [BtorMCEvent.sat_call k i b, BtorMCEvent.reached_at_bound i k]
              (by simp) rfl
          · exact key _ _ [BtorMCEvent.sat_call k i b] rfl rfl
        · exact key _ _ [BtorMCEvent.sat_call k i b] rfl rfl
      · exact key _ _ [BtorMCEvent.sat_call k i b] rfl rfl

theorem check_last_forward_frame_bounds (c : Collab) (m : BtorMC) :
    ∃ evs, (check_last_forward_frame c m).2.trace = m.trace ++ evs
      ∧ starting_bound_calls evs = [] := by
  unfold check_last_forward_frame
  cases m.frames.getLast? with
  | none => exact ⟨[], by simp, rfl⟩
  | some f => exact check_bad_loop_bounds c _ f.bad 0 0 m

/-- What the call of the call back and the build of the frame do at a loop head `m` : with
a function installed, one call with the number of frames as argument, and then the frame
of that index is pushed, without any other event. -/
theorem starting_bound_then_build (c : Collab) (m : BtorMC) :
    (starting_bound_call_back m).frames = m.frames
    ∧ (starting_bound_call_back m).trace
        = m.trace ++ (if m.call_backs.starting_bound = true
            then [BtorMCEvent.starting_bound (m.frames.length : Int)] else [])
    ∧ (initialize_new_forward_frame c (starting_bound_call_back m)).trace
        = (starting_bound_call_back m).trace
    ∧ ∃ f, (initialize_new_forward_frame c (starting_bound_call_back m)).frames = m.frames ++ [f]
        ∧ f.time = (m.frames.length : Int) := by
  have hf := starting_bound_call_back_frames m
  refine ⟨hf, ?_, ?_, ?_⟩
  · unfold starting_bound_call_back
    split
    · rfl
    · simp
  · obtain ⟨f, fw', heq, -⟩ := build_shape c (starting_bound_call_back m)
    rw [heq]
  · obtain ⟨f, hfr, ht, -⟩ := new_frame_spec c (starting_bound_call_back m)
    rw [hf] at hfr ht
    exact ⟨f, hfr, ht⟩

theorem range'_succ_map (a n : Nat) :
    (List.range' a (n + 1)).map Int.ofNat = (List.range' a n).map Int.ofNat ++ [((a + n : Nat) : Int)] := by
  rw [List.range'_concat, List.map_append]
  simp

/-- The calls of the call back for the bounds made by one call of `boolector_mc_bmc` : with
a function installed, one call for each frame the call builds, with the index of the frame,
in increasing order; no call otherwise. -/
theorem bmc_starting_bound_calls (c : Collab) (mc : BtorMC) (mink maxk : Int) :
    ∃ r mc' evs, boolector_mc_bmc c mc mink maxk = some (r, mc')
      ∧ mc'.trace = mc.trace ++ evs
      ∧ mc.frames.length ≤ mc'.frames.length
      ∧ starting_bound_calls evs
        = if mc.call_backs.starting_bound = true
          then (List.range' mc.frames.length (mc'.frames.length - mc.frames.length)).map
            Int.ofNat
          else [] := by
  have hrule := bmc_loop_rule c mink maxk
    (fun m => m.call_backs = mc.call_backs ∧ mc.frames.length ≤ m.frames.length
      ∧ ∃ evs, m.trace = mc.trace ++ evs
        ∧ starting_bound_calls evs
          = if mc.call_backs.starting_bound = true
            then (List.range' mc.frames.length (m.frames.length - mc.frames.length)).map
              Int.ofNat
            else [])
    (fun _ m => mc.frames.length ≤ m.frames.length
      ∧ ∃ evs, m.trace = mc.trace ++ evs
        ∧ starting_bound_calls evs
          = if mc.call_backs.starting_bound = true
            then (List.range' mc.frames.length (m.frames.length - mc.frames.length)).map
              Int.ofNat
            else [])
    ?_ ?_ ?_ (bmc_fuel { mc_release_assignment mc with state := BtorMCState.BTOR_NO_MC_STATE } maxk)
    { mc_release_assignment mc with state := BtorMCState.BTOR_NO_MC_STATE } ?_
    (by unfold bmc_fuel; omega)
  · obtain ⟨r, mc', hrun, hle, evs, h1, h2⟩ := hrule
    exact ⟨r, mc', evs, hrun, h1, hle, h2⟩
  · -- a skipped bound
    intro m hinv _ _
    obtain ⟨hcb, hle, evs, ht, hcalls⟩ := hinv
    obtain ⟨-, h2, h3, f, h4, -⟩ := starting_bound_then_build c m
    obtain ⟨-, -, scb, -⟩ := skipped_iteration_fields c m
    have hlen : (initialize_new_forward_frame c (starting_bound_call_back m)).frames.length
        = m.frames.length + 1 := by rw [h4]; simp
    refine ⟨by rw [scb, hcb], by rw [hlen]; omega, _, by rw [h3, h2, ht, List.append_assoc], ?_⟩
    rw [starting_bound_calls_append, hcalls, hlen, hcb]
    by_cases hin : mc.call_backs.starting_bound = true
    · simp only [hin, if_true]
      have e : m.frames.length + 1 - mc.frames.length
          = (m.frames.length - mc.frames.length) + 1 := by omega
      rw [e, range'_succ_map]
      have e2 : mc.frames.length + (m.frames.length - mc.frames.length) = m.frames.length := by
        omega
      rw [e2]
      rfl
    · simp only [hin, if_false]
      rfl
  · -- a checked bound
    intro m hinv _ _ s mc2 hres
    obtain ⟨hcb, hle, evs, ht, hcalls⟩ := hinv
    obtain ⟨-, h2, h3, f, h4, -⟩ := starting_bound_then_build c m
    obtain ⟨-, -, scb, -⟩ := checked_iteration_fields c m
    obtain ⟨evs2, h5, h6⟩ := check_last_forward_frame_bounds c
      (initialize_new_forward_frame c (starting_bound_call_back m))
    have hfr := check_last_forward_frame_frames c
      (initialize_new_forward_frame c (starting_bound_call_back m))
    rw [hres] at scb h5 hfr
    simp only [] at scb h5 hfr
    have hlen : mc2.frames.length = m.frames.length + 1 := by rw [hfr, h4]; simp
    have hpost : mc.frames.length ≤ mc2.frames.length
        ∧ ∃ evs, mc2.trace = mc.trace ++ evs
          ∧ starting_bound_calls evs
            = if mc.call_backs.starting_bound = true
              then (List.range' mc.frames.length (mc2.frames.length - mc.frames.length)).map
                Int.ofNat
              else [] := by
      refine ⟨by rw [hlen]; omega, _,
        by rw [h5, h3, h2, ht, List.append_assoc, List.append_assoc], ?_⟩
      rw [starting_bound_calls_append, starting_bound_calls_append, hcalls, h6, hlen, hcb,
        List.append_nil]
      by_cases hin : mc.call_backs.starting_bound = true
      · simp only [hin, if_true]
        have e : m.frames.length + 1 - mc.frames.length
            = (m.frames.length - mc.frames.length) + 1 := by omega
        rw [e, range'_succ_map]
        have e2 : mc.frames.length + (m.frames.length - mc.frames.length) = m.frames.length := by
          omega
        rw [e2]
        rfl
      · simp only [hin, if_false]
        rfl
    exact ⟨fun _ => hpost, fun _ => ⟨by rw [scb, hcb], hpost⟩⟩
  · -- the exit of the loop
    intro m hinv _
    exact ⟨hinv.2.1, hinv.2.2⟩
  · refine ⟨rfl, by simp [mc_release_assignment], [], by simp [mc_release_assignment], ?_⟩
    have : (mc_release_assignment mc).frames.length = mc.frames.length := by
      simp [mc_release_assignment]
    simp only [this, Nat.sub_self]
    split <;> rfl

theorem range_append_range' (n d : Nat) :
    (List.range n).map Int.ofNat ++ (List.range' n d).map Int.ofNat
      = (List.range (n + d)).map Int.ofNat := by
  rw [← List.map_append, List.range_eq_range', List.range_eq_range']
  have h := List.range'_append_1 0 n d
  rw [Nat.zero_add] at h
  rw [h, Nat.add_comm]

/-- When a function is installed for `starting_bound` at every call of `boolector_mc_bmc`,
the calls of the call back made so far are the indices of the frames, in order. -/
theorem starting_bound_lifetime (c : Collab) :
    ∀ (steps : List BtorMCStep) (m mc : BtorMC),
      starting_bound_calls m.trace = (List.range m.frames.length).map Int.ofNat →
      starting_bound_installed c steps m = true →
      api_run c steps m = some mc →
      starting_bound_calls mc.trace = (List.range mc.frames.length).map Int.ofNat := by
  intro steps
  induction steps with
  | nil =>
    intro m mc hR _ hrun
    simp only [api_run, Option.some.injEq] at hrun
    subst hrun
    exact hR
  | cons step rest ih =>
    intro m mc hR hinst hrun
    simp only [api_run] at hrun
    cases hs : api_step c m step with
    | none => rw [hs] at hrun; cases hrun
    | some m1 =>
      rw [hs] at hrun
      simp only [starting_bound_installed, hs, Bool.and_eq_true] at hinst
      refine ih m1 mc ?_ hinst.2 hrun
      cases step with
      | author call =>
        simp only [api_step] at hs
        obtain ⟨hf, ht, -⟩ := register_engine m m1 call hs
        rw [hf, ht]
        exact hR
      | set_opt opt val =>
        simp only [api_step] at hs
        have hsh := set_opt_shape m m1 opt val hs
        have hf : m1.frames = m.frames := by rw [hsh]
        have ht : m1.trace = m.trace := by rw [hsh]
        rw [hf, ht]
        exact hR
      | set_reached_at_bound_call_back installed =>
        simp only [api_step, Option.some.injEq] at hs
        subst hs
        exact hR
      | set_starting_bound_call_back installed =>
        simp only [api_step, Option.some.injEq] at hs
        subst hs
        exact hR
      | bmc mink maxk =>
        simp only [api_step, Option.map_eq_some'] at hs
        obtain ⟨r, hr, hm1⟩ := hs
        obtain ⟨r', mc', evs, hrun', htr, hle, hcalls⟩ := bmc_starting_bound_calls c m mink maxk
        rw [hrun'] at hr
        simp only [Option.some.injEq] at hr
        subst hr
        have hm1' : m1 = mc' := hm1.symm
        subst hm1'
        have hin : m.call_backs.starting_bound = true := hinst.1
        simp only [hin, if_true] at hcalls
        rw [htr, starting_bound_calls_append, hR, hcalls, range_append_range']
        congr 2
        omega
      | assignment time m2c f2c =>
        simp only [api_step] at hs
        obtain ⟨-, hsh⟩ := assignment_caches_shape m m1 time m2c f2c hs
        have hf : m1.frames.length = m.frames.length := by rw [hsh]; simp
        have ht : m1.trace = m.trace := by rw [hsh]
        rw [hf, ht]
        exact hR

theorem range_ofNat_pairwise (n : Nat) :
    ((List.range n).map Int.ofNat).Pairwise (fun a b => a < b) := by
  rw [List.pairwise_map]
  have := List.pairwise_lt_range n
  exact this.imp (fun h => Int.ofNat_lt.2 h)

/-- C37: in a reachable engine for which a function is installed for `starting_bound` at
every call of `boolector_mc_bmc`, the call back has been called exactly once for each
frame, with the index of the frame: its arguments so far are `0, 1, 2, ...`, one per frame,
in strictly increasing order.  A further call of `boolector_mc_bmc` calls it once for each
frame it builds, bounds below `mink` included, and not at all when it builds no frame.
At a loop head the call is made with the number of frames as argument and the frame of
that index is pushed next, without any event between. -/
theorem starting_bound_called_for_each_frame (c : Collab) (steps : List BtorMCStep)
    (mc : BtorMC) (hrun : api_run c steps (boolector_mc_new c) = some mc)
    (hinst : starting_bound_installed c steps (boolector_mc_new c) = true) :
    starting_bound_calls mc.trace = (List.range mc.frames.length).map Int.ofNat
    ∧ (starting_bound_calls mc.trace).Pairwise (fun a b => a < b)
    ∧ (∀ mink maxk, ∃ r mc' evs, boolector_mc_bmc c mc mink maxk = some (r, mc')
        ∧ mc'.trace = mc.trace ++ evs
        ∧ mc.frames.length ≤ mc'.frames.length
        ∧ (mc.call_backs.starting_bound = true →
            starting_bound_calls evs
              = (List.range' mc.frames.length (mc'.frames.length - mc.frames.length)).map
                  Int.ofNat)
        ∧ (mc'.frames.length = mc.frames.length → starting_bound_calls evs = []))
    ∧ (∀ m : BtorMC, m.call_backs.starting_bound = true →
        (starting_bound_call_back m).frames = m.frames
        ∧ (starting_bound_call_back m).trace
            = m.trace ++ [BtorMCEvent.starting_bound (m.frames.length : Int)]
        ∧ (initialize_new_forward_frame c (starting_bound_call_back m)).trace
            = (starting_bound_call_back m).trace
        ∧ ∃ f, (initialize_new_forward_frame c (starting_bound_call_back m)).frames
              = m.frames ++ [f]
            ∧ f.time = (m.frames.length : Int)) := by
  have hlife := starting_bound_lifetime c steps (boolector_mc_new c) mc rfl hinst hrun
  refine ⟨hlife, by rw [hlife]; exact range_ofNat_pairwise _, ?_, ?_⟩
  · intro mink maxk
    obtain ⟨r, mc', evs, h1, h2, h3, h4⟩ := bmc_starting_bound_calls c mc mink maxk
    refine ⟨r, mc', evs, h1, h2, h3, ?_, ?_⟩
    · intro hin
      simpa only [hin, if_true] using h4
    · intro heq
      rw [h4, heq, Nat.sub_self]
      split <;> rfl
  · intro m hin
    obtain ⟨h1, h2, h3, h4⟩ := starting_bound_then_build c m
    simp only [hin, if_true] at h2
    exact ⟨h1, h2, h3, h4⟩

theorem starting_bound_called_for_each_frame_witness :
    api_run ex_verdicts ex_bound_steps (boolector_mc_new ex_verdicts) = some ex_bounded
    ∧ starting_bound_installed ex_verdicts ex_bound_steps (boolector_mc_new ex_verdicts) = true
    ∧ starting_bound_calls ex_bounded.trace = (List.range ex_bounded.frames.length).map Int.ofNat
    ∧ (starting_bound_calls ex_bounded.trace).Pairwise (fun a b => a < b)
    ∧ (∀ mink maxk, ∃ r mc' evs, boolector_mc_bmc ex_verdicts ex_bounded mink maxk = some (r, mc')
        ∧ mc'.trace = ex_bounded.trace ++ evs
        ∧ ex_bounded.frames.length ≤ mc'.frames.length
        ∧ (ex_bounded.call_backs.starting_bound = true →
            starting_bound_calls evs
              = (List.range' ex_bounded.frames.length
                  (mc'.frames.length - ex_bounded.frames.length)).map Int.ofNat)
        ∧ (mc'.frames.length = ex_bounded.frames.length → starting_bound_calls evs = []))
    ∧ (∀ m : BtorMC, m.call_backs.starting_bound = true →
        (starting_bound_call_back m).frames = m.frames
        ∧ (starting_bound_call_back m).trace
            = m.trace ++ [BtorMCEvent.starting_bound (m.frames.length : Int)]
        ∧ (initialize_new_forward_frame ex_verdicts (starting_bound_call_back m)).trace
            = (starting_bound_call_back m).trace
        ∧ ∃ f, (initialize_new_forward_frame ex_verdicts (starting_bound_call_back m)).frames
              = m.frames ++ [f]
            ∧ f.time = (m.frames.length : Int)) :=
  ⟨by decide, by decide,
    starting_bound_called_for_each_frame ex_verdicts ex_bound_steps ex_bounded (by decide)
      (by decide)⟩

/-! ## The SAT manager: incremental mode and the choice of the driver -/

/-- What a successful call keeps: the incremental mode that is needed is provided. -/
theorem sat_step_inc (smgr smgr' : BtorSATMgr) (op : BtorSATOp)
    (h : sat_step smgr op = Except.ok smgr')
    (hinv : smgr.inc_need = true → smgr.inc_provides = true) :
    smgr'.inc_need = true → smgr'.inc_provides = true := by
  cases op with
  | enable_precosat =>
    simp only [sat_step, btor_enable_precosat_sat] at h
    split at h
    · cases h
    · simp only [Except.ok.injEq] at h
      subst h
      simp
  | enable_picosat =>
    simp only [sat_step, btor_enable_picosat_sat] at h
    split at h
    · cases h
    · simp only [Except.ok.injEq] at h
      subst h
      simp
  | enable_lingeling optstr valid =>
    simp only [sat_step] at h
    obtain ⟨r, hr, hr2⟩ := except_map_ok _ _ _ h
    subst hr2
    simp only [btor_enable_lingeling_sat] at hr
    split at hr
    · cases hr
    · split at hr
      · simp only [Except.ok.injEq] at hr
        subst hr
        exact hinv
      · simp only [Except.ok.injEq] at hr
        subst hr
        simp
  | enable_minisat =>
    simp only [sat_step, btor_enable_minisat_sat] at h
    split at h
    · cases h
    · simp only [Except.ok.injEq] at h
      subst h
      simp
  | set_verbosity verbosity =>
    simp only [sat_step, btor_set_verbosity_sat_mgr] at h
    split at h
    · cases h
    · simp only [Except.ok.injEq] at h
      subst h
      exact hinv
  | init incremental solver result =>
    simp only [sat_step] at h
    obtain ⟨-, -, -, -, rfl⟩ := init_sat_spec _ _ _ _ _ h
    simp only [init_sat_result, Bool.and_eq_true]
    intro hn
    exact hinv hn.1
  | next_cnf_id result =>
    simp only [sat_step] at h
    obtain ⟨r, hr, hr2⟩ := except_map_ok _ _ _ h
    subst hr2
    obtain ⟨-, -, -, hs⟩ := next_cnf_id_spec smgr r.2 result r.1 hr
    rw [hs]
    exact hinv
  | release_cnf_id lit =>
    simp only [sat_step] at h
    rw [release_cnf_id_spec _ _ _ h]
    exact hinv
  | add lit =>
    simp only [sat_step] at h
    obtain ⟨-, -, -, rfl⟩ := add_sat_spec _ _ _ h
    exact hinv
  | assume lit =>
    simp only [sat_step, btor_assume_sat] at h
    split at h
    · cases h
    · split at h
      · cases h
      · split at h
        · cases h
        · split at h
          · cases h
          · simp only [Except.ok.injEq] at h
            subst h
            exact hinv
  | sat limit result =>
    simp only [sat_step] at h
    obtain ⟨r, hr, hr2⟩ := except_map_ok _ _ _ h
    subst hr2
    simp only [btor_sat_sat] at hr
    split at hr
    · cases hr
    · simp only [Except.ok.injEq] at hr
      subst hr
      exact hinv
  | reset =>
    simp only [sat_step, btor_reset_sat] at h
    split at h
    · cases h
    · simp only [Except.ok.injEq] at h
      subst h
      exact hinv

theorem sat_run_inc (ops : List BtorSATOp) :
    ∀ (smgr smgr' : BtorSATMgr), sat_run ops smgr = Except.ok smgr' →
      (smgr.inc_need = true → smgr.inc_provides = true) →
      (smgr'.inc_need = true → smgr'.inc_provides = true) := by
  induction ops with
  | nil =>
    intro smgr smgr' h
    simp only [sat_run, Except.ok.injEq] at h
    subst h
    exact id
  | cons op rest ih =>
    intro smgr smgr' h hm
    simp only [sat_run] at h
    cases hs : sat_step smgr op with
    | error e => rw [hs] at h; cases h
    | ok s1 =>
      rw [hs] at h
      exact ih s1 smgr' h (sat_step_inc smgr s1 op hs hm)

/-- C31: in every manager reached from `btor_new_sat_mgr` by a sequence of calls (the enable
functions, `btor_init_sat`, `btor_add_sat`, `btor_assume_sat`, `btor_sat_sat`,
`btor_reset_sat`, and also `btor_set_verbosity_sat_mgr`, `btor_next_cnf_id_sat_mgr` and
`btor_release_cnf_id_sat_mgr`), `inc.need` set implies `inc.provides` set, in particular
when `satcalls > 0`. -/
theorem inc_need_implies_inc_provides (use_lingeling : Bool) (ops : List BtorSATOp)
    (smgr : BtorSATMgr)
    (hrun : sat_run ops (btor_new_sat_mgr use_lingeling) = Except.ok smgr) :
    (smgr.inc_need = true → smgr.inc_provides = true)
    ∧ (smgr.satcalls > 0 → smgr.inc_need = true → smgr.inc_provides = true) := by
  have h := sat_run_inc ops _ smgr hrun (fun _ => by cases use_lingeling <;> rfl)
  exact ⟨h, fun _ => h⟩

theorem inc_need_implies_inc_provides_witness :
    sat_run ex_minisat_ops (btor_new_sat_mgr true) = Except.ok ex_minisat_smgr
    ∧ (ex_minisat_smgr.inc_need = true → ex_minisat_smgr.inc_provides = true)
    ∧ (ex_minisat_smgr.satcalls > 0 → ex_minisat_smgr.inc_need = true →
        ex_minisat_smgr.inc_provides = true) :=
  ⟨rfl, inc_need_implies_inc_provides true ex_minisat_ops ex_minisat_smgr rfl⟩

theorem enable_picosat_memory (smgr smgr' : BtorSATMgr)
    (h : btor_enable_picosat_sat smgr = Except.ok smgr') :
    smgr' = btor_enable_picosat_sat_memory smgr := by
  unfold btor_enable_picosat_sat at h
  unfold btor_enable_picosat_sat_memory
  split at h
  · cases h
  · rename_i hi
    simp only [Except.ok.injEq] at h
    rw [if_neg hi]
    exact h.symm

theorem enable_precosat_memory (smgr smgr' : BtorSATMgr)
    (h : btor_enable_precosat_sat smgr = Except.ok smgr') :
    smgr' = btor_enable_precosat_sat_memory smgr := by
  unfold btor_enable_precosat_sat at h
  unfold btor_enable_precosat_sat_memory
  split at h
  · cases h
  · rename_i hi
    simp only [Except.ok.injEq] at h
    rw [if_neg hi]
    exact h.symm

theorem enable_minisat_memory (smgr smgr' : BtorSATMgr)
    (h : btor_enable_minisat_sat smgr = Except.ok smgr') :
    smgr' = btor_enable_minisat_sat_memory smgr := by
  unfold btor_enable_minisat_sat at h
  unfold btor_enable_minisat_sat_memory
  split at h
  · cases h
  · rename_i hi
    simp only [Except.ok.injEq] at h
    rw [if_neg hi]
    exact h.symm

theorem enable_lingeling_memory (passdown : String → Bool) (smgr : BtorSATMgr)
    (optstr : Option String) (r : Int × BtorSATMgr)
    (h : btor_enable_lingeling_sat passdown smgr optstr = Except.ok r) :
    r.2 = btor_enable_lingeling_sat_memory passdown smgr optstr := by
  unfold btor_enable_lingeling_sat at h
  unfold btor_enable_lingeling_sat_memory
  by_cases hi : smgr.initialized = true
  · simp [hi] at h
  · rw [if_neg hi] at h ⊢
    cases optstr with
    | none =>
      simp only [Bool.false_eq_true, if_false, Except.ok.injEq] at h ⊢
      rw [← h]
    | some s =>
      cases hp : passdown s with
      | true =>
        simp only [hp, Bool.not_true, Bool.false_eq_true, if_false, Except.ok.injEq] at h ⊢
        rw [← h]
      | false =>
        simp only [hp, Bool.not_false, if_true, Except.ok.injEq] at h ⊢
        rw [← h]

/-- C32, counterexample: on an uninitialized manager with the driver of PicoSAT installed,
`btor_enable_lingeling_sat` with the option string `foo=1`, which the option check rejects,
returns 0 and installs neither the name nor the functions of Lingeling. -/
theorem enable_lingeling_rejected_installs_nothing :
    passdown_valid ex_lglhasopt "foo=1" = false
    ∧ ∃ smgr smgr', btor_enable_picosat_sat (btor_new_sat_mgr true) = Except.ok smgr
      ∧ smgr.initialized = false
      ∧ btor_enable_lingeling_sat (passdown_valid ex_lglhasopt) smgr (some "foo=1")
          = Except.ok (0, smgr')
      ∧ smgr'.name = "PicoSAT"
      ∧ smgr'.api = BtorSATSolver.PicoSAT
      ∧ smgr'.inc_api.melt = false :=
  ⟨by decide, _, _, rfl, rfl, rfl, rfl, rfl, rfl⟩

/-- C32, as amended: on an initialized manager each of the four enable functions ends the
process by `BTOR_ABORT_SAT` : it prints one line `[btorsat] <function>: <message>`, exits
with the error exit code, and has changed nothing in the manager.  On an uninitialized
manager the functions of PrecoSAT, PicoSAT and MiniSAT install the name and the
functions of their driver, and `btor_enable_lingeling_sat` does so when the option string
is null or passes the option check; when the check rejects the string it returns 0 and
installs neither the name nor the functions. -/
theorem enable_aborts_when_initialized (passdown : String → Bool) (smgr : BtorSATMgr)
    (optstr : Option String) :
    (smgr.initialized = true →
      (∃ e, btor_enable_precosat_sat smgr = Except.error e
        ∧ btor_abort_sat_output e
          = "[btorsat] btor_enable_precosat_sat: 'btor_init_sat' called before 'btor_enable_precosat_sat'\n"
        ∧ btor_abort_sat_exit e = some BTOR_ERR_EXIT
        ∧ btor_enable_precosat_sat_memory smgr = smgr)
      ∧ (∃ e, btor_enable_picosat_sat smgr = Except.error e
        ∧ btor_abort_sat_output e
          = "[btorsat] btor_enable_picosat_sat: 'btor_init_sat' called before 'btor_enable_picosat_sat'\n"
        ∧ btor_abort_sat_exit e = some BTOR_ERR_EXIT
        ∧ btor_enable_picosat_sat_memory smgr = smgr)
      ∧ (∃ e, btor_enable_lingeling_sat passdown smgr optstr = Except.error e
        ∧ btor_abort_sat_output e
          = "[btorsat] btor_enable_lingeling_sat: 'btor_init_sat' called before 'btor_enable_lingeling_sat'\n"
        ∧ btor_abort_sat_exit e = some BTOR_ERR_EXIT
        ∧ btor_enable_lingeling_sat_memory passdown smgr optstr = smgr)
      ∧ (∃ e, btor_enable_minisat_sat smgr = Except.error e
        ∧ btor_abort_sat_output e
          = "[btorsat] btor_enable_minisat_sat: 'btor_init_sat' called before 'btor_enable_minisat_sat'\n"
        ∧ btor_abort_sat_exit e = some BTOR_ERR_EXIT
        ∧ btor_enable_minisat_sat_memory smgr = smgr)
      ∧ BTOR_ERR_EXIT ≠ 0)
    ∧ (smgr.initialized = false →
      (∃ s, btor_enable_precosat_sat smgr = Except.ok s
        ∧ s = btor_enable_precosat_sat_memory smgr
        ∧ s.name = "PrecoSAT" ∧ s.api = BtorSATSolver.PrecoSAT ∧ s.inc_provides = false
        ∧ s.inc_api = { assume := false, melt := false, failed := false,
                        inconsistent := false, changed := false })
      ∧ (∃ s, btor_enable_picosat_sat smgr = Except.ok s
        ∧ s = btor_enable_picosat_sat_memory smgr
        ∧ s.name = "PicoSAT" ∧ s.api = BtorSATSolver.PicoSAT ∧ s.inc_provides = true
        ∧ s.inc_api = { assume := true, melt := false, failed := true, inconsistent := true,
                        changed := true })
      ∧ (∃ s, btor_enable_minisat_sat smgr = Except.ok s
        ∧ s = btor_enable_minisat_sat_memory smgr
        ∧ s.name = "MiniSAT" ∧ s.api = BtorSATSolver.MiniSAT ∧ s.inc_provides = true
        ∧ s.inc_api = { assume := true, melt := false, failed := true, inconsistent := true,
                        changed := true })
      ∧ ((optstr = none ∨ ∃ str, optstr = some str ∧ passdown str = true) →
          ∃ s, btor_enable_lingeling_sat passdown smgr optstr = Except.ok (1, s)
            ∧ s = btor_enable_lingeling_sat_memory passdown smgr optstr
            ∧ s.name = "Lingeling" ∧ s.api = BtorSATSolver.Lingeling ∧ s.inc_provides = true
            ∧ s.optstr = optstr
            ∧ s.inc_api = { assume := true, melt := true, failed := true, inconsistent := true,
                            changed := true })
      ∧ (∀ str, optstr = some str → passdown str = false →
          ∃ s, btor_enable_lingeling_sat passdown smgr optstr = Except.ok (0, s)
            ∧ s = btor_enable_lingeling_sat_memory passdown smgr optstr
            ∧ s.name = smgr.name ∧ s.api = smgr.api ∧ s.inc_provides = smgr.inc_provides
            ∧ s.inc_api = smgr.inc_api)) := by
  constructor
  · intro hi
    refine ⟨⟨BtorSATAbort.abort_sat "btor_enable_precosat_sat"
          "'btor_init_sat' called before 'btor_enable_precosat_sat'",
        by simp [btor_enable_precosat_sat, hi], by decide, rfl,
        by simp [btor_enable_precosat_sat_memory, hi]⟩,
      ⟨BtorSATAbort.abort_sat "btor_enable_picosat_sat"
          "'btor_init_sat' called before 'btor_enable_picosat_sat'",
        by simp [btor_enable_picosat_sat, hi], by decide, rfl,
        by simp [btor_enable_picosat_sat_memory, hi]⟩,
      ⟨BtorSATAbort.abort_sat "btor_enable_lingeling_sat"
          "'btor_init_sat' called before 'btor_enable_lingeling_sat'",
        by simp [btor_enable_lingeling_sat, hi], by decide, rfl,
        by simp [btor_enable_lingeling_sat_memory, hi]⟩,
      ⟨BtorSATAbort.abort_sat "btor_enable_minisat_sat"
          "'btor_init_sat' called before 'btor_enable_minisat_sat'",
        by simp [btor_enable_minisat_sat, hi], by decide, rfl,
        by simp [btor_enable_minisat_sat_memory, hi]⟩, by decide⟩
  · intro hi
    refine ⟨⟨btor_enable_precosat_sat_memory smgr, ?_, rfl, ?_⟩,
      ⟨btor_enable_picosat_sat_memory smgr, ?_, rfl, ?_⟩,
      ⟨btor_enable_minisat_sat_memory smgr, ?_, rfl, ?_⟩, ?_, ?_⟩
    · simp [btor_enable_precosat_sat, btor_enable_precosat_sat_memory, hi]
    · simp [btor_enable_precosat_sat_memory, hi]
    · simp [btor_enable_picosat_sat, btor_enable_picosat_sat_memory, hi]
    · simp [btor_enable_picosat_sat_memory, hi]
    · simp [btor_enable_minisat_sat, btor_enable_minisat_sat_memory, hi]
    · simp [btor_enable_minisat_sat_memory, hi]
    · intro hopt
      refine ⟨btor_enable_lingeling_sat_memory passdown smgr optstr, ?_, rfl, ?_⟩
      · rcases hopt with rfl | ⟨str, rfl, hp⟩
        · simp [btor_enable_lingeling_sat, btor_enable_lingeling_sat_memory, hi]
        · simp [btor_enable_lingeling_sat, btor_enable_lingeling_sat_memory, hi, hp]
      · rcases hopt with rfl | ⟨str, rfl, hp⟩
        · simp [btor_enable_lingeling_sat_memory, hi]
        · simp [btor_enable_lingeling_sat_memory, hi, hp]
    · intro str hopt hp
      subst hopt
      refine ⟨btor_enable_lingeling_sat_memory passdown smgr (some str), ?_, rfl, ?_⟩
      · simp [btor_enable_lingeling_sat, btor_enable_lingeling_sat_memory, hi, hp]
      · simp [btor_enable_lingeling_sat_memory, hi, hp]

/-- C34: on the manager of a build with Lingeling as the default, `btor_enable_lingeling_sat`
with the option string `verbose=1,foo=1` returns 0, because `foo` is not an option of
Lingeling; the name and the functions are unchanged, but the rejected string is stored in
`optstr`, and `btor_lingeling_init`, run by the next `btor_init_sat`, passes `verbose=1` to
the solver. -/
theorem enable_lingeling_failure_stores_options :
    passdown_valid ex_lglhasopt "verbose=1,foo=1" = false
    ∧ (btor_new_sat_mgr true).optstr = none
    ∧ btor_lingeling_init ex_lglhasopt (btor_new_sat_mgr true) = some [LGLCall.lglminit]
    ∧ ∃ smgr, btor_enable_lingeling_sat (passdown_valid ex_lglhasopt) (btor_new_sat_mgr true)
          (some "verbose=1,foo=1") = Except.ok (0, smgr)
      ∧ smgr.name = (btor_new_sat_mgr true).name
      ∧ smgr.api = (btor_new_sat_mgr true).api
      ∧ smgr.inc_api = (btor_new_sat_mgr true).inc_api
      ∧ smgr.optstr = some "verbose=1,foo=1"
      ∧ btor_lingeling_init ex_lglhasopt smgr
          = some [LGLCall.lglminit, LGLCall.lglhasopt LGLSolver.parent "verbose",
              LGLCall.lglsetopt LGLSolver.parent "verbose" 1,
              LGLCall.lglhasopt LGLSolver.parent "foo"] :=
  ⟨by decide, rfl, by decide, _, rfl, rfl, rfl, rfl, rfl, by decide⟩

/-! ## The Lingeling driver: `btor_lingeling_sat` -/

/-- What a call of `btor_lingeling_sat` with a limit of at least `BTOR_LINGELING_FORK_LIMIT`
has done when it returns: the calls into the library, in their order. -/
theorem lingeling_sat_fork_spec (a : LGLAnswers) (smgr : BtorSATMgr) (blgl : BtorLGL)
    (limit : Int) (hl : limit ≥ BTOR_LINGELING_FORK_LIMIT) (r : Int) (b : BtorLGL)
    (calls : List LGLCall) (h : btor_lingeling_sat a smgr blgl limit = Except.ok (r, b, calls)) :
    r ≠ 0
    ∧ LGLCall.lglsat LGLSolver.parent ∉ calls
    ∧ (∀ v, LGLCall.lglsetopt LGLSolver.bforked "clim" v ∉ calls)
    ∧ (a.sat_forked = 0 ∨ a.join_forked = a.sat_forked)
    ∧ ((a.join_forked ≠ 0 ∧ r = a.join_forked
          ∧ b = { blgl with nforked := blgl.nforked + 1 }
          ∧ calls = [LGLCall.lglfork LGLSolver.forked,
              LGLCall.lglsetopt LGLSolver.forked "seed" blgl.nforked,
              LGLCall.lglsetprefix LGLSolver.forked ("[lglfork" ++ toString blgl.nforked ++ "] "),
              LGLCall.lglsetout LGLSolver.forked,
              LGLCall.lglgetopt LGLSolver.parent "verbose"]
              ++ (if a.verbose ≠ 0 then [LGLCall.lglsetopt LGLSolver.forked "verbose" 1] else [])
              ++ [LGLCall.lglsetopt LGLSolver.forked "clim" 200000, LGLCall.lglsat LGLSolver.forked]
              ++ (if smgr.verbosity > 0 then [LGLCall.lglstats LGLSolver.forked] else [])
              ++ [LGLCall.lgljoin LGLSolver.forked])
        ∨ (a.join_forked = 0 ∧ a.sat_bforked ≠ 0 ∧ a.join_bforked = a.sat_bforked
          ∧ r = a.join_bforked
          ∧ b = { nforked := blgl.nforked + 1, nbforked := blgl.nbforked + 1 }
          ∧ calls = [LGLCall.lglfork LGLSolver.forked,
              LGLCall.lglsetopt LGLSolver.forked "seed" blgl.nforked,
              LGLCall.lglsetprefix LGLSolver.forked ("[lglfork" ++ toString blgl.nforked ++ "] "),
              LGLCall.lglsetout LGLSolver.forked,
              LGLCall.lglgetopt LGLSolver.parent "verbose"]
              ++ (if a.verbose ≠ 0 then [LGLCall.lglsetopt LGLSolver.forked "verbose" 1] else [])
              ++ [LGLCall.lglsetopt LGLSolver.forked "clim" 200000, LGLCall.lglsat LGLSolver.forked]
              ++ (if smgr.verbosity > 0 then [LGLCall.lglstats LGLSolver.forked] else [])
              ++ [LGLCall.lgljoin LGLSolver.forked]
              ++ [LGLCall.lglfork LGLSolver.bforked,
                LGLCall.lglsetopt LGLSolver.bforked "seed" blgl.nbforked,
                LGLCall.lglsetprefix LGLSolver.bforked
                  ("[lglbrutefork" ++ toString blgl.nbforked ++ "] "),
                LGLCall.lglsetout LGLSolver.bforked,
                LGLCall.lglgetopt LGLSolver.parent "verbose"]
              ++ (if a.verbose ≠ 0 then [LGLCall.lglsetopt LGLSolver.bforked "verbose" 1] else [])
              ++ [LGLCall.lglsat LGLSolver.bforked]
              ++ (if smgr.verbosity > 0 then [LGLCall.lglstats LGLSolver.bforked] else [])
              ++ [LGLCall.lgljoin LGLSolver.bforked])) := by
  unfold btor_lingeling_sat at h
  rw [if_pos hl] at h
  simp only [] at h
  by_cases hassert : a.sat_forked = 0 ∨ a.join_forked = a.sat_forked
  · rw [if_neg (not_not.2 hassert)] at h
    by_cases hf : a.join_forked = 0
    · rw [if_pos hf] at h
      by_cases hb : a.sat_bforked = 0
      · rw [if_pos hb] at h
        cases h
      · rw [if_neg hb] at h
        by_cases hj : a.join_bforked = a.sat_bforked
        · rw [if_neg (not_not.2 hj)] at h
          simp only [Except.ok.injEq, Prod.mk.injEq] at h
          obtain ⟨h1, h2, h3⟩ := h
          subst h1
          subst h2
          subst h3
          refine ⟨by rw [hj]; exact hb, ?_, ?_, hassert, Or.inr ⟨hf, hb, hj, rfl, rfl, ?_⟩⟩ <;>
            by_cases hv : a.verbose = 0 <;> by_cases hs : smgr.verbosity > 0 <;>
            simp [hv, hs, BTOR_LINGELING_BFORK_LIMIT]
        · rw [if_pos hj] at h
          cases h
    · rw [if_neg hf] at h
      simp only [Except.ok.injEq, Prod.mk.injEq] at h
      obtain ⟨h1, h2, h3⟩ := h
      subst h1
      subst h2
      subst h3
      refine ⟨hf, ?_, ?_, hassert, Or.inl ⟨hf, rfl, rfl, ?_⟩⟩ <;>
        by_cases hv : a.verbose = 0 <;> by_cases hs : smgr.verbosity > 0 <;>
        simp [hv, hs, BTOR_LINGELING_BFORK_LIMIT]
  · rw [if_pos hassert] at h
    cases h

/-- A call of `btor_lingeling_sat` with a limit of at least `BTOR_LINGELING_FORK_LIMIT`
returns when its assertions hold. -/
theorem lingeling_sat_fork_returns (a : LGLAnswers) (smgr : BtorSATMgr) (blgl : BtorLGL)
    (limit : Int) (hl : limit ≥ BTOR_LINGELING_FORK_LIMIT)
    (hassert : a.sat_forked = 0 ∨ a.join_forked = a.sat_forked)
    (hbrute : a.join_forked = 0 → a.sat_bforked ≠ 0 ∧ a.join_bforked = a.sat_bforked) :
    ∃ r b calls, btor_lingeling_sat a smgr blgl limit = Except.ok (r, b, calls) := by
  unfold btor_lingeling_sat
  rw [if_pos hl]
  simp only []
  rw [if_neg (not_not.2 hassert)]
  by_cases hf : a.join_forked = 0
  · obtain ⟨hb, hj⟩ := hbrute hf
    rw [if_pos hf, if_neg hb, if_neg (not_not.2 hj)]
    exact ⟨_, _, _, rfl⟩
  · rw [if_neg hf]
    exact ⟨_, _, _, rfl⟩

/-- C35: for every limit of at least `BTOR_LINGELING_FORK_LIMIT` (100000), `btor_lingeling_sat`
returns when its assertions hold, and when it returns it has not called `lglsat` on the
solver of the manager.  Its calls into the library are, in this order: `lglfork` of a
solver, the seed `nforked`, prefix and output of the fork, the option `verbose` when the
solver of the manager has it set, the limit `BTOR_LINGELING_BFORK_LIMIT` (200000) for
`clim`, `lglsat` on the fork, `lglstats` when the manager is verbose, and `lgljoin` of the
fork; the result of that `lgljoin` is returned when it is not 0.  Otherwise the same calls
follow for a brute fork, seeded with `nbforked`, on which no conflict limit is set, and the
result of its `lgljoin` is returned, which is not 0; so the result is never 0.  For a
smaller limit it sets the option `clim` of the solver of the manager to the limit and
returns the result of `lglsat` on that solver. -/
theorem lingeling_sat_forks_above_limit (a : LGLAnswers) (smgr : BtorSATMgr) (blgl : BtorLGL)
    (limit : Int) (hclim : a.lglhasopt "clim" = true) :
    ((limit : Int) ≥ 100000 →
      ((a.sat_forked = 0 ∨ a.join_forked = a.sat_forked) →
        (a.join_forked = 0 → a.sat_bforked ≠ 0 ∧ a.join_bforked = a.sat_bforked) →
        ∃ r b calls, btor_lingeling_sat a smgr blgl limit = Except.ok (r, b, calls))
      ∧ ∀ r b calls, btor_lingeling_sat a smgr blgl limit = Except.ok (r, b, calls) →
          r ≠ 0
          ∧ LGLCall.lglsat LGLSolver.parent ∉ calls
          ∧ (∀ v, LGLCall.lglsetopt LGLSolver.bforked "clim" v ∉ calls)
          ∧ ((a.join_forked ≠ 0 ∧ r = a.join_forked
                ∧ b = { nforked := blgl.nforked + 1, nbforked := blgl.nbforked }
                ∧ calls = [LGLCall.lglfork LGLSolver.forked,
                    LGLCall.lglsetopt LGLSolver.forked "seed" blgl.nforked,
                    LGLCall.lglsetprefix LGLSolver.forked ("[lglfork" ++ toString blgl.nforked ++ "] "),
                    LGLCall.lglsetout LGLSolver.forked,
                    LGLCall.lglgetopt LGLSolver.parent "verbose"]
                    ++ (if a.verbose ≠ 0 then [LGLCall.lglsetopt LGLSolver.forked "verbose" 1] else [])
                    ++ [LGLCall.lglsetopt LGLSolver.forked "clim" 200000, LGLCall.lglsat LGLSolver.forked]
                    ++ (if smgr.verbosity > 0 then [LGLCall.lglstats LGLSolver.forked] else [])
                    ++ [LGLCall.lgljoin LGLSolver.forked])
              ∨ (a.join_forked = 0 ∧ r = a.join_bforked
                ∧ b = { nforked := blgl.nforked + 1, nbforked := blgl.nbforked + 1 }
                ∧ calls = [LGLCall.lglfork LGLSolver.forked,
                    LGLCall.lglsetopt LGLSolver.forked "seed" blgl.nforked,
                    LGLCall.lglsetprefix LGLSolver.forked ("[lglfork" ++ toString blgl.nforked ++ "] "),
                    LGLCall.lglsetout LGLSolver.forked,
                    LGLCall.lglgetopt LGLSolver.parent "verbose"]
                    ++ (if a.verbose ≠ 0 then [LGLCall.lglsetopt LGLSolver.forked "verbose" 1] else [])
                    ++ [LGLCall.lglsetopt LGLSolver.forked "clim" 200000, LGLCall.lglsat LGLSolver.forked]
                    ++ (if smgr.verbosity > 0 then [LGLCall.lglstats LGLSolver.forked] else [])
                    ++ [LGLCall.lgljoin LGLSolver.forked]
                    ++ [LGLCall.lglfork LGLSolver.bforked,
                      LGLCall.lglsetopt LGLSolver.bforked "seed" blgl.nbforked,
                      LGLCall.lglsetprefix LGLSolver.bforked
                        ("[lglbrutefork" ++ toString blgl.nbforked ++ "] "),
                      LGLCall.lglsetout LGLSolver.bforked,
                      LGLCall.lglgetopt LGLSolver.parent "verbose"]
                    ++ (if a.verbose ≠ 0 then [LGLCall.lglsetopt LGLSolver.bforked "verbose" 1] else [])
                    ++ [LGLCall.lglsat LGLSolver.bforked]
                    ++ (if smgr.verbosity > 0 then [LGLCall.lglstats LGLSolver.bforked] else [])
                    ++ [LGLCall.lgljoin LGLSolver.bforked])))
    ∧ ((limit : Int) < 100000 →
        btor_lingeling_sat a smgr blgl limit
          = Except.ok (a.sat_parent, blgl,
              [LGLCall.lglhasopt LGLSolver.parent "clim",
                LGLCall.lglsetopt LGLSolver.parent "clim" limit,
                LGLCall.lglsat LGLSolver.parent])) := by
  constructor
  · intro hl
    refine ⟨lingeling_sat_fork_returns a smgr blgl limit hl, ?_⟩
    intro r b calls h
    obtain ⟨h1, h2, h3, -, h5⟩ := lingeling_sat_fork_spec a smgr blgl limit hl r b calls h
    refine ⟨h1, h2, h3, ?_⟩
    rcases h5 with ⟨g1, g2, g3, g4⟩ | ⟨g1, -, -, g4, g5, g6⟩
    · exact Or.inl ⟨g1, g2, g3, g4⟩
    · exact Or.inr ⟨g1, g4, g5, g6⟩
  · intro hl
    have hl' : ¬ limit ≥ BTOR_LINGELING_FORK_LIMIT := by
      unfold BTOR_LINGELING_FORK_LIMIT
      omega
    unfold btor_lingeling_sat
    rw [if_neg hl']
    simp [btor_lingeling_set_opt, hclim]

/-- A limit of 100000 on a manager with Lingeling, whose fork answers 0 and whose brute fork
answers 20. -/
theorem lingeling_sat_forks_above_limit_witness :
    ex_lglanswers.lglhasopt "clim" = true
    ∧ ((100000 : Int) ≥ 100000 →
      ((ex_lglanswers.sat_forked = 0 ∨ ex_lglanswers.join_forked = ex_lglanswers.sat_forked) →
        (ex_lglanswers.join_forked = 0 → ex_lglanswers.sat_bforked ≠ 0 ∧ ex_lglanswers.join_bforked = ex_lglanswers.sat_bforked) →
        ∃ r b calls, btor_lingeling_sat ex_lglanswers (btor_new_sat_mgr true) ex_blgl 100000 = Except.ok (r, b, calls))
      ∧ ∀ r b calls, btor_lingeling_sat ex_lglanswers (btor_new_sat_mgr true) ex_blgl 100000 = Except.ok (r, b, calls) →
          r ≠ 0
          ∧ LGLCall.lglsat LGLSolver.parent ∉ calls
          ∧ (∀ v, LGLCall.lglsetopt LGLSolver.bforked "clim" v ∉ calls)
          ∧ ((ex_lglanswers.join_forked ≠ 0 ∧ r = ex_lglanswers.join_forked
                ∧ b = { nforked := ex_blgl.nforked + 1, nbforked := ex_blgl.nbforked }
                ∧ calls = [LGLCall.lglfork LGLSolver.forked,
                    LGLCall.lglsetopt LGLSolver.forked "seed" ex_blgl.nforked,
                    LGLCall.lglsetprefix LGLSolver.forked ("[lglfork" ++ toString ex_blgl.nforked ++ "] "),
                    LGLCall.lglsetout LGLSolver.forked,
                    LGLCall.lglgetopt LGLSolver.parent "verbose"]
                    ++ (if ex_lglanswers.verbose ≠ 0 then [LGLCall.lglsetopt LGLSolver.forked "verbose" 1] else [])
                    ++ [LGLCall.lglsetopt LGLSolver.forked "clim" 200000, LGLCall.lglsat LGLSolver.forked]
                    ++ (if (btor_new_sat_mgr true).verbosity > 0 then [LGLCall.lglstats LGLSolver.forked] else [])
                    ++ [LGLCall.lgljoin LGLSolver.forked])
              ∨ (ex_lglanswers.join_forked = 0 ∧ r = ex_lglanswers.join_bforked
                ∧ b = { nforked := ex_blgl.nforked + 1, nbforked := ex_blgl.nbforked + 1 }
                ∧ calls = [LGLCall.lglfork LGLSolver.forked,
                    LGLCall.lglsetopt LGLSolver.forked "seed" ex_blgl.nforked,
                    LGLCall.lglsetprefix LGLSolver.forked ("[lglfork" ++ toString ex_blgl.nforked ++ "] "),
                    LGLCall.lglsetout LGLSolver.forked,
                    LGLCall.lglgetopt LGLSolver.parent "verbose"]
                    ++ (if ex_lglanswers.verbose ≠ 0 then [LGLCall.lglsetopt LGLSolver.forked "verbose" 1] else [])
                    ++ [LGLCall.lglsetopt LGLSolver.forked "clim" 200000, LGLCall.lglsat LGLSolver.forked]
                    ++ (if (btor_new_sat_mgr true).verbosity > 0 then [LGLCall.lglstats LGLSolver.forked] else [])
                    ++ [LGLCall.lgljoin LGLSolver.forked]
                    ++ [LGLCall.lglfork LGLSolver.bforked,
                      LGLCall.lglsetopt LGLSolver.bforked "seed" ex_blgl.nbforked,
                      LGLCall.lglsetprefix LGLSolver.bforked
                        ("[lglbrutefork" ++ toString ex_blgl.nbforked ++ "] "),
                      LGLCall.lglsetout LGLSolver.bforked,
                      LGLCall.lglgetopt LGLSolver.parent "verbose"]
                    ++ (if ex_lglanswers.verbose ≠ 0 then [LGLCall.lglsetopt LGLSolver.bforked "verbose" 1] else [])
                    ++ [LGLCall.lglsat LGLSolver.bforked]
                    ++ (if (btor_new_sat_mgr true).verbosity > 0 then [LGLCall.lglstats LGLSolver.bforked] else [])
                    ++ [LGLCall.lgljoin LGLSolver.bforked])))
    ∧ ((100000 : Int) < 100000 →
        btor_lingeling_sat ex_lglanswers (btor_new_sat_mgr true) ex_blgl 100000
          = Except.ok (ex_lglanswers.sat_parent, ex_blgl,
              [LGLCall.lglhasopt LGLSolver.parent "clim",
                LGLCall.lglsetopt LGLSolver.parent "clim" 100000,
                LGLCall.lglsat LGLSolver.parent])) :=
  ⟨by decide,
    lingeling_sat_forks_above_limit ex_lglanswers (btor_new_sat_mgr true) ex_blgl 100000
      (by decide)⟩

/-! ## The option string of Lingeling -/

theorem splitOn_comma (l : List Char) :
    l.splitOn ',' = l.takeWhile (fun x => x ≠ ',') ::
      (match l.dropWhile (fun x => x ≠ ',') with
        | _ :: next => next.splitOn ','
        | [] => []) := by
  induction l with
  | nil => rfl
  | cons x xs ih =>
    unfold List.splitOn at ih ⊢
    rw [List.splitOnP_cons]
    by_cases hx : x = ','
    · subst hx
      simp [List.takeWhile, List.dropWhile]
    · have h1 : (x == ',') = false := by simpa using hx
      rw [h1, ih]
      simp [List.takeWhile, List.dropWhile, hx]

theorem isAlpha_ne_eq (ch : Char) (h : ch.isAlpha = true) : ch ≠ '=' := by
  intro he
  subst he
  revert h
  decide

theorem isAlphanum_ne_eq (ch : Char) (h : ch.isAlphanum = true) : ch ≠ '=' := by
  intro he
  subst he
  revert h
  decide

theorem skip_minus_cons (c : Char) (q : List Char) (hc : c ≠ '-') :
    skip_minus (c :: q) = c :: q := by
  unfold skip_minus
  split
  · rename_i heq
    injection heq with h1 h2
    exact absurd h1 hc
  · rfl

theorem spec_value_cons (c : Char) (q : List Char) (hc : c ≠ '-') :
    spec_value (c :: q) = (!(c :: q).isEmpty && (c :: q).all Char.isDigit) := by
  unfold spec_value
  split
  · rename_i heq
    injection heq with h1 h2
    exact absurd h1 hc
  · rfl

theorem digits_form (p : List Char) :
    (match p with
      | d :: _ => if isdigit d then decide (p.dropWhile isdigit = []) else false
      | [] => false) = (!p.isEmpty && p.all Char.isDigit) := by
  cases p with
  | nil => rfl
  | cons d r =>
    by_cases hd : d.isDigit = true
    · simp only [isdigit, hd, if_true, List.isEmpty_cons, Bool.not_false, Bool.true_and,
        List.all_cons]
      by_cases hr : r.all Char.isDigit = true
      · have : List.dropWhile isdigit (d :: r) = [] := by
          rw [List.dropWhile_eq_nil_iff]
          intro x hx
          rcases List.mem_cons.1 hx with rfl | hx
          · exact hd
          · exact List.all_eq_true.1 hr x hx
        simp [this, hr]
      · have : List.dropWhile isdigit (d :: r) ≠ [] := by
          rw [Ne, List.dropWhile_eq_nil_iff]
          intro hall
          apply hr
          rw [List.all_eq_true]
          intro x hx
          exact hall x (List.mem_cons_of_mem _ hx)
        simp only [Bool.not_eq_true] at hr
        simp [this, hr]
    · simp only [Bool.not_eq_true] at hd
      simp [isdigit, hd]

/-- The check of the value in the code agrees with the form of a value. -/
theorem value_form (val : List Char) :
    (match skip_minus val with
      | d :: _ => if isdigit d then decide ((skip_minus val).dropWhile isdigit = []) else false
      | [] => false) = spec_value val := by
  cases val with
  | nil => rfl
  | cons c q =>
    by_cases hc : c = '-'
    · subst hc
      exact digits_form q
    · rw [skip_minus_cons c q hc, spec_value_cons c q hc]
      exact digits_form (c :: q)

theorem dropWhile_head_false (p : Char → Bool) :
    ∀ (l : List Char) (x : Char) (r : List Char), l.dropWhile p = x :: r → p x = false := by
  intro l
  induction l with
  | nil => intro x r h; simp at h
  | cons a l ih =>
    intro x r h
    by_cases ha : p a = true
    · rw [List.dropWhile_cons_of_pos ha] at h
      exact ih x r h
    · rw [List.dropWhile_cons_of_neg ha] at h
      injection h with h1 h2
      subst h1
      simpa using ha

theorem spec_option_none_of_key (seg : List Char)
    (h : spec_key (seg.takeWhile (fun x => x ≠ '=')) = false) : spec_option seg = none := by
  unfold spec_option
  split
  · rw [h]
    rfl
  · rfl

/-- The check of the form of an option in the code agrees with the form `key=value`. -/
theorem option_form (seg : List Char) :
    (∀ k v, spec_option seg = some (k, v) → check_option_form seg = (true, k, some v))
    ∧ (spec_option seg = none → (check_option_form seg).1 = false) := by
  cases seg with
  | nil =>
    refine ⟨?_, fun _ => rfl⟩
    intro k v h
    simp [spec_option] at h
  | cons ch rest =>
    by_cases ha : ch.isAlpha = true
    · have hne : ch ≠ '=' := isAlpha_ne_eq ch ha
      have hsplit := List.takeWhile_append_dropWhile isalnum rest
      have htw : ∀ a ∈ rest.takeWhile isalnum, (fun x => decide (x ≠ '=')) a = true := by
        intro a hmem
        have := List.mem_takeWhile_imp hmem
        simpa using isAlphanum_ne_eq a this
      have htake : (ch :: rest).takeWhile (fun x => x ≠ '=')
          = ch :: (rest.takeWhile isalnum
              ++ (rest.dropWhile isalnum).takeWhile (fun x => x ≠ '=')) := by
        rw [List.takeWhile_cons_of_pos (by simpa using hne)]
        congr 1
        conv_lhs => rw [← hsplit]
        exact List.takeWhile_append_of_pos htw
      have hdrop : (ch :: rest).dropWhile (fun x => x ≠ '=')
          = (rest.dropWhile isalnum).dropWhile (fun x => x ≠ '=') := by
        rw [List.dropWhile_cons_of_pos (by simpa using hne)]
        conv_lhs => rw [← hsplit]
        exact List.dropWhile_append_of_pos htw
      have hall : (rest.takeWhile isalnum).all Char.isAlphanum = true := by
        rw [List.all_eq_true]
        intro a hmem
        exact List.mem_takeWhile_imp hmem
      cases hq : rest.dropWhile isalnum with
      | nil =>
        have hnone : spec_option (ch :: rest) = none := by
          unfold spec_option
          rw [hdrop, hq]
          rfl
        refine ⟨fun k v h => ?_, fun _ => ?_⟩
        · rw [hnone] at h
          cases h
        · simp [check_option_form, isalpha, ha, hq]
      | cons x q =>
        by_cases hx : x = '='
        · subst hx
          have hcheck : check_option_form (ch :: rest)
              = (spec_value q, ch :: rest.takeWhile isalnum, some q) := by
            rw [← value_form q]
            simp only [check_option_form, isalpha, ha, not_true_eq_false, if_false, hq]
            cases hp : skip_minus q with
            | nil => rfl
            | cons d r =>
              simp only []
              split <;> rfl
          have hspec : spec_option (ch :: rest)
              = if spec_value q = true then some (ch :: rest.takeWhile isalnum, q) else none := by
            unfold spec_option
            rw [hdrop, htake, hq]
            simp [spec_key, ha, hall]
          rw [hcheck, hspec]
          cases spec_value q with
          | true =>
            refine ⟨fun k v h => ?_, fun h => ?_⟩
            · simp only [if_true, Option.some.injEq, Prod.mk.injEq] at h
              rw [← h.1, ← h.2]
            · simp at h
          | false =>
            refine ⟨fun k v h => ?_, fun _ => rfl⟩
            simp at h
        · have hxa : isalnum x = false := dropWhile_head_false isalnum rest x q hq
          have hnone : spec_option (ch :: rest) = none := by
            apply spec_option_none_of_key
            rw [htake, hq, List.takeWhile_cons_of_pos (by simpa using hx)]
            simp only [spec_key, List.all_append, List.all_cons, Bool.and_eq_false_imp]
            intro _ _ hxt
            unfold isalnum at hxa
            rw [hxa] at hxt
            cases hxt
          refine ⟨fun k v h => ?_, fun _ => ?_⟩
          · rw [hnone] at h
            cases h
          · simp only [check_option_form, isalpha, ha, not_true_eq_false, if_false, hq]
            split
            · rename_i heq
              injection heq with h1 h2
              exact absurd h1 hx
            · rfl
    · have hnone : spec_option (ch :: rest) = none := by
        apply spec_option_none_of_key
        by_cases hne : ch = '='
        · subst hne
          rfl
        · rw [List.takeWhile_cons_of_pos (by simpa using hne)]
          simp only [Bool.not_eq_true] at ha
          simp [spec_key, ha]
      refine ⟨fun k v h => ?_, fun _ => ?_⟩
      · rw [hnone] at h
        cases h
      · simp [check_option_form, isalpha, ha]

theorem atoi_digits_all :
    ∀ (l : List Char) (acc : Int), l.all Char.isDigit = true →
      atoi_digits l acc
        = l.foldl (fun n ch => n * 10 + ((ch.toNat - '0'.toNat : Nat) : Int)) acc := by
  intro l
  induction l with
  | nil => intro acc _; rfl
  | cons ch cs ih =>
    intro acc h
    simp only [List.all_cons, Bool.and_eq_true] at h
    simp only [atoi_digits, h.1, if_true, List.foldl_cons]
    exact ih _ h.2

theorem isDigit_not_special (c : Char) (h : c.isDigit = true) :
    isspace c = false ∧ c ≠ '-' ∧ c ≠ '+' := by
  refine ⟨?_, ?_, ?_⟩
  · unfold isspace
    simp only [Bool.or_eq_false_iff, decide_eq_false_iff_not]
    refine ⟨⟨⟨⟨⟨?_, ?_⟩, ?_⟩, ?_⟩, ?_⟩, ?_⟩ <;> (intro he; subst he; revert h; decide)
  · intro he; subst he; revert h; decide
  · intro he; subst he; revert h; decide

/-- The `atoi` of a value is its decimal value as an `int`. -/
theorem atoi_value (v : List Char) (h : spec_value v = true) :
    atoi (String.mk v) = to_int32 (spec_decimal v) := by
  cases v with
  | nil => simp [spec_value] at h
  | cons c q =>
    by_cases hc : c = '-'
    · subst hc
      have hq : q.all Char.isDigit = true := by
        simp only [spec_value, Bool.and_eq_true] at h
        exact h.2
      show atoi (String.mk ('-' :: q)) = to_int32 (- spec_digits_value q)
      unfold atoi
      have : (String.mk ('-' :: q)).toList.dropWhile isspace = '-' :: q :=
        List.dropWhile_cons_of_neg (by decide)
      rw [this]
      simp only []
      rw [atoi_digits_all q 0 hq]
      rfl
    · rw [spec_value_cons c q hc] at h
      simp only [List.isEmpty_cons, Bool.not_false, Bool.true_and] at h
      have hcd : c.isDigit = true := by
        simp only [List.all_cons, Bool.and_eq_true] at h
        exact h.1
      obtain ⟨hs, -, hp⟩ := isDigit_not_special c hcd
      have hdec : spec_decimal (c :: q) = spec_digits_value (c :: q) := by
        unfold spec_decimal
        split
        · rename_i heq
          injection heq with h1 h2
          exact absurd h1 hc
        · rfl
      rw [hdec]
      unfold atoi
      have : (String.mk (c :: q)).toList.dropWhile isspace = c :: q :=
        List.dropWhile_cons_of_neg (by rw [hs]; decide)
      rw [this]
      split
      · rename_i heq
        injection heq with h1 h2
        exact absurd h1 hc
      · rename_i heq
        injection heq with h1 h2
        exact absurd h1 hp
      · rw [atoi_digits_all (c :: q) 0 h]
        rfl

theorem spec_option_value (seg k v : List Char) (h : spec_option seg = some (k, v)) :
    spec_value v = true := by
  unfold spec_option at h
  split at h
  · split at h
    · rename_i hcond
      simp only [Option.some.injEq, Prod.mk.injEq] at h
      simp only [Bool.and_eq_true] at hcond
      rw [← h.2]
      exact hcond.2
    · cases h
  · cases h

/-- One step of the loop of `btor_passdown_lingeling_options` at the start of a segment that
is not empty, in terms of the form `key=value` of the segment. -/
theorem passdown_loop_step (lglhasopt : String → Bool) (external : Bool) (fuel : Nat)
    (ch : Char) (rest : List Char) (lgl res : Bool) (calls : List LGLCall) (hc : ch ≠ ',') :
    passdown_loop lglhasopt external (fuel + 1) (ch :: rest) lgl res calls
      = match spec_option ((ch :: rest).takeWhile (fun x => x ≠ ',')) with
        | some kv =>
          passdown_loop lglhasopt external fuel
            (match (ch :: rest).dropWhile (fun x => x ≠ ',') with
              | _ :: next => next
              | [] => [])
            true (res && lglhasopt (String.mk kv.1))
            ((if lgl then calls else calls ++ [LGLCall.lglinit])
              ++ [LGLCall.lglhasopt (if external then LGLSolver.parent else LGLSolver.throwaway)
                    (String.mk kv.1)]
              ++ (if lglhasopt (String.mk kv.1) = true ∧ external = true then
                    [LGLCall.lglsetopt LGLSolver.parent (String.mk kv.1)
                      (to_int32 (spec_decimal kv.2))]
                  else []))
        | none =>
          passdown_loop lglhasopt external fuel
            (match (ch :: rest).dropWhile (fun x => x ≠ ',') with
              | _ :: next => next
              | [] => [])
            lgl false calls := by
  obtain ⟨hsome, hnone⟩ := option_form ((ch :: rest).takeWhile (fun x => x ≠ ','))
  rw [passdown_loop]
  rw [if_neg hc]
  simp only []
  cases hs : spec_option ((ch :: rest).takeWhile (fun x => x ≠ ',')) with
  | none =>
    have hf := hnone hs
    simp only [hf, Bool.false_eq_true, if_false]
  | some kv =>
    obtain ⟨k, v⟩ := kv
    have hf := hsome k v hs
    have hv := atoi_value v (spec_option_value _ k v hs)
    simp only [hf, if_true]
    cases hk : lglhasopt (String.mk k) with
    | false =>
      cases lgl <;> cases external <;> simp
    | true =>
      cases lgl <;> cases external <;> simp [hv]

theorem dropWhile_next_length (p : Char → Bool) (l : List Char) :
    (match l.dropWhile p with
      | _ :: next => next
      | [] => []).length ≤ l.length - 1 := by
  have h : (l.dropWhile p).length ≤ l.length := by
    induction l with
    | nil => simp
    | cons a l ih =>
      by_cases ha : p a = true
      · rw [List.dropWhile_cons_of_pos ha]
        exact Nat.le_succ_of_le ih
      · rw [List.dropWhile_cons_of_neg ha]
  cases hd : l.dropWhile p with
  | nil => simp
  | cons y n =>
    rw [hd] at h
    simp only [List.length_cons] at h ⊢
    omega

theorem all_segments_step (f : List Char → Bool) (l : List Char) (hf : f [] = true) :
    (l.splitOn ',').all f
      = (f (l.takeWhile (fun x => x ≠ ','))
          && ((match l.dropWhile (fun x => x ≠ ',') with
                | _ :: next => next
                | [] => []).splitOn ',').all f) := by
  rw [splitOn_comma l]
  cases l.dropWhile (fun x => x ≠ ',') with
  | nil =>
    simp only [List.all_cons, List.all_nil]
    have : (([] : List Char).splitOn ',').all f = true := by
      show ([[]] : List (List Char)).all f = true
      simp [hf]
    rw [this]
  | cons y n => simp only [List.all_cons]

/-- The loop of `btor_passdown_lingeling_options` in the check of an option string: the flag
it returns and the calls it makes. -/
theorem passdown_loop_validation (lglhasopt : String → Bool) :
    ∀ (fuel : Nat) (p : List Char) (lgl res : Bool) (calls : List LGLCall), p.length < fuel →
      ∃ lgl' new, passdown_loop lglhasopt false fuel p lgl res calls
          = some (res && (p.splitOn ',').all (spec_segment_accepted lglhasopt), lgl',
              calls ++ new)
        ∧ (∀ e ∈ new, e = LGLCall.lglinit ∨ ∃ n, e = LGLCall.lglhasopt LGLSolver.throwaway n)
        ∧ (lgl' = true ↔ (lgl = true ∨ LGLCall.lglinit ∈ new)) := by
  intro fuel
  induction fuel with
  | zero => intro p lgl res calls h; omega
  | succ fuel ih =>
    intro p lgl res calls hlen
    cases p with
    | nil =>
      refine ⟨lgl, [], ?_, by simp, by simp⟩
      simp only [passdown_loop, List.append_nil]
      have : (([] : List Char).splitOn ',').all (spec_segment_accepted lglhasopt) = true := rfl
      rw [this, Bool.and_true]
    | cons ch rest =>
      have hstep := all_segments_step (spec_segment_accepted lglhasopt) (ch :: rest) rfl
      have hnl := dropWhile_next_length (fun x => decide (x ≠ ',')) (ch :: rest)
      simp only [List.length_cons] at hlen hnl
      by_cases hc : ch = ','
      · subst hc
        obtain ⟨lgl', new, h1, h2, h3⟩ := ih rest lgl res calls (by omega)
        refine ⟨lgl', new, ?_, h2, h3⟩
        rw [passdown_loop, if_pos rfl, h1, hstep]
        simp [spec_segment_accepted]
      · rw [passdown_loop_step lglhasopt false fuel ch rest lgl res calls hc, hstep]
        have hopt : (ch :: rest).takeWhile (fun x => x ≠ ',')
            = ch :: rest.takeWhile (fun x => x ≠ ',') :=
          List.takeWhile_cons_of_pos (by simpa using hc)
        have hacc : spec_segment_accepted lglhasopt ((ch :: rest).takeWhile (fun x => x ≠ ','))
            = (match spec_option ((ch :: rest).takeWhile (fun x => x ≠ ',')) with
                | some kv => lglhasopt (String.mk kv.1)
                | none => false) := by
          unfold spec_segment_accepted
          rw [hopt]
          rfl
        rw [hacc]
        cases hs : spec_option ((ch :: rest).takeWhile (fun x => x ≠ ',')) with
        | none =>
          simp only []
          obtain ⟨lgl', new, h1, h2, h3⟩ := ih
            (match (ch :: rest).dropWhile (fun x => x ≠ ',') with
              | _ :: next => next
              | [] => [])
            lgl false calls (by omega)
          refine ⟨lgl', new, ?_, h2, h3⟩
          rw [h1]
          simp
        | some kv =>
          simp only []
          obtain ⟨lgl', new, h1, h2, h3⟩ := ih
            (match (ch :: rest).dropWhile (fun x => x ≠ ',') with
              | _ :: next => next
              | [] => [])
            true (res && lglhasopt (String.mk kv.1))
            ((if lgl then calls else calls ++ [LGLCall.lglinit])
              ++ [LGLCall.lglhasopt (if false then LGLSolver.parent else LGLSolver.throwaway)
                    (String.mk kv.1)]
              ++ (if lglhasopt (String.mk kv.1) = true ∧ false = true then
                    [LGLCall.lglsetopt LGLSolver.parent (String.mk kv.1)
                      (to_int32 (spec_decimal kv.2))]
                  else []))
            (by omega)
          have hl' : lgl' = true := h3.2 (Or.inl rfl)
          cases lgl with
          | true =>
            refine ⟨lgl', LGLCall.lglhasopt LGLSolver.throwaway (String.mk kv.1) :: new, ?_, ?_,
              ?_⟩
            · rw [h1]
              simp [Bool.and_assoc]
            · intro e he
              rcases List.mem_cons.1 he with rfl | he
              · exact Or.inr ⟨_, rfl⟩
              · exact h2 e he
            · simp [hl']
          | false =>
            refine ⟨lgl', LGLCall.lglinit ::
              LGLCall.lglhasopt LGLSolver.throwaway (String.mk kv.1) :: new, ?_, ?_, ?_⟩
            · rw [h1]
              simp [Bool.and_assoc]
            · intro e he
              rcases List.mem_cons.1 he with rfl | he
              · exact Or.inl rfl
              · rcases List.mem_cons.1 he with rfl | he
                · exact Or.inr ⟨_, rfl⟩
                · exact h2 e he
            · simp [hl']

theorem flatMap_segments_step {β : Type} (g : List Char → List β) (l : List Char)
    (hg : g [] = []) :
    (l.splitOn ',').flatMap g
      = g (l.takeWhile (fun x => x ≠ ','))
          ++ ((match l.dropWhile (fun x => x ≠ ',') with
                | _ :: next => next
                | [] => []).splitOn ',').flatMap g := by
  rw [splitOn_comma l]
  cases l.dropWhile (fun x => x ≠ ',') with
  | nil =>
    have : (([] : List Char).splitOn ',').flatMap g = [] := by
      show ([[]] : List (List Char)).flatMap g = []
      simp [hg]
    rw [this]
    simp
  | cons y n => simp

theorem external_calls_step (lglhasopt : String → Bool) (l : List Char) :
    external_calls lglhasopt (l.splitOn ',')
      = external_calls lglhasopt [l.takeWhile (fun x => x ≠ ',')]
          ++ external_calls lglhasopt
              ((match l.dropWhile (fun x => x ≠ ',') with
                | _ :: next => next
                | [] => []).splitOn ',') := by
  unfold external_calls
  rw [flatMap_segments_step _ l rfl]
  simp

theorem external_calls_singleton (lglhasopt : String → Bool) (seg : List Char) :
    external_calls lglhasopt [seg]
      = (match spec_option seg with
          | some kv =>
            LGLCall.lglhasopt LGLSolver.parent (String.mk kv.1) ::
              (if lglhasopt (String.mk kv.1) then
                [LGLCall.lglsetopt LGLSolver.parent (String.mk kv.1)
                  (to_int32 (spec_decimal kv.2))]
              else [])
          | none => []) := by
  simp [external_calls]

/-- The loop of `btor_passdown_lingeling_options` on the solver of the manager: the flag it
returns and the calls it makes. -/
theorem passdown_loop_external (lglhasopt : String → Bool) :
    ∀ (fuel : Nat) (p : List Char) (res : Bool) (calls : List LGLCall), p.length < fuel →
      passdown_loop lglhasopt true fuel p true res calls
        = some (res && (p.splitOn ',').all (spec_segment_accepted lglhasopt), true,
            calls ++ external_calls lglhasopt (p.splitOn ',')) := by
  intro fuel
  induction fuel with
  | zero => intro p res calls h; omega
  | succ fuel ih =>
    intro p res calls hlen
    cases p with
    | nil =>
      simp only [passdown_loop]
      have h1 : (([] : List Char).splitOn ',').all (spec_segment_accepted lglhasopt) = true :=
        rfl
      have h2 : external_calls lglhasopt (([] : List Char).splitOn ',') = [] := rfl
      rw [h1, h2, Bool.and_true, List.append_nil]
    | cons ch rest =>
      have hstep := all_segments_step (spec_segment_accepted lglhasopt) (ch :: rest) rfl
      have hcalls := external_calls_step lglhasopt (ch :: rest)
      have hnl := dropWhile_next_length (fun x => decide (x ≠ ',')) (ch :: rest)
      simp only [List.length_cons] at hlen hnl
      by_cases hc : ch = ','
      · subst hc
        rw [passdown_loop, if_pos rfl, ih rest res calls (by omega), hstep, hcalls]
        simp [spec_segment_accepted, external_calls, spec_option]
      · rw [passdown_loop_step lglhasopt true fuel ch rest true res calls hc, hstep, hcalls]
        have hopt : (ch :: rest).takeWhile (fun x => x ≠ ',')
            = ch :: rest.takeWhile (fun x => x ≠ ',') :=
          List.takeWhile_cons_of_pos (by simpa using hc)
        have hacc : spec_segment_accepted lglhasopt ((ch :: rest).takeWhile (fun x => x ≠ ','))
            = (match spec_option ((ch :: rest).takeWhile (fun x => x ≠ ',')) with
                | some kv => lglhasopt (String.mk kv.1)
                | none => false) := by
          unfold spec_segment_accepted
          rw [hopt]
          rfl
        rw [hacc]
        cases hs : spec_option ((ch :: rest).takeWhile (fun x => x ≠ ',')) with
        | none =>
          simp only []
          rw [ih
            (match (ch :: rest).dropWhile (fun x => x ≠ ',') with
              | _ :: next => next
              | [] => [])
            false calls (by omega)]
          have hsingle := external_calls_singleton lglhasopt
            ((ch :: rest).takeWhile (fun x => x ≠ ','))
          rw [hs] at hsingle
          rw [hsingle]
          simp
        | some kv =>
          simp only []
          rw [ih
            (match (ch :: rest).dropWhile (fun x => x ≠ ',') with
              | _ :: next => next
              | [] => [])
            (res && lglhasopt (String.mk kv.1)) _ (by omega)]
          have hsingle := external_calls_singleton lglhasopt
            ((ch :: rest).takeWhile (fun x => x ≠ ','))
          rw [hs] at hsingle
          rw [hsingle]
          cases hk : lglhasopt (String.mk kv.1) <;> simp [Bool.and_assoc, hk]

theorem takeWhile_append_of_all (p : Char → Bool) (a : Char) (ha : p a = false) :
    ∀ (k v : List Char), k.all p = true →
      (k ++ a :: v).takeWhile p = k ∧ (k ++ a :: v).dropWhile p = a :: v := by
  intro k
  induction k with
  | nil =>
    intro v _
    simp [List.takeWhile, List.dropWhile, ha]
  | cons x k ih =>
    intro v h
    simp only [List.all_cons, Bool.and_eq_true] at h
    obtain ⟨h1, h2⟩ := ih v h.2
    simp [List.takeWhile, List.dropWhile, h.1, h1, h2]

theorem spec_key_no_eq (k : List Char) (h : spec_key k = true) :
    k.all (fun x => decide (x ≠ '=')) = true := by
  cases k with
  | nil => rfl
  | cons ch rest =>
    simp only [spec_key, Bool.and_eq_true, List.all_eq_true] at h
    simp only [List.all_cons, Bool.and_eq_true, List.all_eq_true, decide_eq_true_eq]
    exact ⟨isAlpha_ne_eq ch h.1, fun x hx => isAlphanum_ne_eq x (h.2 x hx)⟩

/-- The split of a segment at its first `=` yields the key and the value exactly when the
segment is the key, an `=` and the value. -/
theorem spec_option_iff (seg k v : List Char) :
    spec_option seg = some (k, v)
      ↔ (seg = k ++ '=' :: v ∧ spec_key k = true ∧ spec_value v = true) := by
  constructor
  · intro h
    unfold spec_option at h
    split at h
    · rename_i y value hd
      split at h
      · rename_i hcond
        simp only [Option.some.injEq, Prod.mk.injEq] at h
        simp only [Bool.and_eq_true] at hcond
        have hy := dropWhile_head_false _ seg y value hd
        have hy' : y = '=' := by simpa using hy
        have hsplit := List.takeWhile_append_dropWhile (fun x => decide (x ≠ '=')) seg
        rw [hd, h.1, hy'] at hsplit
        rw [h.1] at hcond
        rw [h.2] at hsplit hcond
        exact ⟨hsplit.symm, hcond.1, hcond.2⟩
      · cases h
    · cases h
  · rintro ⟨hseg, hk, hv⟩
    obtain ⟨h1, h2⟩ := takeWhile_append_of_all (fun x => decide (x ≠ '=')) '=' (by decide)
      k v (spec_key_no_eq k hk)
    unfold spec_option
    rw [hseg, h2]
    simp only [h1, hk, hv, Bool.and_self, if_true]

theorem segments_of_commas :
    ∀ (l : List Char), (∀ ch ∈ l, ch = ',') → ∀ seg ∈ l.splitOn ',', seg = [] := by
  intro l
  induction l with
  | nil =>
    intro _ seg hseg
    have : ([] : List Char).splitOn ',' = [[]] := rfl
    rw [this] at hseg
    simpa using hseg
  | cons x xs ih =>
    intro h seg hseg
    have hx : x = ',' := h x (List.mem_cons_self _ _)
    subst hx
    rw [splitOn_comma] at hseg
    simp only [List.takeWhile, List.dropWhile, ne_eq, not_true_eq_false, decide_False,
      List.mem_cons] at hseg
    rcases hseg with rfl | hseg
    · rfl
    · exact ih (fun ch hch => h ch (List.mem_cons_of_mem _ hch)) seg hseg

theorem segment_accepted_iff (lglhasopt : String → Bool) (seg : List Char) :
    spec_segment_accepted lglhasopt seg = true
      ↔ (seg ≠ [] → ∃ k v, seg = k ++ '=' :: v ∧ spec_key k = true ∧ spec_value v = true
            ∧ lglhasopt (String.mk k) = true) := by
  unfold spec_segment_accepted
  cases seg with
  | nil => simp
  | cons ch rest =>
    simp only [List.isEmpty_cons, Bool.false_or, ne_eq, reduceCtorEq, not_false_eq_true,
      forall_const]
    constructor
    · intro h
      cases hs : spec_option (ch :: rest) with
      | none => rw [hs] at h; cases h
      | some kv =>
        rw [hs] at h
        obtain ⟨k, v⟩ := kv
        obtain ⟨h1, h2, h3⟩ := (spec_option_iff _ k v).1 hs
        exact ⟨k, v, h1, h2, h3, h⟩
    · rintro ⟨k, v, h1, h2, h3, h4⟩
      rw [(spec_option_iff _ k v).2 ⟨h1, h2, h3⟩]
      exact h4

theorem to_int32_of_range (n : Int) (h1 : -2147483648 ≤ n) (h2 : n ≤ 2147483647) :
    to_int32 n = n := by
  unfold to_int32
  omega

theorem lglsetopt_calls_external (lglhasopt : String → Bool) (optstr : String) :
    lglsetopt_calls (external_calls lglhasopt (spec_segments optstr))
      = (spec_options_set lglhasopt optstr).map (fun kv => (kv.1, to_int32 kv.2)) := by
  unfold spec_options_set
  generalize spec_segments optstr = segs
  induction segs with
  | nil => rfl
  | cons seg segs ih =>
    unfold lglsetopt_calls external_calls at ih ⊢
    rw [List.flatMap_cons, List.filterMap_append, ih, List.filterMap_cons]
    cases hs : spec_option seg with
    | none => simp
    | some kv =>
      cases hk : lglhasopt (String.mk kv.1) <;> simp [hk]

theorem map_to_int32_of_range (l : List (String × Int))
    (h : ∀ kv ∈ l, -2147483648 ≤ kv.2 ∧ kv.2 ≤ 2147483647) :
    l.map (fun kv => (kv.1, to_int32 kv.2)) = l := by
  induction l with
  | nil => rfl
  | cons kv l ih =>
    have hkv := h kv (List.mem_cons_self _ _)
    rw [List.map_cons, ih (fun x hx => h x (List.mem_cons_of_mem _ hx)),
      to_int32_of_range kv.2 hkv.1 hkv.2]

theorem external_calls_kinds (lglhasopt : String → Bool) (segs : List (List Char)) :
    ∀ e ∈ external_calls lglhasopt segs,
      (∃ n, e = LGLCall.lglhasopt LGLSolver.parent n)
        ∨ ∃ n val, e = LGLCall.lglsetopt LGLSolver.parent n val := by
  intro e he
  unfold external_calls at he
  rw [List.mem_flatMap] at he
  obtain ⟨seg, _, he⟩ := he
  cases hs : spec_option seg with
  | none => rw [hs] at he; simp at he
  | some kv =>
    rw [hs] at he
    simp only [List.mem_cons] at he
    rcases he with rfl | he
    · exact Or.inl ⟨_, rfl⟩
    · split at he
      · simp only [List.mem_singleton] at he
        exact Or.inr ⟨_, _, he⟩
      · simp at he

/-- Claim C33: in the check of an option string (no solver is given),
`btor_passdown_lingeling_options` returns, and it returns success exactly when every
segment between the commas that is not empty is a key, an `=` and a value, where the key is
a letter followed by letters and digits, the value an optional `-` followed by one or more
digits, and the solver knows the key; the empty string and a string of commas are accepted.
The check only creates, queries and releases a solver of its own and sets no option. -/
theorem passdown_validation_accepts_key_value (lglhasopt : String → Bool) (optstr : String) :
    ∃ res calls, btor_passdown_lingeling_options lglhasopt optstr false = some (res, calls)
      ∧ (res = true ↔ ∀ seg ∈ spec_segments optstr, seg ≠ [] →
            ∃ k v, seg = k ++ '=' :: v ∧ spec_key k = true ∧ spec_value v = true
              ∧ lglhasopt (String.mk k) = true)
      ∧ ((∀ ch ∈ optstr.toList, ch = ',') → res = true)
      ∧ (∀ e ∈ calls, e = LGLCall.lglinit ∨ (∃ n, e = LGLCall.lglhasopt LGLSolver.throwaway n)
            ∨ e = LGLCall.lglrelease LGLSolver.throwaway)
      ∧ (LGLCall.lglrelease LGLSolver.throwaway ∈ calls ↔ LGLCall.lglinit ∈ calls) := by
  obtain ⟨lgl', new, h1, h2, h3⟩ := passdown_loop_validation lglhasopt
    (optstr.toList.length + 1) optstr.toList false true [] (Nat.lt_succ_self _)
  have hflag : (optstr.toList.splitOn ',').all (spec_segment_accepted lglhasopt) = true
      ↔ ∀ seg ∈ spec_segments optstr, seg ≠ [] →
            ∃ k v, seg = k ++ '=' :: v ∧ spec_key k = true ∧ spec_value v = true
              ∧ lglhasopt (String.mk k) = true := by
    rw [List.all_eq_true]
    exact forall₂_congr (fun seg _ => segment_accepted_iff lglhasopt seg)
  have hcommas : (∀ ch ∈ optstr.toList, ch = ',') →
      (optstr.toList.splitOn ',').all (spec_segment_accepted lglhasopt) = true := by
    intro hall
    rw [List.all_eq_true]
    intro seg hseg
    rw [segments_of_commas _ hall seg hseg]
    rfl
  simp only [Bool.true_and, List.nil_append] at h1
  have hnr : LGLCall.lglrelease LGLSolver.throwaway ∉ new := by
    intro hmem
    rcases h2 _ hmem with h | ⟨n, h⟩ <;> cases h
  cases hl : lgl' with
  | false =>
    have hni : LGLCall.lglinit ∉ new := by
      intro hmem
      have := h3.2 (Or.inr hmem)
      rw [hl] at this
      cases this
    refine ⟨_, new, ?_, hflag, hcommas, ?_, ?_⟩
    · unfold btor_passdown_lingeling_options
      rw [h1, hl]
      simp
    · intro e he
      rcases h2 e he with h | h
      · exact Or.inl h
      · exact Or.inr (Or.inl h)
    · exact ⟨fun h => absurd h hnr, fun h => absurd h hni⟩
  | true =>
    have hi : LGLCall.lglinit ∈ new := by
      rcases h3.1 hl with h | h
      · cases h
      · exact h
    refine ⟨_, new ++ [LGLCall.lglrelease LGLSolver.throwaway], ?_, hflag, hcommas, ?_, ?_⟩
    · unfold btor_passdown_lingeling_options
      rw [h1, hl]
      simp
    · intro e he
      rcases List.mem_append.1 he with he | he
      · rcases h2 e he with h | h
        · exact Or.inl h
        · exact Or.inr (Or.inl h)
      · exact Or.inr (Or.inr (List.mem_singleton.1 he))
    · exact ⟨fun _ => List.mem_append_left _ hi, fun _ => List.mem_append_right _ (by simp)⟩

/-- C36, counterexample: the option string `clim=4294967297` passes the option check and is
stored; its segment is well formed, Lingeling knows `clim`, and the decimal value of the
segment is 4294967297; `btor_lingeling_init` sets `clim` to the `int` that `atoi` returns,
which is 1, and not to the decimal value of the segment. -/
theorem lingeling_init_value_outside_int :
    ∃ smgr, btor_enable_lingeling_sat (passdown_valid ex_lglhasopt) (btor_new_sat_mgr true)
          (some "clim=4294967297") = Except.ok (1, smgr)
      ∧ smgr.optstr = some "clim=4294967297"
      ∧ spec_options_set ex_lglhasopt "clim=4294967297" = [("clim", 4294967297)]
      ∧ btor_lingeling_init ex_lglhasopt smgr
          = some [LGLCall.lglminit, LGLCall.lglhasopt LGLSolver.parent "clim",
              LGLCall.lglsetopt LGLSolver.parent "clim" 1]
      ∧ lglsetopt_calls [LGLCall.lglminit, LGLCall.lglhasopt LGLSolver.parent "clim",
              LGLCall.lglsetopt LGLSolver.parent "clim" 1]
          ≠ spec_options_set ex_lglhasopt "clim=4294967297" :=
  ⟨_, rfl, rfl, by decide, by decide, by decide⟩

/-- C36, as amended: `btor_lingeling_init` returns, creates the solver of the manager with
`lglminit` and passes the stored option string to it: the options it sets on that solver are,
in the order of the string and once for each, those of the segments that are a key, an `=`
and a value with a key the solver knows, each with the decimal value of the segment
converted to `int`, which is the decimal value itself when the values lie in the range of
`int`; the other segments set nothing, and every call is made on the solver of the manager,
none creates or releases another solver.  Without a stored string no option is set. -/
theorem lingeling_init_passes_options (lglhasopt : String → Bool) (smgr : BtorSATMgr) :
    ∃ calls, btor_lingeling_init lglhasopt smgr = some (LGLCall.lglminit :: calls)
      ∧ lglsetopt_calls (LGLCall.lglminit :: calls)
          = (match smgr.optstr with
              | some optstr =>
                (spec_options_set lglhasopt optstr).map (fun kv => (kv.1, to_int32 kv.2))
              | none => [])
      ∧ (∀ optstr, smgr.optstr = some optstr →
          (∀ kv ∈ spec_options_set lglhasopt optstr,
            -2147483648 ≤ kv.2 ∧ kv.2 ≤ 2147483647) →
          lglsetopt_calls (LGLCall.lglminit :: calls) = spec_options_set lglhasopt optstr)
      ∧ calls = (match smgr.optstr with
              | some optstr => external_calls lglhasopt (spec_segments optstr)
              | none => [])
      ∧ (∀ e ∈ calls, (∃ n, e = LGLCall.lglhasopt LGLSolver.parent n)
            ∨ ∃ n val, e = LGLCall.lglsetopt LGLSolver.parent n val)
      ∧ LGLCall.lglinit ∉ LGLCall.lglminit :: calls
      ∧ (∀ solver, LGLCall.lglrelease solver ∉ LGLCall.lglminit :: calls) := by
  have hkinds : ∀ calls : List LGLCall,
      (∀ e ∈ calls, (∃ n, e = LGLCall.lglhasopt LGLSolver.parent n)
            ∨ ∃ n val, e = LGLCall.lglsetopt LGLSolver.parent n val) →
      LGLCall.lglinit ∉ LGLCall.lglminit :: calls
        ∧ (∀ solver, LGLCall.lglrelease solver ∉ LGLCall.lglminit :: calls) := by
    intro calls hk
    refine ⟨?_, ?_⟩
    · intro hmem
      rcases List.mem_cons.1 hmem with h | h
      · cases h
      · rcases hk _ h with ⟨n, h⟩ | ⟨n, val, h⟩ <;> cases h
    · intro solver hmem
      rcases List.mem_cons.1 hmem with h | h
      · cases h
      · rcases hk _ h with ⟨n, h⟩ | ⟨n, val, h⟩ <;> cases h
  cases ho : smgr.optstr with
  | none =>
    refine ⟨[], ?_, rfl, ?_, rfl, by simp, (hkinds [] (by simp)).1, (hkinds [] (by simp)).2⟩
    · unfold btor_lingeling_init
      rw [ho]
    · intro optstr h
      cases h
  | some optstr =>
    have hloop := passdown_loop_external lglhasopt (optstr.toList.length + 1) optstr.toList
      true [] (Nat.lt_succ_self _)
    have hk := external_calls_kinds lglhasopt (spec_segments optstr)
    have hset : lglsetopt_calls (LGLCall.lglminit ::
        external_calls lglhasopt (spec_segments optstr))
        = (spec_options_set lglhasopt optstr).map (fun kv => (kv.1, to_int32 kv.2)) := by
      have : lglsetopt_calls (LGLCall.lglminit ::
          external_calls lglhasopt (spec_segments optstr))
          = lglsetopt_calls (external_calls lglhasopt (spec_segments optstr)) := rfl
      rw [this, lglsetopt_calls_external]
    refine ⟨external_calls lglhasopt (spec_segments optstr), ?_, hset, ?_, rfl, hk,
      (hkinds _ hk).1, (hkinds _ hk).2⟩
    · unfold btor_lingeling_init btor_passdown_lingeling_options
      rw [ho]
      simp only [hloop]
      simp [spec_segments]
    · intro o ho' hrange
      simp only [Option.some.injEq] at ho'
      subst ho'
      rw [hset, map_to_int32_of_range _ hrange]

end BoolectorMC
